import Mathlib

/-!
# gr-quadtree: a shallow embedding of `src/main.cpp`

The quadtree of `main.cpp` lives in an arena (`QuadTreeManager::m_nodes`) and is
addressed by integer handles.  This file embeds the arena, the node records and
the operations `addfree`, `allocate`, `Create`, `deallocate`, `Insert`, `remove`,
`check`, `tryCollapse`, `update`, `empty`, `subdivide` and `query` as executable
Lean functions, and proves properties of them.

Modelling conventions.

* `float` coordinates are exact rationals.  The functions that compute with coordinates
  and are needed at inputs where rounding matters (`Rect::contains`, `subdivide`, `Insert`)
  are embedded a second time with every arithmetic result rounded to binary32
  (`Rect.contains32`, `subdivide32`, `Insert32`).
* A handle is `Option Nat`; the reserved value `Null` is `none`.  `size_t`
  arithmetic on table sizes and handles is modelled in `Nat` without wrap-around
  (the table would need `2^63` records before `m_size * 2` overflows), and `malloc`
  never fails.
* A `Player *` is a natural number (an address); `nullptr` in a bucket slot is
  `none`.  The `Player` objects themselves live in `heap`.
* Every operation returns an `Option`.  The result `none` stands for an execution
  that has no defined result: a node access outside the table, a bucket access
  outside `data[4]`, a dereference of `nullptr`, a use of a `QuadTreeNode`
  pointer that dangles because the table was reallocated after the pointer was
  taken, or a recursion that needs more than `fuel` nested calls.
-/

set_option autoImplicit false

namespace QuadTree

/-! ## Data model -/

/-- A 2D point, `struct Vector2`. -/
structure Vector2 where
  x : ℚ
  y : ℚ
deriving DecidableEq

/-- A centre-based rectangle, `struct Rect`: centre `(x, y)`, half-extents `(w, h)`. -/
structure Rect where
  x : ℚ
  y : ℚ
  w : ℚ
  h : ℚ
deriving DecidableEq

/-- The centre-based `Rect::contains`. -/
def Rect.contains (r : Rect) (point : Vector2) : Bool :=
  decide (point.x ≥ r.x - r.w) && decide (point.x < r.x + r.w) &&
    decide (point.y ≥ r.y - r.h) && decide (point.y < r.y + r.h)

/-- The test `Rect::intersects`. -/
def Rect.intersects (r : Rect) (range : Rect) : Bool :=
  !(decide (range.x - range.w > r.x + r.w) ||
    decide (range.x + range.w < r.x - r.w) ||
    decide (range.y - range.h > r.y + r.h) ||
    decide (range.y + range.h < r.y - r.h))

/-- A node handle; `none` is the reserved value `Null`. -/
abbrev QuadtreeID := Option Nat

/-- The record `struct Player` (without its own `update`, which belongs to the host loop). -/
structure Player where
  position : Vector2
  velocity : Vector2
  id : QuadtreeID

/-- The record `struct QuadTreeNode`; `data` maps a slot index to the stored pointer. -/
structure QuadTreeNode where
  parent : QuadtreeID
  northwest : QuadtreeID
  northeast : QuadtreeID
  southwest : QuadtreeID
  southeast : QuadtreeID
  first : QuadtreeID
  next : QuadtreeID
  data : Nat → Option Nat
  size : Nat
  boundary : Rect
  divided : Bool

/-- One entry of a query result, `struct fquery`. -/
structure fquery where
  id : Nat
  data : Nat
deriving DecidableEq

/-- The state of a `QuadTreeManager` together with the `Player` objects its buckets point to. -/
structure QuadTreeManager where
  m_nodes : Nat → QuadTreeNode
  m_size : Nat
  m_count : Nat
  m_freeID : QuadtreeID
  m_capacity : Nat
  heap : Nat → Player

/-- Pointwise overwrite of a table: `setAt f a v` is `f` with the entry at `a` replaced by `v`. -/
def setAt {α : Type} (f : Nat → α) (a : Nat) (v : α) : Nat → α :=
  fun b => if b = a then v else f b

/-- A record as `calloc` leaves it: all bytes zero. -/
def zeroNode : QuadTreeNode where
  parent := some 0
  northwest := some 0
  northeast := some 0
  southwest := some 0
  southeast := some 0
  first := some 0
  next := some 0
  data := fun _ => none
  size := 0
  boundary := ⟨0, 0, 0, 0⟩
  divided := false

/-- The index of `m_nodes[id]`, when `id` is not `Null` and lies inside the table. -/
def resolve (s : QuadTreeManager) (id : QuadtreeID) : Option Nat :=
  match id with
  | none => none
  | some i => if i < s.m_size then some i else none

/-- Store a node record at index `i`. -/
def setNode (s : QuadTreeManager) (i : Nat) (n : QuadTreeNode) : QuadTreeManager :=
  { s with m_nodes := setAt s.m_nodes i n }

/-! ## The node arena -/

/-- The `for` loop of `addfree`: `n` iterations starting at index `i`. -/
def addfreeLoop (nodes : Nat → QuadTreeNode) : Nat → Nat → (Nat → QuadTreeNode)
  | _, 0 => nodes
  | i, n + 1 => addfreeLoop (setAt nodes i { nodes i with next := some (i + 1) }) (i + 1) n

/-- The method `addfree`: chain the records `id .. m_size - 1` in front of the free list. -/
def addfree (s : QuadTreeManager) (id : Nat) : Option QuadTreeManager :=
  if s.m_size = 0 then none
  else
    let nodes := addfreeLoop s.m_nodes id (s.m_size - 1 - id)
    let last := s.m_size - 1
    some { s with
      m_nodes := setAt nodes last { nodes last with next := s.m_freeID }
      m_freeID := some id }

/-- The constructor `QuadTreeManager(size, capacity)`. -/
def QuadTreeManager.new (size capacity : Nat) (heap : Nat → Player) : Option QuadTreeManager :=
  addfree
    { m_nodes := fun _ => zeroNode
      m_size := size
      m_count := 0
      m_freeID := none
      m_capacity := capacity
      heap := heap } 0

/-- The method `allocate`: double the table, copy the records `0 .. ooldsize - 1`, and chain
the new records into the free list.  Fresh `malloc` storage is modelled as zeroed. -/
def allocate (s : QuadTreeManager) : Option QuadTreeManager :=
  let ooldsize := s.m_size
  let newsize := s.m_size * 2
  let array : Nat → QuadTreeNode := fun i => if i < ooldsize then s.m_nodes i else zeroNode
  addfree { s with m_nodes := array, m_size := newsize } ooldsize

/-- The method `Create`: pop a record off the free list (growing the table first when the
list is empty) and initialise it.  The loop writes `data[0 .. m_capacity - 1]`. -/
def Create (s : QuadTreeManager) (boundary : Rect) (parent : QuadtreeID) :
    Option (QuadTreeManager × Nat) :=
  match (if s.m_freeID = none then allocate s else some s) with
  | none => none
  | some s1 =>
    match resolve s1 s1.m_freeID with
    | none => none
    | some id =>
      if 4 < s1.m_capacity then none
      else
        let node := s1.m_nodes id
        let node1 : QuadTreeNode :=
          { node with
            parent := parent
            divided := false
            boundary := boundary
            first := none
            next := none
            size := 0
            data := fun i => if i < s1.m_capacity then none else node.data i }
        some ({ s1 with
                m_freeID := node.next
                m_nodes := setAt s1.m_nodes id node1
                m_count := s1.m_count + 1 }, id)

/-- The method `deallocate`: free the subtree of `id`, children first. -/
def deallocate : Nat → QuadTreeManager → QuadtreeID → Option QuadTreeManager
  | 0, _, _ => none
  | fuel + 1, s, id =>
    match resolve s id with
    | none => none
    | some i =>
      let sub : Option QuadTreeManager :=
        if (s.m_nodes i).divided then
          (deallocate fuel s (s.m_nodes i).northwest).bind fun s1 =>
          (deallocate fuel s1 (s1.m_nodes i).northeast).bind fun s2 =>
          (deallocate fuel s2 (s2.m_nodes i).southwest).bind fun s3 =>
          deallocate fuel s3 (s3.m_nodes i).southeast
        else some s
      sub.bind fun s4 =>
        some { s4 with
          m_nodes := setAt s4.m_nodes i { s4.m_nodes i with next := s4.m_freeID }
          m_freeID := some i
          m_count := s4.m_count - 1 }

/-- The method `subdivide`. -/
def subdivide (s : QuadTreeManager) (id : Nat) : Option QuadTreeManager :=
  let boundary := (s.m_nodes id).boundary
  let x := boundary.x
  let y := boundary.y
  let w := boundary.w
  let h := boundary.h
  (Create s ⟨x + w / 2, y - h / 2, w / 2, h / 2⟩ (some id)).bind fun (s1, northeast) =>
  (Create s1 ⟨x - w / 2, y - h / 2, w / 2, h / 2⟩ (some id)).bind fun (s2, northwest) =>
  (Create s2 ⟨x + w / 2, y + h / 2, w / 2, h / 2⟩ (some id)).bind fun (s3, southeast) =>
  (Create s3 ⟨x - w / 2, y + h / 2, w / 2, h / 2⟩ (some id)).bind fun (s4, southwest) =>
    some (setNode s4 id
      { s4.m_nodes id with
        northwest := some northwest
        northeast := some northeast
        southwest := some southwest
        southeast := some southeast
        divided := true })

/-! ## Insertion -/

/-- The method `Insert`.  After a child call that returned `false` the pointer `node` is used
again; it dangles when that call reallocated the table (`m_size` changed). -/
def Insert : Nat → QuadTreeManager → QuadtreeID → Nat → Option (QuadTreeManager × Bool)
  | 0, _, _, _ => none
  | fuel + 1, s, id, player =>
    match resolve s id with
    | none => none
    | some i =>
      let node := s.m_nodes i
      if !node.boundary.contains (s.heap player).position then some (s, false)
      else if node.size < s.m_capacity then
        if 4 ≤ node.size then none
        else
          some ({ s with
                  m_nodes := setAt s.m_nodes i
                    { node with data := setAt node.data node.size (some player)
                                size := node.size + 1 }
                  heap := setAt s.heap player { s.heap player with id := some i } }, true)
      else
        (if !node.divided then subdivide s i else some s).bind fun s0 =>
        (Insert fuel s0 (s0.m_nodes i).northeast player).bind fun (s1, r1) =>
        if r1 then some (s1, true)
        else if s1.m_size ≠ s0.m_size then none
        else
        (Insert fuel s1 (s1.m_nodes i).northwest player).bind fun (s2, r2) =>
        if r2 then some (s2, true)
        else if s2.m_size ≠ s0.m_size then none
        else
        (Insert fuel s2 (s2.m_nodes i).southeast player).bind fun (s3, r3) =>
        if r3 then some (s3, true)
        else if s3.m_size ≠ s0.m_size then none
        else
        (Insert fuel s3 (s3.m_nodes i).southwest player).bind fun (s4, r4) =>
        if r4 then some (s4, true)
        else some (s4, false)

/-! ## Emptiness, collapse and removal -/

/-- The method `empty`; `&&` evaluates its right operand only when the left one is true. -/
def empty : Nat → QuadTreeManager → QuadtreeID → Option Bool
  | 0, _, _ => none
  | fuel + 1, s, id =>
    match resolve s id with
    | none => none
    | some i =>
      let node := s.m_nodes i
      if node.size > 0 then some false
      else if !node.divided then some true
      else
        (empty fuel s node.northeast).bind fun e1 =>
        if !e1 then some false
        else (empty fuel s node.northwest).bind fun e2 =>
        if !e2 then some false
        else (empty fuel s node.southeast).bind fun e3 =>
        if !e3 then some false
        else empty fuel s node.southwest

/-- The method `tryCollapse`, applied to the record `m_nodes[i]`. -/
def tryCollapse (fuel : Nat) (s : QuadTreeManager) (i : Nat) : Option QuadTreeManager :=
  let node := s.m_nodes i
  if !node.divided then some s
  else
    (empty fuel s node.northeast).bind fun e1 =>
    if !e1 then some s
    else (empty fuel s node.northwest).bind fun e2 =>
    if !e2 then some s
    else (empty fuel s node.southeast).bind fun e3 =>
    if !e3 then some s
    else (empty fuel s node.southwest).bind fun e4 =>
    if !e4 then some s
    else
      (deallocate fuel s node.northeast).bind fun s1 =>
      (deallocate fuel s1 (s1.m_nodes i).northwest).bind fun s2 =>
      (deallocate fuel s2 (s2.m_nodes i).southeast).bind fun s3 =>
      (deallocate fuel s3 (s3.m_nodes i).southwest).bind fun s4 =>
        some (setNode s4 i { s4.m_nodes i with divided := false })

/-- The method `check`: `tryCollapse(m_nodes[id])`, then `true`. -/
def check (fuel : Nat) (s : QuadTreeManager) (id : QuadtreeID) :
    Option (QuadTreeManager × Bool) :=
  match resolve s id with
  | none => none
  | some i => (tryCollapse fuel s i).bind fun s1 => some (s1, true)

/-- The `for` loop of `remove`: the first slot `k ≥ i` among the next `n` slots whose pointer
is `player` (`some (some k)`), or `some none` when the loop runs to its end. -/
def scanBucket (node : QuadTreeNode) (player : Nat) : Nat → Nat → Option (Option Nat)
  | _, 0 => some none
  | i, n + 1 =>
    if 4 ≤ i then none
    else if node.data i = some player then some (some i)
    else scanBucket node player (i + 1) n

/-- The method `remove`. -/
def remove : Nat → QuadTreeManager → QuadtreeID → Nat → Option (QuadTreeManager × Bool)
  | 0, _, _, _ => none
  | fuel + 1, s, id, player =>
    match resolve s id with
    | none => none
    | some i =>
      let node := s.m_nodes i
      match scanBucket node player 0 node.size with
      | none => none
      | some (some k) =>
        if 4 < node.size then none
        else
          let d1 := setAt node.data k (node.data (node.size - 1))
          let d2 := setAt d1 (node.size - 1) none
          some (setNode s i { node with data := d2, size := node.size - 1 }, true)
      | some none =>
        if node.divided then
          (remove fuel s node.northwest player).bind fun (s1, r1) =>
          if r1 then check fuel s1 id
          else (remove fuel s1 (s1.m_nodes i).northeast player).bind fun (s2, r2) =>
          if r2 then check fuel s2 id
          else (remove fuel s2 (s2.m_nodes i).southwest player).bind fun (s3, r3) =>
          if r3 then check fuel s3 id
          else (remove fuel s3 (s3.m_nodes i).southeast player).bind fun (s4, r4) =>
          if r4 then check fuel s4 id
          else some (s4, false)
        else some (s, false)

/-! ## Per-frame update -/

/-- The scan loop of `update` over the slots `i, i + 1, ..` (`n` iterations) of `m_nodes[id]`;
`staged` is the vector `players`. -/
def updateScan (fuel : Nat) (id : Nat) :
    Nat → Nat → QuadTreeManager → List Nat → Option (QuadTreeManager × List Nat)
  | _, 0, s, staged => some (s, staged)
  | i, n + 1, s, staged =>
    if 4 ≤ i then none
    else
      match (s.m_nodes id).data i with
      | none => updateScan fuel id (i + 1) n s staged
      | some player =>
        if !(s.m_nodes id).boundary.contains (s.heap player).position then
          (remove fuel s (some id) player).bind fun (s1, r) =>
          if r then updateScan fuel id (i + 1) n s1 (staged ++ [player])
          else updateScan fuel id (i + 1) n s1 staged
        else updateScan fuel id (i + 1) n s staged

/-- The loop `for (auto &player : players) Insert(root, player);`, whose results are ignored. -/
def reinsert (fuel : Nat) (root : QuadtreeID) :
    QuadTreeManager → List Nat → Option QuadTreeManager
  | s, [] => some s
  | s, player :: rest => (Insert fuel s root player).bind fun (s1, _) => reinsert fuel root s1 rest

/-- The method `update` (its parameter `dt` is not used by the body).  The pointer `node` is
taken again after the reinsertions and then used across the four child calls and in
`tryCollapse(*node)`; it dangles when one of the child calls reallocated the table. -/
def update : Nat → QuadTreeManager → QuadtreeID → QuadtreeID → Option QuadTreeManager
  | 0, _, _, _ => none
  | fuel + 1, s, id, root =>
    match resolve s id with
    | none => none
    | some i =>
      (updateScan fuel i 0 (s.m_nodes i).size s []).bind fun (sa, staged) =>
      (reinsert fuel root sa staged).bind fun s0 =>
      if (s0.m_nodes i).divided then
        (update fuel s0 (s0.m_nodes i).northeast root).bind fun s1 =>
        if s1.m_size ≠ s0.m_size then none
        else (update fuel s1 (s1.m_nodes i).northwest root).bind fun s2 =>
        if s2.m_size ≠ s0.m_size then none
        else (update fuel s2 (s2.m_nodes i).southeast root).bind fun s3 =>
        if s3.m_size ≠ s0.m_size then none
        else (update fuel s3 (s3.m_nodes i).southwest root).bind fun s4 =>
        if s4.m_size ≠ s0.m_size then none
        else tryCollapse fuel s4 i
      else some s0

/-! ## Range query -/

/-- The `for` loop of `query` over the slots `i, i + 1, ..` (`n` iterations). -/
def queryScan (s : QuadTreeManager) (id : Nat) (range : Rect) :
    Nat → Nat → List fquery → Option (List fquery)
  | _, 0, found => some found
  | i, n + 1, found =>
    if 4 ≤ i then none
    else
      match (s.m_nodes id).data i with
      | none => none
      | some player =>
        if range.contains (s.heap player).position then
          queryScan s id range (i + 1) n (found ++ [⟨id, player⟩])
        else queryScan s id range (i + 1) n found

/-- The method `query`: the extended vector `found` and the returned flag. -/
def query : Nat → QuadTreeManager → QuadtreeID → Rect → List fquery →
    Option (List fquery × Bool)
  | 0, _, _, _, _ => none
  | fuel + 1, s, id, range, found =>
    match resolve s id with
    | none => none
    | some i =>
      let node := s.m_nodes i
      if !node.boundary.intersects range then some (found, false)
      else
        (queryScan s i range 0 node.size found).bind fun f0 =>
        if node.divided then
          (query fuel s node.northwest range f0).bind fun (f1, _) =>
          (query fuel s node.northeast range f1).bind fun (f2, _) =>
          (query fuel s node.southwest range f2).bind fun (f3, _) =>
          (query fuel s node.southeast range f3).bind fun (f4, _) =>
            some (f4, true)
        else some (f0, true)

/-! ## Quadrants -/

/-- The rectangle `ne` computed by `subdivide`. -/
def Rect.quadNE (r : Rect) : Rect := ⟨r.x + r.w / 2, r.y - r.h / 2, r.w / 2, r.h / 2⟩

/-- The rectangle `nw` computed by `subdivide`. -/
def Rect.quadNW (r : Rect) : Rect := ⟨r.x - r.w / 2, r.y - r.h / 2, r.w / 2, r.h / 2⟩

/-- The rectangle `se` computed by `subdivide`. -/
def Rect.quadSE (r : Rect) : Rect := ⟨r.x + r.w / 2, r.y + r.h / 2, r.w / 2, r.h / 2⟩

/-- The rectangle `sw` computed by `subdivide`. -/
def Rect.quadSW (r : Rect) : Rect := ⟨r.x - r.w / 2, r.y + r.h / 2, r.w / 2, r.h / 2⟩

/-! ## The tree an arena represents -/

/-- The tree of live nodes below a handle: every node carries its handle, the values of its
`parent` and `boundary` fields and its bucket `data[0 .. size - 1]`; children are listed in
the order northeast, northwest, southeast, southwest. -/
inductive Tree where
  | leaf (id : Nat) (parent : QuadtreeID) (boundary : Rect) (pts : List Nat)
  | node (id : Nat) (parent : QuadtreeID) (boundary : Rect) (pts : List Nat)
      (ne nw se sw : Tree)
deriving DecidableEq

namespace Tree

/-- Handle of the root of the tree. -/
def id : Tree → Nat
  | leaf i _ _ _ => i
  | node i _ _ _ _ _ _ _ => i

/-- The `parent` field of the root of the tree. -/
def parent : Tree → QuadtreeID
  | leaf _ p _ _ => p
  | node _ p _ _ _ _ _ _ => p

/-- Region of the root of the tree. -/
def boundary : Tree → Rect
  | leaf _ _ b _ => b
  | node _ _ b _ _ _ _ _ => b

/-- Bucket of the root of the tree. -/
def pts : Tree → List Nat
  | leaf _ _ _ l => l
  | node _ _ _ l _ _ _ _ => l

/-- Whether the root of the tree is divided. -/
def divided : Tree → Bool
  | leaf _ _ _ _ => false
  | node _ _ _ _ _ _ _ _ => true

/-- All handles of the tree. -/
def ids : Tree → List Nat
  | leaf i _ _ _ => [i]
  | node i _ _ _ a b c d => i :: (a.ids ++ b.ids ++ c.ids ++ d.ids)

/-- Number of levels of the tree. -/
def height : Tree → Nat
  | leaf _ _ _ _ => 1
  | node _ _ _ _ a b c d => 1 + max (max a.height b.height) (max c.height d.height)

/-- Every stored entry, as the pair of the holding node and the pointer, in the order in which
`query` visits them: the bucket of the node, then the northwest, northeast, southwest and
southeast subtrees. -/
def entries : Tree → List fquery
  | leaf i _ _ l => l.map (fquery.mk i)
  | node i _ _ l a b c d =>
    l.map (fquery.mk i) ++ (b.entries ++ a.entries ++ d.entries ++ c.entries)

/-- Structural constraints that do not depend on the arena: bucket sizes are at most `cap`,
and the four children of a node carry its handle as parent and its quadrants as regions. -/
def Shape (cap : Nat) : Tree → Prop
  | leaf _ _ _ l => l.length ≤ cap
  | node i _ r l a b c d =>
    l.length ≤ cap ∧
    a.parent = some i ∧ b.parent = some i ∧ c.parent = some i ∧ d.parent = some i ∧
    a.boundary = r.quadNE ∧ b.boundary = r.quadNW ∧
    c.boundary = r.quadSE ∧ d.boundary = r.quadSW ∧
    Shape cap a ∧ Shape cap b ∧ Shape cap c ∧ Shape cap d

/-- Every stored point lies inside the region of the node that holds it. -/
def InRegion (pos : Nat → Vector2) : Tree → Prop
  | leaf _ _ r l => ∀ p ∈ l, r.contains (pos p) = true
  | node _ _ r l a b c d =>
    (∀ p ∈ l, r.contains (pos p) = true) ∧
    InRegion pos a ∧ InRegion pos b ∧ InRegion pos c ∧ InRegion pos d

end Tree

/-- The record at index `i` holds the given parent, region, bucket and divided flag. -/
def NodeRep (s : QuadTreeManager) (i : Nat) (parent : QuadtreeID) (boundary : Rect)
    (pts : List Nat) (divided : Bool) : Prop :=
  i < s.m_size ∧ (s.m_nodes i).parent = parent ∧ (s.m_nodes i).boundary = boundary ∧
  (s.m_nodes i).size = pts.length ∧ (∀ j, j < pts.length → (s.m_nodes i).data j = pts[j]?) ∧
  (s.m_nodes i).divided = divided

/-- The arena `s` represents the tree `t` at the handle `t.id`. -/
def Rep (s : QuadTreeManager) : Tree → Prop
  | Tree.leaf i p r l => NodeRep s i p r l false
  | Tree.node i p r l a b c d =>
    NodeRep s i p r l true ∧
    (s.m_nodes i).northeast = some a.id ∧ (s.m_nodes i).northwest = some b.id ∧
    (s.m_nodes i).southeast = some c.id ∧ (s.m_nodes i).southwest = some d.id ∧
    Rep s a ∧ Rep s b ∧ Rep s c ∧ Rep s d

/-- The free list of `s`, starting at the handle `h`, is exactly the list `F`. -/
def FreeChain (s : QuadTreeManager) : QuadtreeID → List Nat → Prop
  | h, [] => h = none
  | h, a :: l => h = some a ∧ a < s.m_size ∧ FreeChain s (s.m_nodes a).next l

/-- Well-formed index: the arena represents `t`, the free list is `F`, no handle occurs twice
among live and free records, and the bucket capacity is between 1 and 4. -/
structure WF (s : QuadTreeManager) (t : Tree) (F : List Nat) : Prop where
  rep : Rep s t
  shape : t.Shape s.m_capacity
  free : FreeChain s s.m_freeID F
  nodup : (t.ids ++ F).Nodup
  cap_pos : 1 ≤ s.m_capacity
  cap_le : s.m_capacity ≤ 4

/-- The arena `s1` extends `s`: the table did not shrink, the capacity is the same, and every
record below `s.m_size` whose index is not in `K` is the same. -/
structure Frame (s s1 : QuadTreeManager) (K : List Nat) : Prop where
  size_le : s.m_size ≤ s1.m_size
  cap_eq : s1.m_capacity = s.m_capacity
  nodes_eq : ∀ j, j < s.m_size → j ∉ K → s1.m_nodes j = s.m_nodes j

/-- Postcondition of `Create s boundary parent = some (s1, id)` on an arena whose free list
is `F`: the free list becomes `F1`. -/
structure CreatePost (s : QuadTreeManager) (boundary : Rect) (parent : QuadtreeID)
    (F : List Nat) (s1 : QuadTreeManager) (id : Nat) (F1 : List Nat) : Prop where
  free : FreeChain s1 s1.m_freeID F1
  nodup : (id :: F1).Nodup
  id_from : id ∈ F ∨ s.m_size ≤ id
  free_from : ∀ x ∈ F1, x ∈ F ∨ s.m_size ≤ x
  id_lt : id < s1.m_size
  size_le : s.m_size ≤ s1.m_size
  cap_eq : s1.m_capacity = s.m_capacity
  heap_eq : s1.heap = s.heap
  count_eq : s1.m_count = s.m_count + 1
  nodes_eq : ∀ j, j < s.m_size → j ≠ id → s1.m_nodes j = s.m_nodes j
  fresh : NodeRep s1 id parent boundary [] false
  grow : F = [] → id = s.m_size ∧ s1.m_size = s.m_size * 2
  pop : ∀ a F0, F = a :: F0 → id = a ∧ F1 = F0 ∧ s1.m_size = s.m_size
/-- Postcondition of `subdivide s i = some s1` on an arena whose free list is `F`: the four
children `a` (northeast), `b` (northwest), `c` (southeast), `d` (southwest) are fresh empty
leaves and the free list becomes `F1`. -/
structure SubdividePost (s : QuadTreeManager) (i : Nat) (F : List Nat)
    (s1 : QuadTreeManager) (a b c d : Nat) (F1 : List Nat) : Prop where
  free : FreeChain s1 s1.m_freeID F1
  nodup : (a :: b :: c :: d :: F1).Nodup
  from_free : ∀ x ∈ a :: b :: c :: d :: F1, x ∈ F ∨ s.m_size ≤ x
  size_le : s.m_size ≤ s1.m_size
  cap_eq : s1.m_capacity = s.m_capacity
  heap_eq : s1.heap = s.heap
  nodes_eq : ∀ j, j < s.m_size → j ∉ [a, b, c, d] → j ≠ i → s1.m_nodes j = s.m_nodes j
  node_eq : s1.m_nodes i =
    { s.m_nodes i with
      northwest := some b
      northeast := some a
      southwest := some d
      southeast := some c
      divided := true }
  repNE : NodeRep s1 a (some i) (s.m_nodes i).boundary.quadNE [] false
  repNW : NodeRep s1 b (some i) (s.m_nodes i).boundary.quadNW [] false
  repSE : NodeRep s1 c (some i) (s.m_nodes i).boundary.quadSE [] false
  repSW : NodeRep s1 d (some i) (s.m_nodes i).boundary.quadSW [] false

/-- The effect of `Insert` on the represented tree: the new tree and the handle of the node
whose bucket received the point (`none` when the call returns `false`).  `f` lists the handles
that `subdivide` obtains for the northeast, northwest, southeast and southwest child when a
full leaf is split; every child of such a split is empty, so it accepts the point as soon as
its region contains it. -/
def Tree.insertT (cap : Nat) (pos : Vector2) (p : Nat) (f : Nat × Nat × Nat × Nat) :
    Tree → Tree × Option Nat
  | Tree.leaf i par r l =>
    if !r.contains pos then (Tree.leaf i par r l, none)
    else if l.length < cap then (Tree.leaf i par r (l ++ [p]), some i)
    else if r.quadNE.contains pos then
      (Tree.node i par r l (Tree.leaf f.1 (some i) r.quadNE [p])
        (Tree.leaf f.2.1 (some i) r.quadNW []) (Tree.leaf f.2.2.1 (some i) r.quadSE [])
        (Tree.leaf f.2.2.2 (some i) r.quadSW []), some f.1)
    else if r.quadNW.contains pos then
      (Tree.node i par r l (Tree.leaf f.1 (some i) r.quadNE [])
        (Tree.leaf f.2.1 (some i) r.quadNW [p]) (Tree.leaf f.2.2.1 (some i) r.quadSE [])
        (Tree.leaf f.2.2.2 (some i) r.quadSW []), some f.2.1)
    else if r.quadSE.contains pos then
      (Tree.node i par r l (Tree.leaf f.1 (some i) r.quadNE [])
        (Tree.leaf f.2.1 (some i) r.quadNW []) (Tree.leaf f.2.2.1 (some i) r.quadSE [p])
        (Tree.leaf f.2.2.2 (some i) r.quadSW []), some f.2.2.1)
    else if r.quadSW.contains pos then
      (Tree.node i par r l (Tree.leaf f.1 (some i) r.quadNE [])
        (Tree.leaf f.2.1 (some i) r.quadNW []) (Tree.leaf f.2.2.1 (some i) r.quadSE [])
        (Tree.leaf f.2.2.2 (some i) r.quadSW [p]), some f.2.2.2)
    else
      (Tree.node i par r l (Tree.leaf f.1 (some i) r.quadNE [])
        (Tree.leaf f.2.1 (some i) r.quadNW []) (Tree.leaf f.2.2.1 (some i) r.quadSE [])
        (Tree.leaf f.2.2.2 (some i) r.quadSW []), none)
  | Tree.node i par r l a b c d =>
    if !r.contains pos then (Tree.node i par r l a b c d, none)
    else if l.length < cap then (Tree.node i par r (l ++ [p]) a b c d, some i)
    else
      match insertT cap pos p f a with
      | (a1, some k) => (Tree.node i par r l a1 b c d, some k)
      | (a1, none) =>
        match insertT cap pos p f b with
        | (b1, some k) => (Tree.node i par r l a1 b1 c d, some k)
        | (b1, none) =>
          match insertT cap pos p f c with
          | (c1, some k) => (Tree.node i par r l a1 b1 c1 d, some k)
          | (c1, none) =>
            match insertT cap pos p f d with
            | (d1, some k) => (Tree.node i par r l a1 b1 c1 d1, some k)
            | (d1, none) => (Tree.node i par r l a1 b1 c1 d1, none)

/-- The arena after the `size < m_capacity` branch of `Insert` has stored `p` in node `i`. -/
def pushPoint (s : QuadTreeManager) (i p : Nat) : QuadTreeManager :=
  { s with
    m_nodes := setAt s.m_nodes i
      { s.m_nodes i with
        data := setAt (s.m_nodes i).data (s.m_nodes i).size (some p)
        size := (s.m_nodes i).size + 1 }
    heap := setAt s.heap p { s.heap p with id := some i } }

/-- The record `i` keeps its region, its parent and every occupied bucket slot from `s` to
`s1`. -/
def Stable (s s1 : QuadTreeManager) (i : Nat) : Prop :=
  (s1.m_nodes i).boundary = (s.m_nodes i).boundary ∧
  (s1.m_nodes i).parent = (s.m_nodes i).parent ∧
  (s.m_nodes i).size ≤ (s1.m_nodes i).size ∧
  ∀ j, j < (s.m_nodes i).size → (s1.m_nodes i).data j = (s.m_nodes i).data j

/-- The point `p` is the last entry of the bucket of node `k` in `s1`, and when `k` was a
live record of `s` its count grew by one. -/
def Placed (s : QuadTreeManager) (F : List Nat) (p : Nat) (s1 : QuadTreeManager) (k : Nat) :
    Prop :=
  k < s1.m_size ∧ 0 < (s1.m_nodes k).size ∧
  (s1.m_nodes k).data ((s1.m_nodes k).size - 1) = some p ∧
  (k < s.m_size → k ∉ F → (s1.m_nodes k).size = (s.m_nodes k).size + 1)

/-- Postcondition of a successful `Insert` below the tree `t`, on an arena with free list `F`:
the arena `s1` represents `t1`, the point went to node `k`, the free list is `F1`. -/
structure InsertPost (s : QuadTreeManager) (t : Tree) (F : List Nat) (p : Nat)
    (s1 : QuadTreeManager) (t1 : Tree) (k : Nat) (F1 : List Nat) : Prop where
  rep : Rep s1 t1
  free : FreeChain s1 s1.m_freeID F1
  nodup : (t1.ids ++ F1).Nodup
  from_free : ∀ x ∈ t1.ids ++ F1, x ∈ t.ids ++ F ∨ s.m_size ≤ x
  frame : Frame s s1 (t.ids ++ F)
  heap : s1.heap = setAt s.heap p { s.heap p with id := some k }
  stable : ∀ i, i < s.m_size → i ∉ F → Stable s s1 i
  placed : Placed s F p s1 k

/-- Definedness order on results: whenever `a` is a result, `b` is the same result. -/
def OptLe {α : Type} (a b : Option α) : Prop := ∀ x, a = some x → b = some x

/-- The entries that `query` appends for the tree `t`: a subtree whose region does not
intersect `range` contributes nothing; `pos` gives the position of a point. -/
def Tree.queryT (pos : Nat → Vector2) (range : Rect) : Tree → List fquery
  | Tree.leaf i _ r l =>
    if r.intersects range then (l.filter fun p => range.contains (pos p)).map (fquery.mk i)
    else []
  | Tree.node i _ r l a b c d =>
    if r.intersects range then
      (l.filter fun p => range.contains (pos p)).map (fquery.mk i) ++
        (queryT pos range b ++ queryT pos range a ++ queryT pos range d ++ queryT pos range c)
    else []

instance NodeRep.decidable (s : QuadTreeManager) (i : Nat) (p : QuadtreeID) (r : Rect)
    (l : List Nat) (d : Bool) : Decidable (NodeRep s i p r l d) := by
  unfold NodeRep
  infer_instance

instance Rep.decidable (s : QuadTreeManager) : (t : Tree) → Decidable (Rep s t)
  | Tree.leaf i p r l => NodeRep.decidable s i p r l false
  | Tree.node i p r l a b c d =>
    have := Rep.decidable s a
    have := Rep.decidable s b
    have := Rep.decidable s c
    have := Rep.decidable s d
    inferInstanceAs (Decidable (NodeRep s i p r l true ∧
      (s.m_nodes i).northeast = some a.id ∧ (s.m_nodes i).northwest = some b.id ∧
      (s.m_nodes i).southeast = some c.id ∧ (s.m_nodes i).southwest = some d.id ∧
      Rep s a ∧ Rep s b ∧ Rep s c ∧ Rep s d))

instance Tree.Shape.decidable (cap : Nat) : (t : Tree) → Decidable (t.Shape cap)
  | Tree.leaf _ _ _ l => inferInstanceAs (Decidable (l.length ≤ cap))
  | Tree.node i _ r l a b c d =>
    have := Tree.Shape.decidable cap a
    have := Tree.Shape.decidable cap b
    have := Tree.Shape.decidable cap c
    have := Tree.Shape.decidable cap d
    inferInstanceAs (Decidable (l.length ≤ cap ∧
      a.parent = some i ∧ b.parent = some i ∧ c.parent = some i ∧ d.parent = some i ∧
      a.boundary = r.quadNE ∧ b.boundary = r.quadNW ∧
      c.boundary = r.quadSE ∧ d.boundary = r.quadSW ∧
      Tree.Shape cap a ∧ Tree.Shape cap b ∧ Tree.Shape cap c ∧ Tree.Shape cap d))

instance Tree.InRegion.decidable (pos : Nat → Vector2) : (t : Tree) → Decidable (t.InRegion pos)
  | Tree.leaf _ _ r l => inferInstanceAs (Decidable (∀ p ∈ l, r.contains (pos p) = true))
  | Tree.node _ _ r l a b c d =>
    have := Tree.InRegion.decidable pos a
    have := Tree.InRegion.decidable pos b
    have := Tree.InRegion.decidable pos c
    have := Tree.InRegion.decidable pos d
    inferInstanceAs (Decidable ((∀ p ∈ l, r.contains (pos p) = true) ∧
      Tree.InRegion pos a ∧ Tree.InRegion pos b ∧ Tree.InRegion pos c ∧ Tree.InRegion pos d))

instance FreeChain.decidable (s : QuadTreeManager) :
    (h : QuadtreeID) → (F : List Nat) → Decidable (FreeChain s h F)
  | h, [] => inferInstanceAs (Decidable (h = none))
  | h, a :: l =>
    have := FreeChain.decidable s (s.m_nodes a).next l
    inferInstanceAs (Decidable (h = some a ∧ a < s.m_size ∧ FreeChain s (s.m_nodes a).next l))

instance WF.decidable (s : QuadTreeManager) (t : Tree) (F : List Nat) : Decidable (WF s t F) :=
  decidable_of_iff
    (Rep s t ∧ t.Shape s.m_capacity ∧ FreeChain s s.m_freeID F ∧ (t.ids ++ F).Nodup ∧
      1 ≤ s.m_capacity ∧ s.m_capacity ≤ 4)
    ⟨fun ⟨h1, h2, h3, h4, h5, h6⟩ => ⟨h1, h2, h3, h4, h5, h6⟩,
      fun h => ⟨h.rep, h.shape, h.free, h.nodup, h.cap_pos, h.cap_le⟩⟩

/-- An arena with an empty table, used as the value of a failed construction. -/
def noManager : QuadTreeManager where
  m_nodes := fun _ => zeroNode
  m_size := 0
  m_count := 0
  m_freeID := none
  m_capacity := 0
  heap := fun _ => ⟨⟨0, 0⟩, ⟨0, 0⟩, none⟩

/-- The heap of the examples: the point with address `a` is at `(10 a, 10 a)`. -/
def diagHeap : Nat → Player := fun a => ⟨⟨10 * a, 10 * a⟩, ⟨0, 0⟩, none⟩

/-- The root region of the examples of the specification. -/
def exampleRegion : Rect := ⟨400, 300, 400, 300⟩

/-- A fresh index: the constructor followed by `Create` for the root, whose handle is the
second component. -/
def freshIndex (size capacity : Nat) (heap : Nat → Player) (region : Rect) (parent : QuadtreeID) :
    Option (QuadTreeManager × Nat) :=
  (QuadTreeManager.new size capacity heap).bind fun s => Create s region parent

/-- Insert the points of the list one after the other at the handle `root`. -/
def insertAll (fuel : Nat) (root : Nat) : QuadTreeManager → List Nat → Option QuadTreeManager
  | s, [] => some s
  | s, p :: rest => (Insert fuel s (some root) p).bind fun (s1, _) => insertAll fuel root s1 rest

/-- The index of the insertion example: table size 16, capacity 4, root region
`(400, 300, 400, 300)`, after inserting the points at `(10,10)`, .., `(50,50)`. -/
def fivePoints : QuadTreeManager :=
  ((freshIndex 16 4 diagHeap exampleRegion none).bind fun (s, root) =>
    insertAll 3 root s [1, 2, 3, 4, 5]).getD noManager

/-- The tree that `fivePoints` represents. -/
def fiveTree : Tree :=
  Tree.node 0 none exampleRegion [1, 2, 3, 4]
    (Tree.leaf 1 (some 0) exampleRegion.quadNE [])
    (Tree.leaf 2 (some 0) exampleRegion.quadNW [5])
    (Tree.leaf 3 (some 0) exampleRegion.quadSE [])
    (Tree.leaf 4 (some 0) exampleRegion.quadSW [])

/-- An index whose table has one record only: capacity 4, the example root region, after
inserting the points 1 to 4 (all held by the root, handle 0). -/
def fourSmall : QuadTreeManager :=
  ((freshIndex 1 4 diagHeap exampleRegion none).bind fun (s, root) =>
    insertAll 2 root s [1, 2, 3, 4]).getD noManager

/-- The four quadrants of a region. -/
inductive Quadrant where
  | ne
  | nw
  | se
  | sw
deriving DecidableEq

/-- The quadrant of the region `r` in which a point lies: east when `x` is at least the centre,
south when `y` is at least the centre (`y` grows downward). -/
def Rect.quadrantOf (r : Rect) (pos : Vector2) : Quadrant :=
  if r.x ≤ pos.x then (if r.y ≤ pos.y then Quadrant.se else Quadrant.ne)
  else (if r.y ≤ pos.y then Quadrant.sw else Quadrant.nw)

/-- The placement rule in the words of the specification: walking down from the start node
through the quadrant child that contains the point, the point is appended to the bucket of the
first node whose bucket count is below the capacity; a full leaf is subdivided first (into the
fresh children `f`) and the point goes to the bucket of its quadrant child.  Full nodes on the
way keep their buckets.  The result is the new tree and the handle of the node that holds the
point. -/
def Tree.placeT (cap : Nat) (pos : Vector2) (p : Nat) (f : Nat × Nat × Nat × Nat) :
    Tree → Tree × Nat
  | Tree.leaf i par r l =>
    if l.length < cap then (Tree.leaf i par r (l ++ [p]), i)
    else
      (Tree.node i par r l
        (Tree.leaf f.1 (some i) r.quadNE (if r.quadrantOf pos = Quadrant.ne then [p] else []))
        (Tree.leaf f.2.1 (some i) r.quadNW (if r.quadrantOf pos = Quadrant.nw then [p] else []))
        (Tree.leaf f.2.2.1 (some i) r.quadSE
          (if r.quadrantOf pos = Quadrant.se then [p] else []))
        (Tree.leaf f.2.2.2 (some i) r.quadSW
          (if r.quadrantOf pos = Quadrant.sw then [p] else [])),
        match r.quadrantOf pos with
        | Quadrant.ne => f.1
        | Quadrant.nw => f.2.1
        | Quadrant.se => f.2.2.1
        | Quadrant.sw => f.2.2.2)
  | Tree.node i par r l a b c d =>
    if l.length < cap then (Tree.node i par r (l ++ [p]) a b c d, i)
    else
      match r.quadrantOf pos with
      | Quadrant.ne => (Tree.node i par r l (placeT cap pos p f a).1 b c d, (placeT cap pos p f a).2)
      | Quadrant.nw => (Tree.node i par r l a (placeT cap pos p f b).1 c d, (placeT cap pos p f b).2)
      | Quadrant.se => (Tree.node i par r l a b (placeT cap pos p f c).1 d, (placeT cap pos p f c).2)
      | Quadrant.sw => (Tree.node i par r l a b c (placeT cap pos p f d).1, (placeT cap pos p f d).2)

/-- The index of the insertion example before the fifth insertion: table size 16, capacity 4,
root region `(400, 300, 400, 300)`, after inserting the points at `(10,10)`, .., `(40,40)`. -/
def fourPoints : QuadTreeManager :=
  ((freshIndex 16 4 diagHeap exampleRegion none).bind fun (s, root) =>
    insertAll 3 root s [1, 2, 3, 4]).getD noManager

/-- The tree that `fourPoints` represents: a single full leaf. -/
def fourTree : Tree := Tree.leaf 0 none exampleRegion [1, 2, 3, 4]

/-- The bucket after `remove` found the point in slot `k`: the last entry is moved into slot
`k` and the bucket shrinks by one. -/
def swapRemove (l : List Nat) (k : Nat) : List Nat := (l.set k (l.getLastD 0)).dropLast

/-- The arena after `remove` has taken the entry of slot `k` out of the bucket of node `i`. -/
def popPoint (s : QuadTreeManager) (i k : Nat) : QuadTreeManager :=
  setNode s i
    { s.m_nodes i with
      data := setAt (setAt (s.m_nodes i).data k ((s.m_nodes i).data ((s.m_nodes i).size - 1)))
        ((s.m_nodes i).size - 1) none
      size := (s.m_nodes i).size - 1 }

/-- What `empty` computes on the represented tree: the bucket is empty and, for a divided node,
so are the four subtrees. -/
def Tree.allEmpty : Tree → Bool
  | Tree.leaf _ _ _ l => l.isEmpty
  | Tree.node _ _ _ l a b c d =>
    l.isEmpty && (a.allEmpty && (b.allEmpty && (c.allEmpty && d.allEmpty)))

/-- The record `n1` is the record `n` up to its `next` field. -/
def SameButNext (n1 n : QuadTreeNode) : Prop := n1 = { n with next := n1.next }

/-- Postcondition of `deallocate` on the subtree `t`: all handles of `t` joined the free
list, and no record changed except in its `next` field. -/
structure DeallocPost (s : QuadTreeManager) (t : Tree) (F : List Nat) (s1 : QuadTreeManager)
    (F1 : List Nat) : Prop where
  free : FreeChain s1 s1.m_freeID F1
  perm : F1.Perm (t.ids ++ F)
  same : ∀ j, j ∉ t.ids → s1.m_nodes j = s.m_nodes j
  kept : ∀ j, SameButNext (s1.m_nodes j) (s.m_nodes j)
  size_eq : s1.m_size = s.m_size
  cap_eq : s1.m_capacity = s.m_capacity
  heap_eq : s1.heap = s.heap
  count_eq : s1.m_count = s.m_count - t.ids.length

/-- The effect of `tryCollapse` on the represented tree: a divided node whose four subtrees
are empty becomes a leaf. -/
def Tree.collapseT : Tree → Tree
  | Tree.leaf i par r l => Tree.leaf i par r l
  | Tree.node i par r l a b c d =>
    if a.allEmpty && (b.allEmpty && (c.allEmpty && d.allEmpty)) then Tree.leaf i par r l
    else Tree.node i par r l a b c d

/-- Postcondition of an operation that only frees nodes below the tree `t` (`tryCollapse`,
`remove`): the arena `s1` represents `t1`, the handles of `t` that left the tree joined the
free list, and the records outside `t` are the same. -/
structure ShrinkPost (s : QuadTreeManager) (t : Tree) (F : List Nat) (s1 : QuadTreeManager)
    (t1 : Tree) (F1 : List Nat) : Prop where
  rep : Rep s1 t1
  free : FreeChain s1 s1.m_freeID F1
  perm : (t1.ids ++ F1).Perm (t.ids ++ F)
  sub : ∀ x ∈ t1.ids, x ∈ t.ids
  same : ∀ j, j ∉ t.ids → s1.m_nodes j = s.m_nodes j
  size_eq : s1.m_size = s.m_size
  cap_eq : s1.m_capacity = s.m_capacity
  heap_eq : s1.heap = s.heap

/-- The effect of `remove` on the represented tree, and its result.  The bucket of the node is
scanned first; otherwise the children are tried in the order northwest, northeast, southwest,
southeast, and after a successful child call the node is collapse-checked. -/
def Tree.removeT (p : Nat) : Tree → Tree × Bool
  | Tree.leaf i par r l =>
    if p ∈ l then (Tree.leaf i par r (swapRemove l (l.indexOf p)), true)
    else (Tree.leaf i par r l, false)
  | Tree.node i par r l a b c d =>
    if p ∈ l then (Tree.node i par r (swapRemove l (l.indexOf p)) a b c d, true)
    else
      match removeT p b with
      | (b1, true) => ((Tree.node i par r l a b1 c d).collapseT, true)
      | (b1, false) =>
        match removeT p a with
        | (a1, true) => ((Tree.node i par r l a1 b1 c d).collapseT, true)
        | (a1, false) =>
          match removeT p d with
          | (d1, true) => ((Tree.node i par r l a1 b1 c d1).collapseT, true)
          | (d1, false) =>
            match removeT p c with
            | (c1, true) => ((Tree.node i par r l a1 b1 c1 d1).collapseT, true)
            | (c1, false) => (Tree.node i par r l a1 b1 c1 d1, false)

/-- The point references stored in the tree, with multiplicity. -/
def Tree.points (t : Tree) : List Nat := t.entries.map fquery.data

/-- The subtrees of a tree: the tree itself and the subtrees of its children. -/
def Tree.subtrees : Tree → List Tree
  | Tree.leaf i par r l => [Tree.leaf i par r l]
  | Tree.node i par r l a b c d =>
    Tree.node i par r l a b c d :: (a.subtrees ++ b.subtrees ++ c.subtrees ++ d.subtrees)

/-- The handles of the strict descendants of the root of the tree. -/
def Tree.descIds : Tree → List Nat
  | Tree.leaf _ _ _ _ => []
  | Tree.node _ _ _ _ a b c d => a.ids ++ b.ids ++ c.ids ++ d.ids

/-- The nodes through which `remove` descends before it finds the pointer in a bucket: the
strict ancestors, root first, of the node that held it.  A divided node whose own bucket does
not hold the pointer passes the call to its children in the order northwest, northeast,
southwest, southeast and stops at the first that returns `true`. -/
def Tree.removePath (p : Nat) : Tree → List Tree
  | Tree.leaf _ _ _ _ => []
  | Tree.node i par r l a b c d =>
    if p ∈ l then []
    else if (Tree.removeT p b).2 then Tree.node i par r l a b c d :: removePath p b
    else if (Tree.removeT p a).2 then Tree.node i par r l a b c d :: removePath p a
    else if (Tree.removeT p d).2 then Tree.node i par r l a b c d :: removePath p d
    else if (Tree.removeT p c).2 then Tree.node i par r l a b c d :: removePath p c
    else []

/-- In the arena `s1` with free list `F1`, the node that was the root of `A` is collapsed
whenever no bucket of a former strict descendant of `A` holds a point: its `divided` flag is
off and all those descendants are on the free list. -/
def Collapsed (s1 : QuadTreeManager) (F1 : List Nat) (A : Tree) : Prop :=
  (∀ j ∈ A.descIds, (s1.m_nodes j).size = 0) →
    (s1.m_nodes A.id).divided = false ∧ ∀ j ∈ A.descIds, j ∈ F1

/-- The caller moves a point: `player->position = pos` (the index is not told). -/
def movePlayer (s : QuadTreeManager) (player : Nat) (pos : Vector2) : QuadTreeManager :=
  { s with heap := setAt s.heap player { s.heap player with position := pos } }

/-- The occupied slots of the bucket of node `i`, in slot order. -/
def bucketOf (s : QuadTreeManager) (i : Nat) : List (Option Nat) :=
  (List.range (s.m_nodes i).size).map (s.m_nodes i).data

/-- Six points in the northwest quadrant of the example region (table size 16, capacity 4):
the root holds the points 1 to 4 and its northwest child (handle 2) the points 5 and 6. -/
def sixPoints : QuadTreeManager :=
  ((freshIndex 16 4 diagHeap exampleRegion none).bind fun (s, root) =>
    insertAll 3 root s [1, 2, 3, 4, 5, 6]).getD noManager

/-- The state `sixPoints` after the points 5 and 6 moved to `(500, 400)` and `(600, 500)`,
both in the southeast quadrant of the root region. -/
def sixMoved : QuadTreeManager :=
  movePlayer (movePlayer sixPoints 5 ⟨500, 400⟩) 6 ⟨600, 500⟩

/-- The tree that `sixPoints` and `sixMoved` represent. -/
def sixTree : Tree :=
  Tree.node 0 none exampleRegion [1, 2, 3, 4]
    (Tree.leaf 1 (some 0) exampleRegion.quadNE [])
    (Tree.leaf 2 (some 0) exampleRegion.quadNW [5, 6])
    (Tree.leaf 3 (some 0) exampleRegion.quadSE [])
    (Tree.leaf 4 (some 0) exampleRegion.quadSW [])

/-- A tree with one subtree taken out: the path from the root to the hole, with the records
and the sibling subtrees along the path. -/
inductive Ctx where
  | hole : Ctx
  | ne (i : Nat) (par : QuadtreeID) (r : Rect) (l : List Nat) (C : Ctx) (b c d : Tree) : Ctx
  | nw (i : Nat) (par : QuadtreeID) (r : Rect) (l : List Nat) (a : Tree) (C : Ctx)
      (c d : Tree) : Ctx
  | se (i : Nat) (par : QuadtreeID) (r : Rect) (l : List Nat) (a b : Tree) (C : Ctx)
      (d : Tree) : Ctx
  | sw (i : Nat) (par : QuadtreeID) (r : Rect) (l : List Nat) (a b c : Tree) (C : Ctx) : Ctx

/-- Put the subtree `t` into the hole. -/
def Ctx.plug : Ctx → Tree → Tree
  | Ctx.hole, t => t
  | Ctx.ne i par r l C b c d, t => Tree.node i par r l (C.plug t) b c d
  | Ctx.nw i par r l a C c d, t => Tree.node i par r l a (C.plug t) c d
  | Ctx.se i par r l a b C d, t => Tree.node i par r l a b (C.plug t) d
  | Ctx.sw i par r l a b c C, t => Tree.node i par r l a b c (C.plug t)

/-- The handles outside the hole. -/
def Ctx.ids : Ctx → List Nat
  | Ctx.hole => []
  | Ctx.ne i _ _ _ C b c d => i :: (C.ids ++ b.ids ++ c.ids ++ d.ids)
  | Ctx.nw i _ _ _ a C c d => i :: (a.ids ++ C.ids ++ c.ids ++ d.ids)
  | Ctx.se i _ _ _ a b C d => i :: (a.ids ++ b.ids ++ C.ids ++ d.ids)
  | Ctx.sw i _ _ _ a b c C => i :: (a.ids ++ b.ids ++ c.ids ++ C.ids)

/-- The point references stored outside the hole. -/
def Ctx.points : Ctx → List Nat
  | Ctx.hole => []
  | Ctx.ne _ _ _ l C b c d => l ++ (C.points ++ b.points ++ c.points ++ d.points)
  | Ctx.nw _ _ _ l a C c d => l ++ (a.points ++ C.points ++ c.points ++ d.points)
  | Ctx.se _ _ _ l a b C d => l ++ (a.points ++ b.points ++ C.points ++ d.points)
  | Ctx.sw _ _ _ l a b c C => l ++ (a.points ++ b.points ++ c.points ++ C.points)

/-- The tree `t1` continues the tree `t` outside the subtrees rooted at the handle `x`: the
root keeps its handle and region, and a divided node other than `x` stays divided with
children that continue its children.  Leaves, and the subtrees at `x`, may change freely. -/
def Tree.Ext (x : Nat) : Tree → Tree → Prop
  | Tree.leaf j _ r _, t1 => t1.id = j ∧ t1.boundary = r
  | Tree.node j _ r _ a b c d, t1 =>
    t1.id = j ∧ t1.boundary = r ∧
    (j = x ∨ ∃ par1 l1 a1 b1 c1 d1, t1 = Tree.node j par1 r l1 a1 b1 c1 d1 ∧
      Ext x a a1 ∧ Ext x b b1 ∧ Ext x c c1 ∧ Ext x d d1)

/-- The point references stored in the strict descendants of the root of the tree. -/
def Tree.descPoints : Tree → List Nat
  | Tree.leaf _ _ _ _ => []
  | Tree.node _ _ _ _ a b c d => b.points ++ a.points ++ d.points ++ c.points

/-- The five-point example after `remove(2, 5)` called on the northwest child itself: the
root is still divided and its four children are empty. -/
def fiveEmptied : QuadTreeManager := ((remove 1 fivePoints (some 2) 5).getD (noManager, false)).1

/-- The tree that `fiveEmptied` represents. -/
def emptiedTree : Tree :=
  Tree.node 0 none exampleRegion [1, 2, 3, 4]
    (Tree.leaf 1 (some 0) exampleRegion.quadNE [])
    (Tree.leaf 2 (some 0) exampleRegion.quadNW [])
    (Tree.leaf 3 (some 0) exampleRegion.quadSE [])
    (Tree.leaf 4 (some 0) exampleRegion.quadSW [])

/-- A heap in which every point is at the same position `(10, 10)`. -/
def samePlace : Nat → Player := fun _ => ⟨⟨10, 10⟩, ⟨0, 0⟩, none⟩

/-- Coincident points exceeding the capacity: table size 16, capacity 1, the example root
region, after inserting three points that all lie at `(10, 10)`. -/
def coincident : QuadTreeManager :=
  ((freshIndex 16 1 samePlace exampleRegion none).bind fun (s, root) =>
    insertAll 4 root s [1, 2, 3]).getD noManager

/-- The tree that `coincident` represents: one point per level. -/
def coincidentTree : Tree :=
  Tree.node 0 none exampleRegion [1]
    (Tree.leaf 1 (some 0) exampleRegion.quadNE [])
    (Tree.node 2 (some 0) exampleRegion.quadNW [2]
      (Tree.leaf 5 (some 2) exampleRegion.quadNW.quadNE [])
      (Tree.leaf 6 (some 2) exampleRegion.quadNW.quadNW [3])
      (Tree.leaf 7 (some 2) exampleRegion.quadNW.quadSE [])
      (Tree.leaf 8 (some 2) exampleRegion.quadNW.quadSW []))
    (Tree.leaf 3 (some 0) exampleRegion.quadSE [])
    (Tree.leaf 4 (some 0) exampleRegion.quadSW [])

/-- The positions of all points are the same in `s1` as in `s`. -/
def SamePos (s s1 : QuadTreeManager) : Prop :=
  ∀ q, (s1.heap q).position = (s.heap q).position

/-- Every stored point lies inside the region of the root of the tree. -/
def InRoot (s : QuadTreeManager) (T : Tree) : Prop :=
  ∀ p ∈ T.points, T.boundary.contains (s.heap p).position = true

/-- What a step of `update` at the node `i` preserves: the index is again well formed, the
tree continues the old one outside the subtree at `i`, no point moved, no stored reference is
gained, and none is lost when the stored points lie inside the root region. -/
structure UpdPost (i : Nat) (s : QuadTreeManager) (T : Tree) (s1 : QuadTreeManager)
    (T1 : Tree) (F1 : List Nat) : Prop where
  wf : WF s1 T1 F1
  ext : Tree.Ext i T T1
  pos : SamePos s s1
  le : ∀ x, T1.points.count x ≤ T.points.count x
  eq : InRoot s T → ∀ x, T1.points.count x = T.points.count x

/-- The index states that arise from a freshly created index (capacity between 1 and 4, root
handle `root`, root region `region`) by calls of `Insert`, `remove` and `update` at the root
that return, and by the host moving points in between. -/
inductive Reachable (root : Nat) (region : Rect) : QuadTreeManager → Prop where
  | fresh (size cap : Nat) (heap : Nat → Player) (parent : QuadtreeID) (s : QuadTreeManager) :
      1 ≤ cap → cap ≤ 4 → freshIndex size cap heap region parent = some (s, root) →
      Reachable root region s
  | insert (s : QuadTreeManager) (fuel p : Nat) (s1 : QuadTreeManager) (r : Bool) :
      Reachable root region s → Insert fuel s (some root) p = some (s1, r) →
      Reachable root region s1
  | remove (s : QuadTreeManager) (fuel p : Nat) (s1 : QuadTreeManager) (r : Bool) :
      Reachable root region s → remove fuel s (some root) p = some (s1, r) →
      Reachable root region s1
  | update (s : QuadTreeManager) (fuel : Nat) (s1 : QuadTreeManager) :
      Reachable root region s → update fuel s (some root) (some root) = some s1 →
      Reachable root region s1
  | move (s : QuadTreeManager) (p : Nat) (pos : Vector2) :
      Reachable root region s → Reachable root region (movePlayer s p pos)

/-- The fresh index of the examples: table size 16, capacity 4, the example root region. -/
def freshExample : QuadTreeManager :=
  ((freshIndex 16 4 diagHeap exampleRegion none).getD (noManager, 0)).1

/-- The structural constraints on the record of the node `i` in an index whose live handles
are `live` and whose free handles are `F`: the bucket count is at most the capacity, and a
divided node has four pairwise distinct live children that are not free, carry the node as
parent and have the four quadrants of its region as regions. -/
def NodeOK (s : QuadTreeManager) (live F : List Nat) (i : Nat) : Prop :=
  (s.m_nodes i).size ≤ s.m_capacity ∧
  ((s.m_nodes i).divided = true →
    ∃ a b c d, (s.m_nodes i).northeast = some a ∧ (s.m_nodes i).northwest = some b ∧
      (s.m_nodes i).southeast = some c ∧ (s.m_nodes i).southwest = some d ∧
      [a, b, c, d].Nodup ∧
      (∀ x ∈ [a, b, c, d], x ∈ live ∧ x ∉ F ∧ (s.m_nodes x).parent = some i) ∧
      (s.m_nodes a).boundary = (s.m_nodes i).boundary.quadNE ∧
      (s.m_nodes b).boundary = (s.m_nodes i).boundary.quadNW ∧
      (s.m_nodes c).boundary = (s.m_nodes i).boundary.quadSE ∧
      (s.m_nodes d).boundary = (s.m_nodes i).boundary.quadSW)

/-- The number of occupied slots of the bucket of node `j` that hold the reference `p`. -/
def slotCount (s : QuadTreeManager) (j p : Nat) : Nat :=
  ((List.range (s.m_nodes j).size).filter fun k => (s.m_nodes j).data k == some p).length

/-- The number of bucket slots of the nodes `ids` that hold the reference `p`. -/
def occurrences (s : QuadTreeManager) (ids : List Nat) (p : Nat) : Nat :=
  (ids.map fun j => slotCount s j p).sum

/-- A history of calls at the root of a freshly created index (capacity between 1 and 4),
with the list `L` of the points that were inserted successfully and not since removed
successfully.  No point is inserted while it is in `L`.  With `guard = true`, `update` is only
called when the positions of the points of `L` lie inside the root region. -/
inductive History (guard : Bool) (root : Nat) (region : Rect) :
    QuadTreeManager → List Nat → Prop where
  | fresh (size cap : Nat) (heap : Nat → Player) (parent : QuadtreeID) (s : QuadTreeManager) :
      1 ≤ cap → cap ≤ 4 → freshIndex size cap heap region parent = some (s, root) →
      History guard root region s []
  | insert (s : QuadTreeManager) (L : List Nat) (fuel p : Nat) (s1 : QuadTreeManager)
      (r : Bool) :
      History guard root region s L → p ∉ L → Insert fuel s (some root) p = some (s1, r) →
      History guard root region s1 (if r = true then p :: L else L)
  | remove (s : QuadTreeManager) (L : List Nat) (fuel p : Nat) (s1 : QuadTreeManager)
      (r : Bool) :
      History guard root region s L → remove fuel s (some root) p = some (s1, r) →
      History guard root region s1 (if r = true then L.erase p else L)
  | update (s : QuadTreeManager) (L : List Nat) (fuel : Nat) (s1 : QuadTreeManager) :
      History guard root region s L →
      (guard = true → ∀ q ∈ L, region.contains (s.heap q).position = true) →
      update fuel s (some root) (some root) = some s1 → History guard root region s1 L
  | move (s : QuadTreeManager) (L : List Nat) (p : Nat) (pos : Vector2) :
      History guard root region s L → History guard root region (movePlayer s p pos) L

/-- The five-point example after the host moved the point 1 to `(900, 900)`, outside the
root region. -/
def strayed : QuadTreeManager := movePlayer fivePoints 1 ⟨900, 900⟩

/-- The state after `update(root, root, dt)` on `strayed`. -/
def strayedUpdated : QuadTreeManager := (update 5 strayed (some 0) (some 0)).getD noManager

instance InRoot.decidable (s : QuadTreeManager) (T : Tree) : Decidable (InRoot s T) := by
  unfold InRoot
  infer_instance

/-- The tree that `strayedUpdated` represents. -/
def strayedTree : Tree :=
  Tree.node 0 none exampleRegion [4, 2, 3]
    (Tree.leaf 1 (some 0) exampleRegion.quadNE [])
    (Tree.leaf 2 (some 0) exampleRegion.quadNW [5])
    (Tree.leaf 3 (some 0) exampleRegion.quadSE [])
    (Tree.leaf 4 (some 0) exampleRegion.quadSW [])

/-- The heap of the reallocation example: the point with address `a` is at `(10 a, 10 a)`,
except the point 9, which is at `(500, 100)` in the northeast quadrant of the example
region. -/
def crowdHeap : Nat → Player := fun a =>
  if a = 9 then ⟨⟨500, 100⟩, ⟨0, 0⟩, none⟩ else ⟨⟨10 * a, 10 * a⟩, ⟨0, 0⟩, none⟩

/-- An index whose table of five records is used up (table size 5, capacity 4, empty free
list): the root holds the points 1 to 4, its northwest child (handle 2) the points 5 to 8 and
its northeast child (handle 1) the point 9. -/
def ninePoints : QuadTreeManager :=
  ((freshIndex 5 4 crowdHeap exampleRegion none).bind fun (s, root) =>
    insertAll 3 root s [1, 2, 3, 4, 5, 6, 7, 8, 9]).getD noManager

/-- The state `ninePoints` after the point 9 moved to `(90, 90)`, in the northwest quadrant
of the root region. -/
def nineMoved : QuadTreeManager := movePlayer ninePoints 9 ⟨90, 90⟩

/-- The tree that `ninePoints` and `nineMoved` represent. -/
def nineTree : Tree :=
  Tree.node 0 none exampleRegion [1, 2, 3, 4]
    (Tree.leaf 1 (some 0) exampleRegion.quadNE [9])
    (Tree.leaf 2 (some 0) exampleRegion.quadNW [5, 6, 7, 8])
    (Tree.leaf 3 (some 0) exampleRegion.quadSE [])
    (Tree.leaf 4 (some 0) exampleRegion.quadSW [])

/-- The heap of the second reallocation example: the points 1 to 9 are at `(10 a, 10 a)`, in
the northwest quadrant of the example region, the points from 10 on at
`(400 + 10 a, 300 + 10 a)`, in its southeast quadrant. -/
def flockHeap : Nat → Player := fun a =>
  if a ≤ 9 then ⟨⟨10 * a, 10 * a⟩, ⟨0, 0⟩, none⟩ else ⟨⟨400 + 10 * a, 300 + 10 * a⟩, ⟨0, 0⟩, none⟩

/-- A fresh index with a table of nine records, capacity 4 and the example root region. -/
def flockFresh : QuadTreeManager :=
  ((freshIndex 9 4 flockHeap exampleRegion none).getD (noManager, 0)).1

/-- The index `flockFresh` after inserting thirteen points: the root holds the points 1 to 4,
its northwest child (handle 2) the points 5 to 8, the northwest child of that child
(handle 6) the point 9, and the southeast child of the root (handle 3) the points 10 to 13.
All nine records are in use. -/
def flock : QuadTreeManager :=
  (insertAll 4 0 flockFresh [1, 2, 3, 4, 5, 6, 7, 8, 9, 10, 11, 12, 13]).getD noManager

/-- The state `flock` after the point 9 moved to `(600, 500)`, in the southeast quadrant of
the root region. -/
def flockMoved : QuadTreeManager := movePlayer flock 9 ⟨600, 500⟩

/-- The tree that `flock` and `flockMoved` represent. -/
def flockTree : Tree :=
  Tree.node 0 none exampleRegion [1, 2, 3, 4]
    (Tree.leaf 1 (some 0) exampleRegion.quadNE [])
    (Tree.node 2 (some 0) exampleRegion.quadNW [5, 6, 7, 8]
      (Tree.leaf 5 (some 2) exampleRegion.quadNW.quadNE [])
      (Tree.leaf 6 (some 2) exampleRegion.quadNW.quadNW [9])
      (Tree.leaf 7 (some 2) exampleRegion.quadNW.quadSE [])
      (Tree.leaf 8 (some 2) exampleRegion.quadNW.quadSW []))
    (Tree.leaf 3 (some 0) exampleRegion.quadSE [10, 11, 12, 13])
    (Tree.leaf 4 (some 0) exampleRegion.quadSW [])

/-- The fresh index of the reallocation example: table size 5, capacity 4, the example root
region. -/
def crowdFresh : QuadTreeManager :=
  ((freshIndex 5 4 crowdHeap exampleRegion none).getD (noManager, 0)).1

/-- The state after `update(root, root, dt)` on `sixMoved`. -/
def sixUpdated : QuadTreeManager := (update 5 sixMoved (some 0) (some 0)).getD noManager

/-- A history of `Insert` and `remove` calls at the root of a freshly created index (capacity
between 1 and 4) during which no point moves, with the list `L` of the points that were
inserted successfully and not since removed successfully. -/
inductive Stored (root : Nat) (region : Rect) : QuadTreeManager → List Nat → Prop where
  | fresh (size cap : Nat) (heap : Nat → Player) (parent : QuadtreeID) (s : QuadTreeManager) :
      1 ≤ cap → cap ≤ 4 → freshIndex size cap heap region parent = some (s, root) →
      Stored root region s []
  | insert (s : QuadTreeManager) (L : List Nat) (fuel p : Nat) (s1 : QuadTreeManager)
      (r : Bool) :
      Stored root region s L → Insert fuel s (some root) p = some (s1, r) →
      Stored root region s1 (if r = true then p :: L else L)
  | remove (s : QuadTreeManager) (L : List Nat) (fuel p : Nat) (s1 : QuadTreeManager)
      (r : Bool) :
      Stored root region s L → remove fuel s (some root) p = some (s1, r) →
      Stored root region s1 (if r = true then L.erase p else L)

/-! ## Binary32 arithmetic

The functions of `main.cpp` that compute with `float` coordinates, embedded a second time
with every arithmetic result rounded to binary32 (round to nearest, ties to even), as the
program computes them.  Stored coordinates are binary32 values. -/

/-- The number `⌊log₂ n⌋` for `n ≥ 1`, by repeated halving; `fuel` bounds the number of
halvings. -/
def log2Fuel : Nat → Nat → Nat
  | 0, _ => 0
  | fuel + 1, n => if 2 ≤ n then log2Fuel fuel (n / 2) + 1 else 0

/-- The power `2 ^ e` for an integer exponent. -/
def pow2 (e : Int) : ℚ :=
  if 0 ≤ e then ((2 ^ e.toNat : Nat) : ℚ) else 1 / ((2 ^ (-e).toNat : Nat) : ℚ)

/-- The exponent `e` with `2 ^ e ≤ q < 2 ^ (e + 1)` of a positive rational `q`. -/
def expOf (q : ℚ) : Int :=
  let e0 : Int := (log2Fuel q.num.natAbs q.num.natAbs : Int) - (log2Fuel q.den q.den : Int)
  if pow2 e0 ≤ q then e0 else e0 - 1

/-- The multiple of `2 ^ qe` nearest to `q ≥ 0`, the even multiple when two are equally near. -/
def roundAt (qe : Int) (q : ℚ) : ℚ :=
  let m := q / pow2 qe
  let k := Rat.floor m
  let k1 := if m - k < 1 / 2 then k else if 1 / 2 < m - k then k + 1
    else if k % 2 = 0 then k else k + 1
  k1 * pow2 qe

/-- Rounding to binary32: 24 significant bits, least exponent `-126` (below it the spacing
stays `2 ^ -149`), round to nearest, ties to even.  Overflow to infinity is not modelled: the
argument is taken to be below `2 ^ 128` in absolute value. -/
def round32 (q : ℚ) : ℚ :=
  if q = 0 then 0
  else if q < 0 then -roundAt (max (expOf (-q)) (-126) - 23) (-q)
  else roundAt (max (expOf q) (-126) - 23) q

/-- The centre-based `Rect::contains` in binary32: the four bounds are rounded. -/
def Rect.contains32 (r : Rect) (point : Vector2) : Bool :=
  decide (point.x ≥ round32 (r.x - r.w)) && decide (point.x < round32 (r.x + r.w)) &&
    decide (point.y ≥ round32 (r.y - r.h)) && decide (point.y < round32 (r.y + r.h))

/-- The method `subdivide` in binary32: the half-extents `w / 2`, `h / 2` and the child
centres are rounded. -/
def subdivide32 (s : QuadTreeManager) (id : Nat) : Option QuadTreeManager :=
  let boundary := (s.m_nodes id).boundary
  let x := boundary.x
  let y := boundary.y
  let w := boundary.w
  let h := boundary.h
  (Create s ⟨round32 (x + round32 (w / 2)), round32 (y - round32 (h / 2)),
    round32 (w / 2), round32 (h / 2)⟩ (some id)).bind fun (s1, northeast) =>
  (Create s1 ⟨round32 (x - round32 (w / 2)), round32 (y - round32 (h / 2)),
    round32 (w / 2), round32 (h / 2)⟩ (some id)).bind fun (s2, northwest) =>
  (Create s2 ⟨round32 (x + round32 (w / 2)), round32 (y + round32 (h / 2)),
    round32 (w / 2), round32 (h / 2)⟩ (some id)).bind fun (s3, southeast) =>
  (Create s3 ⟨round32 (x - round32 (w / 2)), round32 (y + round32 (h / 2)),
    round32 (w / 2), round32 (h / 2)⟩ (some id)).bind fun (s4, southwest) =>
    some (setNode s4 id
      { s4.m_nodes id with
        northwest := some northwest
        northeast := some northeast
        southwest := some southwest
        southeast := some southeast
        divided := true })

/-- The method `Insert` in binary32: as `Insert`, with `Rect.contains32` and `subdivide32`. -/
def Insert32 : Nat → QuadTreeManager → QuadtreeID → Nat → Option (QuadTreeManager × Bool)
  | 0, _, _, _ => none
  | fuel + 1, s, id, player =>
    match resolve s id with
    | none => none
    | some i =>
      let node := s.m_nodes i
      if !node.boundary.contains32 (s.heap player).position then some (s, false)
      else if node.size < s.m_capacity then
        if 4 ≤ node.size then none
        else
          some ({ s with
                  m_nodes := setAt s.m_nodes i
                    { node with data := setAt node.data node.size (some player)
                                size := node.size + 1 }
                  heap := setAt s.heap player { s.heap player with id := some i } }, true)
      else
        (if !node.divided then subdivide32 s i else some s).bind fun s0 =>
        (Insert32 fuel s0 (s0.m_nodes i).northeast player).bind fun (s1, r1) =>
        if r1 then some (s1, true)
        else if s1.m_size ≠ s0.m_size then none
        else
        (Insert32 fuel s1 (s1.m_nodes i).northwest player).bind fun (s2, r2) =>
        if r2 then some (s2, true)
        else if s2.m_size ≠ s0.m_size then none
        else
        (Insert32 fuel s2 (s2.m_nodes i).southeast player).bind fun (s3, r3) =>
        if r3 then some (s3, true)
        else if s3.m_size ≠ s0.m_size then none
        else
        (Insert32 fuel s3 (s3.m_nodes i).southwest player).bind fun (s4, r4) =>
        if r4 then some (s4, true)
        else some (s4, false)

/-- Insert the points of the list one after the other at the handle `root`, in binary32. -/
def insertAll32 (fuel : Nat) (root : Nat) : QuadTreeManager → List Nat → Option QuadTreeManager
  | s, [] => some s
  | s, p :: rest =>
    (Insert32 fuel s (some root) p).bind fun (s1, _) => insertAll32 fuel root s1 rest

/-- The values returned by `Insert(root, p)`, in binary32, for the points of the list one
after the other. -/
def insertResults32 (fuel : Nat) (root : Nat) : QuadTreeManager → List Nat → List (Option Bool)
  | _, [] => []
  | s, p :: rest =>
    match Insert32 fuel s (some root) p with
    | none => [none]
    | some (s1, r) => some r :: insertResults32 fuel root s1 rest

/-- A root region at the end of the range in which binary32 holds every integer. -/
def edgeRegion : Rect := ⟨16777216, 0, 2, 2⟩

/-- The heap of the rounding example: the point 5 is at `(16777215, -1)`, every other point at
`(16777216, 0)`. -/
def edgeHeap : Nat → Player := fun a =>
  if a = 5 then ⟨⟨16777215, -1⟩, ⟨0, 0⟩, none⟩ else ⟨⟨16777216, 0⟩, ⟨0, 0⟩, none⟩

/-- The index of the rounding example: table size 16, capacity 4, root region `edgeRegion`,
after inserting the points 1 to 4, which the root holds. -/
def edgeFour : QuadTreeManager :=
  ((freshIndex 16 4 edgeHeap edgeRegion none).bind fun (s, root) =>
    insertAll32 1 root s [1, 2, 3, 4]).getD noManager

/-- The number of stored entries that lie outside the region of the node that holds them. -/
def Tree.out (pos : Nat → Vector2) : Tree → Nat
  | Tree.leaf _ _ r l => l.countP fun p => !r.contains (pos p)
  | Tree.node _ _ r l a b c d =>
    (l.countP fun p => !r.contains (pos p)) +
      (Tree.out pos a + Tree.out pos b + Tree.out pos c + Tree.out pos d)

/-- The number of entries outside the hole that lie outside the region of their node. -/
def Ctx.out (pos : Nat → Vector2) : Ctx → Nat
  | Ctx.hole => 0
  | Ctx.ne _ _ r l C b c d =>
    (l.countP fun p => !r.contains (pos p)) +
      (Ctx.out pos C + Tree.out pos b + Tree.out pos c + Tree.out pos d)
  | Ctx.nw _ _ r l a C c d =>
    (l.countP fun p => !r.contains (pos p)) +
      (Tree.out pos a + Ctx.out pos C + Tree.out pos c + Tree.out pos d)
  | Ctx.se _ _ r l a b C d =>
    (l.countP fun p => !r.contains (pos p)) +
      (Tree.out pos a + Tree.out pos b + Ctx.out pos C + Tree.out pos d)
  | Ctx.sw _ _ r l a b c C =>
    (l.countP fun p => !r.contains (pos p)) +
      (Tree.out pos a + Tree.out pos b + Tree.out pos c + Ctx.out pos C)

/-- The number of nodes on the path from the root to the hole. -/
def Ctx.depth : Ctx → Nat
  | Ctx.hole => 0
  | Ctx.ne _ _ _ _ C _ _ _ => Ctx.depth C + 1
  | Ctx.nw _ _ _ _ _ C _ _ => Ctx.depth C + 1
  | Ctx.se _ _ _ _ _ _ C _ => Ctx.depth C + 1
  | Ctx.sw _ _ _ _ _ _ _ C => Ctx.depth C + 1

/-- Put the context `K` into the hole of a context. -/
def Ctx.comp : Ctx → Ctx → Ctx
  | Ctx.hole, K => K
  | Ctx.ne i par r l C b c d, K => Ctx.ne i par r l (Ctx.comp C K) b c d
  | Ctx.nw i par r l a C c d, K => Ctx.nw i par r l a (Ctx.comp C K) c d
  | Ctx.se i par r l a b C d, K => Ctx.se i par r l a b (Ctx.comp C K) d
  | Ctx.sw i par r l a b c C, K => Ctx.sw i par r l a b c (Ctx.comp C K)

/-- Two contexts describe the same path: the same turns through nodes with the same handles,
and the subtrees beside the path have the same root handles. -/
def Ctx.Like : Ctx → Ctx → Prop
  | Ctx.hole, Ctx.hole => True
  | Ctx.ne i _ _ _ C b c d, Ctx.ne i1 _ _ _ C1 b1 c1 d1 =>
    i1 = i ∧ Ctx.Like C C1 ∧ b1.id = b.id ∧ c1.id = c.id ∧ d1.id = d.id
  | Ctx.nw i _ _ _ a C c d, Ctx.nw i1 _ _ _ a1 C1 c1 d1 =>
    i1 = i ∧ a1.id = a.id ∧ Ctx.Like C C1 ∧ c1.id = c.id ∧ d1.id = d.id
  | Ctx.se i _ _ _ a b C d, Ctx.se i1 _ _ _ a1 b1 C1 d1 =>
    i1 = i ∧ a1.id = a.id ∧ b1.id = b.id ∧ Ctx.Like C C1 ∧ d1.id = d.id
  | Ctx.sw i _ _ _ a b c C, Ctx.sw i1 _ _ _ a1 b1 c1 C1 =>
    i1 = i ∧ a1.id = a.id ∧ b1.id = b.id ∧ c1.id = c.id ∧ Ctx.Like C C1
  | _, _ => False

/-- The positions of the points in the state `s`. -/
@[reducible] def posOf (s : QuadTreeManager) : Nat → Vector2 := fun q => (s.heap q).position

/-! # Properties -/

/-! ## Tables and handles -/

@[simp] theorem setAt_same {α : Type} (f : Nat → α) (a : Nat) (v : α) : setAt f a v a = v := by
  simp [setAt]

theorem setAt_ne {α : Type} (f : Nat → α) {a b : Nat} (v : α) (h : b ≠ a) :
    setAt f a v b = f b := by
  simp [setAt, h]

theorem resolve_some {s : QuadTreeManager} {i : Nat} (h : i < s.m_size) :
    resolve s (some i) = some i := by
  simp [resolve, h]

theorem resolve_eq_some {s : QuadTreeManager} {id : QuadtreeID} {i : Nat}
    (h : resolve s id = some i) : id = some i ∧ i < s.m_size := by
  cases id with
  | none => simp [resolve] at h
  | some j =>
    simp only [resolve] at h
    split at h
    · simp only [Option.some.injEq] at h; subst h; exact ⟨rfl, by assumption⟩
    · simp at h

/-! ## Geometry of regions -/

theorem Rect.contains_iff (r : Rect) (p : Vector2) :
    r.contains p = true ↔
      r.x - r.w ≤ p.x ∧ p.x < r.x + r.w ∧ r.y - r.h ≤ p.y ∧ p.y < r.y + r.h := by
  simp [Rect.contains, and_assoc]

theorem Rect.intersects_iff (r range : Rect) :
    r.intersects range = true ↔
      range.x - range.w ≤ r.x + r.w ∧ r.x - r.w ≤ range.x + range.w ∧
      range.y - range.h ≤ r.y + r.h ∧ r.y - r.h ≤ range.y + range.h := by
  simp [Rect.intersects, and_assoc]

/-- A point of the region lies in one of the four quadrants. -/
theorem Rect.contains_quad (r : Rect) (p : Vector2) (h : r.contains p = true) :
    r.quadNE.contains p = true ∨ r.quadNW.contains p = true ∨
    r.quadSE.contains p = true ∨ r.quadSW.contains p = true := by
  simp only [Rect.contains_iff, Rect.quadNE, Rect.quadNW, Rect.quadSE, Rect.quadSW] at h ⊢
  obtain ⟨h1, h2, h3, h4⟩ := h
  rcases le_or_lt r.x p.x with hx | hx <;> rcases le_or_lt r.y p.y with hy | hy
  · right; right; left; refine ⟨?_, ?_, ?_, ?_⟩ <;> linarith
  · left; refine ⟨?_, ?_, ?_, ?_⟩ <;> linarith
  · right; right; right; refine ⟨?_, ?_, ?_, ?_⟩ <;> linarith
  · right; left; refine ⟨?_, ?_, ?_, ?_⟩ <;> linarith

theorem Rect.quadNE_sub (r : Rect) (p : Vector2) (h : r.quadNE.contains p = true) :
    r.contains p = true := by
  simp only [Rect.contains_iff, Rect.quadNE] at h ⊢
  obtain ⟨h1, h2, h3, h4⟩ := h
  refine ⟨?_, ?_, ?_, ?_⟩ <;> linarith

theorem Rect.quadNW_sub (r : Rect) (p : Vector2) (h : r.quadNW.contains p = true) :
    r.contains p = true := by
  simp only [Rect.contains_iff, Rect.quadNW] at h ⊢
  obtain ⟨h1, h2, h3, h4⟩ := h
  refine ⟨?_, ?_, ?_, ?_⟩ <;> linarith

theorem Rect.quadSE_sub (r : Rect) (p : Vector2) (h : r.quadSE.contains p = true) :
    r.contains p = true := by
  simp only [Rect.contains_iff, Rect.quadSE] at h ⊢
  obtain ⟨h1, h2, h3, h4⟩ := h
  refine ⟨?_, ?_, ?_, ?_⟩ <;> linarith

theorem Rect.quadSW_sub (r : Rect) (p : Vector2) (h : r.quadSW.contains p = true) :
    r.contains p = true := by
  simp only [Rect.contains_iff, Rect.quadSW] at h ⊢
  obtain ⟨h1, h2, h3, h4⟩ := h
  refine ⟨?_, ?_, ?_, ?_⟩ <;> linarith

/-- A rectangle that contains a point of a region intersects the region. -/
theorem Rect.intersects_of_contains (r range : Rect) (p : Vector2)
    (h1 : r.contains p = true) (h2 : range.contains p = true) :
    r.intersects range = true := by
  simp only [Rect.contains_iff] at h1 h2
  simp only [Rect.intersects_iff]
  obtain ⟨a1, a2, a3, a4⟩ := h1
  obtain ⟨b1, b2, b3, b4⟩ := h2
  refine ⟨?_, ?_, ?_, ?_⟩ <;> linarith

/-! ## Frames: records that an operation leaves alone -/

theorem Frame.rfl_frame (s : QuadTreeManager) (K : List Nat) : Frame s s K :=
  ⟨le_refl _, rfl, fun _ _ _ => rfl⟩

theorem Frame.mono {s s1 : QuadTreeManager} {K K1 : List Nat} (h : Frame s s1 K)
    (hK : ∀ x ∈ K, x ∈ K1) : Frame s s1 K1 :=
  ⟨h.size_le, h.cap_eq, fun j hj hn => h.nodes_eq j hj (fun hm => hn (hK j hm))⟩

theorem Frame.comp {s s1 s2 : QuadTreeManager} {K : List Nat} (h1 : Frame s s1 K)
    (h2 : Frame s1 s2 K) : Frame s s2 K :=
  ⟨le_trans h1.size_le h2.size_le, h2.cap_eq.trans h1.cap_eq, fun j hj hn => by
    rw [h2.nodes_eq j (lt_of_lt_of_le hj h1.size_le) hn, h1.nodes_eq j hj hn]⟩

theorem NodeRep.keep {s s1 : QuadTreeManager} {i : Nat} {p : QuadtreeID} {r : Rect}
    {l : List Nat} {d : Bool} (h : NodeRep s i p r l d) (hs : s.m_size ≤ s1.m_size)
    (he : s1.m_nodes i = s.m_nodes i) : NodeRep s1 i p r l d := by
  unfold NodeRep at h ⊢
  rw [he]
  exact ⟨lt_of_lt_of_le h.1 hs, h.2⟩

theorem Rep.id_lt {s : QuadTreeManager} {t : Tree} (h : Rep s t) : t.id < s.m_size := by
  cases t with
  | leaf i p r l => exact h.1
  | node i p r l a b c d => exact h.1.1

theorem Tree.id_mem_ids (t : Tree) : t.id ∈ t.ids := by
  cases t <;> simp [Tree.id, Tree.ids]

theorem Rep.ids_lt {s : QuadTreeManager} {t : Tree} (h : Rep s t) :
    ∀ x ∈ t.ids, x < s.m_size := by
  induction t with
  | leaf i p r l =>
    intro x hx
    simp only [Tree.ids, List.mem_singleton] at hx
    subst hx; exact h.1
  | node i p r l a b c d iha ihb ihc ihd =>
    intro x hx
    obtain ⟨h0, -, -, -, -, ha, hb, hc, hd⟩ := h
    simp only [Tree.ids, List.mem_cons, List.mem_append] at hx
    rcases hx with rfl | ((hx | hx) | hx) | hx
    · exact h0.1
    · exact iha ha x hx
    · exact ihb hb x hx
    · exact ihc hc x hx
    · exact ihd hd x hx

/-- A representation only depends on the records of the tree's own handles. -/
theorem Rep.congr_nodes {s s1 : QuadTreeManager} {t : Tree} (h : Rep s t)
    (hs : s.m_size ≤ s1.m_size) (he : ∀ x ∈ t.ids, s1.m_nodes x = s.m_nodes x) :
    Rep s1 t := by
  induction t with
  | leaf i p r l => exact NodeRep.keep h hs (he i (by simp [Tree.ids]))
  | node i p r l a b c d iha ihb ihc ihd =>
    obtain ⟨h0, h1, h2, h3, h4, ha, hb, hc, hd⟩ := h
    have hi : s1.m_nodes i = s.m_nodes i := he i (by simp [Tree.ids])
    refine ⟨NodeRep.keep h0 hs hi, by rw [hi]; exact h1, by rw [hi]; exact h2,
      by rw [hi]; exact h3, by rw [hi]; exact h4, iha ha ?_, ihb hb ?_, ihc hc ?_, ihd hd ?_⟩
    all_goals
      intro x hx
      apply he
      simp only [Tree.ids, List.mem_cons, List.mem_append]
      tauto

theorem Rep.keep_rep {s s1 : QuadTreeManager} {t : Tree} {K : List Nat} (h : Rep s t)
    (hf : Frame s s1 K) (hd : ∀ x ∈ t.ids, x ∉ K) : Rep s1 t :=
  h.congr_nodes hf.size_le (fun x hx => hf.nodes_eq x (h.ids_lt x hx) (hd x hx))

theorem FreeChain.lt {s : QuadTreeManager} {h : QuadtreeID} {F : List Nat}
    (hF : FreeChain s h F) : ∀ x ∈ F, x < s.m_size := by
  induction F generalizing h with
  | nil => intro x hx; simp at hx
  | cons a l ih =>
    intro x hx
    obtain ⟨-, h2, h3⟩ := hF
    simp only [List.mem_cons] at hx
    rcases hx with rfl | hx
    · exact h2
    · exact ih h3 x hx

/-- A free chain only depends on the records of its own handles. -/
theorem FreeChain.congr_chain {s s1 : QuadTreeManager} {h : QuadtreeID} {F : List Nat}
    (hF : FreeChain s h F) (hs : s.m_size ≤ s1.m_size)
    (he : ∀ x ∈ F, s1.m_nodes x = s.m_nodes x) : FreeChain s1 h F := by
  induction F generalizing h with
  | nil => exact hF
  | cons a l ih =>
    obtain ⟨h1, h2, h3⟩ := hF
    refine ⟨h1, lt_of_lt_of_le h2 hs, ?_⟩
    rw [he a (by simp)]
    exact ih h3 (fun x hx => he x (by simp [hx]))

/-! ## The arena: `addfree`, `allocate`, `Create` -/

theorem addfreeLoop_apply (nodes : Nat → QuadTreeNode) (i n j : Nat) :
    addfreeLoop nodes i n j =
      if i ≤ j ∧ j < i + n then { nodes j with next := some (j + 1) } else nodes j := by
  induction n generalizing nodes i with
  | zero =>
    have h : ¬ (i ≤ j ∧ j < i + 0) := by omega
    rw [if_neg h, addfreeLoop]
  | succ n ih =>
    rw [addfreeLoop, ih]
    by_cases hj : j = i
    · subst hj
      simp [setAt]
    · rw [setAt_ne _ _ hj]
      by_cases h1 : i + 1 ≤ j ∧ j < i + 1 + n
      · have h2 : i ≤ j ∧ j < i + (n + 1) := by omega
        simp [h1, h2]
      · have h2 : ¬ (i ≤ j ∧ j < i + (n + 1)) := by omega
        simp [h1, h2]

/-- A run of records `a, a + 1, .., a + k - 1`, each pointing to the next and the last one to
`Null`, is a free chain. -/
theorem FreeChain.range (s : QuadTreeManager) (k a : Nat)
    (h : ∀ j, a ≤ j → j < a + k →
      j < s.m_size ∧ (s.m_nodes j).next = if j + 1 < a + k then some (j + 1) else none) :
    FreeChain s (if 0 < k then some a else none) (List.range' a k) := by
  induction k generalizing a with
  | zero => simp [FreeChain]
  | succ k ih =>
    simp only [Nat.zero_lt_succ, if_true, List.range'_succ, FreeChain]
    obtain ⟨h1, h2⟩ := h a (le_refl _) (by omega)
    refine ⟨trivial, h1, ?_⟩
    rw [h2]
    have := ih (a + 1) (fun j hj1 hj2 => by
      have := h j (by omega) (by omega)
      have e : a + 1 + k = a + (k + 1) := by omega
      rw [e]; exact this)
    by_cases hk : 0 < k
    · have e : a + 1 < a + (k + 1) := by omega
      simpa [hk, e] using this
    · have hk0 : k = 0 := by omega
      subst hk0
      simp [FreeChain]

/-- The table that `allocate` builds. -/
theorem allocate_eq (s : QuadTreeManager) (hsz : 0 < s.m_size) :
    allocate s = some
      { s with
        m_nodes := setAt
          (addfreeLoop (fun i => if i < s.m_size then s.m_nodes i else zeroNode) s.m_size
            (s.m_size * 2 - 1 - s.m_size)) (s.m_size * 2 - 1)
          { addfreeLoop (fun i => if i < s.m_size then s.m_nodes i else zeroNode) s.m_size
              (s.m_size * 2 - 1 - s.m_size) (s.m_size * 2 - 1) with next := s.m_freeID }
        m_size := s.m_size * 2
        m_freeID := some s.m_size } := by
  have hne : ¬ (s.m_size * 2 = 0) := by omega
  simp only [allocate, addfree, hne, if_false]

/-- What `allocate` does when the free list is empty. -/
theorem allocate_spec (s : QuadTreeManager) (hsz : 0 < s.m_size) (hfree : s.m_freeID = none) :
    ∃ s1, allocate s = some s1 ∧ s1.m_size = s.m_size * 2 ∧ s1.m_capacity = s.m_capacity ∧
      s1.heap = s.heap ∧ s1.m_count = s.m_count ∧ s1.m_freeID = some s.m_size ∧
      (∀ j, j < s.m_size → s1.m_nodes j = s.m_nodes j) ∧
      FreeChain s1 s1.m_freeID (List.range' s.m_size s.m_size) := by
  refine ⟨_, allocate_eq s hsz, rfl, rfl, rfl, rfl, rfl, ?_, ?_⟩
  · intro j hj
    have h1 : j ≠ s.m_size * 2 - 1 := by omega
    simp only []
    rw [setAt_ne _ _ h1, addfreeLoop_apply]
    have h2 : ¬ (s.m_size ≤ j ∧ j < s.m_size + (s.m_size * 2 - 1 - s.m_size)) := by omega
    simp [h2, hj]
  · have := FreeChain.range
      { s with
        m_nodes := setAt
          (addfreeLoop (fun i => if i < s.m_size then s.m_nodes i else zeroNode) s.m_size
            (s.m_size * 2 - 1 - s.m_size)) (s.m_size * 2 - 1)
          { addfreeLoop (fun i => if i < s.m_size then s.m_nodes i else zeroNode) s.m_size
              (s.m_size * 2 - 1 - s.m_size) (s.m_size * 2 - 1) with next := s.m_freeID }
        m_size := s.m_size * 2
        m_freeID := some s.m_size } s.m_size s.m_size (fun j hj1 hj2 => by
        refine ⟨by simp only []; omega, ?_⟩
        simp only []
        by_cases hl : j = s.m_size * 2 - 1
        · subst hl
          have e : ¬ (s.m_size * 2 - 1 + 1 < s.m_size + s.m_size) := by omega
          simp [e, hfree]
        · rw [setAt_ne _ _ hl, addfreeLoop_apply]
          have h2 : s.m_size ≤ j ∧ j < s.m_size + (s.m_size * 2 - 1 - s.m_size) := by omega
          have e : j + 1 < s.m_size + s.m_size := by omega
          simp [h2, e])
    simpa [hsz] using this

/-- The result of `Create` once the free list is known to be non-empty (after growth). -/
theorem Create_eq (s s1 : QuadTreeManager) (b : Rect) (par : QuadtreeID) (id : Nat)
    (h1 : (if s.m_freeID = none then allocate s else some s) = some s1)
    (h2 : resolve s1 s1.m_freeID = some id) (hc : s1.m_capacity ≤ 4) :
    Create s b par = some
      ({ s1 with
          m_freeID := (s1.m_nodes id).next
          m_nodes := setAt s1.m_nodes id
            { s1.m_nodes id with
              parent := par
              divided := false
              boundary := b
              first := none
              next := none
              size := 0
              data := fun i => if i < s1.m_capacity then none else (s1.m_nodes id).data i }
          m_count := s1.m_count + 1 }, id) := by
  have hcap : ¬ (4 < s1.m_capacity) := by omega
  simp only [Create, h1, h2, hcap, if_false]

theorem Create_spec (s : QuadTreeManager) (b : Rect) (par : QuadtreeID) (F : List Nat)
    (hF : FreeChain s s.m_freeID F) (hnd : F.Nodup) (hsz : 0 < s.m_size)
    (hcap : s.m_capacity ≤ 4) :
    ∃ s1 id F1, Create s b par = some (s1, id) ∧ CreatePost s b par F s1 id F1 := by
  have hcap4 : ¬ (4 < s.m_capacity) := by omega
  cases F with
  | nil =>
    have hfree : s.m_freeID = none := hF
    obtain ⟨s0, h0, hs0, hc0, hh0, hn0, hf0, he0, hch0⟩ := allocate_spec s hsz hfree
    have hlt : s.m_size < s0.m_size := by omega
    have hres : resolve s0 s0.m_freeID = some s.m_size := by
      rw [hf0]; exact resolve_some hlt
    have hcap0 : ¬ (4 < s0.m_capacity) := by omega
    have hrange : List.range' s.m_size s.m_size = s.m_size :: List.range' (s.m_size + 1) (s.m_size - 1) := by
      obtain ⟨k, hk⟩ : ∃ k, s.m_size = k + 1 := ⟨s.m_size - 1, by omega⟩
      rw [hk]
      simp [List.range'_succ]
    rw [hrange, hf0] at hch0
    obtain ⟨-, -, hch1⟩ := hch0
    have hnd1 : (s.m_size :: List.range' (s.m_size + 1) (s.m_size - 1)).Nodup := by
      rw [← hrange]; exact List.nodup_range' _ _
    refine ⟨_, s.m_size, List.range' (s.m_size + 1) (s.m_size - 1),
      Create_eq s s0 b par _ (by simp only [hfree, if_true, h0]) hres (by omega), ?_⟩
    · refine ⟨?_, hnd1, Or.inr (le_refl _), ?_, by simp only []; exact hlt,
        by simp only []; omega, by simp only []; exact hc0, by simp only []; exact hh0,
        by simp only []; rw [hn0], ?_, ?_, fun _ => ⟨rfl, by simp only []; exact hs0⟩, ?_⟩
      · simp only []
        refine FreeChain.congr_chain (s := s0) hch1 (le_refl _) ?_
        intro x hx
        have : x ≠ s.m_size := by
          intro e; subst e
          exact (List.nodup_cons.1 hnd1).1 hx
        simp only []
        rw [setAt_ne _ _ this]
      · intro x hx
        right
        have := (List.mem_range'_1.1 hx).1
        omega
      · intro j hj hne
        simp only []
        rw [setAt_ne _ _ hne, he0 j hj]
      · refine ⟨by simp only []; exact hlt, ?_, ?_, ?_, ?_, ?_⟩ <;> simp
      · intro a F0 h; cases h
  | cons a F0 =>
    obtain ⟨h1, h2, h3⟩ := hF
    have hne : ¬ (s.m_freeID = none) := by rw [h1]; simp
    have hres : resolve s s.m_freeID = some a := by rw [h1]; exact resolve_some h2
    have hna : a ∉ F0 := (List.nodup_cons.1 hnd).1
    refine ⟨_, a, F0, Create_eq s s b par _ (by simp only [hne, if_false]) hres hcap, ?_⟩
    · refine ⟨?_, hnd, Or.inl (by simp), fun x hx => Or.inl (by simp [hx]),
        by simp only []; exact h2, le_refl _, rfl, rfl, rfl, ?_, ?_, ?_, ?_⟩
      · simp only []
        refine FreeChain.congr_chain (s := s) h3 (le_refl _) ?_
        intro x hx
        have : x ≠ a := by intro e; subst e; exact hna hx
        simp only []
        rw [setAt_ne _ _ this]
      · intro j _ hne
        simp only []
        rw [setAt_ne _ _ hne]
      · refine ⟨by simp only []; exact h2, ?_, ?_, ?_, ?_, ?_⟩ <;> simp
      · intro h; cases h
      · intro a1 F1 h
        simp only [List.cons.injEq] at h
        exact ⟨h.1, h.2, rfl⟩

/-- A live record (inside the table and not free) stays live across `Create` and is not the
record that `Create` returns. -/
theorem CreatePost.live {s s1 : QuadTreeManager} {b : Rect} {par : QuadtreeID}
    {F F1 : List Nat} {id : Nat} (h : CreatePost s b par F s1 id F1) {y : Nat}
    (hy : y < s.m_size) (hyF : y ∉ F) : y < s1.m_size ∧ y ∉ F1 ∧ y ≠ id := by
  refine ⟨lt_of_lt_of_le hy h.size_le, ?_, ?_⟩
  · intro hm
    rcases h.free_from y hm with h1 | h1
    · exact hyF h1
    · omega
  · intro e
    subst e
    rcases h.id_from with h1 | h1
    · exact hyF h1
    · omega

theorem CreatePost.id_live {s s1 : QuadTreeManager} {b : Rect} {par : QuadtreeID}
    {F F1 : List Nat} {id : Nat} (h : CreatePost s b par F s1 id F1) :
    id < s1.m_size ∧ id ∉ F1 :=
  ⟨h.id_lt, (List.nodup_cons.1 h.nodup).1⟩

theorem CreatePost.to_frame {s s1 : QuadTreeManager} {b : Rect} {par : QuadtreeID}
    {F F1 : List Nat} {id : Nat} (h : CreatePost s b par F s1 id F1) :
    Frame s s1 [id] :=
  ⟨h.size_le, h.cap_eq, fun j hj hn => h.nodes_eq j hj (by simpa using hn)⟩

theorem subdivide_spec (s : QuadTreeManager) (i : Nat) (F : List Nat)
    (hF : FreeChain s s.m_freeID F) (hnd : F.Nodup) (hi : i < s.m_size) (hiF : i ∉ F)
    (hcap : s.m_capacity ≤ 4) :
    ∃ s1 a b c d F1, subdivide s i = some s1 ∧ SubdividePost s i F s1 a b c d F1 := by
  obtain ⟨s1, a, F1, e1, p1⟩ := Create_spec s (s.m_nodes i).boundary.quadNE (some i) F hF hnd
    (by omega) hcap
  obtain ⟨s2, b, F2, e2, p2⟩ := Create_spec s1 (s.m_nodes i).boundary.quadNW (some i) F1 p1.free
    (List.nodup_cons.1 p1.nodup).2 (by have := p1.size_le; omega) (by rw [p1.cap_eq]; exact hcap)
  obtain ⟨s3, c, F3, e3, p3⟩ := Create_spec s2 (s.m_nodes i).boundary.quadSE (some i) F2 p2.free
    (List.nodup_cons.1 p2.nodup).2 (by have := p1.size_le; have := p2.size_le; omega)
    (by rw [p2.cap_eq, p1.cap_eq]; exact hcap)
  obtain ⟨s4, d, F4, e4, p4⟩ := Create_spec s3 (s.m_nodes i).boundary.quadSW (some i) F3 p3.free
    (List.nodup_cons.1 p3.nodup).2
    (by have := p1.size_le; have := p2.size_le; have := p3.size_le; omega)
    (by rw [p3.cap_eq, p2.cap_eq, p1.cap_eq]; exact hcap)
  -- liveness of `i` and of the new children through the four calls
  obtain ⟨i1, iF1, ia⟩ := p1.live hi hiF
  obtain ⟨i2, iF2, ib⟩ := p2.live i1 iF1
  obtain ⟨i3, iF3, ic⟩ := p3.live i2 iF2
  obtain ⟨i4, iF4, id_⟩ := p4.live i3 iF3
  obtain ⟨a1, aF1⟩ := p1.id_live
  obtain ⟨a2, aF2, ab⟩ := p2.live a1 aF1
  obtain ⟨a3, aF3, ac⟩ := p3.live a2 aF2
  obtain ⟨a4, aF4, ad⟩ := p4.live a3 aF3
  obtain ⟨b2, bF2⟩ := p2.id_live
  obtain ⟨b3, bF3, bc⟩ := p3.live b2 bF2
  obtain ⟨b4, bF4, bd⟩ := p4.live b3 bF3
  obtain ⟨c3, cF3⟩ := p3.id_live
  obtain ⟨c4, cF4, cd⟩ := p4.live c3 cF3
  obtain ⟨d4, dF4⟩ := p4.id_live
  have hsub : subdivide s i = some (setNode s4 i
      { s4.m_nodes i with
        northwest := some b
        northeast := some a
        southwest := some d
        southeast := some c
        divided := true }) := by
    simp only [subdivide, Rect.quadNE, Rect.quadNW, Rect.quadSE, Rect.quadSW] at e1 e2 e3 e4 ⊢
    simp only [e1, e2, e3, e4, Option.some_bind]
  have hi4 : s4.m_nodes i = s.m_nodes i := by
    rw [p4.nodes_eq i i3 id_, p3.nodes_eq i i2 ic, p2.nodes_eq i i1 ib, p1.nodes_eq i hi ia]
  have from1 : ∀ x, x ∈ F1 ∨ s1.m_size ≤ x → x ∈ F ∨ s.m_size ≤ x := by
    intro x hx
    rcases hx with hx | hx
    · exact p1.free_from x hx
    · right; have := p1.size_le; omega
  have from2 : ∀ x, x ∈ F2 ∨ s2.m_size ≤ x → x ∈ F ∨ s.m_size ≤ x := by
    intro x hx
    apply from1
    rcases hx with hx | hx
    · exact p2.free_from x hx
    · right; have := p2.size_le; omega
  have from3 : ∀ x, x ∈ F3 ∨ s3.m_size ≤ x → x ∈ F ∨ s.m_size ≤ x := by
    intro x hx
    apply from2
    rcases hx with hx | hx
    · exact p3.free_from x hx
    · right; have := p3.size_le; omega
  refine ⟨_, a, b, c, d, F4, hsub, ?_⟩
  refine
    { free := ?_, nodup := ?_, from_free := ?_, size_le := ?_, cap_eq := ?_, heap_eq := ?_,
      nodes_eq := ?_, node_eq := ?_, repNE := ?_, repNW := ?_, repSE := ?_, repSW := ?_ }
  · refine FreeChain.congr_chain (s := s4) p4.free (le_refl _) ?_
    intro x hx
    have : x ≠ i := by intro e; subst e; exact iF4 hx
    simp only [setNode]
    rw [setAt_ne _ _ this]
  · have hd := p4.nodup
    simp only [List.nodup_cons, List.mem_cons, not_or] at hd ⊢
    exact ⟨⟨ab, ac, ad, aF4⟩, ⟨bc, bd, bF4⟩, ⟨cd, cF4⟩, hd.1, hd.2⟩
  · intro x hx
    simp only [List.mem_cons] at hx
    rcases hx with rfl | rfl | rfl | rfl | hx
    · exact p1.id_from
    · exact from1 _ p2.id_from
    · exact from2 _ p3.id_from
    · exact from3 _ p4.id_from
    · exact from3 _ (p4.free_from x hx)
  · simp only [setNode]
    exact le_trans p1.size_le (le_trans p2.size_le (le_trans p3.size_le p4.size_le))
  · simp only [setNode]
    rw [p4.cap_eq, p3.cap_eq, p2.cap_eq, p1.cap_eq]
  · simp only [setNode]
    rw [p4.heap_eq, p3.heap_eq, p2.heap_eq, p1.heap_eq]
  · intro j hj hn hji
    simp only [List.mem_cons, List.mem_singleton, List.not_mem_nil, or_false, not_or] at hn
    simp only [setNode]
    have j1 : j < s1.m_size := lt_of_lt_of_le hj p1.size_le
    have j2 : j < s2.m_size := lt_of_lt_of_le j1 p2.size_le
    have j3 : j < s3.m_size := lt_of_lt_of_le j2 p3.size_le
    rw [setAt_ne _ _ hji, p4.nodes_eq j j3 hn.2.2.2, p3.nodes_eq j j2 hn.2.2.1,
      p2.nodes_eq j j1 hn.2.1, p1.nodes_eq j hj hn.1]
  · simp only [setNode, setAt_same, hi4]
  · refine NodeRep.keep (s := s1) p1.fresh ?_ ?_
    · simp only [setNode]
      exact le_trans p2.size_le (le_trans p3.size_le p4.size_le)
    · simp only [setNode]
      rw [setAt_ne _ _ (Ne.symm ia), p4.nodes_eq a a3 ad, p3.nodes_eq a a2 ac,
        p2.nodes_eq a a1 ab]
  · refine NodeRep.keep (s := s2) p2.fresh ?_ ?_
    · simp only [setNode]
      exact le_trans p3.size_le p4.size_le
    · simp only [setNode]
      rw [setAt_ne _ _ (Ne.symm ib), p4.nodes_eq b b3 bd, p3.nodes_eq b b2 bc]
  · refine NodeRep.keep (s := s3) p3.fresh ?_ ?_
    · simp only [setNode]
      exact p4.size_le
    · simp only [setNode]
      rw [setAt_ne _ _ (Ne.symm ic), p4.nodes_eq c c3 cd]
  · refine NodeRep.keep (s := s4) p4.fresh (le_refl _) ?_
    simp only [setNode]
    rw [setAt_ne _ _ (Ne.symm id_)]

/-! ## Insertion on the represented tree -/

theorem Tree.insertT_reject (cap : Nat) (pos : Vector2) (p : Nat) (f : Nat × Nat × Nat × Nat)
    (t : Tree) (h : t.boundary.contains pos = false) :
    Tree.insertT cap pos p f t = (t, none) := by
  cases t <;> simp_all [Tree.insertT, Tree.boundary]

/-- With capacity at least 1, insertion is accepted exactly when the region of the node
contains the point. -/
theorem Tree.insertT_isSome (cap : Nat) (pos : Vector2) (p : Nat) (f : Nat × Nat × Nat × Nat)
    (t : Tree) (hs : t.Shape cap) :
    (Tree.insertT cap pos p f t).2.isSome = t.boundary.contains pos := by
  induction t with
  | leaf i par r l =>
    simp only [Tree.insertT, Tree.boundary]
    by_cases hc : r.contains pos = true
    · have hq := Rect.contains_quad r pos hc
      simp only [hc, Bool.not_true, Bool.false_eq_true, if_false]
      split
      · rfl
      · split
        · rfl
        · split
          · rfl
          · split
            · rfl
            · split
              · rfl
              · simp_all
    · simp_all
  | node i par r l a b c d iha ihb ihc ihd =>
    obtain ⟨-, -, -, -, -, ba, bb, bc, bd, sa, sb, sc, sd⟩ := hs
    have ha := iha sa
    have hb := ihb sb
    have hc := ihc sc
    have hd := ihd sd
    simp only [Tree.insertT, Tree.boundary]
    by_cases hcon : r.contains pos = true
    · have hq := Rect.contains_quad r pos hcon
      rw [← ba, ← bb, ← bc, ← bd] at hq
      simp only [hcon, Bool.not_true, Bool.false_eq_true, if_false]
      split
      · rfl
      · rcases e1 : Tree.insertT cap pos p f a with ⟨a1, _ | k⟩
        · rw [e1] at ha
          rcases e2 : Tree.insertT cap pos p f b with ⟨b1, _ | k⟩
          · rw [e2] at hb
            rcases e3 : Tree.insertT cap pos p f c with ⟨c1, _ | k⟩
            · rw [e3] at hc
              rcases e4 : Tree.insertT cap pos p f d with ⟨d1, _ | k⟩
              · rw [e4] at hd
                simp only [Option.isSome_none] at ha hb hc hd
                simp [← ha, ← hb, ← hc, ← hd] at hq
              · rfl
            · rfl
          · rfl
        · rfl
    · simp_all

/-! ## `Insert` on the arena: the three branches -/

theorem Insert_reject (fuel : Nat) (s : QuadTreeManager) (i p : Nat) (hi : i < s.m_size)
    (hc : (s.m_nodes i).boundary.contains (s.heap p).position = false) :
    Insert (fuel + 1) s (some i) p = some (s, false) := by
  simp [Insert, resolve_some hi, hc]

theorem Insert_room (fuel : Nat) (s : QuadTreeManager) (i p : Nat) (hi : i < s.m_size)
    (hc : (s.m_nodes i).boundary.contains (s.heap p).position = true)
    (hr : (s.m_nodes i).size < s.m_capacity) (hcap : s.m_capacity ≤ 4) :
    Insert (fuel + 1) s (some i) p = some
      ({ s with
          m_nodes := setAt s.m_nodes i
            { s.m_nodes i with
              data := setAt (s.m_nodes i).data (s.m_nodes i).size (some p)
              size := (s.m_nodes i).size + 1 }
          heap := setAt s.heap p { s.heap p with id := some i } }, true) := by
  have h4 : ¬ (4 ≤ (s.m_nodes i).size) := by omega
  simp [Insert, resolve_some hi, hc, hr, h4]

/-- The full-bucket branch of `Insert`: the call that is answered by the first child, in the
order northeast, northwest, southeast, southwest, whose region contains the point. -/
theorem Insert_descend (fuel : Nat) (s s0 : QuadTreeManager) (i p a b c d x : Nat)
    (r : QuadTreeManager) (hi : i < s.m_size)
    (hc : (s.m_nodes i).boundary.contains (s.heap p).position = true)
    (hfull : ¬ (s.m_nodes i).size < s.m_capacity)
    (h0 : (if !(s.m_nodes i).divided then subdivide s i else some s) = some s0)
    (hne : (s0.m_nodes i).northeast = some a) (hnw : (s0.m_nodes i).northwest = some b)
    (hse : (s0.m_nodes i).southeast = some c) (hsw : (s0.m_nodes i).southwest = some d)
    (ha : a < s0.m_size) (hb : b < s0.m_size) (hc1 : c < s0.m_size) (hd : d < s0.m_size)
    (hx : ((s0.m_nodes a).boundary.contains (s0.heap p).position = true ∧ x = a) ∨
      ((s0.m_nodes a).boundary.contains (s0.heap p).position = false ∧
        (s0.m_nodes b).boundary.contains (s0.heap p).position = true ∧ x = b) ∨
      ((s0.m_nodes a).boundary.contains (s0.heap p).position = false ∧
        (s0.m_nodes b).boundary.contains (s0.heap p).position = false ∧
        (s0.m_nodes c).boundary.contains (s0.heap p).position = true ∧ x = c) ∨
      ((s0.m_nodes a).boundary.contains (s0.heap p).position = false ∧
        (s0.m_nodes b).boundary.contains (s0.heap p).position = false ∧
        (s0.m_nodes c).boundary.contains (s0.heap p).position = false ∧
        (s0.m_nodes d).boundary.contains (s0.heap p).position = true ∧ x = d))
    (hr : Insert fuel s0 (some x) p = some (r, true)) :
    Insert (fuel + 1) s (some i) p = some (r, true) := by
  obtain ⟨n, rfl⟩ : ∃ n, fuel = n + 1 := by
    cases fuel with
    | zero => simp [Insert] at hr
    | succ n => exact ⟨n, rfl⟩
  have e : Insert (n + 1 + 1) s (some i) p =
      (Insert (n + 1) s0 (s0.m_nodes i).northeast p).bind fun (s1, r1) =>
        if r1 then some (s1, true)
        else if s1.m_size ≠ s0.m_size then none
        else
        (Insert (n + 1) s1 (s1.m_nodes i).northwest p).bind fun (s2, r2) =>
        if r2 then some (s2, true)
        else if s2.m_size ≠ s0.m_size then none
        else
        (Insert (n + 1) s2 (s2.m_nodes i).southeast p).bind fun (s3, r3) =>
        if r3 then some (s3, true)
        else if s3.m_size ≠ s0.m_size then none
        else
        (Insert (n + 1) s3 (s3.m_nodes i).southwest p).bind fun (s4, r4) =>
        if r4 then some (s4, true)
        else some (s4, false) := by
    rw [Insert]
    simp only [resolve_some hi, hc, Bool.not_true, Bool.false_eq_true, if_false, hfull]
    rw [h0]
    rfl
  rw [e]
  rcases hx with ⟨ca, rfl⟩ | ⟨ca, cb, rfl⟩ | ⟨ca, cb, cc, rfl⟩ | ⟨ca, cb, cc, cd, rfl⟩
  · rw [hne, hr]; rfl
  · rw [hne, Insert_reject n s0 a p ha ca]
    simp only [Option.some_bind, Bool.false_eq_true, if_false, ne_eq, not_true_eq_false]
    rw [hnw, hr]; rfl
  · rw [hne, Insert_reject n s0 a p ha ca]
    simp only [Option.some_bind, Bool.false_eq_true, if_false, ne_eq, not_true_eq_false]
    rw [hnw, Insert_reject n s0 b p hb cb]
    simp only [Option.some_bind, Bool.false_eq_true, if_false, ne_eq, not_true_eq_false]
    rw [hse, hr]; rfl
  · rw [hne, Insert_reject n s0 a p ha ca]
    simp only [Option.some_bind, Bool.false_eq_true, if_false, ne_eq, not_true_eq_false]
    rw [hnw, Insert_reject n s0 b p hb cb]
    simp only [Option.some_bind, Bool.false_eq_true, if_false, ne_eq, not_true_eq_false]
    rw [hse, Insert_reject n s0 c p hc1 cc]
    simp only [Option.some_bind, Bool.false_eq_true, if_false, ne_eq, not_true_eq_false]
    rw [hsw, hr]; rfl

/-! ## `Insert` refines `Tree.insertT` -/

theorem Insert_room_eq (fuel : Nat) (s : QuadTreeManager) (i p : Nat) (hi : i < s.m_size)
    (hc : (s.m_nodes i).boundary.contains (s.heap p).position = true)
    (hr : (s.m_nodes i).size < s.m_capacity) (hcap : s.m_capacity ≤ 4) :
    Insert (fuel + 1) s (some i) p = some (pushPoint s i p, true) :=
  Insert_room fuel s i p hi hc hr hcap

theorem pushPoint_nodes_ne (s : QuadTreeManager) (i p : Nat) {j : Nat} (h : j ≠ i) :
    (pushPoint s i p).m_nodes j = s.m_nodes j := by
  simp only [pushPoint]
  rw [setAt_ne _ _ h]

theorem pushPoint_frame (s : QuadTreeManager) (i p : Nat) : Frame s (pushPoint s i p) [i] :=
  ⟨le_refl _, rfl, fun j _ hn => pushPoint_nodes_ne s i p (by simpa using hn)⟩

theorem pushPoint_stable (s : QuadTreeManager) (i p j : Nat) : Stable s (pushPoint s i p) j := by
  by_cases e : j = i
  · subst e
    refine ⟨by simp [pushPoint], by simp [pushPoint], by simp [pushPoint], ?_⟩
    intro k hk
    simp only [pushPoint, setAt_same]
    rw [setAt_ne _ _ (by omega)]
  · rw [Stable, pushPoint_nodes_ne s i p e]
    exact ⟨rfl, rfl, le_refl _, fun _ _ => rfl⟩

theorem pushPoint_placed (s : QuadTreeManager) (F : List Nat) (i p : Nat) (hi : i < s.m_size) :
    Placed s F p (pushPoint s i p) i := by
  refine ⟨hi, by simp [pushPoint], by simp [pushPoint], fun _ _ => by simp [pushPoint]⟩

theorem Stable.of_eq {s s1 : QuadTreeManager} {i : Nat} (h : s1.m_nodes i = s.m_nodes i) :
    Stable s s1 i := by
  rw [Stable, h]
  exact ⟨rfl, rfl, le_refl _, fun _ _ => rfl⟩

theorem Stable.comp_stable {s s1 s2 : QuadTreeManager} {i : Nat} (h1 : Stable s s1 i)
    (h2 : Stable s1 s2 i) : Stable s s2 i := by
  obtain ⟨a1, a2, a3, a4⟩ := h1
  obtain ⟨b1, b2, b3, b4⟩ := h2
  exact ⟨b1.trans a1, b2.trans a2, le_trans a3 b3, fun j hj => by
    rw [b4 j (lt_of_lt_of_le hj a3), a4 j hj]⟩

theorem NodeRep.push {s : QuadTreeManager} {i : Nat} {par : QuadtreeID} {r : Rect}
    {l : List Nat} {dv : Bool} (h : NodeRep s i par r l dv) (p : Nat) :
    NodeRep (pushPoint s i p) i par r (l ++ [p]) dv := by
  obtain ⟨h1, h2, h3, h4, h5, h6⟩ := h
  refine ⟨h1, ?_, ?_, ?_, ?_, ?_⟩
  · simpa [pushPoint] using h2
  · simpa [pushPoint] using h3
  · simp [pushPoint, h4]
  · intro j hj
    simp only [pushPoint, setAt_same]
    rw [h4]
    by_cases e : j = l.length
    · subst e
      simp
    · rw [setAt_ne _ _ e]
      have hj1 : j < l.length := by
        simp only [List.length_append, List.length_singleton] at hj
        omega
      rw [h5 j hj1, List.getElem?_append_left hj1]
  · simpa [pushPoint] using h6

/-- Replacing the live and free handles `A ++ F` of a part of the arena by `A1 ++ F1`, all of
which are old handles of that part or new records, keeps the handles distinct. -/
theorem nodup_swap (R A F A1 F1 : List Nat) (n : Nat) (h : (R ++ (A ++ F)).Nodup)
    (hR : ∀ x ∈ R, x < n) (h1 : (A1 ++ F1).Nodup)
    (hfrom : ∀ x ∈ A1 ++ F1, x ∈ A ++ F ∨ n ≤ x) : (R ++ (A1 ++ F1)).Nodup := by
  rw [List.nodup_append] at h ⊢
  refine ⟨h.1, h1, ?_⟩
  intro x hx hx1
  rcases hfrom x hx1 with h2 | h2
  · exact h.2.2 hx h2
  · have := hR x hx
    omega

theorem Tree.insertT_id (cap : Nat) (pos : Vector2) (p : Nat) (f : Nat × Nat × Nat × Nat)
    (t : Tree) : (Tree.insertT cap pos p f t).1.id = t.id := by
  cases t with
  | leaf i par r l =>
    simp only [Tree.insertT]
    repeat' split
    all_goals rfl
  | node i par r l a b c d =>
    simp only [Tree.insertT]
    repeat' split
    all_goals rfl

/-- After `subdivide` and the insertion of `p` into the fresh child `x`, the arena represents
the split node. -/
theorem split_push_rep {s s0 : QuadTreeManager} {i a b c d x p : Nat} {F F1 : List Nat}
    {par : QuadtreeID} {r : Rect} {l : List Nat}
    (h : NodeRep s i par r l false) (hiF : i ∉ F)
    (sp : SubdividePost s i F s0 a b c d F1) (hx : x ∈ [a, b, c, d]) :
    Rep (pushPoint s0 x p)
      (Tree.node i par r l
        (Tree.leaf a (some i) r.quadNE (if x = a then [p] else []))
        (Tree.leaf b (some i) r.quadNW (if x = b then [p] else []))
        (Tree.leaf c (some i) r.quadSE (if x = c then [p] else []))
        (Tree.leaf d (some i) r.quadSW (if x = d then [p] else []))) := by
  have hb : (s.m_nodes i).boundary = r := h.2.2.1
  have hxi : i ≠ x := by
    intro e
    have := sp.from_free x (by
      simp only [List.mem_cons, List.mem_singleton, List.not_mem_nil, or_false] at hx ⊢
      tauto)
    rw [← e] at this
    rcases this with h1 | h1
    · exact hiF h1
    · have := h.1; omega
  have child : ∀ (y : Nat) (q : Rect), NodeRep s0 y (some i) q [] false →
      NodeRep (pushPoint s0 x p) y (some i) q (if x = y then [p] else []) false := by
    intro y q hy
    by_cases e : x = y
    · subst e
      simpa using hy.push p
    · simp only [e, if_false]
      exact hy.keep (le_refl _) (pushPoint_nodes_ne s0 x p (Ne.symm e))
  have hi0 : (pushPoint s0 x p).m_nodes i = s0.m_nodes i := pushPoint_nodes_ne s0 x p hxi
  refine ⟨?_, ?_, ?_, ?_, ?_, ?_, ?_, ?_, ?_⟩
  · obtain ⟨h1, h2, h3, h4, h5, h6⟩ := h
    refine ⟨lt_of_lt_of_le h1 sp.size_le, ?_, ?_, ?_, ?_, ?_⟩
    · rw [hi0, sp.node_eq]; exact h2
    · rw [hi0, sp.node_eq]; exact h3
    · rw [hi0, sp.node_eq]; exact h4
    · rw [hi0, sp.node_eq]; exact h5
    · rw [hi0, sp.node_eq]
  · rw [hi0, sp.node_eq]; rfl
  · rw [hi0, sp.node_eq]; rfl
  · rw [hi0, sp.node_eq]; rfl
  · rw [hi0, sp.node_eq]; rfl
  · have := child a _ sp.repNE; rw [hb] at this; exact this
  · have := child b _ sp.repNW; rw [hb] at this; exact this
  · have := child c _ sp.repSE; rw [hb] at this; exact this
  · have := child d _ sp.repSW; rw [hb] at this; exact this

/-- `Insert` into a full leaf: `subdivide`, then the fresh child `x` takes the point. -/
theorem split_push_post {s s0 : QuadTreeManager} {i a b c d x p : Nat} {F F1 : List Nat}
    {par : QuadtreeID} {r : Rect} {l : List Nat}
    (h : NodeRep s i par r l false) (hiF : i ∉ F)
    (sp : SubdividePost s i F s0 a b c d F1) (hx : x ∈ [a, b, c, d]) :
    InsertPost s (Tree.leaf i par r l) F p (pushPoint s0 x p)
      (Tree.node i par r l
        (Tree.leaf a (some i) r.quadNE (if x = a then [p] else []))
        (Tree.leaf b (some i) r.quadNW (if x = b then [p] else []))
        (Tree.leaf c (some i) r.quadSE (if x = c then [p] else []))
        (Tree.leaf d (some i) r.quadSW (if x = d then [p] else []))) x F1 := by
  have hx1 : x ∈ a :: b :: c :: d :: F1 := by
    simp only [List.mem_cons, List.mem_singleton, List.not_mem_nil, or_false] at hx ⊢
    tauto
  have hfrom : ∀ y ∈ a :: b :: c :: d :: F1, y ≠ i := by
    intro y hy e
    subst e
    rcases sp.from_free y hy with h1 | h1
    · exact hiF h1
    · have := h.1; omega
  have hxF : x ∉ F1 := by
    have hd := sp.nodup
    simp only [List.nodup_cons, List.mem_cons, not_or] at hd
    simp only [List.mem_cons, List.mem_singleton, List.not_mem_nil, or_false] at hx
    rcases hx with rfl | rfl | rfl | rfl
    · exact hd.1.2.2.2
    · exact hd.2.1.2.2
    · exact hd.2.2.1.2
    · exact hd.2.2.2.1
  refine ⟨split_push_rep h hiF sp hx, ?_, ?_, ?_, ?_, ?_, ?_, ?_⟩
  · refine FreeChain.congr_chain (s := s0) sp.free (le_refl _) ?_
    intro y hy
    exact pushPoint_nodes_ne s0 x p (by intro e; subst e; exact hxF hy)
  · have hd := sp.nodup
    have hi1 : i ∉ a :: b :: c :: d :: F1 := fun hm => hfrom i hm rfl
    simp only [Tree.ids, List.singleton_append, List.cons_append, List.nil_append]
    exact List.nodup_cons.2 ⟨hi1, hd⟩
  · intro y hy
    simp only [Tree.ids, List.singleton_append, List.cons_append, List.nil_append,
      List.mem_cons] at hy
    rcases hy with rfl | hy
    · left; simp [Tree.ids]
    · rcases sp.from_free y (by simpa using hy) with h1 | h1
      · left; simp [h1]
      · right; exact h1
  · refine ⟨sp.size_le, sp.cap_eq, ?_⟩
    intro j hj hn
    simp only [Tree.ids, List.singleton_append, List.mem_cons, not_or] at hn
    have hjx : j ≠ x := by
      intro e
      subst e
      rcases sp.from_free j hx1 with h1 | h1
      · exact hn.2 h1
      · omega
    have hjn : j ∉ [a, b, c, d] := by
      intro hm
      rcases sp.from_free j (by
        simp only [List.mem_cons, List.mem_singleton, List.not_mem_nil, or_false] at hm ⊢
        tauto) with h1 | h1
      · exact hn.2 h1
      · omega
    rw [pushPoint_nodes_ne s0 x p hjx, sp.nodes_eq j hj hjn hn.1]
  · simp only [pushPoint]
    rw [sp.heap_eq]
  · intro j hj hjF
    refine @Stable.comp_stable s s0 _ j ?_ (pushPoint_stable s0 x p j)
    by_cases e : j = i
    · subst e
      rw [Stable, sp.node_eq]
      exact ⟨rfl, rfl, le_refl _, fun _ _ => rfl⟩
    · refine Stable.of_eq (sp.nodes_eq j hj ?_ e)
      intro hm
      rcases sp.from_free j (by
        simp only [List.mem_cons, List.mem_singleton, List.not_mem_nil, or_false] at hm ⊢
        tauto) with h1 | h1
      · exact hjF h1
      · omega
  · have hx0 : NodeRep s0 x (some i) (s0.m_nodes x).boundary [] false := by
      simp only [List.mem_cons, List.mem_singleton, List.not_mem_nil, or_false] at hx
      rcases hx with rfl | rfl | rfl | rfl
      · have := sp.repNE; rwa [← this.2.2.1] at this
      · have := sp.repNW; rwa [← this.2.2.1] at this
      · have := sp.repSE; rwa [← this.2.2.1] at this
      · have := sp.repSW; rwa [← this.2.2.1] at this
    have hp := pushPoint_placed s0 F1 x p hx0.1
    refine ⟨hp.1, hp.2.1, hp.2.2.1, ?_⟩
    intro h1 h2
    rcases sp.from_free x hx1 with h3 | h3
    · exact absurd h3 h2
    · omega

/-- `Insert` into a leaf whose region contains the point. -/
theorem Insert_refines_leaf (i : Nat) (par : QuadtreeID) (r : Rect) (l : List Nat)
    (s : QuadTreeManager) (F : List Nat) (fuel p : Nat)
    (hrep : Rep s (Tree.leaf i par r l))
    (hF : FreeChain s s.m_freeID F) (hnd : ((Tree.leaf i par r l).ids ++ F).Nodup)
    (hcap1 : 1 ≤ s.m_capacity) (hcap4 : s.m_capacity ≤ 4) (hfuel : 2 ≤ fuel)
    (hcon : r.contains (s.heap p).position = true) :
    ∃ s1 F1 f k, Insert fuel s (some i) p = some (s1, true) ∧
      (Tree.insertT s.m_capacity (s.heap p).position p f (Tree.leaf i par r l)).2 = some k ∧
      InsertPost s (Tree.leaf i par r l) F p s1
        (Tree.insertT s.m_capacity (s.heap p).position p f (Tree.leaf i par r l)).1 k F1 := by
  have hN : NodeRep s i par r l false := hrep
  obtain ⟨hi, hpar, hb, hsz, hdata, hdiv⟩ := hN
  have hiF : i ∉ F := by
    simp only [Tree.ids, List.singleton_append, List.nodup_cons] at hnd
    exact hnd.1
  have hFnd : F.Nodup := by
    simp only [Tree.ids, List.singleton_append, List.nodup_cons] at hnd
    exact hnd.2
  obtain ⟨n, rfl⟩ : ∃ n, fuel = n + 1 + 1 := ⟨fuel - 2, by omega⟩
  have hcon1 : (s.m_nodes i).boundary.contains (s.heap p).position = true := by
    rw [hb]; exact hcon
  by_cases hroom : l.length < s.m_capacity
  · refine ⟨pushPoint s i p, F, (0, 0, 0, 0), i,
      Insert_room_eq (n + 1) s i p hi hcon1 (by rw [hsz]; exact hroom) hcap4, ?_, ?_⟩
    · simp [Tree.insertT, hcon, hroom]
    · have e : (Tree.insertT s.m_capacity (s.heap p).position p (0, 0, 0, 0)
          (Tree.leaf i par r l)).1 = Tree.leaf i par r (l ++ [p]) := by
        simp [Tree.insertT, hcon, hroom]
      rw [e]
      refine ⟨NodeRep.push hrep p, ?_, hnd, fun x hx => Or.inl hx, ?_, rfl,
        fun j _ _ => pushPoint_stable s i p j, pushPoint_placed s F i p hi⟩
      · refine FreeChain.congr_chain (s := s) hF (le_refl _) ?_
        intro y hy
        exact pushPoint_nodes_ne s i p (by intro e; subst e; exact hiF hy)
      · exact (pushPoint_frame s i p).mono (by simp [Tree.ids])
  · obtain ⟨s0, a, b, c, d, F1, hsub, sp⟩ := subdivide_spec s i F hF hFnd hi hiF hcap4
    have hfull : ¬ (s.m_nodes i).size < s.m_capacity := by rw [hsz]; exact hroom
    have h0 : (if !(s.m_nodes i).divided then subdivide s i else some s) = some s0 := by
      simp [hdiv, hsub]
    have hba : (s0.m_nodes a).boundary = r.quadNE := by rw [sp.repNE.2.2.1, hb]
    have hbb : (s0.m_nodes b).boundary = r.quadNW := by rw [sp.repNW.2.2.1, hb]
    have hbc : (s0.m_nodes c).boundary = r.quadSE := by rw [sp.repSE.2.2.1, hb]
    have hbd : (s0.m_nodes d).boundary = r.quadSW := by rw [sp.repSW.2.2.1, hb]
    have hd := sp.nodup
    simp only [List.nodup_cons, List.mem_cons, not_or] at hd
    obtain ⟨⟨ab, ac, ad, -⟩, ⟨bc, bd, -⟩, ⟨cd, -⟩, -, -⟩ := hd
    have hpush : ∀ x q, NodeRep s0 x (some i) q [] false →
        q.contains (s.heap p).position = true →
        Insert (n + 1) s0 (some x) p = some (pushPoint s0 x p, true) := by
      intro x q hx hq
      refine Insert_room_eq n s0 x p hx.1 ?_ ?_ (by rw [sp.cap_eq]; exact hcap4)
      · rw [hx.2.2.1, sp.heap_eq]; exact hq
      · rw [hx.2.2.2.1, sp.cap_eq]; exact hcap1
    have hdesc := fun x hx hr => Insert_descend (n + 1) s s0 i p a b c d x (pushPoint s0 x p)
      hi hcon1 hfull h0 (by rw [sp.node_eq]) (by rw [sp.node_eq]) (by rw [sp.node_eq])
      (by rw [sp.node_eq]) sp.repNE.1 sp.repNW.1 sp.repSE.1 sp.repSW.1 hx hr
    rw [hba, hbb, hbc, hbd, sp.heap_eq] at hdesc
    have hq := Rect.contains_quad r _ hcon
    by_cases qa : r.quadNE.contains (s.heap p).position = true
    · refine ⟨pushPoint s0 a p, F1, (a, b, c, d), a,
        hdesc a (Or.inl ⟨qa, rfl⟩) (hpush a _ (by have := sp.repNE; rwa [hb] at this) qa),
        by simp [Tree.insertT, hcon, hroom, qa], ?_⟩
      have := split_push_post (p := p) hrep hiF sp (x := a) (by simp)
      simpa [Tree.insertT, hcon, hroom, qa, ab, ac, ad] using this
    · simp only [Bool.not_eq_true] at qa
      by_cases qb : r.quadNW.contains (s.heap p).position = true
      · refine ⟨pushPoint s0 b p, F1, (a, b, c, d), b,
          hdesc b (Or.inr (Or.inl ⟨qa, qb, rfl⟩))
            (hpush b _ (by have := sp.repNW; rwa [hb] at this) qb),
          by simp [Tree.insertT, hcon, hroom, qa, qb], ?_⟩
        have := split_push_post (p := p) hrep hiF sp (x := b) (by simp)
        simpa [Tree.insertT, hcon, hroom, qa, qb, Ne.symm ab, bc, bd] using this
      · simp only [Bool.not_eq_true] at qb
        by_cases qc : r.quadSE.contains (s.heap p).position = true
        · refine ⟨pushPoint s0 c p, F1, (a, b, c, d), c,
            hdesc c (Or.inr (Or.inr (Or.inl ⟨qa, qb, qc, rfl⟩)))
              (hpush c _ (by have := sp.repSE; rwa [hb] at this) qc),
            by simp [Tree.insertT, hcon, hroom, qa, qb, qc], ?_⟩
          have := split_push_post (p := p) hrep hiF sp (x := c) (by simp)
          simpa [Tree.insertT, hcon, hroom, qa, qb, qc, Ne.symm ac, Ne.symm bc, cd] using this
        · simp only [Bool.not_eq_true] at qc
          have qd : r.quadSW.contains (s.heap p).position = true := by
            simpa [qa, qb, qc] using hq
          refine ⟨pushPoint s0 d p, F1, (a, b, c, d), d,
            hdesc d (Or.inr (Or.inr (Or.inr ⟨qa, qb, qc, qd, rfl⟩)))
              (hpush d _ (by have := sp.repSW; rwa [hb] at this) qd),
            by simp [Tree.insertT, hcon, hroom, qa, qb, qc, qd], ?_⟩
          have := split_push_post (p := p) hrep hiF sp (x := d) (by simp)
          simpa [Tree.insertT, hcon, hroom, qa, qb, qc, qd, Ne.symm ad, Ne.symm bd,
            Ne.symm cd] using this

theorem Rep.nodeRep {s : QuadTreeManager} {t : Tree} (h : Rep s t) :
    NodeRep s t.id t.parent t.boundary t.pts t.divided := by
  cases t with
  | leaf i p r l => exact h
  | node i p r l a b c d => exact h.1

theorem Rep.boundary_eq {s : QuadTreeManager} {t : Tree} (h : Rep s t) :
    (s.m_nodes t.id).boundary = t.boundary := h.nodeRep.2.2.1

theorem Rep.size_eq {s : QuadTreeManager} {t : Tree} (h : Rep s t) :
    (s.m_nodes t.id).size = t.pts.length := h.nodeRep.2.2.2.1

theorem Rep.divided_eq {s : QuadTreeManager} {t : Tree} (h : Rep s t) :
    (s.m_nodes t.id).divided = t.divided := h.nodeRep.2.2.2.2.2

/-- Rebuild the representation of a node whose own record is unchanged from representations
of its (possibly changed) children with the same handles. -/
theorem Rep.replace_children {s s1 : QuadTreeManager} {i : Nat} {par : QuadtreeID} {r : Rect}
    {l : List Nat} {a b c d a1 b1 c1 d1 : Tree}
    (h : Rep s (Tree.node i par r l a b c d)) (hs : s.m_size ≤ s1.m_size)
    (hi : s1.m_nodes i = s.m_nodes i)
    (ha : Rep s1 a1) (ida : a1.id = a.id) (hb : Rep s1 b1) (idb : b1.id = b.id)
    (hc : Rep s1 c1) (idc : c1.id = c.id) (hd : Rep s1 d1) (idd : d1.id = d.id) :
    Rep s1 (Tree.node i par r l a1 b1 c1 d1) := by
  obtain ⟨h0, h1, h2, h3, h4, -, -, -, -⟩ := h
  exact ⟨h0.keep hs hi, by rw [hi, ida]; exact h1, by rw [hi, idb]; exact h2,
    by rw [hi, idc]; exact h3, by rw [hi, idd]; exact h4, ha, hb, hc, hd⟩

/-- Lift the postcondition of an insertion below the child `y` to the whole tree `t`, whose
other handles are `R`. -/
theorem InsertPost.lift {s s1 : QuadTreeManager} {t t1 y y1 : Tree} {F F1 : List Nat}
    {p k : Nat} (R : List Nat) (post : InsertPost s y F p s1 y1 k F1)
    (hperm : (t.ids ++ F).Perm (R ++ (y.ids ++ F)))
    (hperm1 : (t1.ids ++ F1).Perm (R ++ (y1.ids ++ F1)))
    (hnd : (t.ids ++ F).Nodup) (hlt : ∀ x ∈ t.ids ++ F, x < s.m_size)
    (hrep : (∀ x ∈ R, s1.m_nodes x = s.m_nodes x) → Rep s1 t1) :
    InsertPost s t F p s1 t1 k F1 := by
  have hR : ∀ x ∈ R, x < s.m_size := fun x hx =>
    hlt x (hperm.mem_iff.2 (List.mem_append_left _ hx))
  have hnd1 : (R ++ (y.ids ++ F)).Nodup := hperm.nodup_iff.1 hnd
  have hdis : ∀ x ∈ R, x ∉ y.ids ++ F := fun x hx hm =>
    (List.nodup_append.1 hnd1).2.2 hx hm
  refine ⟨hrep (fun x hx => post.frame.nodes_eq x (hR x hx) (hdis x hx)), post.free, ?_, ?_,
    ?_, post.heap, post.stable, post.placed⟩
  · exact hperm1.nodup_iff.2 (nodup_swap R y.ids F y1.ids F1 s.m_size hnd1 hR post.nodup
      post.from_free)
  · intro x hx
    have hx1 := hperm1.mem_iff.1 hx
    rcases List.mem_append.1 hx1 with h1 | h1
    · left; exact hperm.mem_iff.2 (List.mem_append_left _ h1)
    · rcases post.from_free x h1 with h2 | h2
      · left; exact hperm.mem_iff.2 (List.mem_append_right _ h2)
      · right; exact h2
  · exact post.frame.mono (fun x hx => hperm.mem_iff.2 (List.mem_append_right _ hx))

/-- `Insert` refines `Tree.insertT`: on a well-formed arena, with enough fuel, a point inside
the region of the start node is accepted, and the resulting arena represents the tree that
`Tree.insertT` computes. -/
theorem Insert_refines (t : Tree) : ∀ (s : QuadTreeManager) (F : List Nat) (fuel p : Nat),
    Rep s t → t.Shape s.m_capacity → FreeChain s s.m_freeID F → (t.ids ++ F).Nodup →
    1 ≤ s.m_capacity → s.m_capacity ≤ 4 → t.height + 1 ≤ fuel →
    t.boundary.contains (s.heap p).position = true →
    ∃ s1 F1 f k, Insert fuel s (some t.id) p = some (s1, true) ∧
      (Tree.insertT s.m_capacity (s.heap p).position p f t).2 = some k ∧
      InsertPost s t F p s1 (Tree.insertT s.m_capacity (s.heap p).position p f t).1 k F1 := by
  induction t with
  | leaf i par r l =>
    intro s F fuel p hrep _ hF hnd h1 h4 hfuel hcon
    exact Insert_refines_leaf i par r l s F fuel p hrep hF hnd h1 h4
      (by simpa [Tree.height] using hfuel) hcon
  | node i par r l a b c d iha ihb ihc ihd =>
    intro s F fuel p hrep hshape hF hnd hcap1 hcap4 hfuel hcon
    have hrep0 := hrep
    obtain ⟨hN, hne, hnw, hse, hsw, ra, rb, rc, rd⟩ := hrep
    obtain ⟨hl, pa, pb, pc, pd, ba, bb, bc, bd, sa, sb, sc, sd⟩ := hshape
    obtain ⟨n, rfl⟩ : ∃ n, fuel = n + 1 := ⟨fuel - 1, by simp [Tree.height] at hfuel; omega⟩
    simp only [Tree.height] at hfuel
    simp only [Tree.boundary] at hcon
    simp only [Tree.id]
    have hi : i < s.m_size := hN.1
    have hcon1 : (s.m_nodes i).boundary.contains (s.heap p).position = true := by
      rw [hN.2.2.1]; exact hcon
    have hnd0 := hnd
    simp only [Tree.ids, List.cons_append, List.nodup_cons, List.mem_append, not_or] at hnd
    obtain ⟨⟨⟨⟨⟨ia, ib⟩, ic⟩, id_⟩, iF⟩, hrest⟩ := hnd
    by_cases hroom : l.length < s.m_capacity
    · have hr : Rep (pushPoint s i p) (Tree.node i par r (l ++ [p]) a b c d) := by
        refine ⟨hN.push p, by simpa [pushPoint] using hne, by simpa [pushPoint] using hnw,
          by simpa [pushPoint] using hse, by simpa [pushPoint] using hsw, ?_, ?_, ?_, ?_⟩
        · exact ra.keep_rep (pushPoint_frame s i p) (fun x hx => by
            simp only [List.mem_singleton]; intro e; subst e; exact ia hx)
        · exact rb.keep_rep (pushPoint_frame s i p) (fun x hx => by
            simp only [List.mem_singleton]; intro e; subst e; exact ib hx)
        · exact rc.keep_rep (pushPoint_frame s i p) (fun x hx => by
            simp only [List.mem_singleton]; intro e; subst e; exact ic hx)
        · exact rd.keep_rep (pushPoint_frame s i p) (fun x hx => by
            simp only [List.mem_singleton]; intro e; subst e; exact id_ hx)
      refine ⟨pushPoint s i p, F, (0, 0, 0, 0), i,
        Insert_room_eq n s i p hi hcon1 (by rw [hN.2.2.2.1]; exact hroom) hcap4, ?_, ?_⟩
      · simp [Tree.insertT, hcon, hroom]
      · have e : (Tree.insertT s.m_capacity (s.heap p).position p (0, 0, 0, 0)
            (Tree.node i par r l a b c d)).1 = Tree.node i par r (l ++ [p]) a b c d := by
          simp [Tree.insertT, hcon, hroom]
        rw [e]
        refine ⟨hr, ?_, hnd0, fun x hx => Or.inl hx, ?_, rfl,
          fun j _ _ => pushPoint_stable s i p j, pushPoint_placed s F i p hi⟩
        · refine FreeChain.congr_chain (s := s) hF (le_refl _) ?_
          intro y hy
          exact pushPoint_nodes_ne s i p (by intro e; subst e; exact iF hy)
        · exact (pushPoint_frame s i p).mono (by simp [Tree.ids])
    · have hfull : ¬ (s.m_nodes i).size < s.m_capacity := by rw [hN.2.2.2.1]; exact hroom
      have h0 : (if !(s.m_nodes i).divided then subdivide s i else some s) = some s := by
        simp [hN.2.2.2.2.2]
      have hdesc := fun x r hx hr => Insert_descend n s s i p a.id b.id c.id d.id x r
        hi hcon1 hfull h0 hne hnw hse hsw ra.id_lt rb.id_lt rc.id_lt rd.id_lt hx hr
      rw [ra.boundary_eq, rb.boundary_eq, rc.boundary_eq, rd.boundary_eq] at hdesc
      have hq := Rect.contains_quad r _ hcon
      rw [← ba, ← bb, ← bc, ← bd] at hq
      have hlt : ∀ x ∈ (Tree.node i par r l a b c d).ids ++ F, x < s.m_size := by
        intro x hx
        rcases List.mem_append.1 hx with h1 | h1
        · exact hrep0.ids_lt x h1
        · exact hF.lt x h1
      clear hrest ia ib ic id_
      by_cases qa : a.boundary.contains (s.heap p).position = true
      · have hperm : ((Tree.node i par r l a b c d).ids ++ F).Perm
            ((i :: (b.ids ++ c.ids ++ d.ids)) ++ (a.ids ++ F)) := by
          rw [List.perm_iff_count]
          intro x
          simp only [Tree.ids, List.count_append, List.count_cons]
          omega
        obtain ⟨s1, F1, f, k, hins, hk, post⟩ := iha s F n p ra sa hF
          (List.nodup_append.1 (hperm.nodup_iff.1 hnd0)).2.1 hcap1 hcap4 (by omega) qa
        obtain ⟨a1, ha1⟩ : ∃ y, y = (Tree.insertT s.m_capacity (s.heap p).position p f a).1 :=
          ⟨_, rfl⟩
        have ea : Tree.insertT s.m_capacity (s.heap p).position p f a = (a1, some k) :=
          Prod.ext ha1.symm hk
        have et : Tree.insertT s.m_capacity (s.heap p).position p f (Tree.node i par r l a b c d) =
            (Tree.node i par r l a1 b c d, some k) := by
          simp [Tree.insertT, hcon, hroom, ea]
        rw [← ha1] at post
        refine ⟨s1, F1, f, k, hdesc a.id s1 (Or.inl ⟨qa, rfl⟩) hins, by rw [et], ?_⟩
        rw [et]
        refine InsertPost.lift (i :: (b.ids ++ c.ids ++ d.ids)) post hperm ?_ hnd0 hlt ?_
        · rw [List.perm_iff_count]
          intro x
          simp only [Tree.ids, List.count_append, List.count_cons]
          omega
        · intro hsame
          have ida : a1.id = a.id := by rw [ha1]; exact Tree.insertT_id _ _ _ _ _
          exact Rep.replace_children hrep0 post.frame.size_le (hsame i (by simp))
            post.rep ida
            (rb.congr_nodes post.frame.size_le (fun x hx => hsame x (by simp [hx]))) rfl
            (rc.congr_nodes post.frame.size_le (fun x hx => hsame x (by simp [hx]))) rfl
            (rd.congr_nodes post.frame.size_le (fun x hx => hsame x (by simp [hx]))) rfl
      · simp only [Bool.not_eq_true] at qa
        by_cases qb : b.boundary.contains (s.heap p).position = true
        · have hperm : ((Tree.node i par r l a b c d).ids ++ F).Perm
              ((i :: (a.ids ++ c.ids ++ d.ids)) ++ (b.ids ++ F)) := by
            rw [List.perm_iff_count]
            intro x
            simp only [Tree.ids, List.count_append, List.count_cons]
            omega
          obtain ⟨s1, F1, f, k, hins, hk, post⟩ := ihb s F n p rb sb hF
            (List.nodup_append.1 (hperm.nodup_iff.1 hnd0)).2.1 hcap1 hcap4 (by omega) qb
          obtain ⟨b1, hb1⟩ : ∃ y, y = (Tree.insertT s.m_capacity (s.heap p).position p f b).1 :=
            ⟨_, rfl⟩
          have eb : Tree.insertT s.m_capacity (s.heap p).position p f b = (b1, some k) :=
            Prod.ext hb1.symm hk
          have ea : Tree.insertT s.m_capacity (s.heap p).position p f a = (a, none) :=
            Tree.insertT_reject _ _ _ _ _ qa
          have et : Tree.insertT s.m_capacity (s.heap p).position p f (Tree.node i par r l a b c d) =
              (Tree.node i par r l a b1 c d, some k) := by
            simp [Tree.insertT, hcon, hroom, eb, ea]
          rw [← hb1] at post
          refine ⟨s1, F1, f, k, hdesc b.id s1 (Or.inr (Or.inl ⟨qa, qb, rfl⟩)) hins, by rw [et], ?_⟩
          rw [et]
          refine InsertPost.lift (i :: (a.ids ++ c.ids ++ d.ids)) post hperm ?_ hnd0 hlt ?_
          · rw [List.perm_iff_count]
            intro x
            simp only [Tree.ids, List.count_append, List.count_cons]
            omega
          · intro hsame
            have idb : b1.id = b.id := by rw [hb1]; exact Tree.insertT_id _ _ _ _ _
            exact Rep.replace_children hrep0 post.frame.size_le (hsame i (by simp))
              (ra.congr_nodes post.frame.size_le (fun x hx => hsame x (by simp [hx]))) rfl
              post.rep idb
              (rc.congr_nodes post.frame.size_le (fun x hx => hsame x (by simp [hx]))) rfl
              (rd.congr_nodes post.frame.size_le (fun x hx => hsame x (by simp [hx]))) rfl
        · simp only [Bool.not_eq_true] at qb
          by_cases qc : c.boundary.contains (s.heap p).position = true
          · have hperm : ((Tree.node i par r l a b c d).ids ++ F).Perm
                ((i :: (a.ids ++ b.ids ++ d.ids)) ++ (c.ids ++ F)) := by
              rw [List.perm_iff_count]
              intro x
              simp only [Tree.ids, List.count_append, List.count_cons]
              omega
            obtain ⟨s1, F1, f, k, hins, hk, post⟩ := ihc s F n p rc sc hF
              (List.nodup_append.1 (hperm.nodup_iff.1 hnd0)).2.1 hcap1 hcap4 (by omega) qc
            obtain ⟨c1, hc1⟩ : ∃ y, y = (Tree.insertT s.m_capacity (s.heap p).position p f c).1 :=
              ⟨_, rfl⟩
            have ec : Tree.insertT s.m_capacity (s.heap p).position p f c = (c1, some k) :=
              Prod.ext hc1.symm hk
            have ea : Tree.insertT s.m_capacity (s.heap p).position p f a = (a, none) :=
              Tree.insertT_reject _ _ _ _ _ qa
            have eb : Tree.insertT s.m_capacity (s.heap p).position p f b = (b, none) :=
              Tree.insertT_reject _ _ _ _ _ qb
            have et : Tree.insertT s.m_capacity (s.heap p).position p f (Tree.node i par r l a b c d) =
                (Tree.node i par r l a b c1 d, some k) := by
              simp [Tree.insertT, hcon, hroom, ec, ea, eb]
            rw [← hc1] at post
            refine ⟨s1, F1, f, k, hdesc c.id s1 (Or.inr (Or.inr (Or.inl ⟨qa, qb, qc, rfl⟩))) hins, by rw [et], ?_⟩
            rw [et]
            refine InsertPost.lift (i :: (a.ids ++ b.ids ++ d.ids)) post hperm ?_ hnd0 hlt ?_
            · rw [List.perm_iff_count]
              intro x
              simp only [Tree.ids, List.count_append, List.count_cons]
              omega
            · intro hsame
              have idc : c1.id = c.id := by rw [hc1]; exact Tree.insertT_id _ _ _ _ _
              exact Rep.replace_children hrep0 post.frame.size_le (hsame i (by simp))
                (ra.congr_nodes post.frame.size_le (fun x hx => hsame x (by simp [hx]))) rfl
                (rb.congr_nodes post.frame.size_le (fun x hx => hsame x (by simp [hx]))) rfl
                post.rep idc
                (rd.congr_nodes post.frame.size_le (fun x hx => hsame x (by simp [hx]))) rfl
          · simp only [Bool.not_eq_true] at qc
            have qd : d.boundary.contains (s.heap p).position = true := by
              simpa [qa, qb, qc] using hq
            have hperm : ((Tree.node i par r l a b c d).ids ++ F).Perm
                ((i :: (a.ids ++ b.ids ++ c.ids)) ++ (d.ids ++ F)) := by
              rw [List.perm_iff_count]
              intro x
              simp only [Tree.ids, List.count_append, List.count_cons]
              omega
            obtain ⟨s1, F1, f, k, hins, hk, post⟩ := ihd s F n p rd sd hF
              (List.nodup_append.1 (hperm.nodup_iff.1 hnd0)).2.1 hcap1 hcap4 (by omega) qd
            obtain ⟨d1, hd1⟩ : ∃ y, y = (Tree.insertT s.m_capacity (s.heap p).position p f d).1 :=
              ⟨_, rfl⟩
            have ed : Tree.insertT s.m_capacity (s.heap p).position p f d = (d1, some k) :=
              Prod.ext hd1.symm hk
            have ea : Tree.insertT s.m_capacity (s.heap p).position p f a = (a, none) :=
              Tree.insertT_reject _ _ _ _ _ qa
            have eb : Tree.insertT s.m_capacity (s.heap p).position p f b = (b, none) :=
              Tree.insertT_reject _ _ _ _ _ qb
            have ec : Tree.insertT s.m_capacity (s.heap p).position p f c = (c, none) :=
              Tree.insertT_reject _ _ _ _ _ qc
            have et : Tree.insertT s.m_capacity (s.heap p).position p f (Tree.node i par r l a b c d) =
                (Tree.node i par r l a b c d1, some k) := by
              simp [Tree.insertT, hcon, hroom, ed, ea, eb, ec]
            rw [← hd1] at post
            refine ⟨s1, F1, f, k, hdesc d.id s1 (Or.inr (Or.inr (Or.inr ⟨qa, qb, qc, qd, rfl⟩))) hins, by rw [et], ?_⟩
            rw [et]
            refine InsertPost.lift (i :: (a.ids ++ b.ids ++ c.ids)) post hperm ?_ hnd0 hlt ?_
            · rw [List.perm_iff_count]
              intro x
              simp only [Tree.ids, List.count_append, List.count_cons]
              omega
            · intro hsame
              have idd : d1.id = d.id := by rw [hd1]; exact Tree.insertT_id _ _ _ _ _
              exact Rep.replace_children hrep0 post.frame.size_le (hsame i (by simp))
                (ra.congr_nodes post.frame.size_le (fun x hx => hsame x (by simp [hx]))) rfl
                (rb.congr_nodes post.frame.size_le (fun x hx => hsame x (by simp [hx]))) rfl
                (rc.congr_nodes post.frame.size_le (fun x hx => hsame x (by simp [hx]))) rfl
                post.rep idd

/-! ## More fuel does not change a result -/

theorem OptLe.same {α : Type} (a : Option α) : OptLe a a := fun _ h => h

theorem OptLe.none {α : Type} (b : Option α) : OptLe none b := fun _ h => by cases h

theorem OptLe.bind {α β : Type} {a b : Option α} {f g : α → Option β} (h : OptLe a b)
    (hf : ∀ x, OptLe (f x) (g x)) : OptLe (a.bind f) (b.bind g) := by
  intro y hy
  cases a with
  | none => simp at hy
  | some x =>
    rw [h x rfl]
    simp only [Option.some_bind] at hy ⊢
    exact hf x y hy

theorem OptLe.ite {α : Type} {c : Prop} [Decidable c] {a b a1 b1 : Option α}
    (h1 : OptLe a a1) (h2 : OptLe b b1) :
    OptLe (if c then a else b) (if c then a1 else b1) := by
  split
  · exact h1
  · exact h2

theorem OptLe.chain {α : Type} {a b c : Option α} (h1 : OptLe a b) (h2 : OptLe b c) :
    OptLe a c := fun x h => h2 x (h1 x h)

theorem Insert_succ_le (n : Nat) : ∀ (s : QuadTreeManager) (id : QuadtreeID) (p : Nat),
    OptLe (Insert n s id p) (Insert (n + 1) s id p) := by
  induction n with
  | zero => intro s id p; rw [Insert]; exact OptLe.none _
  | succ n ih =>
    intro s id p
    rw [Insert.eq_2, Insert.eq_2]
    cases resolve s id with
    | none => exact OptLe.same _
    | some i =>
      simp only []
      apply OptLe.ite (OptLe.same _)
      apply OptLe.ite (OptLe.same _)
      apply OptLe.bind (OptLe.same _)
      intro s0
      apply OptLe.bind (ih _ _ _)
      rintro ⟨s1, r1⟩
      apply OptLe.ite (OptLe.same _)
      apply OptLe.ite (OptLe.same _)
      apply OptLe.bind (ih _ _ _)
      rintro ⟨s2, r2⟩
      apply OptLe.ite (OptLe.same _)
      apply OptLe.ite (OptLe.same _)
      apply OptLe.bind (ih _ _ _)
      rintro ⟨s3, r3⟩
      apply OptLe.ite (OptLe.same _)
      apply OptLe.ite (OptLe.same _)
      apply OptLe.bind (ih _ _ _)
      rintro ⟨s4, r4⟩
      exact OptLe.same _

theorem Insert_mono {n m : Nat} (h : n ≤ m) (s : QuadTreeManager) (id : QuadtreeID) (p : Nat) :
    OptLe (Insert n s id p) (Insert m s id p) := by
  induction h with
  | refl => exact OptLe.same _
  | step _ ih => exact ih.chain (Insert_succ_le _ s id p)

theorem empty_succ_le (n : Nat) : ∀ (s : QuadTreeManager) (id : QuadtreeID),
    OptLe (empty n s id) (empty (n + 1) s id) := by
  induction n with
  | zero => intro s id; rw [empty]; exact OptLe.none _
  | succ n ih =>
    intro s id
    rw [empty.eq_2, empty.eq_2]
    cases resolve s id with
    | none => exact OptLe.same _
    | some i =>
      simp only []
      apply OptLe.ite (OptLe.same _)
      apply OptLe.ite (OptLe.same _)
      apply OptLe.bind (ih _ _)
      intro e1
      apply OptLe.ite (OptLe.same _)
      apply OptLe.bind (ih _ _)
      intro e2
      apply OptLe.ite (OptLe.same _)
      apply OptLe.bind (ih _ _)
      intro e3
      apply OptLe.ite (OptLe.same _)
      exact ih _ _

theorem empty_mono {n m : Nat} (h : n ≤ m) (s : QuadTreeManager) (id : QuadtreeID) :
    OptLe (empty n s id) (empty m s id) := by
  induction h with
  | refl => exact OptLe.same _
  | step _ ih => exact ih.chain (empty_succ_le _ s id)

theorem deallocate_succ_le (n : Nat) : ∀ (s : QuadTreeManager) (id : QuadtreeID),
    OptLe (deallocate n s id) (deallocate (n + 1) s id) := by
  induction n with
  | zero => intro s id; rw [deallocate]; exact OptLe.none _
  | succ n ih =>
    intro s id
    rw [deallocate.eq_2, deallocate.eq_2]
    cases resolve s id with
    | none => exact OptLe.same _
    | some i =>
      simp only []
      apply OptLe.bind
      · apply OptLe.ite
        · apply OptLe.bind (ih _ _)
          intro s1
          apply OptLe.bind (ih _ _)
          intro s2
          apply OptLe.bind (ih _ _)
          intro s3
          exact ih _ _
        · exact OptLe.same _
      · intro s4
        exact OptLe.same _

theorem deallocate_mono {n m : Nat} (h : n ≤ m) (s : QuadTreeManager) (id : QuadtreeID) :
    OptLe (deallocate n s id) (deallocate m s id) := by
  induction h with
  | refl => exact OptLe.same _
  | step _ ih => exact ih.chain (deallocate_succ_le _ s id)

theorem tryCollapse_succ_le (n : Nat) (s : QuadTreeManager) (i : Nat) :
    OptLe (tryCollapse n s i) (tryCollapse (n + 1) s i) := by
  unfold tryCollapse
  simp only []
  apply OptLe.ite (OptLe.same _)
  apply OptLe.bind (empty_succ_le _ _ _)
  intro e1
  apply OptLe.ite (OptLe.same _)
  apply OptLe.bind (empty_succ_le _ _ _)
  intro e2
  apply OptLe.ite (OptLe.same _)
  apply OptLe.bind (empty_succ_le _ _ _)
  intro e3
  apply OptLe.ite (OptLe.same _)
  apply OptLe.bind (empty_succ_le _ _ _)
  intro e4
  apply OptLe.ite (OptLe.same _)
  apply OptLe.bind (deallocate_succ_le _ _ _)
  intro s1
  apply OptLe.bind (deallocate_succ_le _ _ _)
  intro s2
  apply OptLe.bind (deallocate_succ_le _ _ _)
  intro s3
  apply OptLe.bind (deallocate_succ_le _ _ _)
  intro s4
  exact OptLe.same _

theorem tryCollapse_mono {n m : Nat} (h : n ≤ m) (s : QuadTreeManager) (i : Nat) :
    OptLe (tryCollapse n s i) (tryCollapse m s i) := by
  induction h with
  | refl => exact OptLe.same _
  | step _ ih => exact ih.chain (tryCollapse_succ_le _ s i)

theorem check_succ_le (n : Nat) (s : QuadTreeManager) (id : QuadtreeID) :
    OptLe (check n s id) (check (n + 1) s id) := by
  unfold check
  cases resolve s id with
  | none => exact OptLe.same _
  | some i =>
    simp only []
    apply OptLe.bind (tryCollapse_succ_le _ _ _)
    intro s1
    exact OptLe.same _

theorem remove_succ_le (n : Nat) : ∀ (s : QuadTreeManager) (id : QuadtreeID) (p : Nat),
    OptLe (remove n s id p) (remove (n + 1) s id p) := by
  induction n with
  | zero => intro s id p; rw [remove]; exact OptLe.none _
  | succ n ih =>
    intro s id p
    rw [remove.eq_2, remove.eq_2]
    cases resolve s id with
    | none => exact OptLe.same _
    | some i =>
      simp only []
      rcases scanBucket (s.m_nodes i) p 0 (s.m_nodes i).size with _ | _ | k
      · exact OptLe.same _
      · simp only []
        apply OptLe.ite
        · apply OptLe.bind (ih _ _ _)
          rintro ⟨s1, r1⟩
          apply OptLe.ite (check_succ_le _ _ _)
          apply OptLe.bind (ih _ _ _)
          rintro ⟨s2, r2⟩
          apply OptLe.ite (check_succ_le _ _ _)
          apply OptLe.bind (ih _ _ _)
          rintro ⟨s3, r3⟩
          apply OptLe.ite (check_succ_le _ _ _)
          apply OptLe.bind (ih _ _ _)
          rintro ⟨s4, r4⟩
          apply OptLe.ite (check_succ_le _ _ _)
          exact OptLe.same _
        · exact OptLe.same _
      · exact OptLe.same _

theorem remove_mono {n m : Nat} (h : n ≤ m) (s : QuadTreeManager) (id : QuadtreeID) (p : Nat) :
    OptLe (remove n s id p) (remove m s id p) := by
  induction h with
  | refl => exact OptLe.same _
  | step _ ih => exact ih.chain (remove_succ_le _ s id p)

theorem queryScan_spec (s : QuadTreeManager) (i : Nat) (range : Rect) (l : List Nat)
    (hdata : ∀ j, j < l.length → (s.m_nodes i).data j = l[j]?) (h4 : l.length ≤ 4) :
    ∀ (n j : Nat) (found : List fquery), j + n = l.length →
      queryScan s i range j n found = some
        (found ++ ((l.drop j).filter fun p => range.contains (s.heap p).position).map
          (fquery.mk i)) := by
  intro n
  induction n with
  | zero =>
    intro j found h
    have : l.drop j = [] := List.drop_eq_nil_of_le (by omega)
    simp [queryScan, this]
  | succ n ih =>
    intro j found h
    have hj : j < l.length := by omega
    have h4j : ¬ (4 ≤ j) := by omega
    have hd : l.drop j = l[j] :: l.drop (j + 1) := List.drop_eq_getElem_cons hj
    rw [queryScan]
    simp only [h4j, if_false, hdata j hj, List.getElem?_eq_getElem hj]
    rw [hd]
    by_cases hc : range.contains (s.heap l[j]).position = true
    · simp only [hc, if_true]
      rw [ih (j + 1) _ (by omega)]
      simp only [List.filter_cons, hc, if_true, List.map_cons, List.append_assoc,
        List.singleton_append]
    · simp only [Bool.not_eq_true] at hc
      simp only [hc, Bool.false_eq_true, if_false]
      rw [ih (j + 1) _ (by omega)]
      simp only [List.filter_cons, hc, Bool.false_eq_true, if_false]

theorem Tree.Shape.pts_le {cap : Nat} {t : Tree} (h : t.Shape cap) : t.pts.length ≤ cap := by
  cases t with
  | leaf i p r l => exact h
  | node i p r l a b c d => exact h.1

/-- `query` appends exactly the entries `Tree.queryT` lists and returns whether the region of
the start node intersects the range. -/
theorem query_refines (s : QuadTreeManager) (range : Rect) (t : Tree) :
    ∀ (fuel : Nat) (found : List fquery), Rep s t → t.Shape s.m_capacity → s.m_capacity ≤ 4 →
      t.height ≤ fuel →
      query fuel s (some t.id) range found = some
        (found ++ t.queryT (fun p => (s.heap p).position) range,
          t.boundary.intersects range) := by
  induction t with
  | leaf i par r l =>
    intro fuel found hrep hshape hcap hfuel
    obtain ⟨n, rfl⟩ : ∃ n, fuel = n + 1 := ⟨fuel - 1, by simp [Tree.height] at hfuel; omega⟩
    obtain ⟨hi, -, hb, hsz, hdata, hdiv⟩ := hrep
    have hl : l.length ≤ 4 := le_trans hshape hcap
    simp only [Tree.id, Tree.queryT, Tree.boundary]
    rw [query, resolve_some hi]
    simp only [hb, hsz, hdiv]
    by_cases hint : r.intersects range = true
    · simp [hint, queryScan_spec s i range l hdata hl l.length 0 found (by simp)]
    · simp [hint]
  | node i par r l a b c d iha ihb ihc ihd =>
    intro fuel found hrep hshape hcap hfuel
    obtain ⟨n, rfl⟩ : ∃ n, fuel = n + 1 := ⟨fuel - 1, by simp [Tree.height] at hfuel; omega⟩
    obtain ⟨⟨hi, -, hb, hsz, hdata, hdiv⟩, hne, hnw, hse, hsw, ra, rb, rc, rd⟩ := hrep
    obtain ⟨hl0, -, -, -, -, -, -, -, -, sa, sb, sc, sd⟩ := hshape
    have hl : l.length ≤ 4 := le_trans hl0 hcap
    simp only [Tree.height] at hfuel
    simp only [Tree.id, Tree.queryT, Tree.boundary]
    rw [query, resolve_some hi]
    simp only [hb, hsz, hdiv, hne, hnw, hse, hsw]
    by_cases hint : r.intersects range = true
    · simp only [hint, Bool.not_true, Bool.false_eq_true, if_false, if_true,
        queryScan_spec s i range l hdata hl l.length 0 found (by simp), Option.some_bind,
        List.drop_zero]
      rw [ihb n _ rb sb hcap (by omega)]
      simp only [Option.some_bind]
      rw [iha n _ ra sa hcap (by omega)]
      simp only [Option.some_bind]
      rw [ihd n _ rd sd hcap (by omega)]
      simp only [Option.some_bind]
      rw [ihc n _ rc sc hcap (by omega)]
      simp only [Option.some_bind, List.append_assoc]
    · simp [hint]

theorem fivePoints_wf : WF fivePoints fiveTree [5, 6, 7, 8, 9, 10, 11, 12, 13, 14, 15] := by
  decide!

theorem fivePoints_inRegion :
    fiveTree.InRegion (fun p => (fivePoints.heap p).position) := by
  decide!

/-! ## Exactness of the range query -/

/-- In a tree whose stored points lie in the regions of their nodes, every entry of a subtree
lies in the region of the root of that subtree. -/
theorem Tree.entries_in_boundary (cap : Nat) (pos : Nat → Vector2) (t : Tree)
    (hs : t.Shape cap) (hr : t.InRegion pos) :
    ∀ e ∈ t.entries, t.boundary.contains (pos e.data) = true := by
  induction t with
  | leaf i par r l =>
    intro e he
    simp only [Tree.entries, List.mem_map] at he
    obtain ⟨p, hp, rfl⟩ := he
    exact hr p hp
  | node i par r l a b c d iha ihb ihc ihd =>
    obtain ⟨-, -, -, -, -, ba, bb, bc, bd, sa, sb, sc, sd⟩ := hs
    obtain ⟨h0, ha, hb, hc, hd⟩ := hr
    intro e he
    simp only [Tree.entries, List.mem_append, List.mem_map] at he
    simp only [Tree.boundary]
    rcases he with ⟨p, hp, rfl⟩ | ((he | he) | he) | he
    · exact h0 p hp
    · exact Rect.quadNW_sub r _ (by rw [← bb]; exact ihb sb hb e he)
    · exact Rect.quadNE_sub r _ (by rw [← ba]; exact iha sa ha e he)
    · exact Rect.quadSW_sub r _ (by rw [← bd]; exact ihd sd hd e he)
    · exact Rect.quadSE_sub r _ (by rw [← bc]; exact ihc sc hc e he)

theorem filter_map_mk (i : Nat) (l : List Nat) (q : Nat → Bool) :
    (l.map (fquery.mk i)).filter (fun e => q e.data) = (l.filter q).map (fquery.mk i) := by
  induction l with
  | nil => rfl
  | cons a l ih =>
    simp only [List.map_cons, List.filter_cons]
    split
    · simp [ih]
    · exact ih

/-- Pruning on `intersects` hides no matching point: the entries `query` appends are exactly
the stored entries whose position the range contains. -/
theorem Tree.queryT_eq_filter (cap : Nat) (pos : Nat → Vector2) (range : Rect) (t : Tree)
    (hs : t.Shape cap) (hr : t.InRegion pos) :
    t.queryT pos range = t.entries.filter (fun e => range.contains (pos e.data)) := by
  have prune : ∀ t : Tree, t.Shape cap → t.InRegion pos → t.boundary.intersects range = false →
      t.entries.filter (fun e => range.contains (pos e.data)) = [] := by
    intro t hs hr hint
    rw [List.filter_eq_nil_iff]
    intro e he hc
    have := Rect.intersects_of_contains _ _ _ (Tree.entries_in_boundary cap pos t hs hr e he) hc
    rw [hint] at this
    cases this
  induction t with
  | leaf i par r l =>
    simp only [Tree.queryT, Tree.entries]
    by_cases hint : r.intersects range = true
    · simp only [hint, if_true]
      exact (filter_map_mk i l _).symm
    · simp only [hint, if_false]
      exact (prune (Tree.leaf i par r l) hs hr (by simpa using hint)).symm
  | node i par r l a b c d iha ihb ihc ihd =>
    by_cases hint : r.intersects range = true
    · obtain ⟨-, -, -, -, -, -, -, -, -, sa, sb, sc, sd⟩ := hs
      obtain ⟨-, ha, hb, hc, hd⟩ := hr
      simp only [Tree.queryT, Tree.entries, hint, if_true, List.filter_append, iha sa ha,
        ihb sb hb, ihc sc hc, ihd sd hd]
      rw [filter_map_mk i l (fun p => range.contains (pos p))]
    · simp only [Tree.queryT, hint, if_false]
      exact (prune (Tree.node i par r l a b c d) hs hr (by simpa using hint)).symm

/-! ## Claim C3 -/

/-- C3. Range query is exact: on a well-formed index in which every stored point lies inside
the region of the node that holds it, `query` started at the root appends to `found`, for
every query rectangle, exactly the stored entries (owning node handle, point) whose position
satisfies `range.contains`, each once and in visiting order, and nothing else; it returns
whether the root region intersects the range.  Pruning on `intersects` hides no match. -/
theorem C3_query_exact (s : QuadTreeManager) (t : Tree) (F : List Nat) (range : Rect)
    (found : List fquery) (fuel : Nat) (hwf : WF s t F)
    (hreg : t.InRegion (fun p => (s.heap p).position)) (hfuel : t.height ≤ fuel) :
    query fuel s (some t.id) range found = some
      (found ++ t.entries.filter (fun e => range.contains (s.heap e.data).position),
        t.boundary.intersects range) := by
  rw [query_refines s range t fuel found hwf.rep hwf.shape hwf.cap_le hfuel,
    Tree.queryT_eq_filter s.m_capacity _ range t hwf.shape hreg]

/-- Witness for C3: on the five-point index of the insertion example the query rectangle with
centre `(50,50)` and half-extents `(25,25)` returns exactly the points 3, 4 and 5, that is
`(30,30)`, `(40,40)` (held by the root) and `(50,50)` (held by the northwest child 2). -/
theorem C3_query_exact_witness :
    WF fivePoints fiveTree [5, 6, 7, 8, 9, 10, 11, 12, 13, 14, 15] ∧
    fiveTree.InRegion (fun p => (fivePoints.heap p).position) ∧
    query 2 fivePoints (some 0) ⟨50, 50, 25, 25⟩ [] =
      some ([⟨0, 3⟩, ⟨0, 4⟩, ⟨2, 5⟩], true) :=
  ⟨fivePoints_wf, fivePoints_inRegion,
    (C3_query_exact fivePoints fiveTree _ ⟨50, 50, 25, 25⟩ [] 2 fivePoints_wf
      fivePoints_inRegion (by decide)).trans (by decide!)⟩

/-! ## Properties of `Tree.insertT` -/

theorem Tree.insertT_boundary (cap : Nat) (pos : Vector2) (p : Nat) (f : Nat × Nat × Nat × Nat)
    (t : Tree) : (Tree.insertT cap pos p f t).1.boundary = t.boundary := by
  cases t with
  | leaf i par r l =>
    simp only [Tree.insertT]
    repeat' split
    all_goals rfl
  | node i par r l a b c d =>
    simp only [Tree.insertT]
    repeat' split
    all_goals rfl

theorem Tree.insertT_parent (cap : Nat) (pos : Vector2) (p : Nat) (f : Nat × Nat × Nat × Nat)
    (t : Tree) : (Tree.insertT cap pos p f t).1.parent = t.parent := by
  cases t with
  | leaf i par r l =>
    simp only [Tree.insertT]
    repeat' split
    all_goals rfl
  | node i par r l a b c d =>
    simp only [Tree.insertT]
    repeat' split
    all_goals rfl

/-- Insertion keeps the structural constraints. -/
theorem Tree.insertT_shape (cap : Nat) (pos : Vector2) (p : Nat) (f : Nat × Nat × Nat × Nat)
    (hcap : 1 ≤ cap) (t : Tree) (hs : t.Shape cap) :
    (Tree.insertT cap pos p f t).1.Shape cap := by
  induction t with
  | leaf i par r l =>
    have hl : l.length ≤ cap := hs
    simp only [Tree.insertT]
    repeat' split
    all_goals simp [Tree.Shape, Tree.parent, Tree.boundary]
    all_goals omega
  | node i par r l a b c d iha ihb ihc ihd =>
    obtain ⟨hl, pa, pb, pc, pd, ba, bb, bc, bd, sa, sb, sc, sd⟩ := hs
    have ha := iha sa
    have hb := ihb sb
    have hc := ihc sc
    have hd := ihd sd
    have ea := Tree.insertT_boundary cap pos p f a
    have eb := Tree.insertT_boundary cap pos p f b
    have ec := Tree.insertT_boundary cap pos p f c
    have ed := Tree.insertT_boundary cap pos p f d
    have fa := Tree.insertT_parent cap pos p f a
    have fb := Tree.insertT_parent cap pos p f b
    have fc := Tree.insertT_parent cap pos p f c
    have fd := Tree.insertT_parent cap pos p f d
    simp only [Tree.insertT]
    split
    · exact ⟨hl, pa, pb, pc, pd, ba, bb, bc, bd, sa, sb, sc, sd⟩
    · split
      · refine ⟨?_, pa, pb, pc, pd, ba, bb, bc, bd, sa, sb, sc, sd⟩
        simp only [List.length_append, List.length_singleton]
        omega
      · rcases e1 : Tree.insertT cap pos p f a with ⟨a1, _ | k⟩
        · rw [e1] at ha ea fa
          rcases e2 : Tree.insertT cap pos p f b with ⟨b1, _ | k⟩
          · rw [e2] at hb eb fb
            rcases e3 : Tree.insertT cap pos p f c with ⟨c1, _ | k⟩
            · rw [e3] at hc ec fc
              rcases e4 : Tree.insertT cap pos p f d with ⟨d1, _ | k⟩
              · rw [e4] at hd ed fd
                exact ⟨hl, fa.trans pa, fb.trans pb, fc.trans pc, fd.trans pd, ea.trans ba,
                  eb.trans bb, ec.trans bc, ed.trans bd, ha, hb, hc, hd⟩
              · rw [e4] at hd ed fd
                exact ⟨hl, fa.trans pa, fb.trans pb, fc.trans pc, fd.trans pd, ea.trans ba,
                  eb.trans bb, ec.trans bc, ed.trans bd, ha, hb, hc, hd⟩
            · rw [e3] at hc ec fc
              exact ⟨hl, fa.trans pa, fb.trans pb, fc.trans pc, pd, ea.trans ba,
                eb.trans bb, ec.trans bc, bd, ha, hb, hc, sd⟩
          · rw [e2] at hb eb fb
            exact ⟨hl, fa.trans pa, fb.trans pb, pc, pd, ea.trans ba,
              eb.trans bb, bc, bd, ha, hb, sc, sd⟩
        · rw [e1] at ha ea fa
          exact ⟨hl, fa.trans pa, pb, pc, pd, ea.trans ba, bb, bc, bd, ha, sb, sc, sd⟩

/-! ## `Insert` on a well-formed index -/

theorem InsertPost.wf {s s1 : QuadTreeManager} {t : Tree} {F F1 : List Nat} {p k : Nat}
    {f : Nat × Nat × Nat × Nat} (hwf : WF s t F)
    (post : InsertPost s t F p s1 (Tree.insertT s.m_capacity (s.heap p).position p f t).1 k F1) :
    WF s1 (Tree.insertT s.m_capacity (s.heap p).position p f t).1 F1 := by
  refine ⟨post.rep, ?_, post.free, post.nodup, ?_, ?_⟩
  · rw [post.frame.cap_eq]
    exact Tree.insertT_shape _ _ _ _ hwf.cap_pos t hwf.shape
  · rw [post.frame.cap_eq]; exact hwf.cap_pos
  · rw [post.frame.cap_eq]; exact hwf.cap_le

/-- With enough fuel `Insert` at the root of a well-formed index answers whether the root
region contains the point; a rejected call changes nothing, an accepted one satisfies
`InsertPost`. -/
theorem Insert_enough (s : QuadTreeManager) (t : Tree) (F : List Nat) (p fuel : Nat)
    (hwf : WF s t F) (hfuel : t.height + 1 ≤ fuel) :
    (t.boundary.contains (s.heap p).position = false ∧
      Insert fuel s (some t.id) p = some (s, false)) ∨
    (t.boundary.contains (s.heap p).position = true ∧
      ∃ s1 F1 f k, Insert fuel s (some t.id) p = some (s1, true) ∧
        (Tree.insertT s.m_capacity (s.heap p).position p f t).2 = some k ∧
        InsertPost s t F p s1 (Tree.insertT s.m_capacity (s.heap p).position p f t).1 k F1) := by
  by_cases hc : t.boundary.contains (s.heap p).position = true
  · right
    exact ⟨hc, Insert_refines t s F fuel p hwf.rep hwf.shape hwf.free hwf.nodup hwf.cap_pos
      hwf.cap_le hfuel hc⟩
  · left
    simp only [Bool.not_eq_true] at hc
    obtain ⟨n, rfl⟩ : ∃ n, fuel = n + 1 := ⟨fuel - 1, by omega⟩
    refine ⟨hc, Insert_reject n s t.id p hwf.rep.id_lt ?_⟩
    rw [hwf.rep.boundary_eq]
    exact hc

/-- Any result of `Insert` at the root of a well-formed index, whatever the fuel: the flag
says whether the root region contains the point; a rejected call changes nothing, an accepted
one satisfies `InsertPost`. -/
theorem Insert_result (s : QuadTreeManager) (t : Tree) (F : List Nat) (p fuel : Nat)
    (s1 : QuadTreeManager) (b : Bool) (hwf : WF s t F)
    (h : Insert fuel s (some t.id) p = some (s1, b)) :
    (t.boundary.contains (s.heap p).position = false ∧ b = false ∧ s1 = s) ∨
    (t.boundary.contains (s.heap p).position = true ∧ b = true ∧
      ∃ F1 f k, (Tree.insertT s.m_capacity (s.heap p).position p f t).2 = some k ∧
        InsertPost s t F p s1 (Tree.insertT s.m_capacity (s.heap p).position p f t).1 k F1) := by
  have h1 := Insert_mono (le_max_left fuel (t.height + 1)) s (some t.id) p _ h
  rcases Insert_enough s t F p (max fuel (t.height + 1)) hwf (le_max_right _ _) with
    ⟨hc, h2⟩ | ⟨hc, s2, F1, f, k, h2, hk, post⟩
  · rw [h2] at h1
    simp only [Option.some.injEq, Prod.mk.injEq] at h1
    exact Or.inl ⟨hc, h1.2.symm, h1.1.symm⟩
  · rw [h2] at h1
    simp only [Option.some.injEq, Prod.mk.injEq] at h1
    obtain ⟨rfl, rfl⟩ := h1
    exact Or.inr ⟨hc, rfl, F1, f, k, hk, post⟩

/-! ## Queries before and after an insertion -/

theorem InsertPost.position_eq {s s1 : QuadTreeManager} {t t1 : Tree} {F F1 : List Nat}
    {p k : Nat} (post : InsertPost s t F p s1 t1 k F1) (q : Nat) :
    (s1.heap q).position = (s.heap q).position := by
  rw [post.heap]
  by_cases e : q = p
  · subst e; simp
  · rw [setAt_ne _ _ e]

theorem Tree.insertT_height_le (cap : Nat) (pos : Vector2) (p : Nat)
    (f : Nat × Nat × Nat × Nat) (t : Tree) :
    (Tree.insertT cap pos p f t).1.height ≤ t.height + 1 := by
  induction t with
  | leaf i par r l =>
    simp only [Tree.insertT]
    repeat' split
    all_goals simp [Tree.height]
  | node i par r l a b c d iha ihb ihc ihd =>
    simp only [Tree.insertT]
    split
    · simp
    · split
      · simp [Tree.height]
      · rcases e1 : Tree.insertT cap pos p f a with ⟨a1, _ | k⟩ <;> rw [e1] at iha <;>
          rcases e2 : Tree.insertT cap pos p f b with ⟨b1, _ | k⟩ <;> rw [e2] at ihb <;>
          rcases e3 : Tree.insertT cap pos p f c with ⟨c1, _ | k⟩ <;> rw [e3] at ihc <;>
          rcases e4 : Tree.insertT cap pos p f d with ⟨d1, _ | k⟩ <;> rw [e4] at ihd <;>
          simp only [Tree.height] at iha ihb ihc ihd ⊢ <;> omega

/-! ## Claim C7 -/

/-- Inside a region, a quadrant contains a point exactly when it is the quadrant of the
point. -/
theorem Rect.quad_contains_iff (r : Rect) (pos : Vector2) (h : r.contains pos = true) :
    (r.quadNE.contains pos = true ↔ r.quadrantOf pos = Quadrant.ne) ∧
    (r.quadNW.contains pos = true ↔ r.quadrantOf pos = Quadrant.nw) ∧
    (r.quadSE.contains pos = true ↔ r.quadrantOf pos = Quadrant.se) ∧
    (r.quadSW.contains pos = true ↔ r.quadrantOf pos = Quadrant.sw) := by
  simp only [Rect.contains_iff, Rect.quadNE, Rect.quadNW, Rect.quadSE, Rect.quadSW,
    Rect.quadrantOf] at h ⊢
  obtain ⟨h1, h2, h3, h4⟩ := h
  by_cases hx : r.x ≤ pos.x <;> by_cases hy : r.y ≤ pos.y <;>
    simp only [hx, hy, if_true, if_false, reduceCtorEq, iff_false, iff_true, not_and, not_lt,
      not_le] <;>
    refine ⟨?_, ?_, ?_, ?_⟩ <;> (try intros) <;> (try constructor) <;> (try constructor) <;>
    (try constructor) <;> linarith

/-- The code tries the children in a fixed order and takes the first that accepts; on a
well-shaped tree this is the placement rule `Tree.placeT`. -/
theorem Tree.insertT_eq_placeT (cap : Nat) (pos : Vector2) (p : Nat)
    (f : Nat × Nat × Nat × Nat) (t : Tree) (hs : t.Shape cap)
    (hc : t.boundary.contains pos = true) :
    Tree.insertT cap pos p f t = ((Tree.placeT cap pos p f t).1, some (Tree.placeT cap pos p f t).2) := by
  induction t with
  | leaf i par r l =>
    simp only [Tree.boundary] at hc
    obtain ⟨q1, q2, q3, q4⟩ := Rect.quad_contains_iff r pos hc
    simp only [Tree.insertT, Tree.placeT, hc, Bool.not_true, Bool.false_eq_true, if_false]
    split
    · rfl
    · rcases hq : r.quadrantOf pos
      · have := q1.2 hq
        simp [this]
      · have h1 : r.quadNE.contains pos = false := by
          rw [← Bool.not_eq_true, q1, hq]; simp
        have := q2.2 hq
        simp [this, h1]
      · have h1 : r.quadNE.contains pos = false := by
          rw [← Bool.not_eq_true, q1, hq]; simp
        have h2 : r.quadNW.contains pos = false := by
          rw [← Bool.not_eq_true, q2, hq]; simp
        have := q3.2 hq
        simp [this, h1, h2]
      · have h1 : r.quadNE.contains pos = false := by
          rw [← Bool.not_eq_true, q1, hq]; simp
        have h2 : r.quadNW.contains pos = false := by
          rw [← Bool.not_eq_true, q2, hq]; simp
        have h3 : r.quadSE.contains pos = false := by
          rw [← Bool.not_eq_true, q3, hq]; simp
        have := q4.2 hq
        simp [this, h1, h2, h3]
  | node i par r l a b c d iha ihb ihc ihd =>
    obtain ⟨-, -, -, -, -, ba, bb, bc, bd, sa, sb, sc, sd⟩ := hs
    simp only [Tree.boundary] at hc
    obtain ⟨q1, q2, q3, q4⟩ := Rect.quad_contains_iff r pos hc
    rw [← ba] at q1
    rw [← bb] at q2
    rw [← bc] at q3
    rw [← bd] at q4
    simp only [Tree.insertT, Tree.placeT, hc, Bool.not_true, Bool.false_eq_true, if_false]
    split
    · rfl
    · rcases hq : r.quadrantOf pos
      · rw [iha sa (q1.2 hq)]
      · have h1 : a.boundary.contains pos = false := by
          rw [← Bool.not_eq_true, q1, hq]; simp
        rw [Tree.insertT_reject cap pos p f a h1, ihb sb (q2.2 hq)]
      · have h1 : a.boundary.contains pos = false := by
          rw [← Bool.not_eq_true, q1, hq]; simp
        have h2 : b.boundary.contains pos = false := by
          rw [← Bool.not_eq_true, q2, hq]; simp
        rw [Tree.insertT_reject cap pos p f a h1, Tree.insertT_reject cap pos p f b h2,
          ihc sc (q3.2 hq)]
      · have h1 : a.boundary.contains pos = false := by
          rw [← Bool.not_eq_true, q1, hq]; simp
        have h2 : b.boundary.contains pos = false := by
          rw [← Bool.not_eq_true, q2, hq]; simp
        have h3 : c.boundary.contains pos = false := by
          rw [← Bool.not_eq_true, q3, hq]; simp
        rw [Tree.insertT_reject cap pos p f a h1, Tree.insertT_reject cap pos p f b h2,
          Tree.insertT_reject cap pos p f c h3, ihd sd (q4.2 hq)]

/-! ## Claim C2 -/

theorem fourPoints_wf :
    WF fourPoints fourTree [1, 2, 3, 4, 5, 6, 7, 8, 9, 10, 11, 12, 13, 14, 15] := by
  decide!

theorem fivePoints_eq : Insert 3 fourPoints (some 0) 5 = some (fivePoints, true) := by
  with_unfolding_all rfl

/-- C2. Placement rule of `Insert`: when `Insert` at the root of a well-formed index returns
`true`, the new arena represents the tree given by the placement rule `Tree.placeT` (the point
is appended to the bucket of the first node, walking down through the quadrant child that
contains the point, whose count is below the capacity, a full leaf being subdivided first;
full nodes on the way keep their entries); the point is the last entry of that node's bucket,
at index = old count; its back-reference is that node's handle; and every previously live
node keeps its occupied slots. -/
theorem C2_insert_placement (s : QuadTreeManager) (t : Tree) (F : List Nat) (p fuel : Nat)
    (s1 : QuadTreeManager) (hwf : WF s t F)
    (hins : Insert fuel s (some t.id) p = some (s1, true)) :
    ∃ F1 f,
      WF s1 (Tree.placeT s.m_capacity (s.heap p).position p f t).1 F1 ∧
      (s1.heap p).id = some (Tree.placeT s.m_capacity (s.heap p).position p f t).2 ∧
      Placed s F p s1 (Tree.placeT s.m_capacity (s.heap p).position p f t).2 ∧
      ∀ i ∈ t.ids, Stable s s1 i := by
  rcases Insert_result s t F p fuel s1 true hwf hins with
    ⟨-, h, -⟩ | ⟨hc, -, F1, f, k, hk, post⟩
  · cases h
  · have e := Tree.insertT_eq_placeT s.m_capacity (s.heap p).position p f t hwf.shape hc
    have hwf1 := post.wf hwf
    rw [e] at hk
    simp only [Option.some.injEq] at hk
    have hdis : ∀ i ∈ t.ids, i ∉ F := fun i hi hiF =>
      (List.nodup_append.1 hwf.nodup).2.2 hi hiF
    refine ⟨F1, f, by rw [e] at hwf1; exact hwf1, ?_, ?_,
      fun i hi => post.stable i (hwf.rep.ids_lt i hi) (hdis i hi)⟩
    · rw [post.heap, hk]
      simp
    · rw [hk]
      exact post.placed

/-- Witness for C2: root region `(400,300,400,300)`, capacity 4; after the points 1 to 4 the
fifth insertion (point 5 at `(50,50)`) returns `true`, the placement rule gives the tree
`fiveTree`: the root (handle 0) is divided and still holds the points 1 to 4, and point 5 is
only in the bucket of the northwest child (handle 2), which the arena `fivePoints`
represents. -/
theorem C2_insert_placement_witness :
    WF fourPoints fourTree [1, 2, 3, 4, 5, 6, 7, 8, 9, 10, 11, 12, 13, 14, 15] ∧
    Insert 3 fourPoints (some 0) 5 = some (fivePoints, true) ∧
    (∃ F1 f,
      WF fivePoints
        (Tree.placeT fourPoints.m_capacity (fourPoints.heap 5).position 5 f fourTree).1 F1 ∧
      (fivePoints.heap 5).id =
        some (Tree.placeT fourPoints.m_capacity (fourPoints.heap 5).position 5 f fourTree).2 ∧
      Placed fourPoints [1, 2, 3, 4, 5, 6, 7, 8, 9, 10, 11, 12, 13, 14, 15] 5 fivePoints
        (Tree.placeT fourPoints.m_capacity (fourPoints.heap 5).position 5 f fourTree).2 ∧
      ∀ i ∈ fourTree.ids, Stable fourPoints fivePoints i) ∧
    Tree.placeT 4 ⟨50, 50⟩ 5 (1, 2, 3, 4) fourTree = (fiveTree, 2) ∧
    WF fivePoints fiveTree [5, 6, 7, 8, 9, 10, 11, 12, 13, 14, 15] ∧
    (fivePoints.heap 5).id = some 2 :=
  ⟨fourPoints_wf, fivePoints_eq,
    C2_insert_placement fourPoints fourTree _ 5 3 fivePoints fourPoints_wf fivePoints_eq,
    by decide!, fivePoints_wf, by decide!⟩

/-! ## Claim C10 -/

/-- After the placement of `p` at `pos`, every query whose rectangle contains `pos` returns
`p` with the handle of the node that holds it. -/
theorem Tree.queryT_placeT (cap : Nat) (pos : Vector2) (p : Nat) (f : Nat × Nat × Nat × Nat)
    (posf : Nat → Vector2) (range : Rect) (hp : posf p = pos)
    (hr : range.contains pos = true) (t : Tree) (hs : t.Shape cap)
    (hc : t.boundary.contains pos = true) :
    ⟨(Tree.placeT cap pos p f t).2, p⟩ ∈ (Tree.placeT cap pos p f t).1.queryT posf range := by
  induction t with
  | leaf i par r l =>
    simp only [Tree.boundary] at hc
    have hint := Rect.intersects_of_contains r range pos hc hr
    obtain ⟨q1, q2, q3, q4⟩ := Rect.quad_contains_iff r pos hc
    simp only [Tree.placeT]
    split
    · simp [Tree.queryT, hint, hp, hr]
    · rcases hq : r.quadrantOf pos
      · have := Rect.intersects_of_contains _ range pos (q1.2 hq) hr
        simp [Tree.queryT, hint, this, hp, hr]
      · have := Rect.intersects_of_contains _ range pos (q2.2 hq) hr
        simp [Tree.queryT, hint, this, hp, hr]
      · have := Rect.intersects_of_contains _ range pos (q3.2 hq) hr
        simp [Tree.queryT, hint, this, hp, hr]
      · have := Rect.intersects_of_contains _ range pos (q4.2 hq) hr
        simp [Tree.queryT, hint, this, hp, hr]
  | node i par r l a b c d iha ihb ihc ihd =>
    obtain ⟨-, -, -, -, -, ba, bb, bc, bd, sa, sb, sc, sd⟩ := hs
    simp only [Tree.boundary] at hc
    have hint := Rect.intersects_of_contains r range pos hc hr
    obtain ⟨q1, q2, q3, q4⟩ := Rect.quad_contains_iff r pos hc
    rw [← ba] at q1
    rw [← bb] at q2
    rw [← bc] at q3
    rw [← bd] at q4
    simp only [Tree.placeT]
    split
    · simp [Tree.queryT, hint, hp, hr]
    · rcases hq : r.quadrantOf pos
      · have := iha sa (q1.2 hq)
        simp only [Tree.queryT, hint, if_true, List.mem_append]
        exact Or.inr (Or.inl (Or.inl (Or.inr this)))
      · have := ihb sb (q2.2 hq)
        simp only [Tree.queryT, hint, if_true, List.mem_append]
        exact Or.inr (Or.inl (Or.inl (Or.inl this)))
      · have := ihc sc (q3.2 hq)
        simp only [Tree.queryT, hint, if_true, List.mem_append]
        exact Or.inr (Or.inr this)
      · have := ihd sd (q4.2 hq)
        simp only [Tree.queryT, hint, if_true, List.mem_append]
        exact Or.inr (Or.inl (Or.inr this))

/-- A rectangle with a zero half-extent contains no point. -/
theorem Rect.contains_zero_extent (r : Rect) (pos : Vector2) (h : r.w = 0 ∨ r.h = 0) :
    r.contains pos = false := by
  rw [← Bool.not_eq_true, Rect.contains_iff]
  intro ⟨h1, h2, h3, h4⟩
  rcases h with h | h <;> linarith

theorem queryScan_zero_extent (s : QuadTreeManager) (i : Nat) (range : Rect)
    (h : range.w = 0 ∨ range.h = 0) : ∀ (n j : Nat) (found res : List fquery),
    queryScan s i range j n found = some res → res = found := by
  intro n
  induction n with
  | zero =>
    intro j found res hq
    simp only [queryScan, Option.some.injEq] at hq
    exact hq.symm
  | succ n ih =>
    intro j found res hq
    rw [queryScan] at hq
    split at hq
    · cases hq
    · split at hq
      · cases hq
      · rw [Rect.contains_zero_extent range _ h] at hq
        exact ih _ _ _ hq

/-- With a zero half-extent `query` appends nothing, whatever the index. -/
theorem query_zero_extent (range : Rect) (h : range.w = 0 ∨ range.h = 0) :
    ∀ (fuel : Nat) (s : QuadTreeManager) (id : QuadtreeID) (found res : List fquery) (b : Bool),
    query fuel s id range found = some (res, b) → res = found := by
  intro fuel
  induction fuel with
  | zero => intro s id found res b hq; simp [query] at hq
  | succ n ih =>
    intro s id found res b hq
    rw [query] at hq
    split at hq
    · cases hq
    · simp only [] at hq
      split at hq
      · simp only [Option.some.injEq, Prod.mk.injEq] at hq
        exact hq.1.symm
      · cases h0 : queryScan s _ range 0 (s.m_nodes _).size found with
        | none => rw [h0] at hq; simp at hq
        | some f0 =>
          have e0 := queryScan_zero_extent s _ range h _ _ _ _ h0
          subst e0
          rw [h0] at hq
          simp only [Option.some_bind] at hq
          split at hq
          · rcases h1 : query n s (s.m_nodes _).northwest range f0 with _ | ⟨f1, b1⟩
            · rw [h1] at hq; simp at hq
            · rw [h1] at hq
              have e1 := ih _ _ _ _ _ h1
              subst e1
              simp only [Option.some_bind] at hq
              rcases h2 : query n s (s.m_nodes _).northeast range f1 with _ | ⟨f2, b2⟩
              · rw [h2] at hq; simp at hq
              · rw [h2] at hq
                have e2 := ih _ _ _ _ _ h2
                subst e2
                simp only [Option.some_bind] at hq
                rcases h3 : query n s (s.m_nodes _).southwest range f2 with _ | ⟨f3, b3⟩
                · rw [h3] at hq; simp at hq
                · rw [h3] at hq
                  have e3 := ih _ _ _ _ _ h3
                  subst e3
                  simp only [Option.some_bind] at hq
                  rcases h4 : query n s (s.m_nodes _).southeast range f3 with _ | ⟨f4, b4⟩
                  · rw [h4] at hq; simp at hq
                  · rw [h4] at hq
                    have e4 := ih _ _ _ _ _ h4
                    subst e4
                    simp only [Option.some_bind, Option.some.injEq, Prod.mk.injEq] at hq
                    exact hq.1.symm
          · simp only [Option.some.injEq, Prod.mk.injEq] at hq
            exact hq.1.symm

/-- C10, as stated, fails: point 5 at `(50,50)` is successfully inserted (the arena is then
`fivePoints`), yet the query whose rectangle is centred at `(50,50)` with zero half-extents
returns no point, because the half-open `contains` rule is false for every position when a
half-extent is zero.  In binary32 the same happens with small positive half-extents: the
bound `50 + 2 ^ -20` rounds to `50`, so the rectangle does not contain its own centre, while
over exact rationals it does. -/
theorem C10_zero_extent_counterexample :
    Insert 3 fourPoints (some 0) 5 = some (fivePoints, true) ∧
    (fivePoints.heap 5).position = ⟨50, 50⟩ ∧
    query 2 fivePoints (some 0) ⟨50, 50, 0, 0⟩ [] = some ([], true) ∧
    Rect.contains32 ⟨50, 50, 1 / 1048576, 1 / 1048576⟩ ⟨50, 50⟩ = false ∧
    Rect.contains ⟨50, 50, 1 / 1048576, 1 / 1048576⟩ ⟨50, 50⟩ = true :=
  ⟨fivePoints_eq, by decide!, by decide!, by decide!, by decide!⟩

/-- After a successful `Insert` of `p` at the root of a well-formed index, a query whose
rectangle is centred at the position of `p` with positive half-extents `w`, `h` returns `p`,
paired with the handle in its back-reference; with zero half-extents the query returns
nothing. -/
theorem query_finds_after_insert (s : QuadTreeManager) (t : Tree) (F : List Nat)
    (p fuel : Nat) (s1 : QuadTreeManager) (w h : ℚ) (hwf : WF s t F)
    (hins : Insert fuel s (some t.id) p = some (s1, true)) (hw : 0 < w) (hh : 0 < h) :
    (∃ fq found k,
      query fq s1 (some t.id) ⟨(s1.heap p).position.x, (s1.heap p).position.y, w, h⟩ [] =
        some (found, true) ∧
      (s1.heap p).id = some k ∧ ⟨k, p⟩ ∈ found) ∧
    ∀ (fq : Nat) (found : List fquery) (b : Bool),
      query fq s1 (some t.id) ⟨(s1.heap p).position.x, (s1.heap p).position.y, 0, 0⟩ [] =
        some (found, b) → found = [] := by
  refine ⟨?_, fun fq found b hq =>
    query_zero_extent _ (Or.inl rfl) fq s1 (some t.id) [] found b hq⟩
  rcases Insert_result s t F p fuel s1 true hwf hins with
    ⟨-, h0, -⟩ | ⟨hc, -, F1, f, k, hk, post⟩
  · cases h0
  · have e := Tree.insertT_eq_placeT s.m_capacity (s.heap p).position p f t hwf.shape hc
    have hwf1 := post.wf hwf
    rw [e] at hk hwf1
    simp only [Option.some.injEq] at hk
    have hpos : (s1.heap p).position = (s.heap p).position := post.position_eq p
    have hr : Rect.contains ⟨(s1.heap p).position.x, (s1.heap p).position.y, w, h⟩
        (s.heap p).position = true := by
      rw [hpos, Rect.contains_iff]
      refine ⟨?_, ?_, ?_, ?_⟩ <;> simp only [] <;> linarith
    have hq := query_refines s1
      ⟨(s1.heap p).position.x, (s1.heap p).position.y, w, h⟩ _ _ [] hwf1.rep hwf1.shape
      hwf1.cap_le (le_refl _)
    have hb : (Tree.placeT s.m_capacity (s.heap p).position p f t).1.boundary = t.boundary := by
      have := Tree.insertT_boundary s.m_capacity (s.heap p).position p f t
      rw [e] at this
      exact this
    have hid : (Tree.placeT s.m_capacity (s.heap p).position p f t).1.id = t.id := by
      have := Tree.insertT_id s.m_capacity (s.heap p).position p f t
      rw [e] at this
      exact this
    rw [hb, hid, Rect.intersects_of_contains _ _ _ hc hr] at hq
    refine ⟨_, _, k, hq, ?_, ?_⟩
    · rw [post.heap]; simp
    · simp only [List.nil_append]
      rw [← hk]
      exact Tree.queryT_placeT s.m_capacity (s.heap p).position p f _ _ hpos hr t hwf.shape hc

/-! ## Removal from a bucket -/

theorem scanBucket_spec (node : QuadTreeNode) (p : Nat) (l : List Nat)
    (hdata : ∀ j, j < l.length → node.data j = l[j]?) (h4 : l.length ≤ 4) :
    ∀ (n j : Nat), j + n = l.length →
      scanBucket node p j n =
        some (if p ∈ l.drop j then some (j + (l.drop j).indexOf p) else none) := by
  intro n
  induction n with
  | zero =>
    intro j h
    have : l.drop j = [] := List.drop_eq_nil_of_le (by omega)
    simp [scanBucket, this]
  | succ n ih =>
    intro j h
    have hj : j < l.length := by omega
    have h4j : ¬ (4 ≤ j) := by omega
    have hd : l.drop j = l[j] :: l.drop (j + 1) := List.drop_eq_getElem_cons hj
    rw [scanBucket, hd]
    simp only [h4j, if_false, hdata j hj, List.getElem?_eq_getElem hj, Option.some.injEq]
    by_cases e : l[j] = p
    · simp [e]
    · have e1 : ¬ (p = l[j]) := fun h => e h.symm
      rw [if_neg e, ih (j + 1) (by omega)]
      have eb : (l[j] == p) = false := by simp [e]
      simp only [List.mem_cons, e1, false_or, List.indexOf_cons, eb, cond_false]
      split
      · simp only [Option.some.injEq]; omega
      · rfl

theorem swapRemove_length (l : List Nat) (k : Nat) : (swapRemove l k).length = l.length - 1 := by
  simp [swapRemove]

theorem popPoint_nodes_ne (s : QuadTreeManager) (i k : Nat) {j : Nat} (h : j ≠ i) :
    (popPoint s i k).m_nodes j = s.m_nodes j := by
  simp only [popPoint, setNode]
  rw [setAt_ne _ _ h]

theorem NodeRep.pop {s : QuadTreeManager} {i : Nat} {par : QuadtreeID} {r : Rect}
    {l : List Nat} {dv : Bool} (h : NodeRep s i par r l dv) (k : Nat) (hk : k < l.length) :
    NodeRep (popPoint s i k) i par r (swapRemove l k) dv := by
  obtain ⟨h1, h2, h3, h4, h5, h6⟩ := h
  refine ⟨h1, ?_, ?_, ?_, ?_, ?_⟩
  · simpa [popPoint, setNode] using h2
  · simpa [popPoint, setNode] using h3
  · simp [popPoint, setNode, h4, swapRemove_length]
  · intro j hj
    rw [swapRemove_length] at hj
    have hj1 : j ≠ l.length - 1 := by omega
    have hlast : l[l.length - 1]? = some (l.getLastD 0) := by
      rw [← List.getLast?_eq_getElem?]
      cases l with
      | nil => simp at hk
      | cons a l => simp [List.getLast?_cons]
    simp only [popPoint, setNode, setAt_same, h4]
    rw [setAt_ne _ _ hj1]
    simp only [swapRemove, List.dropLast_eq_take, List.getElem?_take, List.length_set]
    rw [if_pos (by omega)]
    by_cases e : j = k
    · subst e
      simp only [setAt_same]
      rw [h5 _ (by omega), hlast, List.getElem?_set_self (by omega)]
    · rw [setAt_ne _ _ e, h5 j (by omega), List.getElem?_set_ne (Ne.symm e)]
  · simpa [popPoint, setNode] using h6

/-! ## `empty` and `deallocate` -/

theorem empty_refines (s : QuadTreeManager) (t : Tree) :
    ∀ fuel, Rep s t → t.height ≤ fuel → empty fuel s (some t.id) = some t.allEmpty := by
  induction t with
  | leaf i par r l =>
    intro fuel hrep hfuel
    obtain ⟨n, rfl⟩ : ∃ n, fuel = n + 1 := ⟨fuel - 1, by simp [Tree.height] at hfuel; omega⟩
    obtain ⟨hi, -, -, hsz, -, hdiv⟩ := hrep
    rw [Tree.id, empty, resolve_some hi]
    simp only [hsz, hdiv, Tree.allEmpty]
    cases l <;> simp
  | node i par r l a b c d iha ihb ihc ihd =>
    intro fuel hrep hfuel
    obtain ⟨n, rfl⟩ : ∃ n, fuel = n + 1 := ⟨fuel - 1, by simp [Tree.height] at hfuel; omega⟩
    obtain ⟨⟨hi, -, -, hsz, -, hdiv⟩, hne, hnw, hse, hsw, ra, rb, rc, rd⟩ := hrep
    simp only [Tree.height] at hfuel
    rw [Tree.id, empty, resolve_some hi]
    simp only [hsz, hdiv, hne, hnw, hse, hsw, Tree.allEmpty, iha n ra (by omega),
      ihb n rb (by omega), ihc n rc (by omega), ihd n rd (by omega), Option.some_bind]
    cases l with
    | nil =>
      cases a.allEmpty <;> cases b.allEmpty <;> cases c.allEmpty <;> cases d.allEmpty <;> simp
    | cons x l => simp

theorem SameButNext.rfl_same (n : QuadTreeNode) : SameButNext n n := by
  cases n; rfl

theorem SameButNext.comp_same {n2 n1 n : QuadTreeNode} (h2 : SameButNext n2 n1)
    (h1 : SameButNext n1 n) : SameButNext n2 n := by
  unfold SameButNext at *
  rw [h2, h1]

theorem SameButNext.of_same {n1 n : QuadTreeNode} (h : n1 = n) : SameButNext n1 n := by
  subst h; exact SameButNext.rfl_same _

/-- `deallocate` on a leaf or after the four child calls: push the record `i`. -/
theorem deallocate_push (s : QuadTreeManager) (i : Nat) (F : List Nat)
    (hF : FreeChain s s.m_freeID F) (hi : i < s.m_size) (hiF : i ∉ F) :
    FreeChain
      { s with
        m_nodes := setAt s.m_nodes i { s.m_nodes i with next := s.m_freeID }
        m_freeID := some i
        m_count := s.m_count - 1 } (some i) (i :: F) := by
  refine ⟨rfl, hi, ?_⟩
  simp only [setAt_same]
  refine FreeChain.congr_chain (s := s) hF (le_refl _) ?_
  intro x hx
  simp only []
  rw [setAt_ne _ _ (by intro e; subst e; exact hiF hx)]

theorem deallocate_leaf_eq (n : Nat) (s : QuadTreeManager) (i : Nat) (hi : i < s.m_size)
    (hdiv : (s.m_nodes i).divided = false) :
    deallocate (n + 1) s (some i) = some
      { s with
        m_nodes := setAt s.m_nodes i { s.m_nodes i with next := s.m_freeID }
        m_freeID := some i
        m_count := s.m_count - 1 } := by
  rw [deallocate, resolve_some hi]
  simp [hdiv]

theorem deallocate_node_eq (n : Nat) (s s1 s2 s3 s4 : QuadTreeManager) (i : Nat)
    (hi : i < s.m_size) (hdiv : (s.m_nodes i).divided = true)
    (h1 : deallocate n s (s.m_nodes i).northwest = some s1)
    (h2 : deallocate n s1 (s1.m_nodes i).northeast = some s2)
    (h3 : deallocate n s2 (s2.m_nodes i).southwest = some s3)
    (h4 : deallocate n s3 (s3.m_nodes i).southeast = some s4) :
    deallocate (n + 1) s (some i) = some
      { s4 with
        m_nodes := setAt s4.m_nodes i { s4.m_nodes i with next := s4.m_freeID }
        m_freeID := some i
        m_count := s4.m_count - 1 } := by
  rw [deallocate, resolve_some hi]
  simp [hdiv, h1, h2, h3, h4]

/-- `deallocate` returns the whole subtree to the free list. -/
theorem deallocate_spec (t : Tree) : ∀ (s : QuadTreeManager) (F : List Nat) (fuel : Nat),
    Rep s t → FreeChain s s.m_freeID F → (t.ids ++ F).Nodup → t.height ≤ fuel →
    ∃ s1 F1, deallocate fuel s (some t.id) = some s1 ∧ DeallocPost s t F s1 F1 := by
  induction t with
  | leaf i par r l =>
    intro s F fuel hrep hF hnd hfuel
    obtain ⟨n, rfl⟩ : ∃ n, fuel = n + 1 := ⟨fuel - 1, by simp [Tree.height] at hfuel; omega⟩
    obtain ⟨hi, -, -, -, -, hdiv⟩ := hrep
    have hiF : i ∉ F := by
      simp only [Tree.ids, List.singleton_append, List.nodup_cons] at hnd
      exact hnd.1
    refine ⟨_, i :: F, deallocate_leaf_eq n s i hi hdiv, deallocate_push s i F hF hi hiF,
      by simp [Tree.ids], ?_, ?_, rfl, rfl, rfl, by simp [Tree.ids]⟩
    · intro j hj
      simp only [Tree.ids, List.mem_singleton] at hj
      simp only []
      rw [setAt_ne _ _ hj]
    · intro j
      by_cases e : j = i
      · subst e
        simp only [setAt_same]
        rfl
      · simp only []
        rw [setAt_ne _ _ e]
        exact SameButNext.rfl_same _
  | node i par r l a b c d iha ihb ihc ihd =>
    intro s F fuel hrep hF hnd hfuel
    obtain ⟨n, rfl⟩ : ∃ n, fuel = n + 1 := ⟨fuel - 1, by simp [Tree.height] at hfuel; omega⟩
    obtain ⟨⟨hi, -, -, -, -, hdiv⟩, hne, hnw, hse, hsw, ra, rb, rc, rd⟩ := hrep
    simp only [Tree.height] at hfuel
    have hcnt := fun x => List.nodup_iff_count_le_one.1 hnd x
    simp only [Tree.ids, List.count_append, List.count_cons] at hcnt
    have hpos : ∀ (x : Nat) (L : List Nat), x ∈ L → 0 < L.count x :=
      fun x L h => List.count_pos_iff.2 h
    have hzero : ∀ (x : Nat) (L : List Nat), L.count x = 0 → x ∉ L :=
      fun x L h hm => by have := List.count_pos_iff.2 hm; omega
    have hi0 : ∀ x : Nat, x = i → ((if (i == x) = true then 1 else 0) : Nat) = 1 := by
      intro x hx; subst hx; simp
    -- northwest
    obtain ⟨s1, F1, e1, p1⟩ := ihb s F n rb hF (List.nodup_iff_count_le_one.2 (fun x => by
      have := hcnt x; simp only [List.count_append]; omega)) (by omega)
    have c1 := fun x => p1.perm.count_eq x
    simp only [List.count_append] at c1
    have hi1 : s1.m_nodes i = s.m_nodes i := p1.same i (hzero i _ (by
      have := hcnt i; have := hi0 i rfl; omega))
    -- northeast
    have ra1 : Rep s1 a := ra.congr_nodes (le_of_eq p1.size_eq.symm) (fun x hx =>
      p1.same x (hzero x _ (by have := hcnt x; have := hpos x _ hx; omega)))
    obtain ⟨s2, F2, e2, p2⟩ := iha s1 F1 n ra1 p1.free (List.nodup_iff_count_le_one.2 (fun x => by
      have := hcnt x; have := c1 x; simp only [List.count_append]; omega)) (by omega)
    have c2 := fun x => p2.perm.count_eq x
    simp only [List.count_append] at c2
    have hi2 : s2.m_nodes i = s.m_nodes i := by
      rw [p2.same i (hzero i _ (by have := hcnt i; have := hi0 i rfl; omega)), hi1]
    -- southwest
    have rd2 : Rep s2 d := rd.congr_nodes (le_of_eq (by rw [p2.size_eq, p1.size_eq]))
      (fun x hx => by
        rw [p2.same x (hzero x _ (by have := hcnt x; have := hpos x _ hx; omega)),
          p1.same x (hzero x _ (by have := hcnt x; have := hpos x _ hx; omega))])
    obtain ⟨s3, F3, e3, p3⟩ := ihd s2 F2 n rd2 p2.free (List.nodup_iff_count_le_one.2 (fun x => by
      have := hcnt x; have := c1 x; have := c2 x; simp only [List.count_append]; omega))
      (by omega)
    have c3 := fun x => p3.perm.count_eq x
    simp only [List.count_append] at c3
    have hi3 : s3.m_nodes i = s.m_nodes i := by
      rw [p3.same i (hzero i _ (by have := hcnt i; have := hi0 i rfl; omega)), hi2]
    -- southeast
    have rc3 : Rep s3 c := rc.congr_nodes
      (le_of_eq (by rw [p3.size_eq, p2.size_eq, p1.size_eq]))
      (fun x hx => by
        rw [p3.same x (hzero x _ (by have := hcnt x; have := hpos x _ hx; omega)),
          p2.same x (hzero x _ (by have := hcnt x; have := hpos x _ hx; omega)),
          p1.same x (hzero x _ (by have := hcnt x; have := hpos x _ hx; omega))])
    obtain ⟨s4, F4, e4, p4⟩ := ihc s3 F3 n rc3 p3.free (List.nodup_iff_count_le_one.2 (fun x => by
      have := hcnt x; have := c1 x; have := c2 x; have := c3 x
      simp only [List.count_append]; omega)) (by omega)
    have c4 := fun x => p4.perm.count_eq x
    simp only [List.count_append] at c4
    have hi4 : s4.m_nodes i = s.m_nodes i := by
      rw [p4.same i (hzero i _ (by have := hcnt i; have := hi0 i rfl; omega)), hi3]
    have hsz4 : s4.m_size = s.m_size := by rw [p4.size_eq, p3.size_eq, p2.size_eq, p1.size_eq]
    have hiF4 : i ∉ F4 := hzero i _ (by
      have := hcnt i; have := hi0 i rfl; have := c1 i; have := c2 i; have := c3 i
      have := c4 i; omega)
    refine ⟨_, i :: F4, deallocate_node_eq n s s1 s2 s3 s4 i hi hdiv (by rw [hnw]; exact e1)
      (by rw [hi1, hne]; exact e2) (by rw [hi2, hsw]; exact e3) (by rw [hi3, hse]; exact e4),
      deallocate_push s4 i F4 p4.free (by rw [hsz4]; exact hi) hiF4, ?_, ?_, ?_, hsz4, ?_, ?_, ?_⟩
    · rw [List.perm_iff_count]
      intro x
      have := c1 x; have := c2 x; have := c3 x; have := c4 x
      simp only [Tree.ids, List.count_append, List.count_cons]
      omega
    · intro j hj
      simp only [Tree.ids, List.mem_cons, List.mem_append, not_or] at hj
      obtain ⟨hji, ⟨⟨hja, hjb⟩, hjc⟩, hjd⟩ := hj
      simp only []
      rw [setAt_ne _ _ hji, p4.same j hjc, p3.same j hjd, p2.same j hja, p1.same j hjb]
    · intro j
      have h4 := (p4.kept j).comp_same ((p3.kept j).comp_same ((p2.kept j).comp_same (p1.kept j)))
      by_cases e : j = i
      · subst e
        simp only [setAt_same]
        refine SameButNext.comp_same ?_ h4
        rfl
      · simp only []
        rw [setAt_ne _ _ e]
        exact h4
    · simp only []
      rw [p4.cap_eq, p3.cap_eq, p2.cap_eq, p1.cap_eq]
    · simp only []
      rw [p4.heap_eq, p3.heap_eq, p2.heap_eq, p1.heap_eq]
    · simp only [Tree.ids, List.length_cons, List.length_append]
      rw [p4.count_eq, p3.count_eq, p2.count_eq, p1.count_eq]
      omega

/-! ## `tryCollapse` -/

theorem tryCollapse_leaf_eq (fuel : Nat) (s : QuadTreeManager) (i : Nat)
    (hdiv : (s.m_nodes i).divided = false) : tryCollapse fuel s i = some s := by
  simp [tryCollapse, hdiv]

theorem tryCollapse_keep_eq (fuel : Nat) (s : QuadTreeManager) (i : Nat) (ea eb ec ed : Bool)
    (h1 : empty fuel s (s.m_nodes i).northeast = some ea)
    (h2 : empty fuel s (s.m_nodes i).northwest = some eb)
    (h3 : empty fuel s (s.m_nodes i).southeast = some ec)
    (h4 : empty fuel s (s.m_nodes i).southwest = some ed)
    (hne : (ea && (eb && (ec && ed))) = false) : tryCollapse fuel s i = some s := by
  unfold tryCollapse
  simp only [h1, h2, h3, h4, Option.some_bind]
  cases ea <;> cases eb <;> cases ec <;> cases ed <;> simp at hne ⊢

theorem tryCollapse_free_eq (fuel : Nat) (s s1 s2 s3 s4 : QuadTreeManager) (i : Nat)
    (hdiv : (s.m_nodes i).divided = true)
    (h1 : empty fuel s (s.m_nodes i).northeast = some true)
    (h2 : empty fuel s (s.m_nodes i).northwest = some true)
    (h3 : empty fuel s (s.m_nodes i).southeast = some true)
    (h4 : empty fuel s (s.m_nodes i).southwest = some true)
    (d1 : deallocate fuel s (s.m_nodes i).northeast = some s1)
    (d2 : deallocate fuel s1 (s1.m_nodes i).northwest = some s2)
    (d3 : deallocate fuel s2 (s2.m_nodes i).southeast = some s3)
    (d4 : deallocate fuel s3 (s3.m_nodes i).southwest = some s4) :
    tryCollapse fuel s i = some (setNode s4 i { s4.m_nodes i with divided := false }) := by
  unfold tryCollapse
  simp [hdiv, h1, h2, h3, h4, d1, d2, d3, d4]

theorem Tree.collapseT_id (t : Tree) : t.collapseT.id = t.id := by
  cases t with
  | leaf i par r l => rfl
  | node i par r l a b c d =>
    simp only [Tree.collapseT]
    split <;> rfl

/-- `tryCollapse` refines `Tree.collapseT`. -/
theorem tryCollapse_spec (t : Tree) (s : QuadTreeManager) (F : List Nat) (fuel : Nat)
    (hrep : Rep s t) (hF : FreeChain s s.m_freeID F) (hnd : (t.ids ++ F).Nodup)
    (hfuel : t.height ≤ fuel + 1) :
    ∃ s1 F1, tryCollapse fuel s t.id = some s1 ∧ ShrinkPost s t F s1 t.collapseT F1 ∧
      ∀ j, (s1.m_nodes j).size = (s.m_nodes j).size ∧ (s1.m_nodes j).data = (s.m_nodes j).data ∧
        ((s.m_nodes j).divided = false → (s1.m_nodes j).divided = false) := by
  cases t with
  | leaf i par r l =>
    exact ⟨s, F, tryCollapse_leaf_eq fuel s i hrep.2.2.2.2.2,
      ⟨hrep, hF, List.Perm.refl _, fun _ h => h, fun _ _ => rfl, rfl, rfl, rfl⟩,
      fun _ => ⟨rfl, rfl, id⟩⟩
  | node i par r l a b c d =>
    have hrep0 := hrep
    obtain ⟨⟨hi, hpar, hb, hsz, hdata, hdiv⟩, hne, hnw, hse, hsw, ra, rb, rc, rd⟩ := hrep
    simp only [Tree.height] at hfuel
    have ea := empty_refines s a fuel ra (by omega)
    have eb := empty_refines s b fuel rb (by omega)
    have ec := empty_refines s c fuel rc (by omega)
    have ed := empty_refines s d fuel rd (by omega)
    by_cases hall : (a.allEmpty && (b.allEmpty && (c.allEmpty && d.allEmpty))) = true
    · have hall4 : a.allEmpty = true ∧ b.allEmpty = true ∧ c.allEmpty = true ∧
          d.allEmpty = true := by simpa using hall
      obtain ⟨ha, hb4, hc, hd⟩ := hall4
      rw [ha] at ea
      rw [hb4] at eb
      rw [hc] at ec
      rw [hd] at ed
      have hcnt := fun x => List.nodup_iff_count_le_one.1 hnd x
      simp only [Tree.ids, List.count_append, List.count_cons] at hcnt
      have hpos : ∀ (x : Nat) (L : List Nat), x ∈ L → 0 < L.count x :=
        fun x L h => List.count_pos_iff.2 h
      have hzero : ∀ (x : Nat) (L : List Nat), L.count x = 0 → x ∉ L :=
        fun x L h hm => by have := List.count_pos_iff.2 hm; omega
      have hi0 : ∀ x : Nat, x = i → ((if (i == x) = true then 1 else 0) : Nat) = 1 := by
        intro x hx; subst hx; simp
      -- northeast
      obtain ⟨s1, F1, e1, p1⟩ := deallocate_spec a s F fuel ra hF
        (List.nodup_iff_count_le_one.2 (fun x => by
          have := hcnt x; simp only [List.count_append]; omega)) (by omega)
      have c1 := fun x => p1.perm.count_eq x
      simp only [List.count_append] at c1
      have hi1 : s1.m_nodes i = s.m_nodes i := p1.same i (hzero i _ (by
        have := hcnt i; have := hi0 i rfl; omega))
      -- northwest
      have rb1 : Rep s1 b := rb.congr_nodes (le_of_eq p1.size_eq.symm) (fun x hx =>
        p1.same x (hzero x _ (by have := hcnt x; have := hpos x _ hx; omega)))
      obtain ⟨s2, F2, e2, p2⟩ := deallocate_spec b s1 F1 fuel rb1 p1.free
        (List.nodup_iff_count_le_one.2 (fun x => by
          have := hcnt x; have := c1 x; simp only [List.count_append]; omega)) (by omega)
      have c2 := fun x => p2.perm.count_eq x
      simp only [List.count_append] at c2
      have hi2 : s2.m_nodes i = s.m_nodes i := by
        rw [p2.same i (hzero i _ (by have := hcnt i; have := hi0 i rfl; omega)), hi1]
      -- southeast
      have rc2 : Rep s2 c := rc.congr_nodes (le_of_eq (by rw [p2.size_eq, p1.size_eq]))
        (fun x hx => by
          rw [p2.same x (hzero x _ (by have := hcnt x; have := hpos x _ hx; omega)),
            p1.same x (hzero x _ (by have := hcnt x; have := hpos x _ hx; omega))])
      obtain ⟨s3, F3, e3, p3⟩ := deallocate_spec c s2 F2 fuel rc2 p2.free
        (List.nodup_iff_count_le_one.2 (fun x => by
          have := hcnt x; have := c1 x; have := c2 x; simp only [List.count_append]; omega))
        (by omega)
      have c3 := fun x => p3.perm.count_eq x
      simp only [List.count_append] at c3
      have hi3 : s3.m_nodes i = s.m_nodes i := by
        rw [p3.same i (hzero i _ (by have := hcnt i; have := hi0 i rfl; omega)), hi2]
      -- southwest
      have rd3 : Rep s3 d := rd.congr_nodes
        (le_of_eq (by rw [p3.size_eq, p2.size_eq, p1.size_eq]))
        (fun x hx => by
          rw [p3.same x (hzero x _ (by have := hcnt x; have := hpos x _ hx; omega)),
            p2.same x (hzero x _ (by have := hcnt x; have := hpos x _ hx; omega)),
            p1.same x (hzero x _ (by have := hcnt x; have := hpos x _ hx; omega))])
      obtain ⟨s4, F4, e4, p4⟩ := deallocate_spec d s3 F3 fuel rd3 p3.free
        (List.nodup_iff_count_le_one.2 (fun x => by
          have := hcnt x; have := c1 x; have := c2 x; have := c3 x
          simp only [List.count_append]; omega)) (by omega)
      have c4 := fun x => p4.perm.count_eq x
      simp only [List.count_append] at c4
      have hi4 : s4.m_nodes i = s.m_nodes i := by
        rw [p4.same i (hzero i _ (by have := hcnt i; have := hi0 i rfl; omega)), hi3]
      have hsz4 : s4.m_size = s.m_size := by
        rw [p4.size_eq, p3.size_eq, p2.size_eq, p1.size_eq]
      have hiF4 : i ∉ F4 := hzero i _ (by
        have := hcnt i; have := hi0 i rfl; have := c1 i; have := c2 i; have := c3 i
        have := c4 i; omega)
      have hk4 := fun j =>
        (p4.kept j).comp_same ((p3.kept j).comp_same ((p2.kept j).comp_same (p1.kept j)))
      refine ⟨_, F4, tryCollapse_free_eq fuel s s1 s2 s3 s4 i hdiv (by rw [hne]; exact ea)
        (by rw [hnw]; exact eb) (by rw [hse]; exact ec) (by rw [hsw]; exact ed)
        (by rw [hne]; exact e1) (by rw [hi1, hnw]; exact e2) (by rw [hi2, hse]; exact e3)
        (by rw [hi3, hsw]; exact e4), ⟨?_, ?_, ?_, ?_, ?_, hsz4, ?_, ?_⟩, ?_⟩
      · simp only [Tree.collapseT, hall, if_true]
        refine ⟨by simp only [setNode]; rw [hsz4]; exact hi, ?_, ?_, ?_, ?_, ?_⟩ <;>
          simp only [setNode, setAt_same, hi4]
        · exact hpar
        · exact hb
        · exact hsz
        · exact hdata
      · refine FreeChain.congr_chain (s := s4) p4.free (le_refl _) ?_
        intro x hx
        simp only [setNode]
        rw [setAt_ne _ _ (by intro e; subst e; exact hiF4 hx)]
      · simp only [Tree.collapseT, hall, if_true]
        rw [List.perm_iff_count]
        intro x
        have := c1 x; have := c2 x; have := c3 x; have := c4 x
        simp only [Tree.ids, List.count_append, List.count_cons, List.count_nil]
        omega
      · simp only [Tree.collapseT, hall, if_true]
        intro x hx
        simp only [Tree.ids, List.mem_singleton] at hx
        simp [Tree.ids, hx]
      · intro j hj
        simp only [Tree.ids, List.mem_cons, List.mem_append, not_or] at hj
        obtain ⟨hji, ⟨⟨hja, hjb⟩, hjc⟩, hjd⟩ := hj
        simp only [setNode]
        rw [setAt_ne _ _ hji, p4.same j hjd, p3.same j hjc, p2.same j hjb, p1.same j hja]
      · simp only [setNode]
        rw [p4.cap_eq, p3.cap_eq, p2.cap_eq, p1.cap_eq]
      · simp only [setNode]
        rw [p4.heap_eq, p3.heap_eq, p2.heap_eq, p1.heap_eq]
      · intro j
        have h := hk4 j
        unfold SameButNext at h
        by_cases e : j = i
        · subst e
          simp only [setNode, setAt_same]
          rw [h]
          exact ⟨rfl, rfl, fun _ => trivial⟩
        · simp only [setNode]
          rw [setAt_ne _ _ e, h]
          exact ⟨rfl, rfl, id⟩
    · simp only [Bool.not_eq_true] at hall
      refine ⟨s, F, tryCollapse_keep_eq fuel s i _ _ _ _ (by rw [hne]; exact ea)
        (by rw [hnw]; exact eb) (by rw [hse]; exact ec) (by rw [hsw]; exact ed) hall,
        ⟨?_, hF, ?_, ?_, fun _ _ => rfl, rfl, rfl, rfl⟩, fun _ => ⟨rfl, rfl, id⟩⟩
      · simp only [Tree.collapseT, hall, Bool.false_eq_true, if_false]
        exact hrep0
      · simp only [Tree.collapseT, hall, Bool.false_eq_true, if_false]
        exact List.Perm.refl _
      · simp only [Tree.collapseT, hall, Bool.false_eq_true, if_false]
        exact fun _ h => h

/-! ## `remove` -/

theorem Tree.removeT_false (p : Nat) (t : Tree) (h : (t.removeT p).2 = false) :
    (t.removeT p).1 = t := by
  induction t with
  | leaf i par r l =>
    simp only [Tree.removeT] at h ⊢
    split at h
    · cases h
    · rename_i hp; simp [hp]
  | node i par r l a b c d iha ihb ihc ihd =>
    simp only [Tree.removeT] at h ⊢
    split at h
    · cases h
    · rename_i hp
      simp only [hp, if_false]
      rcases e2 : Tree.removeT p b with ⟨b1, _ | _⟩
      · rw [e2] at ihb h
        rcases e1 : Tree.removeT p a with ⟨a1, _ | _⟩
        · rw [e1] at iha h
          rcases e4 : Tree.removeT p d with ⟨d1, _ | _⟩
          · rw [e4] at ihd h
            rcases e3 : Tree.removeT p c with ⟨c1, _ | _⟩
            · rw [e3] at ihc h
              simp only [] at iha ihb ihc ihd ⊢
              rw [iha trivial, ihb trivial, ihc trivial, ihd trivial]
            · rw [e3] at h; cases h
          · rw [e4] at h; cases h
        · rw [e1] at h; cases h
      · rw [e2] at h; cases h

theorem Tree.removeT_id (p : Nat) (t : Tree) : (t.removeT p).1.id = t.id := by
  cases t with
  | leaf i par r l =>
    simp only [Tree.removeT]
    split <;> rfl
  | node i par r l a b c d =>
    simp only [Tree.removeT]
    repeat' split
    all_goals first | rfl | (simp only [Tree.collapseT_id]; rfl)

theorem Tree.collapseT_height_le (t : Tree) : t.collapseT.height ≤ t.height := by
  cases t with
  | leaf i par r l => exact le_refl _
  | node i par r l a b c d =>
    simp only [Tree.collapseT]
    split
    · simp [Tree.height]
    · exact le_refl _

theorem Tree.removeT_height_le (p : Nat) (t : Tree) : (t.removeT p).1.height ≤ t.height := by
  induction t with
  | leaf i par r l =>
    simp only [Tree.removeT]
    split <;> exact le_refl _
  | node i par r l a b c d iha ihb ihc ihd =>
    simp only [Tree.removeT]
    split
    · exact le_refl _
    · rcases e2 : Tree.removeT p b with ⟨b1, _ | _⟩ <;> rw [e2] at ihb <;>
        rcases e1 : Tree.removeT p a with ⟨a1, _ | _⟩ <;> rw [e1] at iha <;>
        rcases e4 : Tree.removeT p d with ⟨d1, _ | _⟩ <;> rw [e4] at ihd <;>
        rcases e3 : Tree.removeT p c with ⟨c1, _ | _⟩ <;> rw [e3] at ihc <;>
        simp only [] at iha ihb ihc ihd ⊢ <;>
        first
        | (simp only [Tree.height]; omega)
        | (refine le_trans (Tree.collapseT_height_le _) ?_; simp only [Tree.height]; omega)

theorem remove_own_eq (n : Nat) (s : QuadTreeManager) (i p k : Nat) (hi : i < s.m_size)
    (hscan : scanBucket (s.m_nodes i) p 0 (s.m_nodes i).size = some (some k))
    (h4 : (s.m_nodes i).size ≤ 4) :
    remove (n + 1) s (some i) p = some (popPoint s i k, true) := by
  have h4' : ¬ (4 < (s.m_nodes i).size) := by omega
  rw [remove, resolve_some hi]
  simp only [hscan, h4', if_false]
  rfl

theorem remove_miss_leaf_eq (n : Nat) (s : QuadTreeManager) (i p : Nat) (hi : i < s.m_size)
    (hscan : scanBucket (s.m_nodes i) p 0 (s.m_nodes i).size = some none)
    (hdiv : (s.m_nodes i).divided = false) :
    remove (n + 1) s (some i) p = some (s, false) := by
  rw [remove, resolve_some hi]
  simp [hscan, hdiv]

theorem check_eq (n : Nat) (s : QuadTreeManager) (i : Nat) (hi : i < s.m_size) :
    check n s (some i) = (tryCollapse n s i).bind fun s1 => some (s1, true) := by
  rw [check, resolve_some hi]

/-- The divided branch of `remove`: the children are tried in the order northwest, northeast,
southwest, southeast; a failing call is assumed to leave the arena as it is. -/
theorem remove_descend (n : Nat) (s : QuadTreeManager) (i p a b c d : Nat) (hi : i < s.m_size)
    (hscan : scanBucket (s.m_nodes i) p 0 (s.m_nodes i).size = some none)
    (hdiv : (s.m_nodes i).divided = true)
    (hne : (s.m_nodes i).northeast = some a) (hnw : (s.m_nodes i).northwest = some b)
    (hse : (s.m_nodes i).southeast = some c) (hsw : (s.m_nodes i).southwest = some d) :
    (∀ sx, remove n s (some b) p = some (sx, true) →
      remove (n + 1) s (some i) p = check n sx (some i)) ∧
    (remove n s (some b) p = some (s, false) →
      (∀ sx, remove n s (some a) p = some (sx, true) →
        remove (n + 1) s (some i) p = check n sx (some i)) ∧
      (remove n s (some a) p = some (s, false) →
        (∀ sx, remove n s (some d) p = some (sx, true) →
          remove (n + 1) s (some i) p = check n sx (some i)) ∧
        (remove n s (some d) p = some (s, false) →
          (∀ sx, remove n s (some c) p = some (sx, true) →
            remove (n + 1) s (some i) p = check n sx (some i)) ∧
          (remove n s (some c) p = some (s, false) →
            remove (n + 1) s (some i) p = some (s, false))))) := by
  have e : remove (n + 1) s (some i) p =
      (remove n s (some b) p).bind fun (s1, r1) =>
        if r1 then check n s1 (some i)
        else (remove n s1 (s1.m_nodes i).northeast p).bind fun (s2, r2) =>
        if r2 then check n s2 (some i)
        else (remove n s2 (s2.m_nodes i).southwest p).bind fun (s3, r3) =>
        if r3 then check n s3 (some i)
        else (remove n s3 (s3.m_nodes i).southeast p).bind fun (s4, r4) =>
        if r4 then check n s4 (some i)
        else some (s4, false) := by
    rw [remove, resolve_some hi]
    simp only [hscan, hdiv, if_true, hnw]
  rw [e]
  refine ⟨fun sx h => by rw [h]; rfl, fun hb => ⟨fun sx h => ?_, fun ha => ⟨fun sx h => ?_,
    fun hd => ⟨fun sx h => ?_, fun hc => ?_⟩⟩⟩⟩
  · rw [hb]
    simp only [Option.some_bind, Bool.false_eq_true, if_false, hne, h]
    rfl
  · rw [hb]
    simp only [Option.some_bind, Bool.false_eq_true, if_false, hne, ha, hsw, h]
    rfl
  · rw [hb]
    simp only [Option.some_bind, Bool.false_eq_true, if_false, hne, ha, hsw, hd, hse, h]
    rfl
  · rw [hb]
    simp only [Option.some_bind, Bool.false_eq_true, if_false, hne, ha, hsw, hd, hse, hc]

/-- After a successful removal below the child `x` of the node `t`, which turned `t` into
`t1`, the collapse-check of `remove` yields the final arena. -/
theorem ShrinkPost.lift_check {s sx : QuadTreeManager} {t t1 x x1 : Tree} {F Fx : List Nat}
    {n : Nat} (R : List Nat) (post : ShrinkPost s x F sx x1 Fx)
    (hperm : (t.ids ++ F).Perm (R ++ (x.ids ++ F)))
    (hperm1 : (t1.ids ++ Fx).Perm (R ++ (x1.ids ++ Fx)))
    (hsubx : ∀ y ∈ x.ids, y ∈ t.ids) (hsub1 : ∀ y ∈ t1.ids, y ∈ t.ids)
    (hnd : (t.ids ++ F).Nodup)
    (hrep : (∀ y ∈ R, sx.m_nodes y = s.m_nodes y) → Rep sx t1)
    (hheight : t1.height ≤ n + 1) :
    ∃ s1 F1, check n sx (some t1.id) = some (s1, true) ∧
      ShrinkPost s t F s1 t1.collapseT F1 := by
  have hnd1 : (R ++ (x.ids ++ F)).Nodup := hperm.nodup_iff.1 hnd
  have hdis : ∀ y ∈ R, y ∉ x.ids := fun y hy hm =>
    (List.nodup_append.1 hnd1).2.2 hy (List.mem_append_left _ hm)
  have hrep1 : Rep sx t1 := hrep (fun y hy => post.same y (hdis y hy))
  have hnd2 : (t1.ids ++ Fx).Nodup := by
    refine hperm1.nodup_iff.2 ?_
    refine List.nodup_iff_count_le_one.2 (fun y => ?_)
    have h1 := List.nodup_iff_count_le_one.1 hnd1 y
    have h2 := post.perm.count_eq y
    simp only [List.count_append] at h1 h2 ⊢
    omega
  obtain ⟨s1, F1, e1, p1, -⟩ := tryCollapse_spec t1 sx Fx n hrep1 post.free hnd2 hheight
  refine ⟨s1, F1, ?_, ?_⟩
  · rw [check_eq n sx t1.id hrep1.id_lt, e1]
    rfl
  · refine ⟨p1.rep, p1.free, ?_, fun y hy => hsub1 y (p1.sub y hy), ?_, ?_, ?_, ?_⟩
    · rw [List.perm_iff_count]
      intro y
      have h1 := p1.perm.count_eq y
      have h2 := hperm1.count_eq y
      have h3 := hperm.count_eq y
      have h4 := post.perm.count_eq y
      simp only [List.count_append] at h1 h2 h3 h4 ⊢
      omega
    · intro j hj
      rw [p1.same j (fun hm => hj (hsub1 j hm)), post.same j (fun hm => hj (hsubx j hm))]
    · rw [p1.size_eq, post.size_eq]
    · rw [p1.cap_eq, post.cap_eq]
    · rw [p1.heap_eq, post.heap_eq]

/-- Removal from the own bucket of the node `i`. -/
theorem remove_own_post {s : QuadTreeManager} {t t1 : Tree} {F : List Nat} {i k : Nat}
    (hi : i ∈ t.ids) (hids : t1.ids = t.ids) (hF : FreeChain s s.m_freeID F)
    (hnd : (t.ids ++ F).Nodup) (hrep : Rep (popPoint s i k) t1) :
    ShrinkPost s t F (popPoint s i k) t1 F := by
  refine ⟨hrep, ?_, by rw [hids], fun x hx => by rw [← hids]; exact hx, ?_, rfl, rfl, rfl⟩
  · refine FreeChain.congr_chain (s := s) hF (le_refl _) ?_
    intro x hx
    exact popPoint_nodes_ne s i k (by
      intro e; subst e
      exact (List.nodup_append.1 hnd).2.2 hi hx)
  · intro j hj
    exact popPoint_nodes_ne s i k (by intro e; subst e; exact hj hi)

theorem ShrinkPost.rfl_post {s : QuadTreeManager} {t : Tree} {F : List Nat} (hrep : Rep s t)
    (hF : FreeChain s s.m_freeID F) : ShrinkPost s t F s t F :=
  ⟨hrep, hF, List.Perm.refl _, fun _ h => h, fun _ _ => rfl, rfl, rfl, rfl⟩

theorem Tree.mem_ids_node_mono (i : Nat) (par : QuadtreeID) (r : Rect) (l l1 : List Nat)
    (a b c d a1 b1 c1 d1 : Tree) (ha : ∀ y ∈ a1.ids, y ∈ a.ids) (hb : ∀ y ∈ b1.ids, y ∈ b.ids)
    (hc : ∀ y ∈ c1.ids, y ∈ c.ids) (hd : ∀ y ∈ d1.ids, y ∈ d.ids) :
    ∀ y ∈ (Tree.node i par r l1 a1 b1 c1 d1).ids, y ∈ (Tree.node i par r l a b c d).ids := by
  intro y hy
  simp only [Tree.ids, List.mem_cons, List.mem_append] at hy ⊢
  rcases hy with h | ((h | h) | h) | h
  · exact Or.inl h
  · exact Or.inr (Or.inl (Or.inl (Or.inl (ha y h))))
  · exact Or.inr (Or.inl (Or.inl (Or.inr (hb y h))))
  · exact Or.inr (Or.inl (Or.inr (hc y h)))
  · exact Or.inr (Or.inr (hd y h))

/-- `remove` refines `Tree.removeT`; a failing call leaves the arena as it is. -/
theorem remove_refines (t : Tree) : ∀ (s : QuadTreeManager) (F : List Nat) (fuel p : Nat),
    Rep s t → t.Shape s.m_capacity → s.m_capacity ≤ 4 → FreeChain s s.m_freeID F →
    (t.ids ++ F).Nodup → t.height ≤ fuel →
    ∃ s1 F1, remove fuel s (some t.id) p = some (s1, (t.removeT p).2) ∧
      ShrinkPost s t F s1 (t.removeT p).1 F1 ∧ ((t.removeT p).2 = false → s1 = s ∧ F1 = F) := by
  induction t with
  | leaf i par r l =>
    intro s F fuel p hrep hshape hcap hF hnd hfuel
    obtain ⟨n, rfl⟩ : ∃ n, fuel = n + 1 := ⟨fuel - 1, by simp [Tree.height] at hfuel; omega⟩
    have hN : NodeRep s i par r l false := hrep
    obtain ⟨hi, -, -, hsz, hdata, hdiv⟩ := hN
    have hl : l.length ≤ 4 := le_trans hshape hcap
    have hscan := scanBucket_spec (s.m_nodes i) p l hdata hl l.length 0 (by simp)
    rw [← hsz] at hscan
    simp only [List.drop_zero, Nat.zero_add] at hscan
    by_cases hp : p ∈ l
    · simp only [hp, if_true] at hscan
      have e : Tree.removeT p (Tree.leaf i par r l) =
          (Tree.leaf i par r (swapRemove l (l.indexOf p)), true) := by
        simp [Tree.removeT, hp]
      rw [e]
      refine ⟨_, F, remove_own_eq n s i p _ hi hscan (by rw [hsz]; exact hl), ?_,
        fun h => by cases h⟩
      exact remove_own_post (t := Tree.leaf i par r l) (by simp [Tree.ids]) rfl hF hnd
        (NodeRep.pop hrep _ (List.indexOf_lt_length.2 hp))
    · simp only [hp, if_false] at hscan
      have e : Tree.removeT p (Tree.leaf i par r l) = (Tree.leaf i par r l, false) := by
        simp [Tree.removeT, hp]
      rw [e]
      exact ⟨s, F, remove_miss_leaf_eq n s i p hi hscan hdiv, ShrinkPost.rfl_post hrep hF,
        fun _ => ⟨rfl, rfl⟩⟩
  | node i par r l a b c d iha ihb ihc ihd =>
    intro s F fuel p hrep hshape hcap hF hnd hfuel
    obtain ⟨n, rfl⟩ : ∃ n, fuel = n + 1 := ⟨fuel - 1, by simp [Tree.height] at hfuel; omega⟩
    have hrep0 := hrep
    obtain ⟨hN, hne, hnw, hse, hsw, ra, rb, rc, rd⟩ := hrep
    obtain ⟨hi, -, -, hsz, hdata, hdiv⟩ := hN
    obtain ⟨hl0, -, -, -, -, -, -, -, -, sa, sb, sc, sd⟩ := hshape
    have hl : l.length ≤ 4 := le_trans hl0 hcap
    simp only [Tree.height] at hfuel
    have hscan := scanBucket_spec (s.m_nodes i) p l hdata hl l.length 0 (by simp)
    rw [← hsz] at hscan
    simp only [List.drop_zero, Nat.zero_add] at hscan
    simp only [Tree.id]
    by_cases hp : p ∈ l
    · simp only [hp, if_true] at hscan
      have e : Tree.removeT p (Tree.node i par r l a b c d) =
          (Tree.node i par r (swapRemove l (l.indexOf p)) a b c d, true) := by
        simp [Tree.removeT, hp]
      rw [e]
      refine ⟨_, F, remove_own_eq n s i p _ hi hscan (by rw [hsz]; exact hl), ?_,
        fun h => by cases h⟩
      have hcnt := fun x => List.nodup_iff_count_le_one.1 hnd x
      simp only [Tree.ids, List.count_append, List.count_cons] at hcnt
      have hne_i : ∀ (L : List Nat) (x : Nat), x ∈ L → L.count i = 0 → x ≠ i := by
        intro L x hx h0 e
        subst e
        have := List.count_pos_iff.2 hx
        omega
      have hi0 : ((if (i == i) = true then 1 else 0) : Nat) = 1 := by simp
      refine remove_own_post (t := Tree.node i par r l a b c d) (by simp [Tree.ids]) rfl hF hnd ?_
      refine ⟨NodeRep.pop hrep0.1 _ (List.indexOf_lt_length.2 hp), ?_, ?_, ?_, ?_, ?_, ?_, ?_, ?_⟩
      · simpa [popPoint, setNode] using hne
      · simpa [popPoint, setNode] using hnw
      · simpa [popPoint, setNode] using hse
      · simpa [popPoint, setNode] using hsw
      · exact ra.congr_nodes (le_refl _) (fun x hx => popPoint_nodes_ne s i _
          (hne_i _ x hx (by have := hcnt i; omega)))
      · exact rb.congr_nodes (le_refl _) (fun x hx => popPoint_nodes_ne s i _
          (hne_i _ x hx (by have := hcnt i; omega)))
      · exact rc.congr_nodes (le_refl _) (fun x hx => popPoint_nodes_ne s i _
          (hne_i _ x hx (by have := hcnt i; omega)))
      · exact rd.congr_nodes (le_refl _) (fun x hx => popPoint_nodes_ne s i _
          (hne_i _ x hx (by have := hcnt i; omega)))
    · simp only [hp, if_false] at hscan
      have hD := remove_descend n s i p a.id b.id c.id d.id hi hscan hdiv hne hnw hse hsw
      have hsubnd : ∀ x : Tree, (∀ y, x.ids.count y ≤
          (Tree.node i par r l a b c d).ids.count y) → (x.ids ++ F).Nodup := by
        intro x hx
        refine List.nodup_iff_count_le_one.2 (fun y => ?_)
        have h1 := List.nodup_iff_count_le_one.1 hnd y
        have h2 := hx y
        simp only [List.count_append] at h1 ⊢
        omega
      have hha : a.height ≤ n := by omega
      have hhb : b.height ≤ n := by omega
      have hhc : c.height ≤ n := by omega
      have hhd : d.height ≤ n := by omega
      have hida : ∀ x : Tree, ∀ y ∈ x.ids, y ∈ x.ids := fun _ _ h => h
      clear hfuel hscan hdata hl hl0 hsz
      obtain ⟨sb, Fb, eb0, pb, fb⟩ := ihb s F n p rb sb hcap hF
        (hsubnd b (fun y => by simp only [Tree.ids, List.count_cons, List.count_append]; omega))
        hhb
      rcases hb2 : (b.removeT p).2 with _ | _
      · obtain ⟨hsb, hFb⟩ := fb hb2
        have eb : Tree.removeT p b = (b, false) :=
          Prod.ext (Tree.removeT_false p b hb2) hb2
        rw [hb2, hsb] at eb0
        clear pb fb hsb hFb
        obtain ⟨sa, Fa, ea0, pa, fa⟩ := iha s F n p ra sa hcap hF
          (hsubnd a (fun y => by simp only [Tree.ids, List.count_cons, List.count_append]; omega))
          hha
        rcases ha2 : (a.removeT p).2 with _ | _
        · obtain ⟨hsa, hFa⟩ := fa ha2
          have ea : Tree.removeT p a = (a, false) :=
            Prod.ext (Tree.removeT_false p a ha2) ha2
          rw [ha2, hsa] at ea0
          clear pa fa hsa hFa
          obtain ⟨sd, Fd, ed0, pd, fd⟩ := ihd s F n p rd sd hcap hF
            (hsubnd d (fun y => by simp only [Tree.ids, List.count_cons, List.count_append]; omega))
            hhd
          rcases hd2 : (d.removeT p).2 with _ | _
          · obtain ⟨hsd, hFd⟩ := fd hd2
            have ed : Tree.removeT p d = (d, false) :=
              Prod.ext (Tree.removeT_false p d hd2) hd2
            rw [hd2, hsd] at ed0
            clear pd fd hsd hFd
            obtain ⟨sc, Fc, ec0, pc, fc⟩ := ihc s F n p rc sc hcap hF
              (hsubnd c (fun y => by simp only [Tree.ids, List.count_cons, List.count_append]; omega))
              hhc
            rcases hc2 : (c.removeT p).2 with _ | _
            · obtain ⟨hsc, hFc⟩ := fc hc2
              have ec : Tree.removeT p c = (c, false) :=
                Prod.ext (Tree.removeT_false p c hc2) hc2
              rw [hc2, hsc] at ec0
              clear pc fc hsc hFc
              have eT : Tree.removeT p (Tree.node i par r l a b c d) =
                  (Tree.node i par r l a b c d, false) := by
                simp only [Tree.removeT, hp, if_false, eb, ea, ed, ec]
              rw [eT, ((((hD.2 eb0).2 ea0).2 ed0).2 ec0)]
              exact ⟨s, F, rfl, ShrinkPost.rfl_post hrep0 hF, fun _ => ⟨rfl, rfl⟩⟩
            · have ec : Tree.removeT p c = ((c.removeT p).1, true) := Prod.ext rfl hc2
              have eT : Tree.removeT p (Tree.node i par r l a b c d) =
                  ((Tree.node i par r l a b (c.removeT p).1 d).collapseT, true) := by
                simp only [Tree.removeT, hp, if_false, eb, ea, ed]
                rw [ec]
              rw [hc2] at ec0
              rw [eT, (((hD.2 eb0).2 ea0).2 ed0).1 _ ec0]
              have hh1 := Tree.removeT_height_le p c
              obtain ⟨s1, F1, h1, post1⟩ := @ShrinkPost.lift_check _ _
                (Tree.node i par r l a b c d) (Tree.node i par r l a b (c.removeT p).1 d) _ _ _ _ n
                (i :: (a.ids ++ b.ids ++ d.ids)) pc
                (by
                  rw [List.perm_iff_count]
                  intro x
                  simp only [Tree.ids, List.count_append, List.count_cons]
                  omega)
                (by
                  rw [List.perm_iff_count]
                  intro x
                  simp only [Tree.ids, List.count_append, List.count_cons]
                  omega)
                (by intro y hy; simp only [Tree.ids, List.mem_cons, List.mem_append]; simp [hy])
                (Tree.mem_ids_node_mono i par r l l a b c d _ _ _ _ (hida a) (hida b) pc.sub (hida d))
                hnd
                (fun hsame => Rep.replace_children hrep0 (le_of_eq pc.size_eq.symm) (hsame i (by simp))
                  (ra.congr_nodes (le_of_eq pc.size_eq.symm) (fun x hx => hsame x (by simp [hx]))) rfl
                  (rb.congr_nodes (le_of_eq pc.size_eq.symm) (fun x hx => hsame x (by simp [hx]))) rfl
                  pc.rep (Tree.removeT_id p c)
                  (rd.congr_nodes (le_of_eq pc.size_eq.symm) (fun x hx => hsame x (by simp [hx]))) rfl)
                (by simp only [Tree.height]; omega)
              exact ⟨s1, F1, h1, post1, fun h => by cases h⟩
          · have ed : Tree.removeT p d = ((d.removeT p).1, true) := Prod.ext rfl hd2
            have eT : Tree.removeT p (Tree.node i par r l a b c d) =
                ((Tree.node i par r l a b c (d.removeT p).1).collapseT, true) := by
              simp only [Tree.removeT, hp, if_false, eb, ea]
              rw [ed]
            rw [hd2] at ed0
            rw [eT, ((hD.2 eb0).2 ea0).1 _ ed0]
            have hh1 := Tree.removeT_height_le p d
            obtain ⟨s1, F1, h1, post1⟩ := @ShrinkPost.lift_check _ _
              (Tree.node i par r l a b c d) (Tree.node i par r l a b c (d.removeT p).1) _ _ _ _ n
              (i :: (a.ids ++ b.ids ++ c.ids)) pd
              (by
                rw [List.perm_iff_count]
                intro x
                simp only [Tree.ids, List.count_append, List.count_cons]
                omega)
              (by
                rw [List.perm_iff_count]
                intro x
                simp only [Tree.ids, List.count_append, List.count_cons]
                omega)
              (by intro y hy; simp only [Tree.ids, List.mem_cons, List.mem_append]; simp [hy])
              (Tree.mem_ids_node_mono i par r l l a b c d _ _ _ _ (hida a) (hida b) (hida c) pd.sub)
              hnd
              (fun hsame => Rep.replace_children hrep0 (le_of_eq pd.size_eq.symm) (hsame i (by simp))
                (ra.congr_nodes (le_of_eq pd.size_eq.symm) (fun x hx => hsame x (by simp [hx]))) rfl
                (rb.congr_nodes (le_of_eq pd.size_eq.symm) (fun x hx => hsame x (by simp [hx]))) rfl
                (rc.congr_nodes (le_of_eq pd.size_eq.symm) (fun x hx => hsame x (by simp [hx]))) rfl
                pd.rep (Tree.removeT_id p d))
              (by simp only [Tree.height]; omega)
            exact ⟨s1, F1, h1, post1, fun h => by cases h⟩
        · have ea : Tree.removeT p a = ((a.removeT p).1, true) := Prod.ext rfl ha2
          have eT : Tree.removeT p (Tree.node i par r l a b c d) =
              ((Tree.node i par r l (a.removeT p).1 b c d).collapseT, true) := by
            simp only [Tree.removeT, hp, if_false, eb]
            rw [ea]
          rw [ha2] at ea0
          rw [eT, (hD.2 eb0).1 _ ea0]
          have hh1 := Tree.removeT_height_le p a
          obtain ⟨s1, F1, h1, post1⟩ := @ShrinkPost.lift_check _ _
            (Tree.node i par r l a b c d) (Tree.node i par r l (a.removeT p).1 b c d) _ _ _ _ n
            (i :: (b.ids ++ c.ids ++ d.ids)) pa
            (by
              rw [List.perm_iff_count]
              intro x
              simp only [Tree.ids, List.count_append, List.count_cons]
              omega)
            (by
              rw [List.perm_iff_count]
              intro x
              simp only [Tree.ids, List.count_append, List.count_cons]
              omega)
            (by intro y hy; simp only [Tree.ids, List.mem_cons, List.mem_append]; simp [hy])
            (Tree.mem_ids_node_mono i par r l l a b c d _ _ _ _ pa.sub (hida b) (hida c) (hida d))
            hnd
            (fun hsame => Rep.replace_children hrep0 (le_of_eq pa.size_eq.symm) (hsame i (by simp))
              pa.rep (Tree.removeT_id p a)
              (rb.congr_nodes (le_of_eq pa.size_eq.symm) (fun x hx => hsame x (by simp [hx]))) rfl
              (rc.congr_nodes (le_of_eq pa.size_eq.symm) (fun x hx => hsame x (by simp [hx]))) rfl
              (rd.congr_nodes (le_of_eq pa.size_eq.symm) (fun x hx => hsame x (by simp [hx]))) rfl)
            (by simp only [Tree.height]; omega)
          exact ⟨s1, F1, h1, post1, fun h => by cases h⟩
      · have eb : Tree.removeT p b = ((b.removeT p).1, true) := Prod.ext rfl hb2
        have eT : Tree.removeT p (Tree.node i par r l a b c d) =
            ((Tree.node i par r l a (b.removeT p).1 c d).collapseT, true) := by
          simp only [Tree.removeT, hp, if_false]
          rw [eb]
        rw [hb2] at eb0
        rw [eT, hD.1 _ eb0]
        have hh1 := Tree.removeT_height_le p b
        obtain ⟨s1, F1, h1, post1⟩ := @ShrinkPost.lift_check _ _
          (Tree.node i par r l a b c d) (Tree.node i par r l a (b.removeT p).1 c d) _ _ _ _ n
          (i :: (a.ids ++ c.ids ++ d.ids)) pb
          (by
            rw [List.perm_iff_count]
            intro x
            simp only [Tree.ids, List.count_append, List.count_cons]
            omega)
          (by
            rw [List.perm_iff_count]
            intro x
            simp only [Tree.ids, List.count_append, List.count_cons]
            omega)
          (by intro y hy; simp only [Tree.ids, List.mem_cons, List.mem_append]; simp [hy])
          (Tree.mem_ids_node_mono i par r l l a b c d _ _ _ _ (hida a) pb.sub (hida c) (hida d))
          hnd
          (fun hsame => Rep.replace_children hrep0 (le_of_eq pb.size_eq.symm) (hsame i (by simp))
            (ra.congr_nodes (le_of_eq pb.size_eq.symm) (fun x hx => hsame x (by simp [hx]))) rfl
            pb.rep (Tree.removeT_id p b)
            (rc.congr_nodes (le_of_eq pb.size_eq.symm) (fun x hx => hsame x (by simp [hx]))) rfl
            (rd.congr_nodes (le_of_eq pb.size_eq.symm) (fun x hx => hsame x (by simp [hx]))) rfl)
          (by simp only [Tree.height]; omega)
        exact ⟨s1, F1, h1, post1, fun h => by cases h⟩

/-! ## Properties of `Tree.removeT` -/

/-- Swap-with-last removal at the first slot holding `p` removes exactly one occurrence of
`p`. -/
theorem swapRemove_perm (l : List Nat) (p : Nat) (hp : p ∈ l) :
    (swapRemove l (l.indexOf p)).Perm (l.erase p) := by
  obtain ⟨as, bs, rfl, hnot⟩ := List.eq_append_cons_of_mem hp
  have hidx : List.indexOf p (as ++ p :: bs) = as.length := by
    rw [List.indexOf_append_of_not_mem hnot, List.indexOf_cons_self]
    rfl
  rw [hidx, List.erase_append_right _ hnot, List.erase_cons_head]
  unfold swapRemove
  rw [List.set_append_right _ _ (le_refl _), Nat.sub_self, List.set_cons_zero,
    List.dropLast_append_cons]
  rcases List.eq_nil_or_concat bs with rfl | ⟨bs1, z, rfl⟩
  · simp
  · simp only [List.concat_eq_append]
    have hv : (as ++ p :: (bs1 ++ [z])).getLastD 0 = z := by
      have : as ++ p :: (bs1 ++ [z]) = (as ++ p :: bs1) ++ [z] := by simp
      rw [this, List.getLastD_concat]
    rw [hv]
    have hd : (z :: (bs1 ++ [z])).dropLast = z :: bs1 := by
      have : z :: (bs1 ++ [z]) = (z :: bs1) ++ [z] := by simp
      rw [this, List.dropLast_concat]
    rw [hd]
    refine List.Perm.append_left as ?_
    have : z :: bs1 = [z] ++ bs1 := rfl
    rw [this]
    exact List.perm_append_comm

theorem Tree.points_leaf (i : Nat) (par : QuadtreeID) (r : Rect) (l : List Nat) :
    (Tree.leaf i par r l).points = l := by
  simp [Tree.points, Tree.entries, Function.comp_def]

theorem Tree.points_node (i : Nat) (par : QuadtreeID) (r : Rect) (l : List Nat)
    (a b c d : Tree) :
    (Tree.node i par r l a b c d).points = l ++ (b.points ++ a.points ++ d.points ++ c.points) := by
  simp [Tree.points, Tree.entries, Function.comp_def]

theorem Tree.allEmpty_points (t : Tree) (h : t.allEmpty = true) : t.points = [] := by
  induction t with
  | leaf i par r l =>
    rw [Tree.points_leaf]
    simpa [Tree.allEmpty] using h
  | node i par r l a b c d iha ihb ihc ihd =>
    simp only [Tree.allEmpty, Bool.and_eq_true, List.isEmpty_iff] at h
    obtain ⟨h0, ha, hb, hc, hd⟩ := h
    rw [Tree.points_node, h0, iha ha, ihb hb, ihc hc, ihd hd]
    rfl

theorem Tree.collapseT_points (t : Tree) : t.collapseT.points = t.points := by
  cases t with
  | leaf i par r l => rfl
  | node i par r l a b c d =>
    simp only [Tree.collapseT]
    split
    · rename_i h
      simp only [Bool.and_eq_true] at h
      obtain ⟨ha, hb, hc, hd⟩ := h
      rw [Tree.points_leaf, Tree.points_node, Tree.allEmpty_points a ha,
        Tree.allEmpty_points b hb, Tree.allEmpty_points c hc, Tree.allEmpty_points d hd]
      simp
    · rfl

/-- `remove` succeeds exactly when the reference is stored in the subtree. -/
theorem Tree.removeT_snd (p : Nat) (t : Tree) : (t.removeT p).2 = decide (p ∈ t.points) := by
  induction t with
  | leaf i par r l =>
    rw [Tree.points_leaf]
    simp only [Tree.removeT]
    split <;> simp_all
  | node i par r l a b c d iha ihb ihc ihd =>
    rw [Tree.points_node]
    simp only [Tree.removeT]
    split
    · rename_i hp; simp [hp]
    · rename_i hp
      rcases e2 : Tree.removeT p b with ⟨b1, _ | _⟩ <;> rw [e2] at ihb <;>
        rcases e1 : Tree.removeT p a with ⟨a1, _ | _⟩ <;> rw [e1] at iha <;>
        rcases e4 : Tree.removeT p d with ⟨d1, _ | _⟩ <;> rw [e4] at ihd <;>
        rcases e3 : Tree.removeT p c with ⟨c1, _ | _⟩ <;> rw [e3] at ihc <;>
        simp only [] at iha ihb ihc ihd ⊢ <;>
        simp only [List.mem_append, hp, false_or] <;>
        simp_all

/-- A successful `remove` takes exactly one occurrence of the reference out of the stored
points; every other stored point stays. -/
theorem Tree.removeT_points (p : Nat) (t : Tree) (h : (t.removeT p).2 = true) :
    (t.removeT p).1.points.Perm (t.points.erase p) := by
  induction t with
  | leaf i par r l =>
    simp only [Tree.removeT] at h ⊢
    split at h
    · rename_i hp
      simp only [hp, if_true, Tree.points_leaf]
      exact swapRemove_perm l p hp
    · cases h
  | node i par r l a b c d iha ihb ihc ihd =>
    have sa := Tree.removeT_snd p a
    have sb := Tree.removeT_snd p b
    have sc := Tree.removeT_snd p c
    have sd := Tree.removeT_snd p d
    simp only [Tree.removeT] at h ⊢
    split at h
    · rename_i hp
      simp only [hp, if_true, Tree.points_node]
      rw [List.erase_append_left _ hp]
      exact (swapRemove_perm l p hp).append_right _
    · rename_i hp
      simp only [hp, if_false, Tree.points_node]
      rw [List.erase_append_right _ hp]
      rcases e2 : Tree.removeT p b with ⟨b1, _ | _⟩
      · rw [e2] at ihb sb h
        have nb : p ∉ b.points := by simpa using sb.symm
        have eb := Tree.removeT_false p b (by rw [e2])
        rw [e2] at eb
        simp only [] at eb
        subst eb
        rcases e1 : Tree.removeT p a with ⟨a1, _ | _⟩
        · rw [e1] at iha sa h
          have na : p ∉ a.points := by simpa using sa.symm
          have ea := Tree.removeT_false p a (by rw [e1])
          rw [e1] at ea
          simp only [] at ea
          subst ea
          rcases e4 : Tree.removeT p d with ⟨d1, _ | _⟩
          · rw [e4] at ihd sd h
            have nd : p ∉ d.points := by simpa using sd.symm
            have ed := Tree.removeT_false p d (by rw [e4])
            rw [e4] at ed
            simp only [] at ed
            subst ed
            rcases e3 : Tree.removeT p c with ⟨c1, _ | _⟩
            · rw [e3] at h
              cases h
            · rw [e3] at ihc
              simp only [Tree.collapseT_points, Tree.points_node]
              rw [List.erase_append_right _ (by simp [nb, na, nd])]
              exact List.Perm.append_left l (List.Perm.append_left _ (ihc rfl))
          · rw [e4] at ihd
            simp only [Tree.collapseT_points, Tree.points_node]
            have hm : p ∈ d.points := by simpa [e4] using sd.symm
            rw [List.erase_append_left _ (by simp [hm]),
              List.erase_append_right _ (by simp [nb, na])]
            exact List.Perm.append_left l ((List.Perm.append_left _ (ihd rfl)).append_right _)
        · rw [e1] at iha
          simp only [Tree.collapseT_points, Tree.points_node]
          have hm : p ∈ a.points := by simpa [e1] using sa.symm
          rw [List.erase_append_left _ (by simp [hm]), List.erase_append_left _ (by simp [hm]),
            List.erase_append_right _ nb]
          exact List.Perm.append_left l
            (((List.Perm.append_left _ (iha rfl)).append_right _).append_right _)
      · rw [e2] at ihb
        simp only [Tree.collapseT_points, Tree.points_node]
        have hm : p ∈ b.points := by simpa [e2] using sb.symm
        rw [List.erase_append_left _ (by simp [hm]), List.erase_append_left _ (by simp [hm]),
          List.erase_append_left _ hm]
        exact List.Perm.append_left l ((((ihb rfl).append_right _).append_right _).append_right _)

theorem swapRemove_length_le (l : List Nat) (k : Nat) : (swapRemove l k).length ≤ l.length := by
  rw [swapRemove_length]; omega

theorem Tree.collapseT_shape (cap : Nat) (t : Tree) (h : t.Shape cap) : t.collapseT.Shape cap := by
  cases t with
  | leaf i par r l => exact h
  | node i par r l a b c d =>
    simp only [Tree.collapseT]
    split
    · exact h.1
    · exact h

theorem Tree.collapseT_boundary (t : Tree) : t.collapseT.boundary = t.boundary := by
  cases t with
  | leaf i par r l => rfl
  | node i par r l a b c d =>
    simp only [Tree.collapseT]
    split <;> rfl

theorem Tree.collapseT_parent (t : Tree) : t.collapseT.parent = t.parent := by
  cases t with
  | leaf i par r l => rfl
  | node i par r l a b c d =>
    simp only [Tree.collapseT]
    split <;> rfl

theorem Tree.removeT_boundary (p : Nat) (t : Tree) : (t.removeT p).1.boundary = t.boundary := by
  cases t with
  | leaf i par r l =>
    simp only [Tree.removeT]
    split <;> rfl
  | node i par r l a b c d =>
    simp only [Tree.removeT]
    repeat' split
    all_goals first | rfl | (simp only [Tree.collapseT_boundary]; rfl)

theorem Tree.removeT_parent (p : Nat) (t : Tree) : (t.removeT p).1.parent = t.parent := by
  cases t with
  | leaf i par r l =>
    simp only [Tree.removeT]
    split <;> rfl
  | node i par r l a b c d =>
    simp only [Tree.removeT]
    repeat' split
    all_goals first | rfl | (simp only [Tree.collapseT_parent]; rfl)

/-- Removal keeps the structural constraints. -/
theorem Tree.removeT_shape (cap : Nat) (p : Nat) (t : Tree) (hs : t.Shape cap) :
    (t.removeT p).1.Shape cap := by
  induction t with
  | leaf i par r l =>
    have hl : l.length ≤ cap := hs
    simp only [Tree.removeT]
    split
    · exact le_trans (swapRemove_length_le _ _) hl
    · exact hl
  | node i par r l a b c d iha ihb ihc ihd =>
    obtain ⟨hl, pa, pb, pc, pd, ba, bb, bc, bd, sa, sb, sc, sd⟩ := hs
    have ha := iha sa
    have hb := ihb sb
    have hc := ihc sc
    have hd := ihd sd
    have ea := Tree.removeT_boundary p a
    have eb := Tree.removeT_boundary p b
    have ec := Tree.removeT_boundary p c
    have ed := Tree.removeT_boundary p d
    have fa := Tree.removeT_parent p a
    have fb := Tree.removeT_parent p b
    have fc := Tree.removeT_parent p c
    have fd := Tree.removeT_parent p d
    simp only [Tree.removeT]
    split
    · exact ⟨le_trans (swapRemove_length_le _ _) hl, pa, pb, pc, pd, ba, bb, bc, bd, sa, sb, sc,
        sd⟩
    · rcases e2 : Tree.removeT p b with ⟨b1, _ | _⟩ <;> rw [e2] at hb eb fb <;>
        rcases e1 : Tree.removeT p a with ⟨a1, _ | _⟩ <;> rw [e1] at ha ea fa <;>
        rcases e4 : Tree.removeT p d with ⟨d1, _ | _⟩ <;> rw [e4] at hd ed fd <;>
        rcases e3 : Tree.removeT p c with ⟨c1, _ | _⟩ <;> rw [e3] at hc ec fc <;>
        simp only [] at ha hb hc hd ea eb ec ed fa fb fc fd ⊢ <;>
        first
        | exact ⟨hl, fa.trans pa, fb.trans pb, fc.trans pc, fd.trans pd, ea.trans ba,
            eb.trans bb, ec.trans bc, ed.trans bd, ha, hb, hc, hd⟩
        | exact Tree.collapseT_shape cap _ ⟨hl, fa.trans pa, fb.trans pb, fc.trans pc,
            fd.trans pd, ea.trans ba, eb.trans bb, ec.trans bc, ed.trans bd, ha, hb, hc, hd⟩
        | exact Tree.collapseT_shape cap _ ⟨hl, fa.trans pa, fb.trans pb, fc.trans pc,
            pd, ea.trans ba, eb.trans bb, ec.trans bc, bd, ha, hb, hc, sd⟩
        | exact Tree.collapseT_shape cap _ ⟨hl, fa.trans pa, fb.trans pb, pc,
            fd.trans pd, ea.trans ba, eb.trans bb, bc, ed.trans bd, ha, hb, sc, hd⟩
        | exact Tree.collapseT_shape cap _ ⟨hl, fa.trans pa, fb.trans pb, pc,
            pd, ea.trans ba, eb.trans bb, bc, bd, ha, hb, sc, sd⟩
        | exact Tree.collapseT_shape cap _ ⟨hl, pa, fb.trans pb, pc,
            pd, ba, eb.trans bb, bc, bd, sa, hb, sc, sd⟩

/-! ## Removal by identity -/

theorem Tree.subtrees_rep (s : QuadTreeManager) (t T : Tree) (h : Rep s T)
    (ht : t ∈ T.subtrees) : Rep s t := by
  induction T with
  | leaf i par r l =>
    simp only [Tree.subtrees, List.mem_singleton] at ht
    subst ht
    exact h
  | node i par r l a b c d iha ihb ihc ihd =>
    simp only [Tree.subtrees, List.mem_cons, List.mem_append] at ht
    obtain ⟨_, _, _, _, _, ra, rb, rc, rd⟩ := h
    rcases ht with ht | ((ht | ht) | ht) | ht
    · subst ht
      exact ⟨‹_›, ‹_›, ‹_›, ‹_›, ‹_›, ra, rb, rc, rd⟩
    · exact iha ra ht
    · exact ihb rb ht
    · exact ihc rc ht
    · exact ihd rd ht

theorem Tree.subtrees_shape (cap : Nat) (t T : Tree) (h : T.Shape cap)
    (ht : t ∈ T.subtrees) : t.Shape cap := by
  induction T with
  | leaf i par r l =>
    simp only [Tree.subtrees, List.mem_singleton] at ht
    subst ht
    exact h
  | node i par r l a b c d iha ihb ihc ihd =>
    simp only [Tree.subtrees, List.mem_cons, List.mem_append] at ht
    rcases ht with ht | ((ht | ht) | ht) | ht
    · subst ht
      exact h
    · exact iha h.2.2.2.2.2.2.2.2.2.1 ht
    · exact ihb h.2.2.2.2.2.2.2.2.2.2.1 ht
    · exact ihc h.2.2.2.2.2.2.2.2.2.2.2.1 ht
    · exact ihd h.2.2.2.2.2.2.2.2.2.2.2.2 ht

theorem Tree.subtrees_ids (t T : Tree) (ht : t ∈ T.subtrees) : t.ids.Sublist T.ids := by
  induction T with
  | leaf i par r l =>
    simp only [Tree.subtrees, List.mem_singleton] at ht
    subst ht
    exact List.Sublist.refl _
  | node i par r l a b c d iha ihb ihc ihd =>
    simp only [Tree.subtrees, List.mem_cons, List.mem_append] at ht
    rcases ht with ht | ((ht | ht) | ht) | ht
    · subst ht
      exact List.Sublist.refl _
    · refine (iha ht).trans ?_
      simp only [Tree.ids, List.append_assoc]
      exact (List.sublist_append_left _ _).trans (List.sublist_cons_self _ _)
    · refine (ihb ht).trans ?_
      simp only [Tree.ids, List.append_assoc]
      exact ((List.sublist_append_left _ _).trans (List.sublist_append_right _ _)).trans
        (List.sublist_cons_self _ _)
    · refine (ihc ht).trans ?_
      simp only [Tree.ids, List.append_assoc]
      exact (((List.sublist_append_left _ _).trans (List.sublist_append_right _ _)).trans
        (List.sublist_append_right _ _)).trans (List.sublist_cons_self _ _)
    · refine (ihd ht).trans ?_
      simp only [Tree.ids]
      exact (List.sublist_append_right _ _).trans (List.sublist_cons_self _ _)

theorem Tree.mem_subtrees_self (t : Tree) : t ∈ t.subtrees := by
  cases t <;> simp [Tree.subtrees]

/-- On a well-formed index `remove` at the root refines `Tree.removeT`, and the result is
well formed. -/
theorem remove_wf (s : QuadTreeManager) (t : Tree) (F : List Nat) (fuel p : Nat)
    (hw : WF s t F) (hf : t.height ≤ fuel) :
    ∃ s1 F1, remove fuel s (some t.id) p = some (s1, decide (p ∈ t.points)) ∧
      WF s1 (t.removeT p).1 F1 ∧ s1.heap = s.heap ∧ s1.m_size = s.m_size ∧
      (p ∉ t.points → s1 = s ∧ F1 = F) := by
  obtain ⟨s1, F1, e, post, hfalse⟩ :=
    remove_refines t s F fuel p hw.rep hw.shape hw.cap_le hw.free hw.nodup hf
  rw [Tree.removeT_snd] at e hfalse
  refine ⟨s1, F1, e, ⟨post.rep, ?_, post.free, (post.perm.nodup_iff).2 hw.nodup, ?_, ?_⟩,
    post.heap_eq, post.size_eq, fun h => hfalse (by simpa using h)⟩
  · rw [post.cap_eq]
    exact Tree.removeT_shape _ p t hw.shape
  · rw [post.cap_eq]
    exact hw.cap_pos
  · rw [post.cap_eq]
    exact hw.cap_le

/-- C4 (removal by identity).  Let the index be well formed with tree `T`, and let `t` be the
subtree at any node handle.  With enough fuel for the height of `t`, `remove(t.id, p)` is
defined and returns `true` exactly when the reference `p` is stored in the bucket of that node
or of one of its descendants.  On success the arena represents `Tree.removeT p t` (in the
holding bucket the last entry moved into the slot of `p` and the count dropped by one), the
stored references of the subtree are those before with exactly one occurrence of `p` taken
out, every record outside the subtree and the heap are unchanged, and when the handle is the
root the index is again well formed.  On failure the whole state is unchanged. -/
theorem C4_remove_by_identity (s : QuadTreeManager) (T : Tree) (F : List Nat) (t : Tree)
    (fuel p : Nat) (hw : WF s T F) (ht : t ∈ T.subtrees) (hf : t.height ≤ fuel) :
    ∃ s1 F1, remove fuel s (some t.id) p = some (s1, decide (p ∈ t.points)) ∧
      (p ∈ t.points →
        Rep s1 (t.removeT p).1 ∧ (t.removeT p).1.Shape s1.m_capacity ∧
        FreeChain s1 s1.m_freeID F1 ∧
        (t.removeT p).1.points.Perm (t.points.erase p) ∧
        (∀ j, j ∉ t.ids → s1.m_nodes j = s.m_nodes j) ∧ s1.heap = s.heap ∧
        (t = T → WF s1 (t.removeT p).1 F1)) ∧
      (p ∉ t.points → s1 = s) := by
  have hrep := Tree.subtrees_rep s t T hw.rep ht
  have hshape := Tree.subtrees_shape _ t T hw.shape ht
  have hnd : (t.ids ++ F).Nodup :=
    hw.nodup.sublist ((Tree.subtrees_ids t T ht).append_right F)
  obtain ⟨s1, F1, e, post, hfalse⟩ :=
    remove_refines t s F fuel p hrep hshape hw.cap_le hw.free hnd hf
  have hsnd := Tree.removeT_snd p t
  rw [hsnd] at e hfalse
  refine ⟨s1, F1, e, fun hp => ?_, fun hp => (hfalse (by simpa using hp)).1⟩
  have hshape1 : (t.removeT p).1.Shape s1.m_capacity := by
    rw [post.cap_eq]
    exact Tree.removeT_shape _ p t hshape
  refine ⟨post.rep, hshape1, post.free,
    Tree.removeT_points p t (by rw [hsnd]; simpa using hp), post.same, post.heap_eq,
    fun hT => ⟨post.rep, hshape1, post.free, (post.perm.nodup_iff).2 hnd, ?_, ?_⟩⟩
  · rw [post.cap_eq]
    exact hw.cap_pos
  · rw [post.cap_eq]
    exact hw.cap_le

/-- Witness for C4: in the five-point example the point at `(50, 50)` is held by the northwest
child; removing it through the root succeeds. -/
theorem C4_remove_by_identity_witness :
    WF fivePoints fiveTree [5, 6, 7, 8, 9, 10, 11, 12, 13, 14, 15] ∧
    fiveTree ∈ fiveTree.subtrees ∧ fiveTree.height ≤ 2 ∧
    ∃ s1 F1, remove 2 fivePoints (some fiveTree.id) 5 = some (s1, decide (5 ∈ fiveTree.points)) ∧
      (5 ∈ fiveTree.points →
        Rep s1 (fiveTree.removeT 5).1 ∧ (fiveTree.removeT 5).1.Shape s1.m_capacity ∧
        FreeChain s1 s1.m_freeID F1 ∧
        (fiveTree.removeT 5).1.points.Perm (fiveTree.points.erase 5) ∧
        (∀ j, j ∉ fiveTree.ids → s1.m_nodes j = fivePoints.m_nodes j) ∧
        s1.heap = fivePoints.heap ∧
        (fiveTree = fiveTree → WF s1 (fiveTree.removeT 5).1 F1)) ∧
      (5 ∉ fiveTree.points → s1 = fivePoints) :=
  ⟨fivePoints_wf, Tree.mem_subtrees_self fiveTree, by decide,
    C4_remove_by_identity fivePoints fiveTree [5, 6, 7, 8, 9, 10, 11, 12, 13, 14, 15] fiveTree
      2 5 fivePoints_wf (Tree.mem_subtrees_self fiveTree) (by decide)⟩

/-! ## Collapse after removal -/

theorem Tree.ids_eq (t : Tree) : t.ids = t.id :: t.descIds := by
  cases t <;> rfl

theorem Rep.allEmpty_of_sizes (s : QuadTreeManager) (t : Tree) (h : Rep s t)
    (hz : ∀ j ∈ t.ids, (s.m_nodes j).size = 0) : t.allEmpty = true := by
  induction t with
  | leaf i par r l =>
    have h1 := h.2.2.2.1
    rw [hz i (by simp [Tree.ids])] at h1
    simp only [Tree.allEmpty, List.isEmpty_iff]
    exact List.length_eq_zero.1 h1.symm
  | node i par r l a b c d iha ihb ihc ihd =>
    obtain ⟨hN, -, -, -, -, ra, rb, rc, rd⟩ := h
    have h1 := hN.2.2.2.1
    rw [hz i (by simp [Tree.ids])] at h1
    have hl : l = [] := List.length_eq_zero.1 h1.symm
    have ha := iha ra (fun j hj => hz j (by simp [Tree.ids, hj]))
    have hb := ihb rb (fun j hj => hz j (by simp [Tree.ids, hj]))
    have hc := ihc rc (fun j hj => hz j (by simp [Tree.ids, hj]))
    have hd := ihd rd (fun j hj => hz j (by simp [Tree.ids, hj]))
    simp [Tree.allEmpty, hl, ha, hb, hc, hd]

/-- A represented node all of whose strict descendants have empty buckets collapses to a
leaf. -/
theorem Rep.collapse_of_empty (s : QuadTreeManager) (t : Tree) (h : Rep s t)
    (hz : ∀ j ∈ t.descIds, (s.m_nodes j).size = 0) :
    t.collapseT.divided = false ∧ t.collapseT.ids = [t.id] := by
  cases t with
  | leaf i par r l => exact ⟨rfl, rfl⟩
  | node i par r l a b c d =>
    obtain ⟨-, -, -, -, -, ra, rb, rc, rd⟩ := h
    have ha := Rep.allEmpty_of_sizes s a ra (fun j hj => hz j (by simp [Tree.descIds, hj]))
    have hb := Rep.allEmpty_of_sizes s b rb (fun j hj => hz j (by simp [Tree.descIds, hj]))
    have hc := Rep.allEmpty_of_sizes s c rc (fun j hj => hz j (by simp [Tree.descIds, hj]))
    have hd := Rep.allEmpty_of_sizes s d rd (fun j hj => hz j (by simp [Tree.descIds, hj]))
    simp [Tree.collapseT, ha, hb, hc, hd, Tree.divided, Tree.ids, Tree.id]

/-- The handles that were free stay free under an operation that only frees nodes. -/
theorem ShrinkPost.free_sub {s s1 : QuadTreeManager} {t t1 : Tree} {F F1 : List Nat}
    (post : ShrinkPost s t F s1 t1 F1) (hnd : (t.ids ++ F).Nodup) : ∀ x ∈ F, x ∈ F1 := by
  intro x hx
  have h1 : x ∈ t1.ids ++ F1 := post.perm.mem_iff.2 (List.mem_append_right _ hx)
  rcases List.mem_append.1 h1 with h | h
  · exact absurd hx ((List.nodup_append.1 hnd).2.2 (post.sub x h))
  · exact h

/-- The collapse check after a successful removal below the child `x` of `t`: besides the
postcondition for the whole tree, the root of `t` is collapsed in the sense of `Collapsed`,
and nodes collapsed by the child call stay so. -/
theorem ShrinkPost.lift_check_trace {s sx : QuadTreeManager} {t t1 x x1 : Tree}
    {F Fx : List Nat} {n : Nat} (R : List Nat) (post : ShrinkPost s x F sx x1 Fx)
    (hperm : (t.ids ++ F).Perm (R ++ (x.ids ++ F)))
    (hperm1 : (t1.ids ++ Fx).Perm (R ++ (x1.ids ++ Fx)))
    (hsubx : ∀ y ∈ x.ids, y ∈ t.ids) (hsub1 : ∀ y ∈ t1.ids, y ∈ t.ids)
    (hnd : (t.ids ++ F).Nodup)
    (hrep : (∀ y ∈ R, sx.m_nodes y = s.m_nodes y) → Rep sx t1)
    (hheight : t1.height ≤ n + 1)
    (hdesc : ∀ y ∈ t1.descIds, y ∈ t.descIds) (hid : t1.id = t.id) :
    ∃ s1 F1, check n sx (some t1.id) = some (s1, true) ∧
      ShrinkPost s t F s1 t1.collapseT F1 ∧ Collapsed s1 F1 t ∧
      ∀ A, Collapsed sx Fx A → Collapsed s1 F1 A := by
  have hnd1 : (R ++ (x.ids ++ F)).Nodup := hperm.nodup_iff.1 hnd
  have hdis : ∀ y ∈ R, y ∉ x.ids := fun y hy hm =>
    (List.nodup_append.1 hnd1).2.2 hy (List.mem_append_left _ hm)
  have hrep1 : Rep sx t1 := hrep (fun y hy => post.same y (hdis y hy))
  have hnd2 : (t1.ids ++ Fx).Nodup := by
    refine hperm1.nodup_iff.2 ?_
    refine List.nodup_iff_count_le_one.2 (fun y => ?_)
    have h1 := List.nodup_iff_count_le_one.1 hnd1 y
    have h2 := post.perm.count_eq y
    simp only [List.count_append] at h1 h2 ⊢
    omega
  obtain ⟨s1, F1, e1, p1, keep⟩ := tryCollapse_spec t1 sx Fx n hrep1 post.free hnd2 hheight
  have hperm2 : (t1.collapseT.ids ++ F1).Perm (t.ids ++ F) := by
    rw [List.perm_iff_count]
    intro y
    have h1 := p1.perm.count_eq y
    have h2 := hperm1.count_eq y
    have h3 := hperm.count_eq y
    have h4 := post.perm.count_eq y
    simp only [List.count_append] at h1 h2 h3 h4 ⊢
    omega
  refine ⟨s1, F1, ?_, ?_, ?_, ?_⟩
  · rw [check_eq n sx t1.id hrep1.id_lt, e1]
    rfl
  · refine ⟨p1.rep, p1.free, hperm2, fun y hy => hsub1 y (p1.sub y hy), ?_, ?_, ?_, ?_⟩
    · intro j hj
      rw [p1.same j (fun hm => hj (hsub1 j hm)), post.same j (fun hm => hj (hsubx j hm))]
    · rw [p1.size_eq, post.size_eq]
    · rw [p1.cap_eq, post.cap_eq]
    · rw [p1.heap_eq, post.heap_eq]
  · intro hz
    have hz1 : ∀ j ∈ t1.descIds, (sx.m_nodes j).size = 0 := fun j hj => by
      rw [← (keep j).1]
      exact hz j (hdesc j hj)
    obtain ⟨hdv, hids⟩ := Rep.collapse_of_empty sx t1 hrep1 hz1
    have hd1 := p1.rep.divided_eq
    rw [Tree.collapseT_id, hdv, hid] at hd1
    refine ⟨hd1, fun j hj => ?_⟩
    have hjt : j ∈ t.ids := by
      rw [Tree.ids_eq]
      exact List.mem_cons_of_mem _ hj
    have h1 : j ∈ t1.collapseT.ids ++ F1 := hperm2.mem_iff.2 (List.mem_append_left _ hjt)
    rw [hids, hid] at h1
    rcases List.mem_append.1 h1 with h | h
    · exfalso
      have e : j = t.id := by simpa using h
      have hnd3 : t.ids.Nodup := (List.nodup_append.1 hnd).1
      rw [Tree.ids_eq] at hnd3
      exact (List.nodup_cons.1 hnd3).1 (e ▸ hj)
    · exact h
  · intro A hA hz
    obtain ⟨h1, h2⟩ := hA (fun j hj => by rw [← (keep j).1]; exact hz j hj)
    exact ⟨(keep A.id).2.2 h1, fun j hj => p1.free_sub hnd2 j (h2 j hj)⟩

/-- Along the path of a successful `remove`, every node is collapsed in the sense of
`Collapsed` when the call returns. -/
theorem remove_collapse (t : Tree) : ∀ (s : QuadTreeManager) (F : List Nat) (fuel p : Nat),
    Rep s t → t.Shape s.m_capacity → s.m_capacity ≤ 4 → FreeChain s s.m_freeID F →
    (t.ids ++ F).Nodup → t.height ≤ fuel →
    ∃ s1 F1, remove fuel s (some t.id) p = some (s1, (t.removeT p).2) ∧
      ShrinkPost s t F s1 (t.removeT p).1 F1 ∧ ∀ A ∈ t.removePath p, Collapsed s1 F1 A := by
  induction t with
  | leaf i par r l =>
    intro s F fuel p hrep hshape hcap hF hnd hfuel
    obtain ⟨s1, F1, e, post, -⟩ :=
      remove_refines (Tree.leaf i par r l) s F fuel p hrep hshape hcap hF hnd hfuel
    exact ⟨s1, F1, e, post, fun A hA => by simp [Tree.removePath] at hA⟩
  | node i par r l a b c d iha ihb ihc ihd =>
    intro s F fuel p hrep hshape hcap hF hnd hfuel
    by_cases hp : p ∈ l
    · obtain ⟨s1, F1, e, post, -⟩ :=
        remove_refines (Tree.node i par r l a b c d) s F fuel p hrep hshape hcap hF hnd hfuel
      exact ⟨s1, F1, e, post, fun A hA => by simp [Tree.removePath, hp] at hA⟩
    obtain ⟨n, rfl⟩ : ∃ n, fuel = n + 1 := ⟨fuel - 1, by simp [Tree.height] at hfuel; omega⟩
    have hrep0 := hrep
    obtain ⟨hN, hne, hnw, hse, hsw, ra, rb, rc, rd⟩ := hrep
    obtain ⟨hi, -, -, hsz, hdata, hdiv⟩ := hN
    obtain ⟨hl0, -, -, -, -, -, -, -, -, sa, sb, sc, sd⟩ := hshape
    have hl : l.length ≤ 4 := le_trans hl0 hcap
    simp only [Tree.height] at hfuel
    have hscan := scanBucket_spec (s.m_nodes i) p l hdata hl l.length 0 (by simp)
    rw [← hsz] at hscan
    simp only [List.drop_zero, Nat.zero_add] at hscan
    simp only [Tree.id]
    simp only [hp, if_false] at hscan
    have hD := remove_descend n s i p a.id b.id c.id d.id hi hscan hdiv hne hnw hse hsw
    have hsubnd : ∀ x : Tree, (∀ y, x.ids.count y ≤
        (Tree.node i par r l a b c d).ids.count y) → (x.ids ++ F).Nodup := by
      intro x hx
      refine List.nodup_iff_count_le_one.2 (fun y => ?_)
      have h1 := List.nodup_iff_count_le_one.1 hnd y
      have h2 := hx y
      simp only [List.count_append] at h1 ⊢
      omega
    have hha : a.height ≤ n := by omega
    have hhb : b.height ≤ n := by omega
    have hhc : c.height ≤ n := by omega
    have hhd : d.height ≤ n := by omega
    have hida : ∀ x : Tree, ∀ y ∈ x.ids, y ∈ x.ids := fun _ _ h => h
    clear hfuel hscan hdata hl hl0 hsz
    rcases hb2 : (b.removeT p).2 with _ | _
    · obtain ⟨sb, Fb, eb0, pb, fb⟩ := remove_refines b s F n p rb sb hcap hF
        (hsubnd b (fun y => by simp only [Tree.ids, List.count_cons, List.count_append]; omega))
        hhb
      obtain ⟨hsb, hFb⟩ := fb hb2
      have eb : Tree.removeT p b = (b, false) :=
        Prod.ext (Tree.removeT_false p b hb2) hb2
      rw [hb2, hsb] at eb0
      clear pb fb hsb hFb
      rcases ha2 : (a.removeT p).2 with _ | _
      · obtain ⟨sa, Fa, ea0, pa, fa⟩ := remove_refines a s F n p ra sa hcap hF
          (hsubnd a (fun y => by simp only [Tree.ids, List.count_cons, List.count_append]; omega))
          hha
        obtain ⟨hsa, hFa⟩ := fa ha2
        have ea : Tree.removeT p a = (a, false) :=
          Prod.ext (Tree.removeT_false p a ha2) ha2
        rw [ha2, hsa] at ea0
        clear pa fa hsa hFa
        rcases hd2 : (d.removeT p).2 with _ | _
        · obtain ⟨sd, Fd, ed0, pd, fd⟩ := remove_refines d s F n p rd sd hcap hF
            (hsubnd d (fun y => by simp only [Tree.ids, List.count_cons, List.count_append]; omega))
            hhd
          obtain ⟨hsd, hFd⟩ := fd hd2
          have ed : Tree.removeT p d = (d, false) :=
            Prod.ext (Tree.removeT_false p d hd2) hd2
          rw [hd2, hsd] at ed0
          clear pd fd hsd hFd
          rcases hc2 : (c.removeT p).2 with _ | _
          · obtain ⟨sc, Fc, ec0, pc, fc⟩ := remove_refines c s F n p rc sc hcap hF
              (hsubnd c (fun y => by simp only [Tree.ids, List.count_cons, List.count_append]; omega))
              hhc
            obtain ⟨hsc, hFc⟩ := fc hc2
            have ec : Tree.removeT p c = (c, false) :=
              Prod.ext (Tree.removeT_false p c hc2) hc2
            rw [hc2, hsc] at ec0
            clear pc fc hsc hFc
            have eT : Tree.removeT p (Tree.node i par r l a b c d) =
                (Tree.node i par r l a b c d, false) := by
              simp only [Tree.removeT, hp, if_false, eb, ea, ed, ec]
            have ePath : Tree.removePath p (Tree.node i par r l a b c d) = [] := by
              simp [Tree.removePath, hp, hb2, ha2, hd2, hc2]
            rw [eT, ePath, ((((hD.2 eb0).2 ea0).2 ed0).2 ec0)]
            exact ⟨s, F, rfl, ShrinkPost.rfl_post hrep0 hF, fun A hA => by cases hA⟩
          · obtain ⟨sc, Fc, ec0, pc, cc⟩ := ihc s F n p rc sc hcap hF
              (hsubnd c (fun y => by simp only [Tree.ids, List.count_cons, List.count_append]; omega))
              hhc
            have ec : Tree.removeT p c = ((c.removeT p).1, true) := Prod.ext rfl hc2
            have eT : Tree.removeT p (Tree.node i par r l a b c d) =
                ((Tree.node i par r l a b (c.removeT p).1 d).collapseT, true) := by
              simp only [Tree.removeT, hp, if_false, eb, ea, ed]
              rw [ec]
            have ePath : Tree.removePath p (Tree.node i par r l a b c d) =
                Tree.node i par r l a b c d :: Tree.removePath p c := by
              simp [Tree.removePath, hp, hb2, ha2, hd2, hc2]
            rw [hc2] at ec0
            rw [eT, ePath, (((hD.2 eb0).2 ea0).2 ed0).1 _ ec0]
            have hh1 := Tree.removeT_height_le p c
            obtain ⟨s1, F1, h1, post1, croot, clift⟩ := @ShrinkPost.lift_check_trace _ _
              (Tree.node i par r l a b c d) (Tree.node i par r l a b (c.removeT p).1 d) _ _ _ _ n
              (i :: (a.ids ++ b.ids ++ d.ids)) pc
              (by
                rw [List.perm_iff_count]
                intro x
                simp only [Tree.ids, List.count_append, List.count_cons]
                omega)
              (by
                rw [List.perm_iff_count]
                intro x
                simp only [Tree.ids, List.count_append, List.count_cons]
                omega)
              (by intro y hy; simp only [Tree.ids, List.mem_cons, List.mem_append]; simp [hy])
              (Tree.mem_ids_node_mono i par r l l a b c d _ _ _ _ (hida a) (hida b) pc.sub (hida d))
              hnd
              (fun hsame => Rep.replace_children hrep0 (le_of_eq pc.size_eq.symm) (hsame i (by simp))
                (ra.congr_nodes (le_of_eq pc.size_eq.symm) (fun x hx => hsame x (by simp [hx]))) rfl
                (rb.congr_nodes (le_of_eq pc.size_eq.symm) (fun x hx => hsame x (by simp [hx]))) rfl
                pc.rep (Tree.removeT_id p c)
                (rd.congr_nodes (le_of_eq pc.size_eq.symm) (fun x hx => hsame x (by simp [hx]))) rfl)
              (by simp only [Tree.height]; omega)
              (by
                intro y hy
                simp only [Tree.descIds, List.mem_append] at hy ⊢
                rcases hy with ((h | h) | h) | h
                · exact Or.inl (Or.inl (Or.inl h))
                · exact Or.inl (Or.inl (Or.inr h))
                · exact Or.inl (Or.inr (pc.sub y h))
                · exact Or.inr h)
              rfl
            refine ⟨s1, F1, h1, post1, fun A hA => ?_⟩
            rcases List.mem_cons.1 hA with h | h
            · rw [h]
              exact croot
            · exact clift A (cc A h)
        · obtain ⟨sd, Fd, ed0, pd, cd⟩ := ihd s F n p rd sd hcap hF
            (hsubnd d (fun y => by simp only [Tree.ids, List.count_cons, List.count_append]; omega))
            hhd
          have ed : Tree.removeT p d = ((d.removeT p).1, true) := Prod.ext rfl hd2
          have eT : Tree.removeT p (Tree.node i par r l a b c d) =
              ((Tree.node i par r l a b c (d.removeT p).1).collapseT, true) := by
            simp only [Tree.removeT, hp, if_false, eb, ea]
            rw [ed]
          have ePath : Tree.removePath p (Tree.node i par r l a b c d) =
              Tree.node i par r l a b c d :: Tree.removePath p d := by
            simp [Tree.removePath, hp, hb2, ha2, hd2]
          rw [hd2] at ed0
          rw [eT, ePath, ((hD.2 eb0).2 ea0).1 _ ed0]
          have hh1 := Tree.removeT_height_le p d
          obtain ⟨s1, F1, h1, post1, croot, clift⟩ := @ShrinkPost.lift_check_trace _ _
            (Tree.node i par r l a b c d) (Tree.node i par r l a b c (d.removeT p).1) _ _ _ _ n
            (i :: (a.ids ++ b.ids ++ c.ids)) pd
            (by
              rw [List.perm_iff_count]
              intro x
              simp only [Tree.ids, List.count_append, List.count_cons]
              omega)
            (by
              rw [List.perm_iff_count]
              intro x
              simp only [Tree.ids, List.count_append, List.count_cons]
              omega)
            (by intro y hy; simp only [Tree.ids, List.mem_cons, List.mem_append]; simp [hy])
            (Tree.mem_ids_node_mono i par r l l a b c d _ _ _ _ (hida a) (hida b) (hida c) pd.sub)
            hnd
            (fun hsame => Rep.replace_children hrep0 (le_of_eq pd.size_eq.symm) (hsame i (by simp))
              (ra.congr_nodes (le_of_eq pd.size_eq.symm) (fun x hx => hsame x (by simp [hx]))) rfl
              (rb.congr_nodes (le_of_eq pd.size_eq.symm) (fun x hx => hsame x (by simp [hx]))) rfl
              (rc.congr_nodes (le_of_eq pd.size_eq.symm) (fun x hx => hsame x (by simp [hx]))) rfl
              pd.rep (Tree.removeT_id p d))
            (by simp only [Tree.height]; omega)
            (by
              intro y hy
              simp only [Tree.descIds, List.mem_append] at hy ⊢
              rcases hy with ((h | h) | h) | h
              · exact Or.inl (Or.inl (Or.inl h))
              · exact Or.inl (Or.inl (Or.inr h))
              · exact Or.inl (Or.inr h)
              · exact Or.inr (pd.sub y h))
            rfl
          refine ⟨s1, F1, h1, post1, fun A hA => ?_⟩
          rcases List.mem_cons.1 hA with h | h
          · rw [h]
            exact croot
          · exact clift A (cd A h)
      · obtain ⟨sa, Fa, ea0, pa, ca⟩ := iha s F n p ra sa hcap hF
          (hsubnd a (fun y => by simp only [Tree.ids, List.count_cons, List.count_append]; omega))
          hha
        have ea : Tree.removeT p a = ((a.removeT p).1, true) := Prod.ext rfl ha2
        have eT : Tree.removeT p (Tree.node i par r l a b c d) =
            ((Tree.node i par r l (a.removeT p).1 b c d).collapseT, true) := by
          simp only [Tree.removeT, hp, if_false, eb]
          rw [ea]
        have ePath : Tree.removePath p (Tree.node i par r l a b c d) =
            Tree.node i par r l a b c d :: Tree.removePath p a := by
          simp [Tree.removePath, hp, hb2, ha2]
        rw [ha2] at ea0
        rw [eT, ePath, (hD.2 eb0).1 _ ea0]
        have hh1 := Tree.removeT_height_le p a
        obtain ⟨s1, F1, h1, post1, croot, clift⟩ := @ShrinkPost.lift_check_trace _ _
          (Tree.node i par r l a b c d) (Tree.node i par r l (a.removeT p).1 b c d) _ _ _ _ n
          (i :: (b.ids ++ c.ids ++ d.ids)) pa
          (by
            rw [List.perm_iff_count]
            intro x
            simp only [Tree.ids, List.count_append, List.count_cons]
            omega)
          (by
            rw [List.perm_iff_count]
            intro x
            simp only [Tree.ids, List.count_append, List.count_cons]
            omega)
          (by intro y hy; simp only [Tree.ids, List.mem_cons, List.mem_append]; simp [hy])
          (Tree.mem_ids_node_mono i par r l l a b c d _ _ _ _ pa.sub (hida b) (hida c) (hida d))
          hnd
          (fun hsame => Rep.replace_children hrep0 (le_of_eq pa.size_eq.symm) (hsame i (by simp))
            pa.rep (Tree.removeT_id p a)
            (rb.congr_nodes (le_of_eq pa.size_eq.symm) (fun x hx => hsame x (by simp [hx]))) rfl
            (rc.congr_nodes (le_of_eq pa.size_eq.symm) (fun x hx => hsame x (by simp [hx]))) rfl
            (rd.congr_nodes (le_of_eq pa.size_eq.symm) (fun x hx => hsame x (by simp [hx]))) rfl)
          (by simp only [Tree.height]; omega)
          (by
            intro y hy
            simp only [Tree.descIds, List.mem_append] at hy ⊢
            rcases hy with ((h | h) | h) | h
            · exact Or.inl (Or.inl (Or.inl (pa.sub y h)))
            · exact Or.inl (Or.inl (Or.inr h))
            · exact Or.inl (Or.inr h)
            · exact Or.inr h)
          rfl
        refine ⟨s1, F1, h1, post1, fun A hA => ?_⟩
        rcases List.mem_cons.1 hA with h | h
        · rw [h]
          exact croot
        · exact clift A (ca A h)
    · obtain ⟨sb, Fb, eb0, pb, cb⟩ := ihb s F n p rb sb hcap hF
        (hsubnd b (fun y => by simp only [Tree.ids, List.count_cons, List.count_append]; omega))
        hhb
      have eb : Tree.removeT p b = ((b.removeT p).1, true) := Prod.ext rfl hb2
      have eT : Tree.removeT p (Tree.node i par r l a b c d) =
          ((Tree.node i par r l a (b.removeT p).1 c d).collapseT, true) := by
        simp only [Tree.removeT, hp, if_false]
        rw [eb]
      have ePath : Tree.removePath p (Tree.node i par r l a b c d) =
          Tree.node i par r l a b c d :: Tree.removePath p b := by
        simp [Tree.removePath, hp, hb2]
      rw [hb2] at eb0
      rw [eT, ePath, hD.1 _ eb0]
      have hh1 := Tree.removeT_height_le p b
      obtain ⟨s1, F1, h1, post1, croot, clift⟩ := @ShrinkPost.lift_check_trace _ _
        (Tree.node i par r l a b c d) (Tree.node i par r l a (b.removeT p).1 c d) _ _ _ _ n
        (i :: (a.ids ++ c.ids ++ d.ids)) pb
        (by
          rw [List.perm_iff_count]
          intro x
          simp only [Tree.ids, List.count_append, List.count_cons]
          omega)
        (by
          rw [List.perm_iff_count]
          intro x
          simp only [Tree.ids, List.count_append, List.count_cons]
          omega)
        (by intro y hy; simp only [Tree.ids, List.mem_cons, List.mem_append]; simp [hy])
        (Tree.mem_ids_node_mono i par r l l a b c d _ _ _ _ (hida a) pb.sub (hida c) (hida d))
        hnd
        (fun hsame => Rep.replace_children hrep0 (le_of_eq pb.size_eq.symm) (hsame i (by simp))
          (ra.congr_nodes (le_of_eq pb.size_eq.symm) (fun x hx => hsame x (by simp [hx]))) rfl
          pb.rep (Tree.removeT_id p b)
          (rc.congr_nodes (le_of_eq pb.size_eq.symm) (fun x hx => hsame x (by simp [hx]))) rfl
          (rd.congr_nodes (le_of_eq pb.size_eq.symm) (fun x hx => hsame x (by simp [hx]))) rfl)
        (by simp only [Tree.height]; omega)
        (by
          intro y hy
          simp only [Tree.descIds, List.mem_append] at hy ⊢
          rcases hy with ((h | h) | h) | h
          · exact Or.inl (Or.inl (Or.inl h))
          · exact Or.inl (Or.inl (Or.inr (pb.sub y h)))
          · exact Or.inl (Or.inr h)
          · exact Or.inr h)
        rfl
      refine ⟨s1, F1, h1, post1, fun A hA => ?_⟩
      rcases List.mem_cons.1 hA with h | h
      · rw [h]
        exact croot
      · exact clift A (cb A h)

theorem Tree.removePath_success (p : Nat) (t A : Tree) (h : A ∈ t.removePath p) :
    (t.removeT p).2 = true := by
  cases t with
  | leaf i par r l => simp [Tree.removePath] at h
  | node i par r l a b c d =>
    simp only [Tree.removePath] at h
    simp only [Tree.removeT]
    split_ifs at h with h1 h2 h3 h4 h5
    · cases h
    · rw [if_neg h1]
      rcases e : Tree.removeT p b with ⟨b1, _ | _⟩
      · rw [e] at h2
        cases h2
      · rfl
    · rw [if_neg h1]
      rcases eb : Tree.removeT p b with ⟨b1, _ | _⟩
      · rcases ea : Tree.removeT p a with ⟨a1, _ | _⟩
        · rw [ea] at h3
          cases h3
        · rfl
      · rfl
    · rw [if_neg h1]
      rcases eb : Tree.removeT p b with ⟨b1, _ | _⟩
      · rcases ea : Tree.removeT p a with ⟨a1, _ | _⟩
        · rcases ed : Tree.removeT p d with ⟨d1, _ | _⟩
          · rw [ed] at h4
            cases h4
          · rfl
        · rfl
      · rfl
    · rw [if_neg h1]
      rcases eb : Tree.removeT p b with ⟨b1, _ | _⟩
      · rcases ea : Tree.removeT p a with ⟨a1, _ | _⟩
        · rcases ed : Tree.removeT p d with ⟨d1, _ | _⟩
          · rcases ec : Tree.removeT p c with ⟨c1, _ | _⟩
            · rw [ec] at h5
              cases h5
            · rfl
          · rfl
        · rfl
      · rfl
    · cases h

/-- C8 (collapse correctness).  Let the index be well formed with tree `T`, and let `A` be a
node through which `remove(root, p)` descends, that is a strict ancestor of the node that holds
`p`.  With enough fuel the call returns `true` and leaves a well-formed index; and if after the
call no bucket of a node that was a strict descendant of `A` holds a point, then `A` has
`divided = false` and every node that was a strict descendant of `A` is on the free list and is
not a node of the tree any more. -/
theorem C8_collapse_correct (s : QuadTreeManager) (T : Tree) (F : List Nat) (fuel p : Nat)
    (A : Tree) (hw : WF s T F) (hf : T.height ≤ fuel) (hA : A ∈ T.removePath p) :
    ∃ s1 F1, remove fuel s (some T.id) p = some (s1, true) ∧ WF s1 (T.removeT p).1 F1 ∧
      ((∀ j ∈ A.descIds, (s1.m_nodes j).size = 0) →
        (s1.m_nodes A.id).divided = false ∧
        ∀ j ∈ A.descIds, j ∈ F1 ∧ j ∉ (T.removeT p).1.ids) := by
  obtain ⟨s1, F1, e, post, hc⟩ :=
    remove_collapse T s F fuel p hw.rep hw.shape hw.cap_le hw.free hw.nodup hf
  rw [Tree.removePath_success p T A hA] at e
  have hnd1 : ((T.removeT p).1.ids ++ F1).Nodup := (post.perm.nodup_iff).2 hw.nodup
  refine ⟨s1, F1, e, ⟨post.rep, ?_, post.free, hnd1, ?_, ?_⟩, fun hz => ?_⟩
  · rw [post.cap_eq]
    exact Tree.removeT_shape _ p T hw.shape
  · rw [post.cap_eq]
    exact hw.cap_pos
  · rw [post.cap_eq]
    exact hw.cap_le
  · obtain ⟨h1, h2⟩ := hc A hA hz
    exact ⟨h1, fun j hj => ⟨h2 j hj, fun hm => (List.nodup_append.1 hnd1).2.2 hm (h2 j hj)⟩⟩

/-- Witness for C8: in the five-point example the root is the only strict ancestor of the
northwest child, which holds the point at `(50, 50)`; after `remove(root, 5)` the four children
have empty buckets, the root is a leaf again, and the four children head the free list. -/
theorem C8_collapse_correct_witness :
    (WF fivePoints fiveTree [5, 6, 7, 8, 9, 10, 11, 12, 13, 14, 15] ∧ fiveTree.height ≤ 2 ∧
      fiveTree ∈ fiveTree.removePath 5) ∧
    (∃ s1 F1, remove 2 fivePoints (some fiveTree.id) 5 = some (s1, true) ∧
      WF s1 (fiveTree.removeT 5).1 F1 ∧
      ((∀ j ∈ fiveTree.descIds, (s1.m_nodes j).size = 0) →
        (s1.m_nodes fiveTree.id).divided = false ∧
        ∀ j ∈ fiveTree.descIds, j ∈ F1 ∧ j ∉ (fiveTree.removeT 5).1.ids)) ∧
    (remove 2 fivePoints (some 0) 5).map (fun r =>
      ((r.1.m_nodes 0).divided, (List.range 5).map (fun j => (r.1.m_nodes j).size),
        r.1.m_freeID, (List.range 5).map (fun j => (r.1.m_nodes j).next))) =
      some (false, [4, 0, 0, 0, 0], some 4, [none, some 5, some 1, some 2, some 3]) :=
  ⟨⟨fivePoints_wf, by decide, by decide!⟩,
    C8_collapse_correct fivePoints fiveTree [5, 6, 7, 8, 9, 10, 11, 12, 13, 14, 15] 2 5
      fiveTree fivePoints_wf (by decide) (by decide!), by decide!⟩

/-! ## The scan loop of `update` -/

theorem sixMoved_wf : WF sixMoved sixTree [5, 6, 7, 8, 9, 10, 11, 12, 13, 14, 15] := by
  decide!

/-- C5 at a concrete input: every position lies inside the root region, the bucket of the
northwest child (handle 2) holds the points 5 and 6, and both have left its region.  The scan
loop of `update` removes the point 5 from slot 0, which moves the point 6 from the last slot
into slot 0, and goes on with slot 1: the point 6 is never examined.  After
`update(root, root, dt)` the point 5 is in the southeast child (handle 3) and the point 6 is
still in the bucket of the northwest child, whose region does not contain its position. -/
theorem C5_update_skips_swapped_entry :
    WF sixMoved sixTree [5, 6, 7, 8, 9, 10, 11, 12, 13, 14, 15] ∧
    (∀ p ∈ [1, 2, 3, 4, 5, 6], exampleRegion.contains (sixMoved.heap p).position = true) ∧
    (List.range 5).map (bucketOf sixMoved) =
      [[some 1, some 2, some 3, some 4], [], [some 5, some 6], [], []] ∧
    (sixMoved.m_nodes 2).boundary.contains (sixMoved.heap 5).position = false ∧
    (sixMoved.m_nodes 2).boundary.contains (sixMoved.heap 6).position = false ∧
    (update 5 sixMoved (some 0) (some 0)).map (fun s1 =>
        ((List.range 5).map (bucketOf s1),
          (s1.m_nodes 2).boundary.contains (s1.heap 6).position,
          (s1.m_nodes 3).boundary.contains (s1.heap 6).position)) =
      some ([[some 1, some 2, some 3, some 4], [], [some 6], [some 5], []], false, true) := by
  refine ⟨sixMoved_wf, ?_, ?_, ?_, ?_, ?_⟩ <;> decide!

/-- C9 at a concrete input: on the state `sixMoved` a first `update(root, root, 0)` leaves the
point 6 in the bucket of the northwest child (handle 2); a second call, with no position
changed in between, moves it to the bucket of the southeast child (handle 3).  Bucket
membership after the second call differs from that after the first. -/
theorem C9_second_update_moves_entry :
    (update 5 sixMoved (some 0) (some 0)).map (fun s1 => (List.range 5).map (bucketOf s1)) =
      some [[some 1, some 2, some 3, some 4], [], [some 6], [some 5], []] ∧
    ((update 5 sixMoved (some 0) (some 0)).bind fun s1 => update 5 s1 (some 0) (some 0)).map
        (fun s2 => (List.range 5).map (bucketOf s2)) =
      some [[some 1, some 2, some 3, some 4], [], [], [some 5, some 6], []] ∧
    ((update 5 sixMoved (some 0) (some 0)).bind fun s1 =>
        (update 5 s1 (some 0) (some 0)).map fun s2 =>
          decide ((List.range 7).map (fun p => (s2.heap p).position) =
            (List.range 7).map (fun p => (s1.heap p).position))) = some true := by
  refine ⟨?_, ?_, ?_⟩ <;> decide!

/-! ## Subtrees in context -/

theorem Ctx.plug_ids_count (C : Ctx) (t : Tree) (x : Nat) :
    (C.plug t).ids.count x = C.ids.count x + t.ids.count x := by
  induction C with
  | hole => simp [Ctx.plug, Ctx.ids]
  | ne i par r l C b c d ih =>
    simp only [Ctx.plug, Ctx.ids, Tree.ids, List.count_cons, List.count_append, ih]; omega
  | nw i par r l a C c d ih =>
    simp only [Ctx.plug, Ctx.ids, Tree.ids, List.count_cons, List.count_append, ih]; omega
  | se i par r l a b C d ih =>
    simp only [Ctx.plug, Ctx.ids, Tree.ids, List.count_cons, List.count_append, ih]; omega
  | sw i par r l a b c C ih =>
    simp only [Ctx.plug, Ctx.ids, Tree.ids, List.count_cons, List.count_append, ih]; omega

theorem Ctx.plug_points_count (C : Ctx) (t : Tree) (x : Nat) :
    (C.plug t).points.count x = C.points.count x + t.points.count x := by
  induction C with
  | hole => simp [Ctx.plug, Ctx.points]
  | ne i par r l C b c d ih =>
    simp only [Ctx.plug, Ctx.points, Tree.points_node, List.count_append, ih]; omega
  | nw i par r l a C c d ih =>
    simp only [Ctx.plug, Ctx.points, Tree.points_node, List.count_append, ih]; omega
  | se i par r l a b C d ih =>
    simp only [Ctx.plug, Ctx.points, Tree.points_node, List.count_append, ih]; omega
  | sw i par r l a b c C ih =>
    simp only [Ctx.plug, Ctx.points, Tree.points_node, List.count_append, ih]; omega

/-- Every live handle is the root of a subtree. -/
theorem Ctx.exists_of_mem (T : Tree) (x : Nat) (h : x ∈ T.ids) :
    ∃ C t, T = Ctx.plug C t ∧ t.id = x := by
  induction T with
  | leaf i par r l =>
    simp only [Tree.ids, List.mem_singleton] at h
    exact ⟨Ctx.hole, _, rfl, h.symm⟩
  | node i par r l a b c d iha ihb ihc ihd =>
    simp only [Tree.ids, List.mem_cons, List.mem_append] at h
    rcases h with h | ((h | h) | h) | h
    · exact ⟨Ctx.hole, _, rfl, h.symm⟩
    · obtain ⟨C, t, e, ht⟩ := iha h
      exact ⟨Ctx.ne i par r l C b c d, t, by rw [e]; rfl, ht⟩
    · obtain ⟨C, t, e, ht⟩ := ihb h
      exact ⟨Ctx.nw i par r l a C c d, t, by rw [e]; rfl, ht⟩
    · obtain ⟨C, t, e, ht⟩ := ihc h
      exact ⟨Ctx.se i par r l a b C d, t, by rw [e]; rfl, ht⟩
    · obtain ⟨C, t, e, ht⟩ := ihd h
      exact ⟨Ctx.sw i par r l a b c C, t, by rw [e]; rfl, ht⟩

theorem Ctx.plug_id (C : Ctx) (t t1 : Tree) (h : t1.id = t.id) :
    (C.plug t1).id = (C.plug t).id := by
  cases C <;> first | exact h | rfl

theorem Ctx.plug_parent (C : Ctx) (t t1 : Tree) (h : t1.parent = t.parent) :
    (C.plug t1).parent = (C.plug t).parent := by
  cases C <;> first | exact h | rfl

theorem Ctx.plug_boundary (C : Ctx) (t t1 : Tree) (h : t1.boundary = t.boundary) :
    (C.plug t1).boundary = (C.plug t).boundary := by
  cases C <;> first | exact h | rfl

theorem Ctx.rep_hole (s : QuadTreeManager) (C : Ctx) (t : Tree) (h : Rep s (C.plug t)) :
    Rep s t := by
  induction C with
  | hole => exact h
  | ne i par r l C b c d ih => exact ih h.2.2.2.2.2.1
  | nw i par r l a C c d ih => exact ih h.2.2.2.2.2.2.1
  | se i par r l a b C d ih => exact ih h.2.2.2.2.2.2.2.1
  | sw i par r l a b c C ih => exact ih h.2.2.2.2.2.2.2.2

theorem Ctx.shape_hole (cap : Nat) (C : Ctx) (t : Tree) (h : (C.plug t).Shape cap) :
    t.Shape cap := by
  induction C with
  | hole => exact h
  | ne i par r l C b c d ih => exact ih h.2.2.2.2.2.2.2.2.2.1
  | nw i par r l a C c d ih => exact ih h.2.2.2.2.2.2.2.2.2.2.1
  | se i par r l a b C d ih => exact ih h.2.2.2.2.2.2.2.2.2.2.2.1
  | sw i par r l a b c C ih => exact ih h.2.2.2.2.2.2.2.2.2.2.2.2

/-- Replace the subtree in the hole: the records outside the hole are unchanged. -/
theorem Ctx.rep_plug (s s1 : QuadTreeManager) (C : Ctx) (t t1 : Tree)
    (h : Rep s (C.plug t)) (h1 : Rep s1 t1) (hid : t1.id = t.id)
    (hsame : ∀ j ∈ C.ids, s1.m_nodes j = s.m_nodes j) (hsz : s.m_size ≤ s1.m_size) :
    Rep s1 (C.plug t1) := by
  induction C with
  | hole => exact h1
  | ne i par r l C b c d ih =>
    have hC := ih h.2.2.2.2.2.1 (fun j hj => hsame j (by simp [Ctx.ids, hj]))
    exact Rep.replace_children h hsz (hsame i (by simp [Ctx.ids])) hC (Ctx.plug_id C t t1 hid)
      (h.2.2.2.2.2.2.1.congr_nodes hsz (fun x hx => hsame x (by simp [Ctx.ids, hx]))) rfl
      (h.2.2.2.2.2.2.2.1.congr_nodes hsz (fun x hx => hsame x (by simp [Ctx.ids, hx]))) rfl
      (h.2.2.2.2.2.2.2.2.congr_nodes hsz (fun x hx => hsame x (by simp [Ctx.ids, hx]))) rfl
  | nw i par r l a C c d ih =>
    have hC := ih h.2.2.2.2.2.2.1 (fun j hj => hsame j (by simp [Ctx.ids, hj]))
    exact Rep.replace_children h hsz (hsame i (by simp [Ctx.ids]))
      (h.2.2.2.2.2.1.congr_nodes hsz (fun x hx => hsame x (by simp [Ctx.ids, hx]))) rfl
      hC (Ctx.plug_id C t t1 hid)
      (h.2.2.2.2.2.2.2.1.congr_nodes hsz (fun x hx => hsame x (by simp [Ctx.ids, hx]))) rfl
      (h.2.2.2.2.2.2.2.2.congr_nodes hsz (fun x hx => hsame x (by simp [Ctx.ids, hx]))) rfl
  | se i par r l a b C d ih =>
    have hC := ih h.2.2.2.2.2.2.2.1 (fun j hj => hsame j (by simp [Ctx.ids, hj]))
    exact Rep.replace_children h hsz (hsame i (by simp [Ctx.ids]))
      (h.2.2.2.2.2.1.congr_nodes hsz (fun x hx => hsame x (by simp [Ctx.ids, hx]))) rfl
      (h.2.2.2.2.2.2.1.congr_nodes hsz (fun x hx => hsame x (by simp [Ctx.ids, hx]))) rfl
      hC (Ctx.plug_id C t t1 hid)
      (h.2.2.2.2.2.2.2.2.congr_nodes hsz (fun x hx => hsame x (by simp [Ctx.ids, hx]))) rfl
  | sw i par r l a b c C ih =>
    have hC := ih h.2.2.2.2.2.2.2.2 (fun j hj => hsame j (by simp [Ctx.ids, hj]))
    exact Rep.replace_children h hsz (hsame i (by simp [Ctx.ids]))
      (h.2.2.2.2.2.1.congr_nodes hsz (fun x hx => hsame x (by simp [Ctx.ids, hx]))) rfl
      (h.2.2.2.2.2.2.1.congr_nodes hsz (fun x hx => hsame x (by simp [Ctx.ids, hx]))) rfl
      (h.2.2.2.2.2.2.2.1.congr_nodes hsz (fun x hx => hsame x (by simp [Ctx.ids, hx]))) rfl
      hC (Ctx.plug_id C t t1 hid)

theorem Ctx.shape_plug (cap : Nat) (C : Ctx) (t t1 : Tree) (h : (C.plug t).Shape cap)
    (h1 : t1.Shape cap) (hpar : t1.parent = t.parent) (hb : t1.boundary = t.boundary) :
    (C.plug t1).Shape cap := by
  induction C with
  | hole => exact h1
  | ne i par r l C b c d ih =>
    obtain ⟨hl, pa, pb, pc, pd, ba, bb, bc, bd, sa, sb, sc, sd⟩ := h
    exact ⟨hl, (Ctx.plug_parent C t t1 hpar).trans pa, pb, pc, pd,
      (Ctx.plug_boundary C t t1 hb).trans ba, bb, bc, bd, ih sa, sb, sc, sd⟩
  | nw i par r l a C c d ih =>
    obtain ⟨hl, pa, pb, pc, pd, ba, bb, bc, bd, sa, sb, sc, sd⟩ := h
    exact ⟨hl, pa, (Ctx.plug_parent C t t1 hpar).trans pb, pc, pd,
      ba, (Ctx.plug_boundary C t t1 hb).trans bb, bc, bd, sa, ih sb, sc, sd⟩
  | se i par r l a b C d ih =>
    obtain ⟨hl, pa, pb, pc, pd, ba, bb, bc, bd, sa, sb, sc, sd⟩ := h
    exact ⟨hl, pa, pb, (Ctx.plug_parent C t t1 hpar).trans pc, pd,
      ba, bb, (Ctx.plug_boundary C t t1 hb).trans bc, bd, sa, sb, ih sc, sd⟩
  | sw i par r l a b c C ih =>
    obtain ⟨hl, pa, pb, pc, pd, ba, bb, bc, bd, sa, sb, sc, sd⟩ := h
    exact ⟨hl, pa, pb, pc, (Ctx.plug_parent C t t1 hpar).trans pd,
      ba, bb, bc, (Ctx.plug_boundary C t t1 hb).trans bd, sa, sb, sc, ih sd⟩

/-- An operation that only frees nodes below a subtree keeps the whole index well formed. -/
theorem WF.lift_shrink {s s1 : QuadTreeManager} {C : Ctx} {t t1 : Tree} {F F1 : List Nat}
    (hw : WF s (C.plug t) F) (post : ShrinkPost s t F s1 t1 F1) (hid : t1.id = t.id)
    (hpar : t1.parent = t.parent) (hb : t1.boundary = t.boundary)
    (hs : t1.Shape s.m_capacity) : WF s1 (C.plug t1) F1 := by
  have hcnt := fun x => List.nodup_iff_count_le_one.1 hw.nodup x
  have hdis : ∀ j ∈ C.ids, j ∉ t.ids := by
    intro j hj hm
    have h1 := hcnt j
    have h2 := List.count_pos_iff.2 hj
    have h3 := List.count_pos_iff.2 hm
    simp only [List.count_append, Ctx.plug_ids_count] at h1
    omega
  refine ⟨Ctx.rep_plug s s1 C t t1 hw.rep post.rep hid (fun j hj => post.same j (hdis j hj))
      (le_of_eq post.size_eq.symm), ?_, post.free, ?_, ?_, ?_⟩
  · rw [post.cap_eq]
    exact Ctx.shape_plug _ C t t1 hw.shape hs hpar hb
  · refine List.nodup_iff_count_le_one.2 (fun x => ?_)
    have h1 := hcnt x
    have h2 := post.perm.count_eq x
    simp only [List.count_append, Ctx.plug_ids_count] at h1 h2 ⊢
    omega
  · rw [post.cap_eq]
    exact hw.cap_pos
  · rw [post.cap_eq]
    exact hw.cap_le

theorem WF.nodup_hole {s : QuadTreeManager} {C : Ctx} {t : Tree} {F : List Nat}
    (hw : WF s (C.plug t) F) : (t.ids ++ F).Nodup := by
  refine List.nodup_iff_count_le_one.2 (fun x => ?_)
  have h1 := List.nodup_iff_count_le_one.1 hw.nodup x
  simp only [List.count_append, Ctx.plug_ids_count] at h1 ⊢
  omega

/-- A call `remove(i, p)` at a live node `i` that returns, with whatever fuel: the index stays
well formed, the tree changes below `i` only, and the stored points lose exactly one occurrence
of `p` when the call returns `true` and none otherwise. -/
theorem remove_in_ctx (s : QuadTreeManager) (C : Ctx) (t : Tree) (F : List Nat) (fuel p : Nat)
    (s1 : QuadTreeManager) (r : Bool) (hw : WF s (C.plug t) F)
    (h : remove fuel s (some t.id) p = some (s1, r)) :
    ∃ t1 F1, WF s1 (C.plug t1) F1 ∧ t1.id = t.id ∧ t1.boundary = t.boundary ∧
      s1.heap = s.heap ∧ s1.m_size = s.m_size ∧
      (∀ x, t1.points.count x + (if r = true ∧ x = p then 1 else 0) = t.points.count x) := by
  have hrep := Ctx.rep_hole s C t hw.rep
  have hshape := Ctx.shape_hole _ C t hw.shape
  obtain ⟨s2, F1, e, post, -⟩ := remove_refines t s F (max fuel t.height) p hrep hshape
    hw.cap_le hw.free hw.nodup_hole (le_max_right _ _)
  have e2 := remove_mono (le_max_left fuel t.height) s (some t.id) p _ h
  rw [e] at e2
  have es : s2 = s1 := congrArg Prod.fst (Option.some.inj e2)
  have er : (t.removeT p).2 = r := congrArg Prod.snd (Option.some.inj e2)
  subst es
  refine ⟨(t.removeT p).1, F1, WF.lift_shrink hw post (Tree.removeT_id p t)
    (Tree.removeT_parent p t) (Tree.removeT_boundary p t) (Tree.removeT_shape _ p t hshape),
    Tree.removeT_id p t, Tree.removeT_boundary p t, post.heap_eq, post.size_eq, fun x => ?_⟩
  rcases hr : r with _ | _
  · rw [hr] at er
    rw [Tree.removeT_false p t er]
    simp
  · rw [hr] at er
    have hperm := (Tree.removeT_points p t er).count_eq x
    have hmem : p ∈ t.points := by
      have := Tree.removeT_snd p t
      rw [er] at this
      simpa using this.symm
    rw [hperm, List.count_erase]
    by_cases hx : x = p
    · subst hx
      have := List.count_pos_iff.2 hmem
      simp
      omega
    · have hx2 : ¬ p = x := fun hh => hx hh.symm
      simp [hx, hx2]

/-- A call `tryCollapse` on the record of a live node `i` that returns: the index stays well
formed, the tree changes below `i` only, and no stored point is touched. -/
theorem tryCollapse_in_ctx (s : QuadTreeManager) (C : Ctx) (t : Tree) (F : List Nat)
    (fuel : Nat) (s1 : QuadTreeManager) (hw : WF s (C.plug t) F)
    (h : tryCollapse fuel s t.id = some s1) :
    ∃ t1 F1, WF s1 (C.plug t1) F1 ∧ t1.id = t.id ∧ t1.boundary = t.boundary ∧
      s1.heap = s.heap ∧ s1.m_size = s.m_size ∧ t1.points = t.points := by
  have hrep := Ctx.rep_hole s C t hw.rep
  have hshape := Ctx.shape_hole _ C t hw.shape
  obtain ⟨s2, F1, e, post, -⟩ := tryCollapse_spec t s F (max fuel t.height) hrep hw.free
    hw.nodup_hole (by have := le_max_right fuel t.height; omega)
  have e2 := tryCollapse_mono (le_max_left fuel t.height) s t.id _ h
  rw [e] at e2
  have es : s2 = s1 := Option.some.inj e2
  subst es
  exact ⟨t.collapseT, F1, WF.lift_shrink hw post (Tree.collapseT_id t)
    (Tree.collapseT_parent t) (Tree.collapseT_boundary t) (Tree.collapseT_shape _ t hshape),
    Tree.collapseT_id t, Tree.collapseT_boundary t, post.heap_eq, post.size_eq,
    Tree.collapseT_points t⟩

/-! ## Trees that continue a tree -/

theorem Tree.Ext.id_eq {x : Nat} {t t1 : Tree} (h : Tree.Ext x t t1) : t1.id = t.id := by
  cases t with
  | leaf j par r l => exact h.1
  | node j par r l a b c d => exact h.1

theorem Tree.Ext.region_eq {x : Nat} {t t1 : Tree} (h : Tree.Ext x t t1) :
    t1.boundary = t.boundary := by
  cases t with
  | leaf j par r l => exact h.2
  | node j par r l a b c d => exact h.2.1

theorem Tree.Ext.rfl_ext (x : Nat) (t : Tree) : Tree.Ext x t t := by
  induction t with
  | leaf j par r l => exact ⟨rfl, rfl⟩
  | node j par r l a b c d iha ihb ihc ihd =>
    exact ⟨rfl, rfl, Or.inr ⟨par, l, a, b, c, d, rfl, iha, ihb, ihc, ihd⟩⟩

theorem Tree.Ext.comp_ext {x : Nat} {t : Tree} : ∀ {t1 t2 : Tree},
    Tree.Ext x t t1 → Tree.Ext x t1 t2 → Tree.Ext x t t2 := by
  induction t with
  | leaf j par r l =>
    intro t1 t2 h1 h2
    exact ⟨h2.id_eq.trans h1.1, h2.region_eq.trans h1.2⟩
  | node j par r l a b c d iha ihb ihc ihd =>
    intro t1 t2 h1 h2
    refine ⟨h2.id_eq.trans h1.1, h2.region_eq.trans h1.2.1, ?_⟩
    rcases h1.2.2 with hx | ⟨par1, l1, a1, b1, c1, d1, e1, ha, hb, hc, hd⟩
    · exact Or.inl hx
    · subst e1
      rcases h2.2.2 with hx | ⟨par2, l2, a2, b2, c2, d2, e2, ha2, hb2, hc2, hd2⟩
      · exact Or.inl hx
      · subst e2
        exact Or.inr ⟨par2, l2, a2, b2, c2, d2, rfl, iha ha ha2, ihb hb hb2, ihc hc hc2,
          ihd hd hd2⟩

/-- Replacing the subtree at `x` continues the tree outside `x`. -/
theorem Ctx.plug_ext (x : Nat) (C : Ctx) (t t1 : Tree) (hid : t1.id = t.id)
    (hb : t1.boundary = t.boundary) (hx : t.id = x) : Tree.Ext x (C.plug t) (C.plug t1) := by
  induction C with
  | hole =>
    cases t with
    | leaf j par r l => exact ⟨hid, hb⟩
    | node j par r l a b c d => exact ⟨hid, hb, Or.inl hx⟩
  | ne i par r l C b c d ih =>
    exact ⟨rfl, rfl, Or.inr ⟨par, l, _, b, c, d, rfl, ih, Tree.Ext.rfl_ext x b,
      Tree.Ext.rfl_ext x c, Tree.Ext.rfl_ext x d⟩⟩
  | nw i par r l a C c d ih =>
    exact ⟨rfl, rfl, Or.inr ⟨par, l, a, _, c, d, rfl, Tree.Ext.rfl_ext x a, ih,
      Tree.Ext.rfl_ext x c, Tree.Ext.rfl_ext x d⟩⟩
  | se i par r l a b C d ih =>
    exact ⟨rfl, rfl, Or.inr ⟨par, l, a, b, _, d, rfl, Tree.Ext.rfl_ext x a,
      Tree.Ext.rfl_ext x b, ih, Tree.Ext.rfl_ext x d⟩⟩
  | sw i par r l a b c C ih =>
    exact ⟨rfl, rfl, Or.inr ⟨par, l, a, b, c, _, rfl, Tree.Ext.rfl_ext x a,
      Tree.Ext.rfl_ext x b, Tree.Ext.rfl_ext x c, ih⟩⟩

/-- When `y` is not a handle of `t`, a continuation outside `y` is one outside any handle. -/
theorem Tree.Ext.of_not_mem {y : Nat} (z : Nat) {t : Tree} : ∀ {t1 : Tree},
    Tree.Ext y t t1 → y ∉ t.ids → Tree.Ext z t t1 := by
  induction t with
  | leaf j par r l =>
    intro t1 h _
    exact h
  | node j par r l a b c d iha ihb ihc ihd =>
    intro t1 h hy
    simp only [Tree.ids, List.mem_cons, List.mem_append, not_or] at hy
    obtain ⟨hj, ⟨⟨ha, hb⟩, hc⟩, hd⟩ := hy
    refine ⟨h.1, h.2.1, ?_⟩
    rcases h.2.2 with hx | ⟨par1, l1, a1, b1, c1, d1, e1, ha1, hb1, hc1, hd1⟩
    · exact absurd hx.symm hj
    · exact Or.inr ⟨par1, l1, a1, b1, c1, d1, e1, iha ha1 ha, ihb hb1 hb, ihc hc1 hc,
        ihd hd1 hd⟩

/-- A continuation outside a handle `y` inside the subtree at `i` is a continuation outside
`i`. -/
theorem Ctx.ext_widen (y : Nat) (C : Ctx) (t : Tree) (hy : y ∈ t.ids)
    (hnd : (C.plug t).ids.Nodup) : ∀ {T1 : Tree},
    Tree.Ext y (C.plug t) T1 → Tree.Ext t.id (C.plug t) T1 := by
  have hdis : ∀ j ∈ C.ids, j ≠ y := by
    intro j hj e
    subst e
    have h1 := List.nodup_iff_count_le_one.1 hnd j
    have h2 := List.count_pos_iff.2 hj
    have h3 := List.count_pos_iff.2 hy
    rw [Ctx.plug_ids_count] at h1
    omega
  clear hy
  induction C with
  | hole =>
    intro T1 h
    cases t with
    | leaf j par r l => exact h
    | node j par r l a b c d => exact ⟨h.1, h.2.1, Or.inl rfl⟩
  | ne i par r l C b c d ih =>
    intro T1 h
    have hnd0 := hnd
    simp only [Ctx.plug, Tree.ids, List.nodup_cons, List.nodup_append] at hnd
    refine ⟨h.1, h.2.1, ?_⟩
    rcases h.2.2 with hx | ⟨par1, l1, a1, b1, c1, d1, e1, ha1, hb1, hc1, hd1⟩
    · exact absurd hx (hdis i (by simp [Ctx.ids]))
    · refine Or.inr ⟨par1, l1, a1, b1, c1, d1, e1,
        ih hnd.2.1.1.1 (fun j hj => hdis j (by simp [Ctx.ids, hj])) ha1,
        hb1.of_not_mem _ (fun hm => hdis y (by simp [Ctx.ids, hm]) rfl),
        hc1.of_not_mem _ (fun hm => hdis y (by simp [Ctx.ids, hm]) rfl),
        hd1.of_not_mem _ (fun hm => hdis y (by simp [Ctx.ids, hm]) rfl)⟩
  | nw i par r l a C c d ih =>
    intro T1 h
    have hnd0 := hnd
    simp only [Ctx.plug, Tree.ids, List.nodup_cons, List.nodup_append] at hnd
    refine ⟨h.1, h.2.1, ?_⟩
    rcases h.2.2 with hx | ⟨par1, l1, a1, b1, c1, d1, e1, ha1, hb1, hc1, hd1⟩
    · exact absurd hx (hdis i (by simp [Ctx.ids]))
    · refine Or.inr ⟨par1, l1, a1, b1, c1, d1, e1,
        ha1.of_not_mem _ (fun hm => hdis y (by simp [Ctx.ids, hm]) rfl),
        ih hnd.2.1.1.2.1 (fun j hj => hdis j (by simp [Ctx.ids, hj])) hb1,
        hc1.of_not_mem _ (fun hm => hdis y (by simp [Ctx.ids, hm]) rfl),
        hd1.of_not_mem _ (fun hm => hdis y (by simp [Ctx.ids, hm]) rfl)⟩
  | se i par r l a b C d ih =>
    intro T1 h
    have hnd0 := hnd
    simp only [Ctx.plug, Tree.ids, List.nodup_cons, List.nodup_append] at hnd
    refine ⟨h.1, h.2.1, ?_⟩
    rcases h.2.2 with hx | ⟨par1, l1, a1, b1, c1, d1, e1, ha1, hb1, hc1, hd1⟩
    · exact absurd hx (hdis i (by simp [Ctx.ids]))
    · refine Or.inr ⟨par1, l1, a1, b1, c1, d1, e1,
        ha1.of_not_mem _ (fun hm => hdis y (by simp [Ctx.ids, hm]) rfl),
        hb1.of_not_mem _ (fun hm => hdis y (by simp [Ctx.ids, hm]) rfl),
        ih hnd.2.1.2.1 (fun j hj => hdis j (by simp [Ctx.ids, hj])) hc1,
        hd1.of_not_mem _ (fun hm => hdis y (by simp [Ctx.ids, hm]) rfl)⟩
  | sw i par r l a b c C ih =>
    intro T1 h
    have hnd0 := hnd
    simp only [Ctx.plug, Tree.ids, List.nodup_cons, List.nodup_append] at hnd
    refine ⟨h.1, h.2.1, ?_⟩
    rcases h.2.2 with hx | ⟨par1, l1, a1, b1, c1, d1, e1, ha1, hb1, hc1, hd1⟩
    · exact absurd hx (hdis i (by simp [Ctx.ids]))
    · refine Or.inr ⟨par1, l1, a1, b1, c1, d1, e1,
        ha1.of_not_mem _ (fun hm => hdis y (by simp [Ctx.ids, hm]) rfl),
        hb1.of_not_mem _ (fun hm => hdis y (by simp [Ctx.ids, hm]) rfl),
        hc1.of_not_mem _ (fun hm => hdis y (by simp [Ctx.ids, hm]) rfl),
        ih hnd.2.2.1 (fun j hj => hdis j (by simp [Ctx.ids, hj])) hd1⟩

/-! ## Rejected insertion -/

/-- C11 (rejected insert is atomic).  When the region of the node passed to `Insert` does not
contain the position of the point, `Insert` returns `false` and the state it leaves is the
state it was given: buckets, counts, `divided` flags, child handles, free list, node count,
table and the back-reference of the point are all the same, and no node is allocated. -/
theorem C11_rejected_insert_atomic (fuel : Nat) (s : QuadTreeManager) (i p : Nat)
    (hi : i < s.m_size)
    (hc : (s.m_nodes i).boundary.contains (s.heap p).position = false) :
    Insert (fuel + 1) s (some i) p = some (s, false) :=
  Insert_reject fuel s i p hi hc

/-- Witness for C11: in the five-point example the point at `(10, 10)` is not in the region of
the northeast child (handle 1). -/
theorem C11_rejected_insert_atomic_witness :
    1 < fivePoints.m_size ∧
    (fivePoints.m_nodes 1).boundary.contains (fivePoints.heap 1).position = false ∧
    Insert (0 + 1) fivePoints (some 1) 1 = some (fivePoints, false) :=
  ⟨by decide!, by decide!, C11_rejected_insert_atomic 0 fivePoints 1 1 (by decide!) (by decide!)⟩

/-! ## Geometry -/

/-- C13 (quadrants partition the parent).  The four child regions that `subdivide` computes
have centres `(x ± w/2, y ± h/2)` and half-extents `(w/2, h/2)`; a region contains a point
exactly when exactly one of its four child regions contains it, the child regions are pairwise
disjoint, and each child region lies inside the parent. -/
theorem C13_quadrants_partition (r : Rect) (p : Vector2) :
    (r.quadNE = ⟨r.x + r.w / 2, r.y - r.h / 2, r.w / 2, r.h / 2⟩ ∧
      r.quadNW = ⟨r.x - r.w / 2, r.y - r.h / 2, r.w / 2, r.h / 2⟩ ∧
      r.quadSE = ⟨r.x + r.w / 2, r.y + r.h / 2, r.w / 2, r.h / 2⟩ ∧
      r.quadSW = ⟨r.x - r.w / 2, r.y + r.h / 2, r.w / 2, r.h / 2⟩) ∧
    (r.contains p = true ↔
      ([r.quadNE, r.quadNW, r.quadSE, r.quadSW].filter fun q => q.contains p).length = 1) ∧
    (¬ (r.quadNE.contains p = true ∧ r.quadNW.contains p = true) ∧
      ¬ (r.quadNE.contains p = true ∧ r.quadSE.contains p = true) ∧
      ¬ (r.quadNE.contains p = true ∧ r.quadSW.contains p = true) ∧
      ¬ (r.quadNW.contains p = true ∧ r.quadSE.contains p = true) ∧
      ¬ (r.quadNW.contains p = true ∧ r.quadSW.contains p = true) ∧
      ¬ (r.quadSE.contains p = true ∧ r.quadSW.contains p = true)) ∧
    (∀ q ∈ [r.quadNE, r.quadNW, r.quadSE, r.quadSW], q.contains p = true →
      r.contains p = true) := by
  have hsub : ∀ q ∈ [r.quadNE, r.quadNW, r.quadSE, r.quadSW], q.contains p = true →
      r.contains p = true := by
    intro q hq hc
    simp only [List.mem_cons, List.mem_singleton, List.not_mem_nil, or_false] at hq
    rcases hq with rfl | rfl | rfl | rfl
    · exact Rect.quadNE_sub r p hc
    · exact Rect.quadNW_sub r p hc
    · exact Rect.quadSE_sub r p hc
    · exact Rect.quadSW_sub r p hc
  have hdis : ¬ (r.quadNE.contains p = true ∧ r.quadNW.contains p = true) ∧
      ¬ (r.quadNE.contains p = true ∧ r.quadSE.contains p = true) ∧
      ¬ (r.quadNE.contains p = true ∧ r.quadSW.contains p = true) ∧
      ¬ (r.quadNW.contains p = true ∧ r.quadSE.contains p = true) ∧
      ¬ (r.quadNW.contains p = true ∧ r.quadSW.contains p = true) ∧
      ¬ (r.quadSE.contains p = true ∧ r.quadSW.contains p = true) := by
    simp only [Rect.contains_iff, Rect.quadNE, Rect.quadNW, Rect.quadSE, Rect.quadSW]
    refine ⟨?_, ?_, ?_, ?_, ?_, ?_⟩ <;> rintro ⟨⟨h1, h2, h3, h4⟩, h5, h6, h7, h8⟩ <;> linarith
  refine ⟨⟨rfl, rfl, rfl, rfl⟩, ?_, hdis, hsub⟩
  obtain ⟨d1, d2, d3, d4, d5, d6⟩ := hdis
  constructor
  · intro hc
    have hq := Rect.quad_contains_iff r p hc
    rcases h : r.quadrantOf p with _ | _ | _ | _ <;>
      simp only [h, iff_true, reduceCtorEq, iff_false, Bool.not_eq_true] at hq <;>
      obtain ⟨q1, q2, q3, q4⟩ := hq <;>
      simp [List.filter, q1, q2, q3, q4]
  · intro hlen
    by_cases h1 : r.quadNE.contains p = true
    · exact Rect.quadNE_sub r p h1
    by_cases h2 : r.quadNW.contains p = true
    · exact Rect.quadNW_sub r p h2
    by_cases h3 : r.quadSE.contains p = true
    · exact Rect.quadSE_sub r p h3
    by_cases h4 : r.quadSW.contains p = true
    · exact Rect.quadSW_sub r p h4
    simp only [Bool.not_eq_true] at h1 h2 h3 h4
    simp [List.filter, h1, h2, h3, h4] at hlen

/-- C19 (intersection test).  `a.intersects(b)` is true exactly when the centres are no
farther apart than the sums of the half-extents on both axes, and false exactly when the
rectangles are strictly separated along one axis; the test is symmetric, and two rectangles
that only touch along an edge intersect. -/
theorem C19_intersects_iff (a b : Rect) :
    (a.intersects b = true ↔ |a.x - b.x| ≤ a.w + b.w ∧ |a.y - b.y| ≤ a.h + b.h) ∧
    (a.intersects b = false ↔ (a.w + b.w < |a.x - b.x| ∨ a.h + b.h < |a.y - b.y|)) ∧
    a.intersects b = b.intersects a ∧
    Rect.intersects ⟨0, 0, 1, 1⟩ ⟨2, 0, 1, 1⟩ = true ∧
    Rect.intersects ⟨0, 0, 1, 1⟩ ⟨0, 2, 1, 1⟩ = true := by
  have h1 : a.intersects b = true ↔ |a.x - b.x| ≤ a.w + b.w ∧ |a.y - b.y| ≤ a.h + b.h := by
    rw [Rect.intersects_iff, abs_le, abs_le]
    constructor
    · rintro ⟨h1, h2, h3, h4⟩
      exact ⟨⟨by linarith, by linarith⟩, by linarith, by linarith⟩
    · rintro ⟨⟨h1, h2⟩, h3, h4⟩
      exact ⟨by linarith, by linarith, by linarith, by linarith⟩
  have h2 : b.intersects a = true ↔ |a.x - b.x| ≤ a.w + b.w ∧ |a.y - b.y| ≤ a.h + b.h := by
    rw [Rect.intersects_iff, abs_le, abs_le]
    constructor
    · rintro ⟨h1, h2, h3, h4⟩
      exact ⟨⟨by linarith, by linarith⟩, by linarith, by linarith⟩
    · rintro ⟨⟨h1, h2⟩, h3, h4⟩
      exact ⟨by linarith, by linarith, by linarith, by linarith⟩
  refine ⟨h1, ?_, ?_, by decide!, by decide!⟩
  · rw [← Bool.not_eq_true, h1, not_and_or, not_le, not_le]
  · rcases hab : a.intersects b with _ | _ <;> rcases hba : b.intersects a with _ | _
    · rfl
    · exact absurd (h1.2 (h2.1 hba)) (by simp [hab])
    · exact absurd (h2.2 (h1.1 hab)) (by simp [hba])
    · rfl

/-! ## Construction and allocation -/

/-- The table that the constructor builds. -/
theorem new_eq (size cap : Nat) (heap : Nat → Player) (hsz : 0 < size) :
    QuadTreeManager.new size cap heap = some
      { m_nodes := setAt (addfreeLoop (fun _ => zeroNode) 0 (size - 1 - 0)) (size - 1)
          { addfreeLoop (fun _ => zeroNode) 0 (size - 1 - 0) (size - 1) with next := none }
        m_size := size
        m_count := 0
        m_freeID := some 0
        m_capacity := cap
        heap := heap } := by
  have hne : ¬ size = 0 := by omega
  simp only [QuadTreeManager.new, addfree, hne, if_false]

/-- The constructor on a table of at least one record: every record is on the free list, in
index order. -/
theorem new_spec (size cap : Nat) (heap : Nat → Player) (hsz : 0 < size) :
    ∃ s, QuadTreeManager.new size cap heap = some s ∧ s.m_size = size ∧ s.m_capacity = cap ∧
      s.heap = heap ∧ s.m_count = 0 ∧ FreeChain s s.m_freeID (List.range' 0 size) := by
  refine ⟨_, new_eq size cap heap hsz, rfl, rfl, rfl, rfl, ?_⟩
  have := FreeChain.range
    { m_nodes := setAt (addfreeLoop (fun _ => zeroNode) 0 (size - 1 - 0)) (size - 1)
        { addfreeLoop (fun _ => zeroNode) 0 (size - 1 - 0) (size - 1) with next := none }
      m_size := size
      m_count := 0
      m_freeID := some 0
      m_capacity := cap
      heap := heap } size 0 (fun j _ hj2 => by
      refine ⟨by simp only []; omega, ?_⟩
      simp only []
      by_cases hl : j = size - 1
      · subst hl
        have e : ¬ (size - 1 + 1 < size) := by omega
        simp [e]
      · rw [setAt_ne _ _ hl, addfreeLoop_apply]
        have h2 : j < size - 1 := by omega
        have e : j + 1 < size := by omega
        simp [h2, e])
  simpa [hsz] using this

/-- A freshly created index is well formed: its tree is the empty root leaf. -/
theorem freshIndex_wf (size cap : Nat) (heap : Nat → Player) (region : Rect)
    (parent : QuadtreeID) (s : QuadTreeManager) (root : Nat)
    (h : freshIndex size cap heap region parent = some (s, root))
    (hc1 : 1 ≤ cap) (hc4 : cap ≤ 4) :
    ∃ F, WF s (Tree.leaf root parent region []) F ∧ s.heap = heap := by
  have hsz : 0 < size := by
    rcases Nat.eq_zero_or_pos size with h0 | h0
    · subst h0
      simp [freshIndex, QuadTreeManager.new, addfree] at h
    · exact h0
  obtain ⟨s0, e0, z0, c0, h0, -, f0⟩ := new_spec size cap heap hsz
  obtain ⟨s1, id, F1, e1, post⟩ := Create_spec s0 region parent (List.range' 0 size) f0
    (List.nodup_range' 0 size) (by omega) (by omega)
  simp only [freshIndex, e0, Option.some_bind, e1] at h
  have hs : s1 = s := congrArg Prod.fst (Option.some.inj h)
  have hr : id = root := congrArg Prod.snd (Option.some.inj h)
  subst hs hr
  refine ⟨F1, ⟨post.fresh, ?_, post.free, post.nodup, ?_, ?_⟩, by rw [post.heap_eq, h0]⟩
  · exact Nat.zero_le _
  · rw [post.cap_eq, c0]; exact hc1
  · rw [post.cap_eq, c0]; exact hc4

/-- C14 (arena allocation).  On an arena whose free list is a duplicate-free chain `F`, whose
table has at least one record and whose capacity is at most the four slots of a bucket,
`Create(region, parent)` returns a handle that differs from every live handle (the indices
below `m_size` that are not free); its record has the given region and parent, bucket count 0
and `divided = false`; the record of every live node is unchanged; the node counter grows by
one and the rest of the free list is again a duplicate-free chain.  When the free list is
empty the table size is doubled, the records below the old size are copied unchanged and the
handle is the old size; otherwise the head of the free list is returned and the table keeps
its size. -/
theorem C14_create_fresh (s : QuadTreeManager) (b : Rect) (par : QuadtreeID) (F : List Nat)
    (hF : FreeChain s s.m_freeID F) (hnd : F.Nodup) (hsz : 0 < s.m_size)
    (hcap : s.m_capacity ≤ 4) :
    ∃ s1 id F1, Create s b par = some (s1, id) ∧
      (∀ j, j < s.m_size → j ∉ F → j ≠ id ∧ s1.m_nodes j = s.m_nodes j) ∧
      ((s1.m_nodes id).boundary = b ∧ (s1.m_nodes id).parent = par ∧
        (s1.m_nodes id).size = 0 ∧ (s1.m_nodes id).divided = false) ∧
      (id < s1.m_size ∧ FreeChain s1 s1.m_freeID F1 ∧ (id :: F1).Nodup ∧
        s1.m_count = s.m_count + 1 ∧ s1.m_capacity = s.m_capacity) ∧
      (F = [] → s1.m_size = s.m_size * 2 ∧ id = s.m_size ∧
        ∀ j, j < s.m_size → s1.m_nodes j = s.m_nodes j) ∧
      (∀ a F0, F = a :: F0 → id = a ∧ F1 = F0 ∧ s1.m_size = s.m_size) := by
  obtain ⟨s1, id, F1, e, post⟩ := Create_spec s b par F hF hnd hsz hcap
  refine ⟨s1, id, F1, e, ?_, ?_, ?_, ?_, post.pop⟩
  · intro j hj hjF
    have h := post.live hj hjF
    exact ⟨h.2.2, post.nodes_eq j hj h.2.2⟩
  · obtain ⟨-, h2, h3, h4, -, h6⟩ := post.fresh
    exact ⟨h3, h2, h4, h6⟩
  · exact ⟨post.id_lt, post.free, post.nodup, post.count_eq, post.cap_eq⟩
  · intro hnil
    obtain ⟨h1, h2⟩ := post.grow hnil
    refine ⟨h2, h1, fun j hj => post.nodes_eq j hj (by omega)⟩

/-- Witness for C14: the table of `fourSmall` has one record, which is the root, so the free
list is empty; `Create` doubles the table and returns the handle 1. -/
theorem C14_create_fresh_witness :
    (FreeChain fourSmall fourSmall.m_freeID [] ∧ ([] : List Nat).Nodup ∧
      0 < fourSmall.m_size ∧ fourSmall.m_capacity ≤ 4) ∧
    (∃ s1 id F1, Create fourSmall exampleRegion.quadNE (some 0) = some (s1, id) ∧
      (∀ j, j < fourSmall.m_size → j ∉ ([] : List Nat) →
        j ≠ id ∧ s1.m_nodes j = fourSmall.m_nodes j) ∧
      ((s1.m_nodes id).boundary = exampleRegion.quadNE ∧ (s1.m_nodes id).parent = some 0 ∧
        (s1.m_nodes id).size = 0 ∧ (s1.m_nodes id).divided = false) ∧
      (id < s1.m_size ∧ FreeChain s1 s1.m_freeID F1 ∧ (id :: F1).Nodup ∧
        s1.m_count = fourSmall.m_count + 1 ∧ s1.m_capacity = fourSmall.m_capacity) ∧
      (([] : List Nat) = [] → s1.m_size = fourSmall.m_size * 2 ∧ id = fourSmall.m_size ∧
        ∀ j, j < fourSmall.m_size → s1.m_nodes j = fourSmall.m_nodes j) ∧
      (∀ a F0, ([] : List Nat) = a :: F0 → id = a ∧ F1 = F0 ∧
        s1.m_size = fourSmall.m_size)) ∧
    (Create fourSmall exampleRegion.quadNE (some 0)).map (fun r => (r.2, r.1.m_size)) =
      some (1, 2) :=
  ⟨⟨by decide!, by decide, by decide!, by decide!⟩,
    C14_create_fresh fourSmall exampleRegion.quadNE (some 0) [] (by decide!) (by decide)
      (by decide!) (by decide!), by decide!⟩

/-! ## Subdivision -/

/-- C16 (subdivide postcondition).  On an arena whose free list is a duplicate-free chain `F`
and whose capacity is at most four, for a live node `i` with region centre `(x, y)` and
half-extents `(w, h)`, `subdivide(i)` returns; the four handles it obtains are pairwise
distinct and were not live; their records are empty leaves with parent `i` and the regions
NE `(x + w/2, y - h/2, w/2, h/2)`, NW `(x - w/2, y - h/2, w/2, h/2)`,
SE `(x + w/2, y + h/2, w/2, h/2)`, SW `(x - w/2, y + h/2, w/2, h/2)`; the record of `i`
changes in its four child fields, which receive the matching handles, and in `divided`, which
becomes `true`, and in nothing else; every other live record is unchanged. -/
theorem C16_subdivide_post (s : QuadTreeManager) (i : Nat) (F : List Nat)
    (hF : FreeChain s s.m_freeID F) (hnd : F.Nodup) (hi : i < s.m_size) (hiF : i ∉ F)
    (hcap : s.m_capacity ≤ 4) :
    ∃ s1 a b c d F1, subdivide s i = some s1 ∧
      (a :: b :: c :: d :: F1).Nodup ∧ FreeChain s1 s1.m_freeID F1 ∧
      (∀ x ∈ [a, b, c, d], (x ∈ F ∨ s.m_size ≤ x) ∧ x ≠ i) ∧
      s1.m_nodes i =
        { s.m_nodes i with
          northwest := some b
          northeast := some a
          southwest := some d
          southeast := some c
          divided := true } ∧
      NodeRep s1 a (some i)
        ⟨(s.m_nodes i).boundary.x + (s.m_nodes i).boundary.w / 2,
          (s.m_nodes i).boundary.y - (s.m_nodes i).boundary.h / 2,
          (s.m_nodes i).boundary.w / 2, (s.m_nodes i).boundary.h / 2⟩ [] false ∧
      NodeRep s1 b (some i)
        ⟨(s.m_nodes i).boundary.x - (s.m_nodes i).boundary.w / 2,
          (s.m_nodes i).boundary.y - (s.m_nodes i).boundary.h / 2,
          (s.m_nodes i).boundary.w / 2, (s.m_nodes i).boundary.h / 2⟩ [] false ∧
      NodeRep s1 c (some i)
        ⟨(s.m_nodes i).boundary.x + (s.m_nodes i).boundary.w / 2,
          (s.m_nodes i).boundary.y + (s.m_nodes i).boundary.h / 2,
          (s.m_nodes i).boundary.w / 2, (s.m_nodes i).boundary.h / 2⟩ [] false ∧
      NodeRep s1 d (some i)
        ⟨(s.m_nodes i).boundary.x - (s.m_nodes i).boundary.w / 2,
          (s.m_nodes i).boundary.y + (s.m_nodes i).boundary.h / 2,
          (s.m_nodes i).boundary.w / 2, (s.m_nodes i).boundary.h / 2⟩ [] false ∧
      (∀ j, j < s.m_size → j ∉ F → j ≠ i → s1.m_nodes j = s.m_nodes j) := by
  obtain ⟨s1, a, b, c, d, F1, e, post⟩ := subdivide_spec s i F hF hnd hi hiF hcap
  have hfrom : ∀ x ∈ [a, b, c, d], (x ∈ F ∨ s.m_size ≤ x) ∧ x ≠ i := by
    intro x hx
    have h1 := post.from_free x (by
      simp only [List.mem_cons, List.mem_singleton, List.not_mem_nil, or_false] at hx
      simp only [List.mem_cons]
      rcases hx with h | h | h | h
      · exact Or.inl h
      · exact Or.inr (Or.inl h)
      · exact Or.inr (Or.inr (Or.inl h))
      · exact Or.inr (Or.inr (Or.inr (Or.inl h))))
    refine ⟨h1, fun hxi => ?_⟩
    subst hxi
    rcases h1 with h1 | h1
    · exact hiF h1
    · omega
  refine ⟨s1, a, b, c, d, F1, e, post.nodup, post.free, hfrom, post.node_eq, post.repNE,
    post.repNW, post.repSE, post.repSW, fun j hj hjF hji => post.nodes_eq j hj ?_ hji⟩
  intro hm
  rcases (hfrom j hm).1 with h | h
  · exact hjF h
  · omega

/-- Witness for C16: the full root leaf of `fourPoints` (table size 16, the handles 1 to 15
free) is subdivided. -/
theorem C16_subdivide_post_witness :
    (FreeChain fourPoints fourPoints.m_freeID [1, 2, 3, 4, 5, 6, 7, 8, 9, 10, 11, 12, 13, 14, 15] ∧
      [1, 2, 3, 4, 5, 6, 7, 8, 9, 10, 11, 12, 13, 14, 15].Nodup ∧ 0 < fourPoints.m_size ∧
      0 ∉ [1, 2, 3, 4, 5, 6, 7, 8, 9, 10, 11, 12, 13, 14, 15] ∧ fourPoints.m_capacity ≤ 4) ∧
    (subdivide fourPoints 0).map (fun s1 =>
      ([(s1.m_nodes 0).northeast, (s1.m_nodes 0).northwest, (s1.m_nodes 0).southeast,
        (s1.m_nodes 0).southwest], (s1.m_nodes 0).divided, bucketOf s1 0)) =
      some ([some 1, some 2, some 3, some 4], true, [some 1, some 2, some 3, some 4]) ∧
    (subdivide fourPoints 0).map (fun s1 =>
      (List.range 5).map (fun j => (s1.m_nodes j).boundary)) =
      some [Rect.mk 400 300 400 300, Rect.mk 600 150 200 150, Rect.mk 200 150 200 150,
        Rect.mk 600 450 200 150, Rect.mk 200 450 200 150] ∧
    ∃ s1 a b c d F1, subdivide fourPoints 0 = some s1 ∧
      (a :: b :: c :: d :: F1).Nodup ∧ FreeChain s1 s1.m_freeID F1 ∧
      (∀ x ∈ [a, b, c, d],
        (x ∈ [1, 2, 3, 4, 5, 6, 7, 8, 9, 10, 11, 12, 13, 14, 15] ∨ fourPoints.m_size ≤ x) ∧
          x ≠ 0) ∧
      s1.m_nodes 0 =
        { fourPoints.m_nodes 0 with
          northwest := some b
          northeast := some a
          southwest := some d
          southeast := some c
          divided := true } ∧
      NodeRep s1 a (some 0)
        ⟨(fourPoints.m_nodes 0).boundary.x + (fourPoints.m_nodes 0).boundary.w / 2,
          (fourPoints.m_nodes 0).boundary.y - (fourPoints.m_nodes 0).boundary.h / 2,
          (fourPoints.m_nodes 0).boundary.w / 2, (fourPoints.m_nodes 0).boundary.h / 2⟩ []
        false ∧
      NodeRep s1 b (some 0)
        ⟨(fourPoints.m_nodes 0).boundary.x - (fourPoints.m_nodes 0).boundary.w / 2,
          (fourPoints.m_nodes 0).boundary.y - (fourPoints.m_nodes 0).boundary.h / 2,
          (fourPoints.m_nodes 0).boundary.w / 2, (fourPoints.m_nodes 0).boundary.h / 2⟩ []
        false ∧
      NodeRep s1 c (some 0)
        ⟨(fourPoints.m_nodes 0).boundary.x + (fourPoints.m_nodes 0).boundary.w / 2,
          (fourPoints.m_nodes 0).boundary.y + (fourPoints.m_nodes 0).boundary.h / 2,
          (fourPoints.m_nodes 0).boundary.w / 2, (fourPoints.m_nodes 0).boundary.h / 2⟩ []
        false ∧
      NodeRep s1 d (some 0)
        ⟨(fourPoints.m_nodes 0).boundary.x - (fourPoints.m_nodes 0).boundary.w / 2,
          (fourPoints.m_nodes 0).boundary.y + (fourPoints.m_nodes 0).boundary.h / 2,
          (fourPoints.m_nodes 0).boundary.w / 2, (fourPoints.m_nodes 0).boundary.h / 2⟩ []
        false ∧
      (∀ j, j < fourPoints.m_size → j ∉ [1, 2, 3, 4, 5, 6, 7, 8, 9, 10, 11, 12, 13, 14, 15] →
        j ≠ 0 → s1.m_nodes j = fourPoints.m_nodes j) :=
  ⟨⟨by decide!, by decide, by decide!, by decide, by decide!⟩, by decide!, by decide!,
    C16_subdivide_post fourPoints 0 [1, 2, 3, 4, 5, 6, 7, 8, 9, 10, 11, 12, 13, 14, 15]
      (by decide!) (by decide) (by decide!) (by decide) (by decide!)⟩

/-! ## The collapse check -/

theorem Tree.allEmpty_iff (t : Tree) : t.allEmpty = true ↔ t.points = [] := by
  induction t with
  | leaf i par r l => simp [Tree.allEmpty, Tree.points_leaf]
  | node i par r l a b c d iha ihb ihc ihd =>
    simp only [Tree.allEmpty, Tree.points_node, Bool.and_eq_true, iha, ihb, ihc, ihd,
      List.isEmpty_iff, List.append_eq_nil]
    tauto

/-- The node counter after a collapse: one less for every node of the four subtrees. -/
theorem tryCollapse_count (i : Nat) (par : QuadtreeID) (r : Rect) (l : List Nat)
    (a b c d : Tree) (s : QuadTreeManager) (F : List Nat) (fuel : Nat)
    (hrep : Rep s (Tree.node i par r l a b c d)) (hF : FreeChain s s.m_freeID F)
    (hnd : ((Tree.node i par r l a b c d).ids ++ F).Nodup)
    (hfuel : (Tree.node i par r l a b c d).height ≤ fuel + 1)
    (hall : a.allEmpty = true ∧ b.allEmpty = true ∧ c.allEmpty = true ∧ d.allEmpty = true) :
    ∃ s1, tryCollapse fuel s i = some s1 ∧
      s1.m_count = s.m_count - (a.ids ++ b.ids ++ c.ids ++ d.ids).length := by
  obtain ⟨⟨hi, hpar, hb, hsz, hdata, hdiv⟩, hne, hnw, hse, hsw, ra, rb, rc, rd⟩ := hrep
  simp only [Tree.height] at hfuel
  have ea := empty_refines s a fuel ra (by omega)
  have eb := empty_refines s b fuel rb (by omega)
  have ec := empty_refines s c fuel rc (by omega)
  have ed := empty_refines s d fuel rd (by omega)
  obtain ⟨ha, hb4, hc, hd⟩ := hall
  rw [ha] at ea
  rw [hb4] at eb
  rw [hc] at ec
  rw [hd] at ed
  have hcnt := fun x => List.nodup_iff_count_le_one.1 hnd x
  simp only [Tree.ids, List.count_append, List.count_cons] at hcnt
  have hpos : ∀ (x : Nat) (L : List Nat), x ∈ L → 0 < L.count x :=
    fun x L h => List.count_pos_iff.2 h
  have hzero : ∀ (x : Nat) (L : List Nat), L.count x = 0 → x ∉ L :=
    fun x L h hm => by have := List.count_pos_iff.2 hm; omega
  have hi0 : ∀ x : Nat, x = i → ((if (i == x) = true then 1 else 0) : Nat) = 1 := by
    intro x hx; subst hx; simp
  obtain ⟨s1, F1, e1, p1⟩ := deallocate_spec a s F fuel ra hF
    (List.nodup_iff_count_le_one.2 (fun x => by
      have := hcnt x; simp only [List.count_append]; omega)) (by omega)
  have c1 := fun x => p1.perm.count_eq x
  simp only [List.count_append] at c1
  have hi1 : s1.m_nodes i = s.m_nodes i := p1.same i (hzero i _ (by
    have := hcnt i; have := hi0 i rfl; omega))
  have rb1 : Rep s1 b := rb.congr_nodes (le_of_eq p1.size_eq.symm) (fun x hx =>
    p1.same x (hzero x _ (by have := hcnt x; have := hpos x _ hx; omega)))
  obtain ⟨s2, F2, e2, p2⟩ := deallocate_spec b s1 F1 fuel rb1 p1.free
    (List.nodup_iff_count_le_one.2 (fun x => by
      have := hcnt x; have := c1 x; simp only [List.count_append]; omega)) (by omega)
  have c2 := fun x => p2.perm.count_eq x
  simp only [List.count_append] at c2
  have hi2 : s2.m_nodes i = s.m_nodes i := by
    rw [p2.same i (hzero i _ (by have := hcnt i; have := hi0 i rfl; omega)), hi1]
  have rc2 : Rep s2 c := rc.congr_nodes (le_of_eq (by rw [p2.size_eq, p1.size_eq]))
    (fun x hx => by
      rw [p2.same x (hzero x _ (by have := hcnt x; have := hpos x _ hx; omega)),
        p1.same x (hzero x _ (by have := hcnt x; have := hpos x _ hx; omega))])
  obtain ⟨s3, F3, e3, p3⟩ := deallocate_spec c s2 F2 fuel rc2 p2.free
    (List.nodup_iff_count_le_one.2 (fun x => by
      have := hcnt x; have := c1 x; have := c2 x; simp only [List.count_append]; omega))
    (by omega)
  have c3 := fun x => p3.perm.count_eq x
  simp only [List.count_append] at c3
  have hi3 : s3.m_nodes i = s.m_nodes i := by
    rw [p3.same i (hzero i _ (by have := hcnt i; have := hi0 i rfl; omega)), hi2]
  have rd3 : Rep s3 d := rd.congr_nodes
    (le_of_eq (by rw [p3.size_eq, p2.size_eq, p1.size_eq]))
    (fun x hx => by
      rw [p3.same x (hzero x _ (by have := hcnt x; have := hpos x _ hx; omega)),
        p2.same x (hzero x _ (by have := hcnt x; have := hpos x _ hx; omega)),
        p1.same x (hzero x _ (by have := hcnt x; have := hpos x _ hx; omega))])
  obtain ⟨s4, F4, e4, p4⟩ := deallocate_spec d s3 F3 fuel rd3 p3.free
    (List.nodup_iff_count_le_one.2 (fun x => by
      have := hcnt x; have := c1 x; have := c2 x; have := c3 x
      simp only [List.count_append]; omega)) (by omega)
  refine ⟨_, tryCollapse_free_eq fuel s s1 s2 s3 s4 i hdiv (by rw [hne]; exact ea)
    (by rw [hnw]; exact eb) (by rw [hse]; exact ec) (by rw [hsw]; exact ed)
    (by rw [hne]; exact e1) (by rw [hi1, hnw]; exact e2) (by rw [hi2, hse]; exact e3)
    (by rw [hi3, hsw]; exact e4), ?_⟩
  simp only [setNode, List.length_append]
  rw [p4.count_eq, p3.count_eq, p2.count_eq, p1.count_eq]
  omega

/-- C15 (collapse check).  For a node `t.id` of a well-formed arena: `empty(t.id)` is true
exactly when the subtree stores no point.  `tryCollapse` returns a state that represents
`Tree.collapseT t` with the same stored points.  When the node is divided and none of its four
child subtrees stores a point, `divided` is cleared, the free list receives exactly the handles
of the four child subtrees (all their nodes, each once), the node counter decreases by their
number, and the node is a leaf with its own bucket.  Otherwise the state is unchanged. -/
theorem C15_collapse_check (t : Tree) (s : QuadTreeManager) (F : List Nat) (fuel : Nat)
    (hrep : Rep s t) (hF : FreeChain s s.m_freeID F) (hnd : (t.ids ++ F).Nodup)
    (hfuel : t.height ≤ fuel + 1) :
    empty (fuel + 1) s (some t.id) = some (decide (t.points = [])) ∧
    ∃ s1 F1, tryCollapse fuel s t.id = some s1 ∧ Rep s1 t.collapseT ∧
      FreeChain s1 s1.m_freeID F1 ∧ (t.collapseT.ids ++ F1).Nodup ∧
      t.collapseT.points = t.points ∧ s1.heap = s.heap ∧
      ((t.divided = true ∧ t.descPoints = []) →
        (s1.m_nodes t.id).divided = false ∧ F1.Perm (t.descIds ++ F) ∧
        s1.m_count = s.m_count - t.descIds.length ∧
        t.collapseT = Tree.leaf t.id t.parent t.boundary t.pts) ∧
      (¬ (t.divided = true ∧ t.descPoints = []) → s1 = s ∧ F1 = F) := by
  have hempty : empty (fuel + 1) s (some t.id) = some (decide (t.points = [])) := by
    rw [empty_refines s t (fuel + 1) hrep hfuel]
    congr 1
    rcases h : t.allEmpty with _ | _
    · have : ¬ t.points = [] := fun hp => by
        rw [(Tree.allEmpty_iff t).2 hp] at h
        cases h
      simp [this]
    · simp [(Tree.allEmpty_iff t).1 h]
  refine ⟨hempty, ?_⟩
  obtain ⟨s1, F1, e, post, -⟩ := tryCollapse_spec t s F fuel hrep hF hnd hfuel
  have hnd1 : (t.collapseT.ids ++ F1).Nodup := post.perm.nodup_iff.2 hnd
  cases t with
  | leaf i par r l =>
    have e2 := tryCollapse_leaf_eq fuel s i hrep.2.2.2.2.2
    have es : s1 = s := Option.some.inj (e.symm.trans e2)
    subst es
    refine ⟨s1, F, e, hrep, hF, hnd, rfl, rfl, fun h => by simp [Tree.divided] at h,
      fun _ => ⟨rfl, rfl⟩⟩
  | node i par r l a b c d =>
    by_cases hall : (a.allEmpty && (b.allEmpty && (c.allEmpty && d.allEmpty))) = true
    · have hall4 : a.allEmpty = true ∧ b.allEmpty = true ∧ c.allEmpty = true ∧
          d.allEmpty = true := by simpa using hall
      obtain ⟨s2, e2, hcount⟩ := tryCollapse_count i par r l a b c d s F fuel hrep hF hnd hfuel
        hall4
      have es : s1 = s2 := Option.some.inj (e.symm.trans e2)
      subst es
      have hleaf : (Tree.node i par r l a b c d).collapseT = Tree.leaf i par r l := by
        simp only [Tree.collapseT, hall, if_true]
      have hdesc : ¬ ¬ ((Tree.node i par r l a b c d).divided = true ∧
          (Tree.node i par r l a b c d).descPoints = []) := by
        intro hn
        apply hn
        refine ⟨rfl, ?_⟩
        simp [Tree.descPoints, (Tree.allEmpty_iff a).1 hall4.1, (Tree.allEmpty_iff b).1 hall4.2.1,
          (Tree.allEmpty_iff c).1 hall4.2.2.1, (Tree.allEmpty_iff d).1 hall4.2.2.2]
      refine ⟨s1, F1, e, post.rep, post.free, hnd1, Tree.collapseT_points _, post.heap_eq,
        fun _ => ⟨?_, ?_, hcount, hleaf⟩, fun hn => absurd hn hdesc⟩
      · have := post.rep.divided_eq
        rw [hleaf] at this
        exact this
      · have hp := post.perm
        rw [hleaf] at hp
        exact List.Perm.cons_inv hp
    · have hkeep : (Tree.node i par r l a b c d).collapseT = Tree.node i par r l a b c d := by
        simp only [Tree.collapseT, hall, if_false]
        rfl
      obtain ⟨-, hne, hnw, hse, hsw, ra, rb, rc, rd⟩ := hrep
      simp only [Tree.height] at hfuel
      have e2 := tryCollapse_keep_eq fuel s i a.allEmpty b.allEmpty c.allEmpty d.allEmpty
        (by rw [hne]; exact empty_refines s a fuel ra (by omega))
        (by rw [hnw]; exact empty_refines s b fuel rb (by omega))
        (by rw [hse]; exact empty_refines s c fuel rc (by omega))
        (by rw [hsw]; exact empty_refines s d fuel rd (by omega))
        (by simpa using hall)
      have es : s1 = s := Option.some.inj (e.symm.trans e2)
      subst es
      refine ⟨s1, F, e, post.rep, hF, by rw [hkeep]; exact hnd, Tree.collapseT_points _, rfl,
        fun h => ?_, fun _ => ⟨rfl, rfl⟩⟩
      exfalso
      apply hall
      have hd := h.2
      simp only [Tree.descPoints, List.append_eq_nil] at hd
      simp [(Tree.allEmpty_iff a).2 hd.1.1.2, (Tree.allEmpty_iff b).2 hd.1.1.1,
        (Tree.allEmpty_iff c).2 hd.2, (Tree.allEmpty_iff d).2 hd.1.2]

/-- Witness for C15: the root of `fiveEmptied` is divided and its four children store no
point; `tryCollapse` on the root frees the handles 1 to 4 and the counter drops from 5 to 1. -/
theorem C15_collapse_check_witness :
    (Rep fiveEmptied emptiedTree ∧
      FreeChain fiveEmptied fiveEmptied.m_freeID [5, 6, 7, 8, 9, 10, 11, 12, 13, 14, 15] ∧
      (emptiedTree.ids ++ [5, 6, 7, 8, 9, 10, 11, 12, 13, 14, 15]).Nodup ∧
      emptiedTree.height ≤ 1 + 1) ∧
    (emptiedTree.divided = true ∧ emptiedTree.descPoints = []) ∧
    (tryCollapse 1 fiveEmptied 0).map (fun s1 =>
      ((s1.m_nodes 0).divided, s1.m_freeID,
        (List.range 5).map (fun j => (s1.m_nodes j).next))) =
      some (false, some 4, [none, some 5, some 1, some 2, some 3]) ∧
    (tryCollapse 1 fiveEmptied 0).map (fun s1 =>
      (fiveEmptied.m_count, s1.m_count, bucketOf s1 0)) =
      some (5, 1, [some 1, some 2, some 3, some 4]) ∧
    (empty (1 + 1) fiveEmptied (some emptiedTree.id) = some (decide (emptiedTree.points = [])) ∧
    ∃ s1 F1, tryCollapse 1 fiveEmptied emptiedTree.id = some s1 ∧ Rep s1 emptiedTree.collapseT ∧
      FreeChain s1 s1.m_freeID F1 ∧ (emptiedTree.collapseT.ids ++ F1).Nodup ∧
      emptiedTree.collapseT.points = emptiedTree.points ∧ s1.heap = fiveEmptied.heap ∧
      ((emptiedTree.divided = true ∧ emptiedTree.descPoints = []) →
        (s1.m_nodes emptiedTree.id).divided = false ∧
        F1.Perm (emptiedTree.descIds ++ [5, 6, 7, 8, 9, 10, 11, 12, 13, 14, 15]) ∧
        s1.m_count = fiveEmptied.m_count - emptiedTree.descIds.length ∧
        emptiedTree.collapseT =
          Tree.leaf emptiedTree.id emptiedTree.parent emptiedTree.boundary emptiedTree.pts) ∧
      (¬ (emptiedTree.divided = true ∧ emptiedTree.descPoints = []) →
        s1 = fiveEmptied ∧ F1 = [5, 6, 7, 8, 9, 10, 11, 12, 13, 14, 15])) :=
  ⟨⟨by decide!, by decide!, by decide, by decide⟩, by decide, by decide!, by decide!,
    C15_collapse_check emptiedTree fiveEmptied [5, 6, 7, 8, 9, 10, 11, 12, 13, 14, 15] 1
      (by decide!) (by decide!) (by decide) (by decide)⟩

/-! ## Termination of `Insert` -/

/-- C18 as stated fails.  Over exact rationals there is no well-formed index and point for
which `Insert` at the root fails to return at every recursion depth: the depth `height + 1`
always suffices.  In binary32, with capacity 1 and the example root region, 28 points at the
one position `(10, 10)` are inserted one after the other: every call returns, the first 27
with `true` and the 28th with `false`. -/
theorem C18_insert_terminates_counterexample :
    (¬ ∃ (s : QuadTreeManager) (t : Tree) (F : List Nat) (p : Nat),
      WF s t F ∧ ∀ fuel, Insert fuel s (some t.id) p = none) ∧
    ((freshIndex 16 1 samePlace exampleRegion none).map fun res =>
        insertResults32 28 res.2 res.1 (List.range' 1 28)) =
      some (List.replicate 27 (some true) ++ [some false]) := by
  refine ⟨?_, by decide!⟩
  rintro ⟨s, t, F, p, hwf, hnone⟩
  rcases Insert_enough s t F p (t.height + 1) hwf (le_refl _) with ⟨-, h⟩ | ⟨-, s1, F1, f, k, h, -⟩
  · rw [hnone] at h
    cases h
  · rw [hnone] at h
    cases h

/-- C18, amended, over exact rationals (bounded recursion of `Insert`).  On a well-formed
index (capacity between 1 and 4) `Insert` at the root returns within recursion depth
`height + 1`, for every point, coincident with stored points or not.  The flag is `true`
exactly when the root region contains the point, the index stays well formed with the same
root, and the tree grows by at most one level per call. -/
theorem C18_insert_depth_bound (s : QuadTreeManager) (t : Tree) (F : List Nat) (p : Nat)
    (hwf : WF s t F) :
    ∃ s1 t1 F1, Insert (t.height + 1) s (some t.id) p =
        some (s1, t.boundary.contains (s.heap p).position) ∧
      WF s1 t1 F1 ∧ t1.id = t.id ∧ t1.height ≤ t.height + 1 := by
  rcases Insert_enough s t F p (t.height + 1) hwf (le_refl _) with
    ⟨hc, h⟩ | ⟨hc, s1, F1, f, k, h, -, post⟩
  · exact ⟨s, t, F, by rw [hc]; exact h, hwf, rfl, Nat.le_succ _⟩
  · exact ⟨s1, _, F1, by rw [hc]; exact h, InsertPost.wf hwf post, Tree.insertT_id _ _ _ _ _,
      Tree.insertT_height_le _ _ _ _ _⟩

/-- Witness for C18: with capacity 1 and three points already stored at the same position
`(10, 10)` (a tree of height 3), inserting a fourth point at that position returns `true`
within recursion depth 4 and puts it in a new node one level down (handle 10). -/
theorem C18_insert_depth_bound_witness :
    WF coincident coincidentTree [9, 10, 11, 12, 13, 14, 15] ∧
    (List.range 5).map (fun p => (coincident.heap p).position) =
      [⟨10, 10⟩, ⟨10, 10⟩, ⟨10, 10⟩, ⟨10, 10⟩, ⟨10, 10⟩] ∧
    (Insert 4 coincident (some 0) 4).map (fun r => (r.2, (List.range 13).map (bucketOf r.1))) =
      some (true, [[some 1], [], [some 2], [], [], [], [some 3], [], [], [], [some 4], [],
        []]) ∧
    ∃ s1 t1 F1, Insert (coincidentTree.height + 1) coincident (some coincidentTree.id) 4 =
        some (s1, coincidentTree.boundary.contains (coincident.heap 4).position) ∧
      WF s1 t1 F1 ∧ t1.id = coincidentTree.id ∧ t1.height ≤ coincidentTree.height + 1 :=
  ⟨by decide!, by decide!, by decide!,
    C18_insert_depth_bound coincident coincidentTree [9, 10, 11, 12, 13, 14, 15] 4
      (by decide!)⟩

/-! ## Insertion and the shape of the tree -/

/-- A rejected insertion leaves the tree as it is. -/
theorem Tree.insertT_none (cap : Nat) (pos : Vector2) (p : Nat) (f : Nat × Nat × Nat × Nat)
    (t : Tree) (h : (Tree.insertT cap pos p f t).2 = none) :
    (Tree.insertT cap pos p f t).1 = t := by
  induction t with
  | leaf i par r l =>
    simp only [Tree.insertT] at h ⊢
    split_ifs at h ⊢ with h1 h2 h3 h4 h5 h6
    · rfl
    · exfalso
      have hc : r.contains pos = true := by simpa using h1
      rcases Rect.contains_quad r pos hc with q | q | q | q
      · exact h3 q
      · exact h4 q
      · exact h5 q
      · exact h6 q
  | node i par r l a b c d iha ihb ihc ihd =>
    simp only [Tree.insertT] at h ⊢
    split_ifs at h ⊢ with h1 h2
    · rfl
    · rcases e1 : Tree.insertT cap pos p f a with ⟨a1, _ | k⟩
      · rw [e1] at iha h
        rcases e2 : Tree.insertT cap pos p f b with ⟨b1, _ | k⟩
        · rw [e2] at ihb h
          rcases e3 : Tree.insertT cap pos p f c with ⟨c1, _ | k⟩
          · rw [e3] at ihc h
            rcases e4 : Tree.insertT cap pos p f d with ⟨d1, _ | k⟩
            · rw [e4] at ihd
              simp only [] at iha ihb ihc ihd ⊢
              rw [iha trivial, ihb trivial, ihc trivial, ihd trivial]
            · rw [e4] at h
              cases h
          · rw [e3] at h
            cases h
        · rw [e2] at h
          cases h
      · rw [e1] at h
        cases h

/-- Insertion continues the tree: divided nodes stay divided with the same child handles. -/
theorem Tree.insertT_ext (x : Nat) (cap : Nat) (pos : Vector2) (p : Nat)
    (f : Nat × Nat × Nat × Nat) (t : Tree) :
    Tree.Ext x t (Tree.insertT cap pos p f t).1 := by
  induction t with
  | leaf i par r l =>
    exact ⟨Tree.insertT_id cap pos p f _, Tree.insertT_boundary cap pos p f _⟩
  | node i par r l a b c d iha ihb ihc ihd =>
    refine ⟨Tree.insertT_id cap pos p f _, Tree.insertT_boundary cap pos p f _, Or.inr ?_⟩
    simp only [Tree.insertT]
    split
    · exact ⟨par, l, a, b, c, d, rfl, Tree.Ext.rfl_ext x a, Tree.Ext.rfl_ext x b,
        Tree.Ext.rfl_ext x c, Tree.Ext.rfl_ext x d⟩
    · split
      · exact ⟨par, _, a, b, c, d, rfl, Tree.Ext.rfl_ext x a, Tree.Ext.rfl_ext x b,
          Tree.Ext.rfl_ext x c, Tree.Ext.rfl_ext x d⟩
      · rcases e1 : Tree.insertT cap pos p f a with ⟨a1, _ | k⟩
        · rw [e1] at iha
          rcases e2 : Tree.insertT cap pos p f b with ⟨b1, _ | k⟩
          · rw [e2] at ihb
            rcases e3 : Tree.insertT cap pos p f c with ⟨c1, _ | k⟩
            · rw [e3] at ihc
              rcases e4 : Tree.insertT cap pos p f d with ⟨d1, _ | k⟩
              · rw [e4] at ihd
                exact ⟨par, l, a1, b1, c1, d1, rfl, iha, ihb, ihc, ihd⟩
              · rw [e4] at ihd
                exact ⟨par, l, a1, b1, c1, d1, rfl, iha, ihb, ihc, ihd⟩
            · rw [e3] at ihc
              exact ⟨par, l, a1, b1, c1, d, rfl, iha, ihb, ihc, Tree.Ext.rfl_ext x d⟩
          · rw [e2] at ihb
            exact ⟨par, l, a1, b1, c, d, rfl, iha, ihb, Tree.Ext.rfl_ext x c,
              Tree.Ext.rfl_ext x d⟩
        · rw [e1] at iha
          exact ⟨par, l, a1, b, c, d, rfl, iha, Tree.Ext.rfl_ext x b, Tree.Ext.rfl_ext x c,
            Tree.Ext.rfl_ext x d⟩

/-- A successful insertion adds exactly one occurrence of the reference to the stored
points. -/
theorem Tree.insertT_points_count (cap : Nat) (pos : Vector2) (p : Nat)
    (f : Nat × Nat × Nat × Nat) (t : Tree) (h : (Tree.insertT cap pos p f t).2.isSome = true)
    (x : Nat) :
    (Tree.insertT cap pos p f t).1.points.count x =
      t.points.count x + ([p] : List Nat).count x := by
  induction t with
  | leaf i par r l =>
    simp only [Tree.insertT] at h ⊢
    split_ifs at h ⊢ with h1 h2 h3 h4 h5 h6
    · cases h
    · simp only [Tree.points_leaf, List.count_append]
    · simp only [Tree.points_node, Tree.points_leaf, List.count_append, List.count_nil]
      omega
    · simp only [Tree.points_node, Tree.points_leaf, List.count_append, List.count_nil]
      omega
    · simp only [Tree.points_node, Tree.points_leaf, List.count_append, List.count_nil]
      omega
    · simp only [Tree.points_node, Tree.points_leaf, List.count_append, List.count_nil]
      omega
    · cases h
  | node i par r l a b c d iha ihb ihc ihd =>
    have na := Tree.insertT_none cap pos p f a
    have nb := Tree.insertT_none cap pos p f b
    have nc := Tree.insertT_none cap pos p f c
    have nd := Tree.insertT_none cap pos p f d
    simp only [Tree.insertT] at h ⊢
    split_ifs at h ⊢ with h1 h2
    · cases h
    · simp only [Tree.points_node, List.count_append]
      omega
    · rcases e1 : Tree.insertT cap pos p f a with ⟨a1, _ | k⟩
      · rw [e1] at iha h na
        simp only [] at na
        have ha := na trivial
        subst ha
        rcases e2 : Tree.insertT cap pos p f b with ⟨b1, _ | k⟩
        · rw [e2] at ihb h nb
          simp only [] at nb
          have hb := nb trivial
          subst hb
          rcases e3 : Tree.insertT cap pos p f c with ⟨c1, _ | k⟩
          · rw [e3] at ihc h nc
            simp only [] at nc
            have hc := nc trivial
            subst hc
            rcases e4 : Tree.insertT cap pos p f d with ⟨d1, _ | k⟩
            · rw [e4] at h
              cases h
            · rw [e4] at ihd
              have := ihd rfl
              simp only [] at this ⊢
              simp only [Tree.points_node, List.count_append, this]
              omega
          · rw [e3] at ihc
            have := ihc rfl
            simp only [] at this ⊢
            simp only [Tree.points_node, List.count_append, this]
            omega
        · rw [e2] at ihb
          have := ihb rfl
          simp only [] at this ⊢
          simp only [Tree.points_node, List.count_append, this]
          omega
      · rw [e1] at iha
        have := iha rfl
        simp only [] at this ⊢
        simp only [Tree.points_node, List.count_append, this]
        omega

/-! ## Steps of `update` on a well-formed index -/

theorem Tree.Ext.mem_self {x : Nat} {T : Tree} : ∀ {T1 : Tree},
    Tree.Ext x T T1 → x ∈ T.ids → x ∈ T1.ids := by
  induction T with
  | leaf j par r l =>
    intro T1 h hx
    simp only [Tree.ids, List.mem_singleton] at hx
    subst hx
    have := Tree.id_mem_ids T1
    rw [h.1] at this
    exact this
  | node j par r l a b c d iha ihb ihc ihd =>
    intro T1 h hx
    by_cases hj : j = x
    · subst hj
      have := Tree.id_mem_ids T1
      rw [h.1] at this
      exact this
    · rcases h.2.2 with e | ⟨par1, l1, a1, b1, c1, d1, e1, ha, hb, hc, hd⟩
      · exact absurd e hj
      · subst e1
        simp only [Tree.ids, List.mem_cons, List.mem_append] at hx ⊢
        rcases hx with hx | ((hx | hx) | hx) | hx
        · exact absurd hx.symm hj
        · exact Or.inr (Or.inl (Or.inl (Or.inl (iha ha hx))))
        · exact Or.inr (Or.inl (Or.inl (Or.inr (ihb hb hx))))
        · exact Or.inr (Or.inl (Or.inr (ihc hc hx)))
        · exact Or.inr (Or.inr (ihd hd hx))

/-- A divided node outside the subtrees at `x` is still a divided node of a continuation
outside `x`. -/
theorem Ctx.ext_divided (x : Nat) (C : Ctx) (t : Tree) (hC : ∀ j ∈ C.ids, j ≠ x)
    (ht : t.id ≠ x) (hd : t.divided = true) : ∀ {T1 : Tree},
    Tree.Ext x (C.plug t) T1 → ∃ C1 t1, T1 = Ctx.plug C1 t1 ∧ t1.id = t.id ∧
      t1.divided = true := by
  induction C with
  | hole =>
    intro T1 h
    cases t with
    | leaf j par r l => cases hd
    | node j par r l a b c d =>
      rcases h.2.2 with e | ⟨par1, l1, a1, b1, c1, d1, e1, -⟩
      · exact absurd e ht
      · exact ⟨Ctx.hole, T1, rfl, h.1, by rw [e1]; rfl⟩
  | ne i par r l C b c d ih =>
    intro T1 h
    rcases h.2.2 with e | ⟨par1, l1, a1, b1, c1, d1, e1, ha, -⟩
    · exact absurd e (hC i (by simp [Ctx.ids]))
    · obtain ⟨C1, t1, e2, h2⟩ := ih (fun j hj => hC j (by simp [Ctx.ids, hj])) ha
      exact ⟨Ctx.ne i par1 r l1 C1 b1 c1 d1, t1, by rw [e1, e2]; rfl, h2⟩
  | nw i par r l a C c d ih =>
    intro T1 h
    rcases h.2.2 with e | ⟨par1, l1, a1, b1, c1, d1, e1, -, hb, -⟩
    · exact absurd e (hC i (by simp [Ctx.ids]))
    · obtain ⟨C1, t1, e2, h2⟩ := ih (fun j hj => hC j (by simp [Ctx.ids, hj])) hb
      exact ⟨Ctx.nw i par1 r l1 a1 C1 c1 d1, t1, by rw [e1, e2]; rfl, h2⟩
  | se i par r l a b C d ih =>
    intro T1 h
    rcases h.2.2 with e | ⟨par1, l1, a1, b1, c1, d1, e1, -, -, hc, -⟩
    · exact absurd e (hC i (by simp [Ctx.ids]))
    · obtain ⟨C1, t1, e2, h2⟩ := ih (fun j hj => hC j (by simp [Ctx.ids, hj])) hc
      exact ⟨Ctx.se i par1 r l1 a1 b1 C1 d1, t1, by rw [e1, e2]; rfl, h2⟩
  | sw i par r l a b c C ih =>
    intro T1 h
    rcases h.2.2 with e | ⟨par1, l1, a1, b1, c1, d1, e1, -, -, -, hd1⟩
    · exact absurd e (hC i (by simp [Ctx.ids]))
    · obtain ⟨C1, t1, e2, h2⟩ := ih (fun j hj => hC j (by simp [Ctx.ids, hj])) hd1
      exact ⟨Ctx.sw i par1 r l1 a1 b1 c1 C1, t1, by rw [e1, e2]; rfl, h2⟩

/-- The child handles stored in the record of a divided live node are handles of its strict
descendants. -/
theorem Rep.child_handles {s : QuadTreeManager} {t : Tree} (h : Rep s t)
    (hd : (s.m_nodes t.id).divided = true) (x : Nat)
    (hx : (s.m_nodes t.id).northeast = some x ∨ (s.m_nodes t.id).northwest = some x ∨
      (s.m_nodes t.id).southeast = some x ∨ (s.m_nodes t.id).southwest = some x) :
    t.divided = true ∧ x ∈ t.descIds := by
  cases t with
  | leaf i par r l =>
    have := h.2.2.2.2.2
    simp only [Tree.id] at hd
    rw [hd] at this
    cases this
  | node i par r l a b c d =>
    obtain ⟨-, hne, hnw, hse, hsw, -⟩ := h
    refine ⟨rfl, ?_⟩
    simp only [Tree.id] at hx
    simp only [Tree.descIds, List.mem_append]
    rcases hx with e | e | e | e
    · rw [hne] at e
      exact Or.inl (Or.inl (Or.inl (Option.some.inj e ▸ Tree.id_mem_ids a)))
    · rw [hnw] at e
      exact Or.inl (Or.inl (Or.inr (Option.some.inj e ▸ Tree.id_mem_ids b)))
    · rw [hse] at e
      exact Or.inl (Or.inr (Option.some.inj e ▸ Tree.id_mem_ids c))
    · rw [hsw] at e
      exact Or.inr (Option.some.inj e ▸ Tree.id_mem_ids d)

theorem InRoot.transfer {s s1 : QuadTreeManager} {T T1 : Tree} (h : InRoot s T)
    (hpos : SamePos s s1) (hb : T1.boundary = T.boundary)
    (hle : ∀ x, T1.points.count x ≤ T.points.count x) : InRoot s1 T1 := by
  intro p hp
  have h1 := List.count_pos_iff.2 hp
  have h2 := hle p
  rw [hb, hpos p]
  exact h p (List.count_pos_iff.1 (by omega))

theorem UpdPost.refl_upd {i : Nat} {s : QuadTreeManager} {T : Tree} {F : List Nat}
    (hw : WF s T F) : UpdPost i s T s T F :=
  ⟨hw, Tree.Ext.rfl_ext i T, fun _ => rfl, fun _ => le_refl _, fun _ _ => rfl⟩

theorem UpdPost.comp_post {i : Nat} {s s1 s2 : QuadTreeManager} {T T1 T2 : Tree}
    {F1 F2 : List Nat} (h1 : UpdPost i s T s1 T1 F1) (h2 : UpdPost i s1 T1 s2 T2 F2) :
    UpdPost i s T s2 T2 F2 :=
  ⟨h2.wf, h1.ext.comp_ext h2.ext, fun q => (h2.pos q).trans (h1.pos q),
    fun x => le_trans (h2.le x) (h1.le x),
    fun hin x => (h2.eq (hin.transfer h1.pos h1.ext.region_eq h1.le) x).trans (h1.eq hin x)⟩

/-- The step `remove(i, p)` of the scan loop. -/
theorem remove_step (s : QuadTreeManager) (T : Tree) (F : List Nat) (i fuel p : Nat)
    (s1 : QuadTreeManager) (r : Bool) (hw : WF s T F) (hi : i ∈ T.ids)
    (h : remove fuel s (some i) p = some (s1, r)) :
    ∃ T1 F1, WF s1 T1 F1 ∧ Tree.Ext i T T1 ∧ s1.heap = s.heap ∧
      ∀ x, T1.points.count x + (if r = true ∧ x = p then 1 else 0) = T.points.count x := by
  obtain ⟨C, t, e, ht⟩ := Ctx.exists_of_mem T i hi
  subst e
  subst ht
  obtain ⟨t1, F1, hw1, hid, hb, hheap, -, hcnt⟩ := remove_in_ctx s C t F fuel p s1 r hw h
  refine ⟨C.plug t1, F1, hw1, Ctx.plug_ext t.id C t t1 hid hb rfl, hheap, fun x => ?_⟩
  rw [Ctx.plug_points_count, Ctx.plug_points_count]
  have := hcnt x
  omega

/-- The step `tryCollapse(*node)` at the end of `update`. -/
theorem collapse_step (s : QuadTreeManager) (T : Tree) (F : List Nat) (i fuel : Nat)
    (s1 : QuadTreeManager) (hw : WF s T F) (hi : i ∈ T.ids)
    (h : tryCollapse fuel s i = some s1) : ∃ T1 F1, UpdPost i s T s1 T1 F1 := by
  obtain ⟨C, t, e, ht⟩ := Ctx.exists_of_mem T i hi
  subst e
  subst ht
  obtain ⟨t1, F1, hw1, hid, hb, hheap, -, hpts⟩ := tryCollapse_in_ctx s C t F fuel s1 hw h
  have hc : ∀ x, (C.plug t1).points.count x = (C.plug t).points.count x := by
    intro x
    rw [Ctx.plug_points_count, Ctx.plug_points_count, hpts]
  exact ⟨C.plug t1, F1, hw1, Ctx.plug_ext t.id C t t1 hid hb rfl, fun q => by rw [hheap],
    fun x => le_of_eq (hc x), fun _ x => hc x⟩

/-- The step `Insert(root, p)` of the reinsertion loop. -/
theorem insert_step (s : QuadTreeManager) (T : Tree) (F : List Nat) (fuel p : Nat)
    (s1 : QuadTreeManager) (r : Bool) (hw : WF s T F)
    (h : Insert fuel s (some T.id) p = some (s1, r)) :
    ∃ T1 F1, WF s1 T1 F1 ∧ (∀ x, Tree.Ext x T T1) ∧ SamePos s s1 ∧
      r = T.boundary.contains (s.heap p).position ∧
      ∀ x, T1.points.count x = T.points.count x + (if r = true then [p].count x else 0) := by
  rcases Insert_result s T F p fuel s1 r hw h with ⟨hc, hr, hs⟩ | ⟨hc, hr, F1, f, k, hk, post⟩
  · subst hs
    subst hr
    exact ⟨T, F, hw, fun x => Tree.Ext.rfl_ext x T, fun _ => rfl, hc.symm, fun x => by simp⟩
  · subst hr
    refine ⟨_, F1, InsertPost.wf hw post, fun x => Tree.insertT_ext x _ _ _ _ T,
      fun q => post.position_eq q, hc.symm, fun x => ?_⟩
    rw [Tree.insertT_points_count _ _ _ _ T (by rw [hk]; rfl) x]
    simp

/-- The scan loop of `update` at a live node: whatever it removes is staged. -/
theorem updateScan_inv (fuel i : Nat) : ∀ (n k : Nat) (s : QuadTreeManager) (staged : List Nat)
    (T : Tree) (F : List Nat) (s1 : QuadTreeManager) (staged1 : List Nat),
    WF s T F → i ∈ T.ids → updateScan fuel i k n s staged = some (s1, staged1) →
    ∃ T1 F1, WF s1 T1 F1 ∧ Tree.Ext i T T1 ∧ s1.heap = s.heap ∧
      ∀ x, T1.points.count x + staged1.count x = T.points.count x + staged.count x := by
  intro n
  induction n with
  | zero =>
    intro k s staged T F s1 staged1 hw hi h
    simp only [updateScan] at h
    have e1 : s = s1 := congrArg Prod.fst (Option.some.inj h)
    have e2 : staged = staged1 := congrArg Prod.snd (Option.some.inj h)
    subst e1 e2
    exact ⟨T, F, hw, Tree.Ext.rfl_ext i T, rfl, fun _ => rfl⟩
  | succ n ih =>
    intro k s staged T F s1 staged1 hw hi h
    simp only [updateScan] at h
    split_ifs at h with h4
    rcases hd : (s.m_nodes i).data k with _ | player
    · rw [hd] at h
      exact ih (k + 1) s staged T F s1 staged1 hw hi h
    · rw [hd] at h
      simp only [] at h
      split_ifs at h with hc
      · obtain ⟨⟨s2, r⟩, hrem, hrest⟩ := Option.bind_eq_some.1 h
        simp only [] at hrest
        obtain ⟨T2, F2, hw2, hext2, hheap2, hcnt2⟩ :=
          remove_step s T F i fuel player s2 r hw hi hrem
        have hi2 : i ∈ T2.ids := hext2.mem_self hi
        rcases r with _ | _
        · simp only [Bool.false_eq_true, if_false] at hrest
          obtain ⟨T1, F1, hw1, hext1, hheap1, hcnt1⟩ :=
            ih (k + 1) s2 staged T2 F2 s1 staged1 hw2 hi2 hrest
          refine ⟨T1, F1, hw1, hext2.comp_ext hext1, hheap1.trans hheap2, fun x => ?_⟩
          have h1 := hcnt1 x
          have h2 := hcnt2 x
          simp only [Bool.false_eq_true, false_and, if_false] at h2
          omega
        · simp only [if_true] at hrest
          obtain ⟨T1, F1, hw1, hext1, hheap1, hcnt1⟩ :=
            ih (k + 1) s2 (staged ++ [player]) T2 F2 s1 staged1 hw2 hi2 hrest
          refine ⟨T1, F1, hw1, hext2.comp_ext hext1, hheap1.trans hheap2, fun x => ?_⟩
          have h1 := hcnt1 x
          have h2 := hcnt2 x
          simp only [true_and, List.count_append] at h1 h2
          by_cases hx : x = player
          · subst hx
            simp only [if_true, List.count_cons_self, List.count_nil] at h1 h2
            omega
          · have hx2 : ¬ player = x := fun e => hx e.symm
            simp only [hx, if_false, List.count_cons, List.count_nil, beq_iff_eq, hx2] at h1 h2
            omega
      · exact ih (k + 1) s staged T F s1 staged1 hw hi h

/-- The reinsertion loop of `update`: every staged point whose position is inside the root
region is stored again; the others are not. -/
theorem reinsert_inv (fuel root : Nat) : ∀ (staged : List Nat) (s : QuadTreeManager) (T : Tree)
    (F : List Nat) (s1 : QuadTreeManager),
    WF s T F → T.id = root → reinsert fuel (some root) s staged = some s1 →
    ∃ T1 F1, WF s1 T1 F1 ∧ (∀ x, Tree.Ext x T T1) ∧ SamePos s s1 ∧
      (∀ x, T1.points.count x ≤ T.points.count x + staged.count x) ∧
      ((∀ p ∈ staged, T.boundary.contains (s.heap p).position = true) →
        ∀ x, T1.points.count x = T.points.count x + staged.count x) := by
  intro staged
  induction staged with
  | nil =>
    intro s T F s1 hw _ h
    simp only [reinsert] at h
    have e1 : s = s1 := Option.some.inj h
    subst e1
    exact ⟨T, F, hw, fun x => Tree.Ext.rfl_ext x T, fun _ => rfl, fun _ => by simp,
      fun _ _ => by simp⟩
  | cons p rest ih =>
    intro s T F s1 hw hroot h
    simp only [reinsert] at h
    obtain ⟨⟨s2, r⟩, hins, hrest⟩ := Option.bind_eq_some.1 h
    simp only [] at hrest
    rw [← hroot] at hins
    obtain ⟨T2, F2, hw2, hext2, hpos2, hr, hcnt2⟩ := insert_step s T F fuel p s2 r hw hins
    have hid2 : T2.id = root := (hext2 0).id_eq.trans hroot
    obtain ⟨T1, F1, hw1, hext1, hpos1, hle1, heq1⟩ := ih s2 T2 F2 s1 hw2 hid2 hrest
    have hone : ∀ x, ([p] : List Nat).count x ≤ (p :: rest).count x - rest.count x := by
      intro x
      simp only [List.count_cons, List.count_nil]
      omega
    refine ⟨T1, F1, hw1, fun x => (hext2 x).comp_ext (hext1 x),
      fun q => (hpos1 q).trans (hpos2 q), fun x => ?_, fun hin x => ?_⟩
    · have h1 := hle1 x
      have h2 := hcnt2 x
      have h3 := hone x
      have h4 : rest.count x ≤ (p :: rest).count x := by
        simp only [List.count_cons]
        omega
      split_ifs at h2 <;> omega
    · have hp := hin p (by simp)
      rw [← hr] at hp
      have h2 := hcnt2 x
      rw [hp] at h2
      simp only [if_true] at h2
      have h1 := heq1 (fun q hq => by
        rw [(hext2 0).region_eq, hpos2 q]
        exact hin q (by simp [hq])) x
      rw [h1, h2]
      simp only [List.count_cons, List.count_nil]
      omega

/-- A recursive call of `update` on a child of the divided live node `i`: the node `i` stays
divided, and the effect counts as an effect below `i`. -/
theorem update_child (root n : Nat)
    (IH : ∀ (s : QuadTreeManager) (i : Nat) (T : Tree) (F : List Nat) (s1 : QuadTreeManager),
      WF s T F → T.id = root → i ∈ T.ids → update n s (some i) (some root) = some s1 →
      ∃ T1 F1, UpdPost i s T s1 T1 F1)
    (s0 : QuadTreeManager) (T0 : Tree) (F0 : List Nat) (i : Nat) (h : QuadtreeID)
    (s1 : QuadTreeManager) (hw : WF s0 T0 F0) (hroot : T0.id = root) (hi : i ∈ T0.ids)
    (hdiv : (s0.m_nodes i).divided = true)
    (hh : h = (s0.m_nodes i).northeast ∨ h = (s0.m_nodes i).northwest ∨
      h = (s0.m_nodes i).southeast ∨ h = (s0.m_nodes i).southwest)
    (hu : update n s0 h (some root) = some s1) :
    ∃ T1 F1, UpdPost i s0 T0 s1 T1 F1 ∧ (s1.m_nodes i).divided = true := by
  obtain ⟨C, t, e, ht⟩ := Ctx.exists_of_mem T0 i hi
  subst e
  subst ht
  have hrep := Ctx.rep_hole s0 C t hw.rep
  have hx : ∃ x, h = some x ∧ t.divided = true ∧ x ∈ t.descIds := by
    cases t with
    | leaf j par r l =>
      have := hrep.2.2.2.2.2
      simp only [Tree.id] at hdiv
      rw [hdiv] at this
      cases this
    | node j par r l a b c d =>
      obtain ⟨-, hne, hnw, hse, hsw, -⟩ := hrep
      simp only [Tree.id] at hh
      simp only [Tree.descIds, List.mem_append]
      rcases hh with e | e | e | e
      · exact ⟨a.id, by rw [e, hne], rfl, Or.inl (Or.inl (Or.inl (Tree.id_mem_ids a)))⟩
      · exact ⟨b.id, by rw [e, hnw], rfl, Or.inl (Or.inl (Or.inr (Tree.id_mem_ids b)))⟩
      · exact ⟨c.id, by rw [e, hse], rfl, Or.inl (Or.inr (Tree.id_mem_ids c))⟩
      · exact ⟨d.id, by rw [e, hsw], rfl, Or.inr (Tree.id_mem_ids d)⟩
  obtain ⟨x, hx1, hx2, hx3⟩ := hx
  subst hx1
  have hxt : x ∈ t.ids := by
    rw [Tree.ids_eq]
    exact List.mem_cons_of_mem _ hx3
  have hnd : (C.plug t).ids.Nodup := (List.nodup_append.1 hw.nodup).1
  have hcnt := fun y => List.nodup_iff_count_le_one.1 hnd y
  have hxT : x ∈ (C.plug t).ids := by
    apply List.count_pos_iff.1
    rw [Ctx.plug_ids_count]
    have := List.count_pos_iff.2 hxt
    omega
  have hC : ∀ j ∈ C.ids, j ≠ x := by
    intro j hj e
    subst e
    have h1 := hcnt j
    have h2 := List.count_pos_iff.2 hj
    have h3 := List.count_pos_iff.2 hxt
    rw [Ctx.plug_ids_count] at h1
    omega
  have htx : t.id ≠ x := by
    intro e
    have hnd3 : t.ids.Nodup := by
      refine List.nodup_iff_count_le_one.2 (fun y => ?_)
      have := hcnt y
      rw [Ctx.plug_ids_count] at this
      omega
    rw [Tree.ids_eq] at hnd3
    exact (List.nodup_cons.1 hnd3).1 (e ▸ hx3)
  obtain ⟨T1, F1, post⟩ := IH s0 x (C.plug t) F0 s1 hw hroot hxT hu
  obtain ⟨C1, t1, e1, hid1, hdv1⟩ := Ctx.ext_divided x C t hC htx hx2 post.ext
  refine ⟨T1, F1, ⟨post.wf, Ctx.ext_widen x C t hxt hnd post.ext, post.pos, post.le, post.eq⟩, ?_⟩
  have hw1 := post.wf
  rw [e1] at hw1
  have hrep1 := Ctx.rep_hole s1 C1 t1 hw1.rep
  have := hrep1.divided_eq
  rw [hid1, hdv1] at this
  exact this

/-- Partial correctness of `update`: a call at a live node that returns leaves a well-formed
index whose tree continues the old one outside the subtree of the node; no stored reference is
gained, and none is lost when all stored points lie inside the root region. -/
theorem update_inv (root : Nat) : ∀ (fuel : Nat) (s : QuadTreeManager) (i : Nat) (T : Tree)
    (F : List Nat) (s1 : QuadTreeManager),
    WF s T F → T.id = root → i ∈ T.ids → update fuel s (some i) (some root) = some s1 →
    ∃ T1 F1, UpdPost i s T s1 T1 F1 := by
  intro fuel
  induction fuel with
  | zero =>
    intro s i T F s1 _ _ _ h
    simp [update] at h
  | succ n IH =>
    intro s i T F s1 hw hroot hi h
    have hilt : i < s.m_size := hw.rep.ids_lt i hi
    simp only [update, resolve, if_pos hilt] at h
    obtain ⟨⟨sa, staged⟩, hscan, h2⟩ := Option.bind_eq_some.1 h
    simp only [] at h2
    obtain ⟨s0, hre, h3⟩ := Option.bind_eq_some.1 h2
    obtain ⟨Ta, Fa, wa, exta, heapa, cnta⟩ :=
      updateScan_inv n i _ 0 s [] T F sa staged hw hi hscan
    have hroota : Ta.id = root := exta.id_eq.trans hroot
    obtain ⟨T0, F0, w0, ext0, pos0, le0, eq0⟩ :=
      reinsert_inv n root staged sa Ta Fa s0 wa hroota hre
    have P0 : UpdPost i s T s0 T0 F0 := by
      refine ⟨w0, exta.comp_ext (ext0 i), fun q => by rw [pos0 q, heapa], fun x => ?_,
        fun hin x => ?_⟩
      · have h1 := le0 x
        have h2 := cnta x
        simp only [List.count_nil] at h2
        omega
      · have h2 := cnta x
        simp only [List.count_nil] at h2
        have h1 := eq0 (fun p hp => by
          rw [exta.region_eq, heapa]
          apply hin p
          apply List.count_pos_iff.1
          have := cnta p
          have := List.count_pos_iff.2 hp
          simp only [List.count_nil] at *
          omega) x
        omega
    have hroot0 : T0.id = root := P0.ext.id_eq.trans hroot
    have hi0 : i ∈ T0.ids := P0.ext.mem_self hi
    split_ifs at h3 with hdiv
    · obtain ⟨s1a, hu1, h4⟩ := Option.bind_eq_some.1 h3
      split_ifs at h4 with hz1
      obtain ⟨s2a, hu2, h5⟩ := Option.bind_eq_some.1 h4
      split_ifs at h5 with hz2
      obtain ⟨s3a, hu3, h6⟩ := Option.bind_eq_some.1 h5
      split_ifs at h6 with hz3
      obtain ⟨s4a, hu4, h7⟩ := Option.bind_eq_some.1 h6
      split_ifs at h7 with hz4
      obtain ⟨T1, F1, P1, hdiv1⟩ := update_child root n IH s0 T0 F0 i _ s1a w0 hroot0 hi0 hdiv
        (Or.inl rfl) hu1
      obtain ⟨T2, F2, P2, hdiv2⟩ := update_child root n IH s1a T1 F1 i _ s2a P1.wf
        (P1.ext.id_eq.trans hroot0) (P1.ext.mem_self hi0) hdiv1 (Or.inr (Or.inl rfl)) hu2
      have hroot2 : T2.id = root := P2.ext.id_eq.trans (P1.ext.id_eq.trans hroot0)
      have hi2 : i ∈ T2.ids := P2.ext.mem_self (P1.ext.mem_self hi0)
      obtain ⟨T3, F3, P3, hdiv3⟩ := update_child root n IH s2a T2 F2 i _ s3a P2.wf
        hroot2 hi2 hdiv2 (Or.inr (Or.inr (Or.inl rfl))) hu3
      obtain ⟨T4, F4, P4, hdiv4⟩ := update_child root n IH s3a T3 F3 i _ s4a P3.wf
        (P3.ext.id_eq.trans hroot2) (P3.ext.mem_self hi2) hdiv3 (Or.inr (Or.inr (Or.inr rfl)))
        hu4
      obtain ⟨T5, F5, P5⟩ := collapse_step s4a T4 F4 i n s1 P4.wf
        (P4.ext.mem_self (P3.ext.mem_self hi2)) h7
      exact ⟨T5, F5, P0.comp_post (P1.comp_post (P2.comp_post (P3.comp_post
        (P4.comp_post P5))))⟩
    · have e : s0 = s1 := Option.some.inj h3
      subst e
      exact ⟨T0, F0, P0⟩

/-! ## Reachable states -/

theorem WF.move {s : QuadTreeManager} {T : Tree} {F : List Nat} (hw : WF s T F) (p : Nat)
    (pos : Vector2) : WF (movePlayer s p pos) T F :=
  ⟨hw.rep.congr_nodes (le_refl _) (fun _ _ => rfl), hw.shape,
    hw.free.congr_chain (le_refl _) (fun _ _ => rfl), hw.nodup, hw.cap_pos, hw.cap_le⟩

/-- Every reachable state is a well-formed index with the given root handle and region. -/
theorem Reachable.to_wf {root : Nat} {region : Rect} {s : QuadTreeManager}
    (h : Reachable root region s) :
    ∃ T F, WF s T F ∧ T.id = root ∧ T.boundary = region := by
  induction h with
  | fresh size cap heap parent s h1 h4 he =>
    obtain ⟨F, hw, -⟩ := freshIndex_wf size cap heap region parent s root he h1 h4
    exact ⟨_, F, hw, rfl, rfl⟩
  | insert s fuel p s1 r _ he ih =>
    obtain ⟨T, F, hw, hid, hb⟩ := ih
    rw [← hid] at he
    obtain ⟨T1, F1, hw1, hext, -⟩ := insert_step s T F fuel p s1 r hw he
    exact ⟨T1, F1, hw1, (hext 0).id_eq.trans hid, (hext 0).region_eq.trans hb⟩
  | remove s fuel p s1 r _ he ih =>
    obtain ⟨T, F, hw, hid, hb⟩ := ih
    obtain ⟨T1, F1, hw1, hext, -⟩ := remove_step s T F root fuel p s1 r hw
      (hid ▸ Tree.id_mem_ids T) he
    exact ⟨T1, F1, hw1, hext.id_eq.trans hid, hext.region_eq.trans hb⟩
  | update s fuel s1 _ he ih =>
    obtain ⟨T, F, hw, hid, hb⟩ := ih
    obtain ⟨T1, F1, post⟩ := update_inv root fuel s root T F s1 hw hid
      (hid ▸ Tree.id_mem_ids T) he
    exact ⟨T1, F1, post.wf, post.ext.id_eq.trans hid, post.ext.region_eq.trans hb⟩
  | move s p pos _ ih =>
    obtain ⟨T, F, hw, hid, hb⟩ := ih
    exact ⟨T, F, hw.move p pos, hid, hb⟩

theorem Reachable.of_insertAll {root : Nat} {region : Rect} (fuel : Nat) :
    ∀ (ps : List Nat) (s s1 : QuadTreeManager), Reachable root region s →
      QuadTree.insertAll fuel root s ps = some s1 → Reachable root region s1 := by
  intro ps
  induction ps with
  | nil =>
    intro s s1 hr h
    simp only [QuadTree.insertAll] at h
    exact Option.some.inj h ▸ hr
  | cons p rest ih =>
    intro s s1 hr h
    simp only [QuadTree.insertAll] at h
    obtain ⟨⟨s2, r⟩, h1, h2⟩ := Option.bind_eq_some.1 h
    exact ih s2 s1 (Reachable.insert s fuel p s2 r hr h1) h2

theorem freshExample_eq : freshIndex 16 4 diagHeap exampleRegion none = some (freshExample, 0) := by
  with_unfolding_all rfl

theorem fivePoints_reachable : Reachable 0 exampleRegion fivePoints := by
  have h1 : fivePoints = (insertAll 3 0 freshExample [1, 2, 3, 4, 5]).getD noManager := by
    unfold fivePoints
    rw [freshExample_eq]
    rfl
  have h2 : (insertAll 3 0 freshExample [1, 2, 3, 4, 5]).isSome = true := by decide!
  obtain ⟨x, hx⟩ := Option.isSome_iff_exists.1 h2
  rw [h1, hx]
  exact Reachable.of_insertAll 3 [1, 2, 3, 4, 5] freshExample x
    (Reachable.fresh 16 4 diagHeap none freshExample (by decide) (by decide) freshExample_eq) hx

/-- C1 (insert succeeds for every point inside the region).  In every reachable state, for a
point whose position the root region contains, `Insert(root, point)` returns `true` at every
recursion depth from some depth on, the state it leaves is reachable again, and at no depth
does the call return `false`. -/
theorem C1_insert_succeeds (root : Nat) (region : Rect) (s : QuadTreeManager) (p : Nat)
    (hr : Reachable root region s) (hc : region.contains (s.heap p).position = true) :
    (∃ fuel0, ∀ fuel, fuel0 ≤ fuel →
      ∃ s1, Insert fuel s (some root) p = some (s1, true) ∧ Reachable root region s1) ∧
    ∀ fuel s1, Insert fuel s (some root) p ≠ some (s1, false) := by
  obtain ⟨T, F, hw, hid, hb⟩ := hr.to_wf
  subst hid
  subst hb
  constructor
  · refine ⟨T.height + 1, fun fuel hf => ?_⟩
    rcases Insert_enough s T F p fuel hw hf with ⟨hn, -⟩ | ⟨-, s1, F1, f, k, h, -⟩
    · rw [hc] at hn
      cases hn
    · exact ⟨s1, h, Reachable.insert s fuel p s1 true hr h⟩
  · intro fuel s1 h
    rcases Insert_result s T F p fuel s1 false hw h with ⟨hn, -⟩ | ⟨-, hb, -⟩
    · rw [hc] at hn
      cases hn
    · cases hb

/-- Witness for C1: the five-point example is reachable, and the point 6 at `(60, 60)` lies
inside the root region. -/
theorem C1_insert_succeeds_witness :
    (Reachable 0 exampleRegion fivePoints ∧
      exampleRegion.contains (fivePoints.heap 6).position = true) ∧
    (Insert 3 fivePoints (some 0) 6).map (fun r => (r.2, (List.range 5).map (bucketOf r.1))) =
      some (true, [[some 1, some 2, some 3, some 4], [], [some 5, some 6], [], []]) ∧
    ((∃ fuel0, ∀ fuel, fuel0 ≤ fuel →
      ∃ s1, Insert fuel fivePoints (some 0) 6 = some (s1, true) ∧
        Reachable 0 exampleRegion s1) ∧
    ∀ fuel s1, Insert fuel fivePoints (some 0) 6 ≠ some (s1, false)) :=
  ⟨⟨fivePoints_reachable, by decide!⟩, by decide!,
    C1_insert_succeeds 0 exampleRegion fivePoints 6 fivePoints_reachable (by decide!)⟩

/-! ## The structural invariant -/

/-- In a well-formed index every live node satisfies the structural constraints. -/
theorem WF.nodeOK {s : QuadTreeManager} {T : Tree} {F : List Nat} (hw : WF s T F) (i : Nat)
    (hi : i ∈ T.ids) : NodeOK s T.ids F i := by
  obtain ⟨C, t, e, ht⟩ := Ctx.exists_of_mem T i hi
  subst e
  subst ht
  have hrep := Ctx.rep_hole s C t hw.rep
  have hshape := Ctx.shape_hole _ C t hw.shape
  have hcnt := fun y => List.nodup_iff_count_le_one.1 hw.nodup y
  simp only [List.count_append, Ctx.plug_ids_count] at hcnt
  have hmem : ∀ x, x ∈ t.ids → x ∈ (C.plug t).ids ∧ x ∉ F := by
    intro x hx
    have h1 := List.count_pos_iff.2 hx
    refine ⟨List.count_pos_iff.1 (by rw [Ctx.plug_ids_count]; omega), fun hF => ?_⟩
    have h2 := List.count_pos_iff.2 hF
    have := hcnt x
    omega
  cases t with
  | leaf j par r l =>
    refine ⟨?_, fun hd => ?_⟩
    · have h1 : (s.m_nodes j).size = l.length := hrep.2.2.2.1
      have h2 : l.length ≤ s.m_capacity := hshape
      simp only [Tree.id]
      omega
    · have := hrep.2.2.2.2.2
      simp only [Tree.id] at hd
      rw [hd] at this
      cases this
  | node j par r l a b c d =>
    obtain ⟨hN, hne, hnw, hse, hsw, ra, rb, rc, rd⟩ := hrep
    obtain ⟨hl, pa, pb, pc, pd, ba, bb, bc, bd, -⟩ := hshape
    refine ⟨?_, fun _ => ⟨a.id, b.id, c.id, d.id, hne, hnw, hse, hsw, ?_, ?_, ?_, ?_, ?_, ?_⟩⟩
    · have h1 : (s.m_nodes j).size = l.length := hN.2.2.2.1
      simp only [Tree.id]
      omega
    · have h4 : ∀ x, a.ids.count x + b.ids.count x + c.ids.count x + d.ids.count x ≤ 1 := by
        intro x
        have := hcnt x
        simp only [Tree.ids, List.count_cons, List.count_append] at this
        omega
      have pa1 := List.count_pos_iff.2 (Tree.id_mem_ids a)
      have pb1 := List.count_pos_iff.2 (Tree.id_mem_ids b)
      have pc1 := List.count_pos_iff.2 (Tree.id_mem_ids c)
      have pd1 := List.count_pos_iff.2 (Tree.id_mem_ids d)
      have hab : a.id ≠ b.id := fun e => by
        have := h4 a.id; rw [← e] at pb1; omega
      have hac : a.id ≠ c.id := fun e => by
        have := h4 a.id; rw [← e] at pc1; omega
      have had : a.id ≠ d.id := fun e => by
        have := h4 a.id; rw [← e] at pd1; omega
      have hbc : b.id ≠ c.id := fun e => by
        have := h4 b.id; rw [← e] at pc1; omega
      have hbd : b.id ≠ d.id := fun e => by
        have := h4 b.id; rw [← e] at pd1; omega
      have hcd : c.id ≠ d.id := fun e => by
        have := h4 c.id; rw [← e] at pd1; omega
      simp [hab, hac, had, hbc, hbd, hcd]
    · intro x hx
      simp only [List.mem_cons, List.mem_singleton, List.not_mem_nil, or_false] at hx
      simp only [Tree.id]
      rcases hx with rfl | rfl | rfl | rfl
      · obtain ⟨h1, h2⟩ := hmem a.id (by simp [Tree.ids, Tree.id_mem_ids])
        exact ⟨h1, h2, ra.nodeRep.2.1.trans pa⟩
      · obtain ⟨h1, h2⟩ := hmem b.id (by simp [Tree.ids, Tree.id_mem_ids])
        exact ⟨h1, h2, rb.nodeRep.2.1.trans pb⟩
      · obtain ⟨h1, h2⟩ := hmem c.id (by simp [Tree.ids, Tree.id_mem_ids])
        exact ⟨h1, h2, rc.nodeRep.2.1.trans pc⟩
      · obtain ⟨h1, h2⟩ := hmem d.id (by simp [Tree.ids, Tree.id_mem_ids])
        exact ⟨h1, h2, rd.nodeRep.2.1.trans pd⟩
    · have h1 : (s.m_nodes j).boundary = r := hN.2.2.1
      have h2 := ra.nodeRep.2.2.1
      show (s.m_nodes a.id).boundary = (s.m_nodes j).boundary.quadNE
      rw [h2, ba, h1]
    · have h1 : (s.m_nodes j).boundary = r := hN.2.2.1
      have h2 := rb.nodeRep.2.2.1
      show (s.m_nodes b.id).boundary = (s.m_nodes j).boundary.quadNW
      rw [h2, bb, h1]
    · have h1 : (s.m_nodes j).boundary = r := hN.2.2.1
      have h2 := rc.nodeRep.2.2.1
      show (s.m_nodes c.id).boundary = (s.m_nodes j).boundary.quadSE
      rw [h2, bc, h1]
    · have h1 : (s.m_nodes j).boundary = r := hN.2.2.1
      have h2 := rd.nodeRep.2.2.1
      show (s.m_nodes d.id).boundary = (s.m_nodes j).boundary.quadSW
      rw [h2, bd, h1]

/-- The structural invariant.  Every reachable state is a well-formed index: its live nodes
are the handles of a tree rooted at `root`, its free list is a chain `F` disjoint from them,
and every live node has bucket count at most the capacity and, when `divided`, four pairwise
distinct live children, none of them free, each with the node as parent and with the
corresponding quadrant of the region of the node as region. -/
theorem structural_invariant (root : Nat) (region : Rect) (s : QuadTreeManager)
    (hr : Reachable root region s) :
    ∃ T F, WF s T F ∧ T.id = root ∧ ∀ i ∈ T.ids, NodeOK s T.ids F i := by
  obtain ⟨T, F, hw, hid, -⟩ := hr.to_wf
  exact ⟨T, F, hw, hid, fun i hi => hw.nodeOK i hi⟩

/-- The five-point example is reachable; its root is divided with the children 1 to 4. -/
theorem structural_invariant_example :
    Reachable 0 exampleRegion fivePoints ∧
    (∃ T F, WF fivePoints T F ∧ T.id = 0 ∧ ∀ i ∈ T.ids, NodeOK fivePoints T.ids F i) ∧
    ((fivePoints.m_nodes 0).divided, [(fivePoints.m_nodes 0).northeast,
      (fivePoints.m_nodes 0).northwest, (fivePoints.m_nodes 0).southeast,
      (fivePoints.m_nodes 0).southwest]) = (true, [some 1, some 2, some 3, some 4]) :=
  ⟨fivePoints_reachable, structural_invariant 0 exampleRegion fivePoints
    fivePoints_reachable, by decide!⟩

/-! ## Disjointness -/

theorem count_filter_range (l : List Nat) (p : Nat) :
    ((List.range l.length).filter fun k => l[k]? == some p).length = l.count p := by
  induction l with
  | nil => simp
  | cons a l ih =>
    rw [List.length_cons, List.range_succ_eq_map, List.filter_cons, List.filter_map,
      List.count_cons]
    have hcomp : ((fun k => (a :: l)[k]? == some p) ∘ Nat.succ) = fun k => l[k]? == some p := by
      funext k
      simp
    rw [hcomp]
    by_cases hap : a = p
    · subst hap
      simp [ih]
    · have h2 : ¬ (some a == some p) = true := by simpa using hap
      simp [ih, hap]

theorem NodeRep.slotCount_eq {s : QuadTreeManager} {i : Nat} {par : QuadtreeID} {r : Rect}
    {l : List Nat} {dv : Bool} (h : NodeRep s i par r l dv) (p : Nat) :
    slotCount s i p = l.count p := by
  obtain ⟨-, -, -, hsz, hdata, -⟩ := h
  unfold slotCount
  rw [hsz, ← count_filter_range l p]
  congr 1
  apply List.filter_congr
  intro k hk
  rw [hdata k (List.mem_range.1 hk)]

/-- The slots that hold a reference are counted by the stored points of the tree. -/
theorem Rep.occurrences_eq {s : QuadTreeManager} {T : Tree} (h : Rep s T) (p : Nat) :
    occurrences s T.ids p = T.points.count p := by
  induction T with
  | leaf i par r l =>
    simp only [occurrences, Tree.ids, List.map_cons, List.map_nil, List.sum_cons, List.sum_nil,
      Tree.points_leaf]
    have h1 : slotCount s i p = l.count p := NodeRep.slotCount_eq h p
    omega
  | node i par r l a b c d iha ihb ihc ihd =>
    obtain ⟨hN, -, -, -, -, ra, rb, rc, rd⟩ := h
    have ha := iha ra
    have hb := ihb rb
    have hc := ihc rc
    have hd := ihd rd
    simp only [occurrences] at ha hb hc hd
    simp only [occurrences, Tree.ids, List.map_cons, List.map_append, List.sum_cons,
      List.sum_append, Tree.points_node, List.count_append, ha, hb, hc, hd,
      NodeRep.slotCount_eq hN p]
    omega

theorem History.reachable {g : Bool} {root : Nat} {region : Rect} {s : QuadTreeManager}
    {L : List Nat} (h : History g root region s L) : Reachable root region s := by
  induction h with
  | fresh size cap heap parent s h1 h4 he => exact Reachable.fresh size cap heap parent s h1 h4 he
  | insert s L fuel p s1 r _ _ he ih => exact Reachable.insert s fuel p s1 r ih he
  | remove s L fuel p s1 r _ he ih => exact Reachable.remove s fuel p s1 r ih he
  | update s L fuel s1 _ _ he ih => exact Reachable.update s fuel s1 ih he
  | move s L p pos _ ih => exact Reachable.move s p pos ih

/-- Along a guarded history the stored references are exactly the live points, each once. -/
theorem History.inv {root : Nat} {region : Rect} {s : QuadTreeManager} {L : List Nat}
    (h : History true root region s L) :
    ∃ T F, WF s T F ∧ T.id = root ∧ T.boundary = region ∧ L.Nodup ∧
      ∀ x, T.points.count x = L.count x := by
  induction h with
  | fresh size cap heap parent s h1 h4 he =>
    obtain ⟨F, hw, -⟩ := freshIndex_wf size cap heap region parent s root he h1 h4
    exact ⟨_, F, hw, rfl, rfl, List.nodup_nil, fun x => by simp [Tree.points_leaf]⟩
  | insert s L fuel p s1 r _ hp he ih =>
    obtain ⟨T, F, hw, hid, hb, hnd, hcnt⟩ := ih
    rw [← hid] at he
    obtain ⟨T1, F1, hw1, hext, -, -, hc1⟩ := insert_step s T F fuel p s1 r hw he
    refine ⟨T1, F1, hw1, (hext 0).id_eq.trans hid, (hext 0).region_eq.trans hb, ?_, ?_⟩
    · rcases r with _ | _
      · simpa using hnd
      · simpa using ⟨hp, hnd⟩
    · intro x
      rw [hc1 x, hcnt x]
      rcases r with _ | _
      · simp
      · simp only [if_true, List.count_cons, List.count_nil]
        omega
  | remove s L fuel p s1 r _ he ih =>
    obtain ⟨T, F, hw, hid, hb, hnd, hcnt⟩ := ih
    obtain ⟨T1, F1, hw1, hext, -, hc1⟩ := remove_step s T F root fuel p s1 r hw
      (hid ▸ Tree.id_mem_ids T) he
    refine ⟨T1, F1, hw1, hext.id_eq.trans hid, hext.region_eq.trans hb, ?_, ?_⟩
    · rcases r with _ | _
      · simpa using hnd
      · simpa using hnd.erase p
    · intro x
      have h1 := hc1 x
      have h2 := hcnt x
      rcases r with _ | _
      · simp only [Bool.false_eq_true, false_and, if_false] at h1 ⊢
        omega
      · simp only [true_and, if_true] at h1 ⊢
        rw [List.count_erase]
        by_cases hx : x = p
        · subst hx
          simp only [if_true, beq_self_eq_true] at h1 ⊢
          omega
        · have hx2 : ¬ p = x := fun e => hx e.symm
          simp only [hx, if_false, beq_iff_eq, hx2] at h1 ⊢
          omega
  | update s L fuel s1 _ hg he ih =>
    obtain ⟨T, F, hw, hid, hb, hnd, hcnt⟩ := ih
    obtain ⟨T1, F1, post⟩ := update_inv root fuel s root T F s1 hw hid
      (hid ▸ Tree.id_mem_ids T) he
    have hin : InRoot s T := by
      intro q hq
      rw [hb]
      apply hg rfl q
      apply List.count_pos_iff.1
      rw [← hcnt q]
      exact List.count_pos_iff.2 hq
    exact ⟨T1, F1, post.wf, post.ext.id_eq.trans hid, post.ext.region_eq.trans hb, hnd,
      fun x => (post.eq hin x).trans (hcnt x)⟩
  | move s L p pos _ ih =>
    obtain ⟨T, F, hw, hid, hb, hnd, hcnt⟩ := ih
    exact ⟨T, F, hw.move p pos, hid, hb, hnd, hcnt⟩

/-- A run of successful insertions extends a history. -/
theorem History.after_insertAll {g : Bool} {root : Nat} {region : Rect} (fuel : Nat) :
    ∀ (ps : List Nat) (s : QuadTreeManager) (L : List Nat) (s1 : QuadTreeManager),
      History g root region s L →
      (∀ p ∈ ps, region.contains (s.heap p).position = true) → (ps ++ L).Nodup →
      QuadTree.insertAll fuel root s ps = some s1 →
      History g root region s1 (ps.reverse ++ L) := by
  intro ps
  induction ps with
  | nil =>
    intro s L s1 hh _ _ h
    simp only [QuadTree.insertAll] at h
    have e : s = s1 := Option.some.inj h
    subst e
    simpa using hh
  | cons p rest ih =>
    intro s L s1 hh hpos hnd h
    simp only [QuadTree.insertAll] at h
    obtain ⟨⟨s2, r⟩, h1, h2⟩ := Option.bind_eq_some.1 h
    simp only [] at h2
    obtain ⟨T, F, hw, hid, hb⟩ := hh.reachable.to_wf
    have h1c := h1
    rw [← hid] at h1c
    obtain ⟨T1, F1, -, -, hsame, hr, -⟩ := insert_step s T F fuel p s2 r hw h1c
    rw [hb, hpos p (by simp)] at hr
    subst hr
    have hpL : p ∉ L := by
      intro hm
      have := List.nodup_cons.1 (by simpa using hnd : (p :: (rest ++ L)).Nodup)
      exact this.1 (List.mem_append_right _ hm)
    have hh2 := History.insert s L fuel p s2 true hh hpL h1
    simp only [if_true] at hh2
    have hnd2 : (rest ++ p :: L).Nodup := by
      have hperm : (rest ++ p :: L).Perm (p :: (rest ++ L)) := List.perm_middle
      exact hperm.nodup_iff.2 hnd
    have := ih s2 (p :: L) s1 hh2 (fun q hq => by
      rw [hsame q]
      exact hpos q (by simp [hq])) hnd2 h2
    simpa using this

theorem fivePoints_history (g : Bool) : History g 0 exampleRegion fivePoints [5, 4, 3, 2, 1] := by
  have h1 : fivePoints = (insertAll 3 0 freshExample [1, 2, 3, 4, 5]).getD noManager := by
    unfold fivePoints
    rw [freshExample_eq]
    rfl
  have h2 : (insertAll 3 0 freshExample [1, 2, 3, 4, 5]).isSome = true := by decide!
  obtain ⟨x, hx⟩ := Option.isSome_iff_exists.1 h2
  rw [h1, hx]
  exact History.after_insertAll 3 [1, 2, 3, 4, 5] freshExample [] x
    (History.fresh 16 4 diagHeap none freshExample (by decide) (by decide) freshExample_eq)
    (by decide!) (by decide) hx

theorem strayedUpdated_eq : update 5 strayed (some 0) (some 0) = some strayedUpdated := by
  have h2 : (update 5 strayed (some 0) (some 0)).isSome = true := by decide!
  obtain ⟨x, hx⟩ := Option.isSome_iff_exists.1 h2
  unfold strayedUpdated
  rw [hx]
  rfl

theorem nineMoved_history (g : Bool) :
    History g 0 exampleRegion nineMoved [9, 8, 7, 6, 5, 4, 3, 2, 1] := by
  have h0 : freshIndex 5 4 crowdHeap exampleRegion none = some (crowdFresh, 0) := by
    with_unfolding_all rfl
  have h1 : ninePoints =
      (insertAll 3 0 crowdFresh [1, 2, 3, 4, 5, 6, 7, 8, 9]).getD noManager := by
    unfold ninePoints
    rw [h0]
    rfl
  have h2 : (insertAll 3 0 crowdFresh [1, 2, 3, 4, 5, 6, 7, 8, 9]).isSome = true := by decide!
  obtain ⟨x, hx⟩ := Option.isSome_iff_exists.1 h2
  unfold nineMoved
  rw [h1, hx]
  exact History.move x _ 9 ⟨90, 90⟩
    (History.after_insertAll 3 [1, 2, 3, 4, 5, 6, 7, 8, 9] crowdFresh [] x
      (History.fresh 5 4 crowdHeap none crowdFresh (by decide) (by decide) h0)
      (by decide!) (by decide) hx)

theorem sixUpdated_eq : update 5 sixMoved (some 0) (some 0) = some sixUpdated := by
  have h2 : (update 5 sixMoved (some 0) (some 0)).isSome = true := by decide!
  obtain ⟨x, hx⟩ := Option.isSome_iff_exists.1 h2
  unfold sixUpdated
  rw [hx]
  rfl

theorem sixUpdated_history : History true 0 exampleRegion sixUpdated [6, 5, 4, 3, 2, 1] := by
  have h1 : sixPoints = (insertAll 3 0 freshExample [1, 2, 3, 4, 5, 6]).getD noManager := by
    unfold sixPoints
    rw [freshExample_eq]
    rfl
  have h2 : (insertAll 3 0 freshExample [1, 2, 3, 4, 5, 6]).isSome = true := by decide!
  obtain ⟨x, hx⟩ := Option.isSome_iff_exists.1 h2
  have h3 : History true 0 exampleRegion sixPoints [6, 5, 4, 3, 2, 1] := by
    rw [h1, hx]
    exact History.after_insertAll 3 [1, 2, 3, 4, 5, 6] freshExample [] x
      (History.fresh 16 4 diagHeap none freshExample (by decide) (by decide) freshExample_eq)
      (by decide!) (by decide) hx
  exact History.update sixMoved [6, 5, 4, 3, 2, 1] 5 sixUpdated
    (History.move _ _ 6 ⟨600, 500⟩ (History.move sixPoints _ 5 ⟨500, 400⟩ h3))
    (fun _ => by decide!) sixUpdated_eq

/-- C6 as stated fails, in two ways.  First: after five successful insertions the host moves
the point 1 to `(900, 900)`, outside the root region, and calls `update(root, root, dt)`.  The
scan of the root removes the point from the root bucket and the reinsertion at the root is
rejected; the result of that `Insert` is ignored.  The point was inserted successfully and
never removed by `remove(root, .)`, and it occupies no slot of any live node.  Second: after
nine successful insertions into an index whose table has five records the host moves the
point 9 inside the root region; every live point lies inside the root region, and
`update(root, root, dt)` has no defined result, whatever the recursion depth, because a child
call reallocates the table and the root call goes on through its stale `node` pointer: there
is no state after the call in which the points could occupy slots. -/
theorem C6_update_counterexample :
    (History false 0 exampleRegion strayedUpdated [5, 4, 3, 2, 1] ∧
      WF strayedUpdated strayedTree [5, 6, 7, 8, 9, 10, 11, 12, 13, 14, 15] ∧
      occurrences fivePoints [0, 1, 2, 3, 4] 1 = 1 ∧
      occurrences strayedUpdated strayedTree.ids 1 = 0 ∧
      (List.range 5).map (bucketOf strayedUpdated) =
        [[some 4, some 2, some 3], [], [some 5], [], []]) ∧
    (History true 0 exampleRegion nineMoved [9, 8, 7, 6, 5, 4, 3, 2, 1] ∧
      (∀ q ∈ [9, 8, 7, 6, 5, 4, 3, 2, 1],
        exampleRegion.contains (nineMoved.heap q).position = true) ∧
      ∀ fuel, update fuel nineMoved (some 0) (some 0) = none) := by
  refine ⟨⟨?_, by decide!, by decide!, by decide!, by decide!⟩,
    nineMoved_history true, by decide!, ?_⟩
  · exact History.update strayed [5, 4, 3, 2, 1] 5 strayedUpdated
      (History.move fivePoints [5, 4, 3, 2, 1] 1 ⟨900, 900⟩ (fivePoints_history false))
      (fun h => by cases h) strayedUpdated_eq
  · intro fuel
    rcases fuel with _ | _ | _ | _ | _ | k <;> with_unfolding_all rfl

/-- C6 (disjointness), for histories of calls that return, in which `update` is called only
while the positions of the live points lie inside the root region.  At every moment the index
is well formed and each point that was successfully inserted and not since successfully
removed occupies exactly one slot among the buckets of the live nodes; every other reference
occupies none. -/
theorem C6_one_slot_per_live_point (root : Nat) (region : Rect) (s : QuadTreeManager)
    (L : List Nat) (h : History true root region s L) :
    ∃ T F, WF s T F ∧ T.id = root ∧ L.Nodup ∧
      ∀ p, occurrences s T.ids p = if p ∈ L then 1 else 0 := by
  obtain ⟨T, F, hw, hid, -, hnd, hcnt⟩ := h.inv
  refine ⟨T, F, hw, hid, hnd, fun p => ?_⟩
  rw [hw.rep.occurrences_eq p, hcnt p, List.count_eq_of_nodup hnd]

/-- Witness for C6: six insertions, two moves inside the root region and an `update` call
that returns (state `sixUpdated`); each of the six live points occupies one slot. -/
theorem C6_one_slot_per_live_point_witness :
    History true 0 exampleRegion sixUpdated [6, 5, 4, 3, 2, 1] ∧
    (List.range 5).map (bucketOf sixUpdated) =
      [[some 1, some 2, some 3, some 4], [], [some 6], [some 5], []] ∧
    (List.range 8).map (fun p => occurrences sixUpdated [0, 1, 2, 3, 4] p) =
      [0, 1, 1, 1, 1, 1, 1, 0] ∧
    ∃ T F, WF sixUpdated T F ∧ T.id = 0 ∧ [6, 5, 4, 3, 2, 1].Nodup ∧
      ∀ p, occurrences sixUpdated T.ids p = if p ∈ [6, 5, 4, 3, 2, 1] then 1 else 0 :=
  ⟨sixUpdated_history, by decide!, by decide!,
    C6_one_slot_per_live_point 0 exampleRegion sixUpdated [6, 5, 4, 3, 2, 1]
      sixUpdated_history⟩

/-! ## `update` and the stored points -/

/-- Update neither loses nor duplicates points.  On a well-formed index, whenever
`update(root, root, dt)` returns, the index is again well formed with the same root, no point
has moved, and no reference is stored more often than before; when every stored point lies
inside the root region, the stored references after the call are exactly those before, with
multiplicity. -/
theorem update_keeps_points (s : QuadTreeManager) (T : Tree) (F : List Nat) (fuel : Nat)
    (s1 : QuadTreeManager) (hw : WF s T F)
    (h : update fuel s (some T.id) (some T.id) = some s1) :
    ∃ T1 F1, WF s1 T1 F1 ∧ T1.id = T.id ∧ T1.boundary = T.boundary ∧ SamePos s s1 ∧
      (∀ x, T1.points.count x ≤ T.points.count x) ∧
      (InRoot s T → T1.points.Perm T.points) := by
  obtain ⟨T1, F1, post⟩ := update_inv T.id fuel s T.id T F s1 hw rfl (Tree.id_mem_ids T) h
  exact ⟨T1, F1, post.wf, post.ext.id_eq, post.ext.region_eq, post.pos, post.le,
    fun hin => List.perm_iff_count.2 (post.eq hin)⟩

/-- Calls of `update` that return: on `sixMoved` the points 5 and 6 have left the region of
their node but lie inside the root region; `update` returns and the same six references are
stored.  On `strayed` the point 1 lies outside the root region: it is removed and not stored
again. -/
theorem update_keeps_points_example :
    (WF sixMoved sixTree [5, 6, 7, 8, 9, 10, 11, 12, 13, 14, 15] ∧ InRoot sixMoved sixTree) ∧
    (update 5 sixMoved (some 0) (some 0)).map (fun s1 => (List.range 5).map (bucketOf s1)) =
      some [[some 1, some 2, some 3, some 4], [], [some 6], [some 5], []] ∧
    update 5 strayed (some 0) (some 0) = some strayedUpdated ∧
    (¬ InRoot strayed fiveTree ∧
      (List.range 5).map (bucketOf strayed) =
        [[some 1, some 2, some 3, some 4], [], [some 5], [], []] ∧
      (List.range 5).map (bucketOf strayedUpdated) =
        [[some 4, some 2, some 3], [], [some 5], [], []]) ∧
    ∃ T1 F1, WF strayedUpdated T1 F1 ∧ T1.id = fiveTree.id ∧
      T1.boundary = fiveTree.boundary ∧ SamePos strayed strayedUpdated ∧
      (∀ x, T1.points.count x ≤ fiveTree.points.count x) ∧
      (InRoot strayed fiveTree → T1.points.Perm fiveTree.points) :=
  ⟨⟨sixMoved_wf, by decide!⟩, by decide!, strayedUpdated_eq, ⟨by decide!, by decide!, by decide!⟩,
    update_keeps_points strayed fiveTree [5, 6, 7, 8, 9, 10, 11, 12, 13, 14, 15] 5
      strayedUpdated (fivePoints_wf.move 1 ⟨900, 900⟩) strayedUpdated_eq⟩

/-! ## Bucket bounds -/

/-- With a capacity above four, `Create` addresses slots outside the bucket array. -/
theorem Create_overflow (s : QuadTreeManager) (b : Rect) (par : QuadtreeID)
    (h : 4 < s.m_capacity) : Create s b par = none := by
  unfold Create
  split
  · rfl
  · rename_i s1 hs1
    have hc : s1.m_capacity = s.m_capacity := by
      split_ifs at hs1 with hf
      · simp only [allocate, addfree] at hs1
        split_ifs at hs1
        have := Option.some.inj hs1
        rw [← this]
      · have := Option.some.inj hs1
        rw [← this]
    split
    · rfl
    · rw [if_pos (by rw [hc]; exact h)]

/-- With a capacity above four, `Insert` into a bucket that already holds four entries
addresses the slot 4, outside the bucket array. -/
theorem Insert_overflow (fuel : Nat) (s : QuadTreeManager) (i p : Nat) (hi : i < s.m_size)
    (hc : (s.m_nodes i).boundary.contains (s.heap p).position = true)
    (h4 : 4 ≤ (s.m_nodes i).size) (hr : (s.m_nodes i).size < s.m_capacity) :
    Insert (fuel + 1) s (some i) p = none := by
  simp [Insert, resolve, hi, hc, hr, h4]

/-! ## `update` and the reallocation of the table -/

/-- C17 at a concrete input.  The index `nineMoved` is well formed, its table of five
records is used up, and every stored point lies inside the root region; the point 9, held by
the northeast child (handle 1), has moved into the region of the full northwest child.
`update(root, root, dt)` scans the root, takes `node = m_nodes + id` and calls
`update(node->northeast, root, dt)`.  That call removes the point 9 and reinserts it at the root;
the insertion subdivides the northwest child, `Create` finds the free list empty and `allocate`
moves the table to new storage of ten records and frees the old one.  The child call returns
(its result stores the point 9 in the new node 6), and the root call then reads
`node->northwest` through the pointer into the freed table: the call has no defined result,
whatever the recursion depth, so there is no stored multiset after it. -/
theorem C17_update_dangling_node :
    WF nineMoved nineTree [] ∧ InRoot nineMoved nineTree ∧
    (nineMoved.m_size = 5 ∧ nineMoved.m_freeID = none ∧
      (List.range 5).map (bucketOf nineMoved) =
        [[some 1, some 2, some 3, some 4], [some 9], [some 5, some 6, some 7, some 8], [], []]) ∧
    ((nineMoved.m_nodes 0).northeast = some 1 ∧
      (nineMoved.m_nodes 1).boundary.contains (nineMoved.heap 9).position = false ∧
      (nineMoved.m_nodes 2).boundary.contains (nineMoved.heap 9).position = true) ∧
    (update 4 nineMoved (some 1) (some 0)).map (fun s1 =>
        (s1.m_size, (List.range 7).map (bucketOf s1))) =
      some (10, [[some 1, some 2, some 3, some 4], [], [some 5, some 6, some 7, some 8], [], [],
        [], [some 9]]) ∧
    ∀ fuel, update fuel nineMoved (some 0) (some 0) = none := by
  refine ⟨by decide!, by decide!, by decide!, by decide!, by decide!, ?_⟩
  intro fuel
  rcases fuel with _ | _ | _ | _ | _ | k <;> with_unfolding_all rfl

/-! ## The structural invariant and the reallocation of the table -/

theorem flockMoved_reachable : Reachable 0 exampleRegion flockMoved := by
  have h0 : freshIndex 9 4 flockHeap exampleRegion none = some (flockFresh, 0) := by
    with_unfolding_all rfl
  have h2 : (insertAll 4 0 flockFresh [1, 2, 3, 4, 5, 6, 7, 8, 9, 10, 11, 12, 13]).isSome
      = true := by decide!
  obtain ⟨x, hx⟩ := Option.isSome_iff_exists.1 h2
  have h1 : flock = x := by
    unfold flock
    rw [hx]
    rfl
  unfold flockMoved
  rw [h1]
  exact Reachable.move x 9 ⟨600, 500⟩
    (Reachable.of_insertAll 4 [1, 2, 3, 4, 5, 6, 7, 8, 9, 10, 11, 12, 13] flockFresh x
      (Reachable.fresh 9 4 flockHeap none flockFresh (by decide) (by decide) h0) hx)

theorem flockMoved_wf : WF flockMoved flockTree [] := by decide!

/-- C12 at a concrete input.  The state `flockMoved` is reachable (thirteen insertions at the
root of a fresh index with a table of nine records, then the host moves the point 9); it is
well formed, its table is used up, and the invariant holds in it.  The node 2 (northwest child
of the root) is divided with the children 5, 6, 7, 8, and the only point stored below it, the
point 9 in node 6, has moved into the region of the full southeast child of the root.
`update(root, root, dt)` reaches `update(2, root, dt)`, which takes `node = m_nodes + 2` and
updates its children through that pointer.  The call `update(6, root, dt)` removes the point 9
and reinserts it at the root; the insertion subdivides node 3, `Create` finds the free list
empty and `allocate` moves the table to new storage of 18 records and frees the old one.  That
call returns: in its result all four children of node 2 are empty and node 2 is divided.
`update(2, root, dt)` then goes on through `node`, which points into the freed table, up to
`tryCollapse(*node)`: the calls at node 2 and at the root have no defined result, whatever the
recursion depth. -/
theorem C12_stale_node_collapse :
    Reachable 0 exampleRegion flockMoved ∧
    (WF flockMoved flockTree [] ∧
      ∀ i ∈ flockTree.ids, NodeOK flockMoved flockTree.ids [] i) ∧
    (flockMoved.m_size = 9 ∧ flockMoved.m_freeID = none ∧
      (List.range 9).map (bucketOf flockMoved) =
        [[some 1, some 2, some 3, some 4], [], [some 5, some 6, some 7, some 8],
          [some 10, some 11, some 12, some 13], [], [], [some 9], [], []]) ∧
    ((flockMoved.m_nodes 2).divided = true ∧
      [(flockMoved.m_nodes 2).northeast, (flockMoved.m_nodes 2).northwest,
        (flockMoved.m_nodes 2).southeast, (flockMoved.m_nodes 2).southwest] =
        [some 5, some 6, some 7, some 8] ∧
      (flockMoved.m_nodes 6).boundary.contains (flockMoved.heap 9).position = false ∧
      (flockMoved.m_nodes 3).boundary.contains (flockMoved.heap 9).position = true) ∧
    (update 4 flockMoved (some 6) (some 0)).map (fun s1 =>
        (s1.m_size, (s1.m_nodes 2).divided,
          [5, 6, 7, 8].map fun j => empty 1 s1 (some j))) =
      some (18, true, [some true, some true, some true, some true]) ∧
    (∀ fuel, update fuel flockMoved (some 2) (some 0) = none) ∧
    ∀ fuel, update fuel flockMoved (some 0) (some 0) = none := by
  refine ⟨flockMoved_reachable, ⟨flockMoved_wf, fun i hi => flockMoved_wf.nodeOK i hi⟩,
    by decide!, by decide!, by decide!, ?_, ?_⟩
  · intro fuel
    rcases fuel with _ | _ | _ | _ | _ | _ | k <;> with_unfolding_all rfl
  · intro fuel
    rcases fuel with _ | _ | _ | _ | _ | _ | _ | k <;> with_unfolding_all rfl

/-! ## Stored points stay inside the regions of their holders -/

theorem swapRemove_subset (l : List Nat) (p : Nat) (hp : p ∈ l) :
    ∀ x ∈ swapRemove l (l.indexOf p), x ∈ l := fun _ hx =>
  List.mem_of_mem_erase ((swapRemove_perm l p hp).mem_iff.1 hx)

theorem Tree.collapseT_inRegion (pos : Nat → Vector2) (t : Tree) (h : t.InRegion pos) :
    t.collapseT.InRegion pos := by
  cases t with
  | leaf i par r l => exact h
  | node i par r l a b c d =>
    simp only [Tree.collapseT]
    split
    · exact h.1
    · exact h

theorem Tree.removeT_inRegion (pos : Nat → Vector2) (p : Nat) (t : Tree)
    (h : t.InRegion pos) : (t.removeT p).1.InRegion pos := by
  induction t with
  | leaf i par r l =>
    have hl : ∀ q ∈ l, r.contains (pos q) = true := h
    simp only [Tree.removeT]
    split
    · rename_i hp
      exact fun q hq => hl q (swapRemove_subset l p hp q hq)
    · exact hl
  | node i par r l a b c d iha ihb ihc ihd =>
    obtain ⟨hl, sa, sb, sc, sd⟩ := h
    have ha := iha sa
    have hb := ihb sb
    have hc := ihc sc
    have hd := ihd sd
    simp only [Tree.removeT]
    split
    · rename_i hp
      exact ⟨fun q hq => hl q (swapRemove_subset l p hp q hq), sa, sb, sc, sd⟩
    · rcases e2 : Tree.removeT p b with ⟨b1, _ | _⟩ <;> rw [e2] at hb <;>
        rcases e1 : Tree.removeT p a with ⟨a1, _ | _⟩ <;> rw [e1] at ha <;>
        rcases e4 : Tree.removeT p d with ⟨d1, _ | _⟩ <;> rw [e4] at hd <;>
        rcases e3 : Tree.removeT p c with ⟨c1, _ | _⟩ <;> rw [e3] at hc <;>
        simp only [] at ha hb hc hd ⊢ <;>
        first
        | exact ⟨hl, ha, hb, hc, hd⟩
        | exact Tree.collapseT_inRegion pos _ ⟨hl, ha, hb, hc, hd⟩
        | exact Tree.collapseT_inRegion pos _ ⟨hl, ha, hb, hc, sd⟩
        | exact Tree.collapseT_inRegion pos _ ⟨hl, ha, hb, sc, hd⟩
        | exact Tree.collapseT_inRegion pos _ ⟨hl, ha, hb, sc, sd⟩
        | exact Tree.collapseT_inRegion pos _ ⟨hl, sa, hb, sc, sd⟩

theorem Tree.insertT_inRegion (pos : Nat → Vector2) (cap : Nat) (p : Nat)
    (f : Nat × Nat × Nat × Nat) (t : Tree) (h : t.InRegion pos) :
    (Tree.insertT cap (pos p) p f t).1.InRegion pos := by
  induction t with
  | leaf i par r l =>
    have hl : ∀ q ∈ l, r.contains (pos q) = true := h
    have hnil : ∀ (r1 : Rect), ∀ q ∈ ([] : List Nat), r1.contains (pos q) = true :=
      fun _ q hq => by cases hq
    have hone : ∀ (r1 : Rect), r1.contains (pos p) = true →
        ∀ q ∈ [p], r1.contains (pos q) = true := fun r1 h1 q hq => by
      rw [List.mem_singleton.1 hq]; exact h1
    simp only [Tree.insertT]
    split_ifs with h1 h2 h3 h4 h5 h6
    · exact hl
    · have hc : r.contains (pos p) = true := by simpa using h1
      intro q hq
      rcases List.mem_append.1 hq with hq | hq
      · exact hl q hq
      · rw [List.mem_singleton.1 hq]; exact hc
    · exact ⟨hl, hone _ h3, hnil _, hnil _, hnil _⟩
    · exact ⟨hl, hnil _, hone _ h4, hnil _, hnil _⟩
    · exact ⟨hl, hnil _, hnil _, hone _ h5, hnil _⟩
    · exact ⟨hl, hnil _, hnil _, hnil _, hone _ h6⟩
    · exact ⟨hl, hnil _, hnil _, hnil _, hnil _⟩
  | node i par r l a b c d iha ihb ihc ihd =>
    obtain ⟨hl, sa, sb, sc, sd⟩ := h
    have ha := iha sa
    have hb := ihb sb
    have hc := ihc sc
    have hd := ihd sd
    simp only [Tree.insertT]
    split_ifs with h1 h2
    · exact ⟨hl, sa, sb, sc, sd⟩
    · have hcn : r.contains (pos p) = true := by simpa using h1
      refine ⟨?_, sa, sb, sc, sd⟩
      intro q hq
      rcases List.mem_append.1 hq with hq | hq
      · exact hl q hq
      · rw [List.mem_singleton.1 hq]; exact hcn
    · rcases e1 : Tree.insertT cap (pos p) p f a with ⟨a1, _ | k⟩ <;> rw [e1] at ha <;>
        rcases e2 : Tree.insertT cap (pos p) p f b with ⟨b1, _ | k⟩ <;> rw [e2] at hb <;>
        rcases e3 : Tree.insertT cap (pos p) p f c with ⟨c1, _ | k⟩ <;> rw [e3] at hc <;>
        rcases e4 : Tree.insertT cap (pos p) p f d with ⟨d1, _ | k⟩ <;> rw [e4] at hd <;>
        simp only [] at ha hb hc hd ⊢ <;>
        first
        | exact ⟨hl, ha, hb, hc, hd⟩
        | exact ⟨hl, ha, hb, hc, sd⟩
        | exact ⟨hl, ha, hb, sc, sd⟩
        | exact ⟨hl, ha, sb, sc, sd⟩

/-- In a history of insertions and removals without moves the index is well formed, every
stored point lies inside the region of its holder, and the stored references are the live
points. -/
theorem Stored.settled {root : Nat} {region : Rect} {s : QuadTreeManager} {L : List Nat}
    (h : Stored root region s L) :
    ∃ T F, WF s T F ∧ T.id = root ∧ T.boundary = region ∧
      T.InRegion (fun q => (s.heap q).position) ∧ ∀ x, T.points.count x = L.count x := by
  induction h with
  | fresh size cap heap parent s h1 h4 he =>
    obtain ⟨F, hw, -⟩ := freshIndex_wf size cap heap region parent s root he h1 h4
    exact ⟨_, F, hw, rfl, rfl, (fun q hq => by cases hq), fun x => by simp [Tree.points_leaf]⟩
  | insert s L fuel p s1 r _ he ih =>
    obtain ⟨T, F, hw, hid, hb, hreg, hcnt⟩ := ih
    rw [← hid] at he
    rcases Insert_result s T F p fuel s1 r hw he with
      ⟨-, hr, hs⟩ | ⟨hc, hr, F1, f, k, hk, post⟩
    · subst hs
      subst hr
      exact ⟨T, F, hw, hid, hb, hreg, by simpa using hcnt⟩
    · subst hr
      have hpos : (fun q => (s1.heap q).position) = fun q => (s.heap q).position :=
        funext fun q => post.position_eq q
      refine ⟨_, F1, InsertPost.wf hw post,
        (Tree.insertT_id _ _ _ _ T).trans hid, (Tree.insertT_boundary _ _ _ _ T).trans hb,
        ?_, fun x => ?_⟩
      · rw [hpos]
        exact Tree.insertT_inRegion (fun q => (s.heap q).position) _ p f T hreg
      · rw [Tree.insertT_points_count _ _ _ _ T (by rw [hk]; rfl) x, hcnt x]
        simp only [if_true, List.count_cons, List.count_nil]
        omega
  | remove s L fuel p s1 r _ he ih =>
    obtain ⟨T, F, hw, hid, hb, hreg, hcnt⟩ := ih
    rw [← hid] at he
    have h1 := remove_mono (le_max_left fuel T.height) s (some T.id) p _ he
    obtain ⟨s2, F1, e, hw1, hheap, -, hfalse⟩ :=
      remove_wf s T F (max fuel T.height) p hw (le_max_right _ _)
    rw [e] at h1
    simp only [Option.some.injEq, Prod.mk.injEq] at h1
    obtain ⟨rfl, hr⟩ := h1
    by_cases hp : p ∈ T.points
    · have hr1 : r = true := by rw [← hr]; simpa using hp
      subst hr1
      refine ⟨_, F1, hw1, (Tree.removeT_id p T).trans hid,
        (Tree.removeT_boundary p T).trans hb, ?_, fun x => ?_⟩
      · rw [hheap]
        exact Tree.removeT_inRegion _ p T hreg
      · have hperm := Tree.removeT_points p T (by rw [Tree.removeT_snd]; simpa using hp)
        rw [hperm.count_eq, if_pos rfl]
        by_cases hx : x = p
        · subst hx
          rw [List.count_erase_self, List.count_erase_self, hcnt x]
        · rw [List.count_erase_of_ne hx, List.count_erase_of_ne hx, hcnt x]
    · have hr1 : r = false := by rw [← hr]; simpa using hp
      subst hr1
      obtain ⟨rfl, -⟩ := hfalse hp
      exact ⟨T, F, hw, hid, hb, hreg, by simpa using hcnt⟩

/-! ## Queries centred at a stored point -/

theorem Stored.of_inserts {root : Nat} {region : Rect} (fuel : Nat) :
    ∀ (ps : List Nat) (s : QuadTreeManager) (L : List Nat) (s1 : QuadTreeManager),
      Stored root region s L →
      (∀ p ∈ ps, region.contains (s.heap p).position = true) →
      QuadTree.insertAll fuel root s ps = some s1 →
      Stored root region s1 (ps.reverse ++ L) := by
  intro ps
  induction ps with
  | nil =>
    intro s L s1 hh _ h
    simp only [QuadTree.insertAll] at h
    have e : s = s1 := Option.some.inj h
    subst e
    simpa using hh
  | cons p rest ih =>
    intro s L s1 hh hpos h
    simp only [QuadTree.insertAll] at h
    obtain ⟨⟨s2, r⟩, h1, h2⟩ := Option.bind_eq_some.1 h
    simp only [] at h2
    obtain ⟨T, F, hw, hid, hb, -, -⟩ := hh.settled
    have h1c := h1
    rw [← hid] at h1c
    obtain ⟨T1, F1, -, -, hsame, hr, -⟩ := insert_step s T F fuel p s2 r hw h1c
    rw [hb, hpos p (by simp)] at hr
    subst hr
    have hh2 := Stored.insert s L fuel p s2 true hh h1
    simp only [if_true] at hh2
    have := ih s2 (p :: L) s1 hh2 (fun q hq => by
      rw [hsame q]
      exact hpos q (by simp [hq])) h2
    simpa using this

theorem fivePoints_stored : Stored 0 exampleRegion fivePoints [5, 4, 3, 2, 1] := by
  have h1 : fivePoints = (insertAll 3 0 freshExample [1, 2, 3, 4, 5]).getD noManager := by
    unfold fivePoints
    rw [freshExample_eq]
    rfl
  have h2 : (insertAll 3 0 freshExample [1, 2, 3, 4, 5]).isSome = true := by decide!
  obtain ⟨x, hx⟩ := Option.isSome_iff_exists.1 h2
  rw [h1, hx]
  exact Stored.of_inserts 3 [1, 2, 3, 4, 5] freshExample [] x
    (Stored.fresh 16 4 diagHeap none freshExample (by decide) (by decide) freshExample_eq)
    (by decide!) hx

/-- C10, amended, over exact rationals.  In every state of a history of insertions and
removals at the root of a fresh index during which no point moves, for every point `p` that
was inserted successfully and not since removed, a query at the root whose rectangle is
centred at the position of `p` with positive half-extents `w`, `h` has a result and returns
`p`; with zero half-extents it returns no point.  Right after the successful insertion of a
point the entry returned carries the handle in the back-reference of the point. -/
theorem C10_query_finds_inserted (root : Nat) (region : Rect) (s : QuadTreeManager)
    (L : List Nat) (w h : ℚ) (hs : Stored root region s L) (hw : 0 < w) (hh : 0 < h) :
    (∀ p ∈ L,
      (∃ fq found k,
        query fq s (some root) ⟨(s.heap p).position.x, (s.heap p).position.y, w, h⟩ [] =
          some (found, true) ∧ ⟨k, p⟩ ∈ found) ∧
      ∀ (fq : Nat) (found : List fquery) (b : Bool),
        query fq s (some root) ⟨(s.heap p).position.x, (s.heap p).position.y, 0, 0⟩ [] =
          some (found, b) → found = []) ∧
    ∀ (fuel q : Nat) (s1 : QuadTreeManager),
      Insert fuel s (some root) q = some (s1, true) →
      ∃ fq found k,
        query fq s1 (some root) ⟨(s1.heap q).position.x, (s1.heap q).position.y, w, h⟩ [] =
          some (found, true) ∧ (s1.heap q).id = some k ∧ ⟨k, q⟩ ∈ found := by
  obtain ⟨T, F, hwf, hid, hb, hreg, hcnt⟩ := hs.settled
  refine ⟨fun p hp => ⟨?_, fun fq found b hq =>
    query_zero_extent _ (Or.inl rfl) fq s (some root) [] found b hq⟩, ?_⟩
  · have hpT : p ∈ T.points := by
      rw [← List.count_pos_iff, hcnt p]
      exact List.count_pos_iff.2 hp
    obtain ⟨e, he, rfl⟩ := List.mem_map.1 hpT
    have hc := Tree.entries_in_boundary s.m_capacity _ T hwf.shape hreg e he
    have hr : Rect.contains
        ⟨(s.heap e.data).position.x, (s.heap e.data).position.y, w, h⟩
        (s.heap e.data).position = true := by
      rw [Rect.contains_iff]
      refine ⟨?_, ?_, ?_, ?_⟩ <;> simp only [] <;> linarith
    have hq := query_refines s
      ⟨(s.heap e.data).position.x, (s.heap e.data).position.y, w, h⟩ T T.height []
      hwf.rep hwf.shape hwf.cap_le (le_refl _)
    rw [hid, Rect.intersects_of_contains _ _ _ hc hr,
      Tree.queryT_eq_filter s.m_capacity _ _ T hwf.shape hreg] at hq
    refine ⟨_, _, e.id, hq, ?_⟩
    simp only [List.nil_append, List.mem_filter]
    exact ⟨he, hr⟩
  · intro fuel q s1 hins
    rw [← hid] at hins ⊢
    exact (query_finds_after_insert s T F q fuel s1 w h hwf hins hw hh).1

/-- Witness for the amended C10: on the five-point example every one of the five points is
returned by the query centred at its position with half-extents `(1, 1)`. -/
theorem C10_query_finds_inserted_witness :
    Stored 0 exampleRegion fivePoints [5, 4, 3, 2, 1] ∧
    ([1, 2, 3, 4, 5].map fun p =>
      (query 2 fivePoints (some 0)
        ⟨(fivePoints.heap p).position.x, (fivePoints.heap p).position.y, 1, 1⟩ []).map
        fun res => res.1.map fun e => (e.id, e.data)) =
      [some [(0, 1)], some [(0, 2)], some [(0, 3)], some [(0, 4)], some [(2, 5)]] ∧
    ((∀ p ∈ [5, 4, 3, 2, 1],
      (∃ fq found k,
        query fq fivePoints (some 0)
          ⟨(fivePoints.heap p).position.x, (fivePoints.heap p).position.y, 1, 1⟩ [] =
          some (found, true) ∧ ⟨k, p⟩ ∈ found) ∧
      ∀ (fq : Nat) (found : List fquery) (b : Bool),
        query fq fivePoints (some 0)
          ⟨(fivePoints.heap p).position.x, (fivePoints.heap p).position.y, 0, 0⟩ [] =
          some (found, b) → found = []) ∧
    ∀ (fuel q : Nat) (s1 : QuadTreeManager),
      Insert fuel fivePoints (some 0) q = some (s1, true) →
      ∃ fq found k,
        query fq s1 (some 0) ⟨(s1.heap q).position.x, (s1.heap q).position.y, 1, 1⟩ [] =
          some (found, true) ∧ (s1.heap q).id = some k ∧ ⟨k, q⟩ ∈ found) :=
  ⟨fivePoints_stored, by decide!,
    C10_query_finds_inserted 0 exampleRegion fivePoints [5, 4, 3, 2, 1] 1 1 fivePoints_stored
      (by norm_num) (by norm_num)⟩

/-! ## Placement in binary32 -/

/-- C2 as stated fails in the arithmetic of the program.  Root region `(16777216, 0, 2, 2)`,
capacity 4, the root bucket full, and a fifth point at `(16777215, -1)`, which lies in the
northwest quadrant of the root region.  `subdivide` computes the centre of the northeast child
as `x + w / 2 = 16777217`, which binary32 rounds to `16777216`; the regions of the northeast
and the northwest child then both contain the point, and `Insert` stores it in the northeast
child (handle 1), the first child it asks.  Over exact rationals only the northwest quadrant
contains the point and the embedding `Insert` stores it in the northwest child (handle 2). -/
theorem C2_rounded_quadrant_counterexample :
    ((edgeFour.m_nodes 0).boundary = edgeRegion ∧ edgeFour.m_capacity = 4 ∧
      (List.range 5).map (bucketOf edgeFour) =
        [[some 1, some 2, some 3, some 4], [], [], [], []] ∧
      (edgeFour.heap 5).position = ⟨16777215, -1⟩) ∧
    (Insert32 3 edgeFour (some 0) 5).map (fun res =>
        (res.2, (res.1.heap 5).id, (List.range 5).map (bucketOf res.1))) =
      some (true, some 1, [[some 1, some 2, some 3, some 4], [some 5], [], [], []]) ∧
    (Insert32 3 edgeFour (some 0) 5).map (fun res =>
        ((res.1.m_nodes 1).boundary, (res.1.m_nodes 2).boundary)) =
      some (⟨16777216, -1, 1, 1⟩, ⟨16777215, -1, 1, 1⟩) ∧
    (Rect.contains32 ⟨16777216, -1, 1, 1⟩ ⟨16777215, -1⟩ = true ∧
      Rect.contains32 ⟨16777215, -1, 1, 1⟩ ⟨16777215, -1⟩ = true) ∧
    (edgeRegion.quadrantOf ⟨16777215, -1⟩ = Quadrant.nw ∧
      edgeRegion.quadNE.contains ⟨16777215, -1⟩ = false ∧
      edgeRegion.quadNW.contains ⟨16777215, -1⟩ = true) ∧
    (Insert 3 edgeFour (some 0) 5).map (fun res =>
        (res.2, (res.1.heap 5).id, (List.range 5).map (bucketOf res.1))) =
      some (true, some 2, [[some 1, some 2, some 3, some 4], [], [some 5], [], []]) := by
  refine ⟨by decide!, by decide!, by decide!, by decide!, by decide!, by decide!⟩

/-! ## Entries outside their region, depth and height -/

theorem Ctx.plug_out (pos : Nat → Vector2) (C : Ctx) (t : Tree) :
    (C.plug t).out pos = C.out pos + t.out pos := by
  induction C with
  | hole => simp [Ctx.plug, Ctx.out]
  | ne i par r l C b c d ih => simp only [Ctx.plug, Ctx.out, Tree.out, ih]; omega
  | nw i par r l a C c d ih => simp only [Ctx.plug, Ctx.out, Tree.out, ih]; omega
  | se i par r l a b C d ih => simp only [Ctx.plug, Ctx.out, Tree.out, ih]; omega
  | sw i par r l a b c C ih => simp only [Ctx.plug, Ctx.out, Tree.out, ih]; omega

theorem Ctx.plug_comp (C K : Ctx) (t : Tree) : (C.comp K).plug t = C.plug (K.plug t) := by
  induction C with
  | hole => rfl
  | ne i par r l C b c d ih => simp only [Ctx.comp, Ctx.plug, ih]
  | nw i par r l a C c d ih => simp only [Ctx.comp, Ctx.plug, ih]
  | se i par r l a b C d ih => simp only [Ctx.comp, Ctx.plug, ih]
  | sw i par r l a b c C ih => simp only [Ctx.comp, Ctx.plug, ih]

theorem Ctx.depth_comp (C K : Ctx) : (C.comp K).depth = C.depth + K.depth := by
  induction C with
  | hole => simp [Ctx.comp, Ctx.depth]
  | ne i par r l C b c d ih => simp only [Ctx.comp, Ctx.depth, ih]; omega
  | nw i par r l a C c d ih => simp only [Ctx.comp, Ctx.depth, ih]; omega
  | se i par r l a b C d ih => simp only [Ctx.comp, Ctx.depth, ih]; omega
  | sw i par r l a b c C ih => simp only [Ctx.comp, Ctx.depth, ih]; omega

/-- A subtree at depth `C.depth` fits into the height of the tree. -/
theorem Ctx.height_ge (C : Ctx) (t : Tree) : C.depth + t.height ≤ (C.plug t).height := by
  induction C with
  | hole => simp [Ctx.plug, Ctx.depth]
  | ne i par r l C b c d ih => simp only [Ctx.plug, Ctx.depth, Tree.height]; omega
  | nw i par r l a C c d ih => simp only [Ctx.plug, Ctx.depth, Tree.height]; omega
  | se i par r l a b C d ih => simp only [Ctx.plug, Ctx.depth, Tree.height]; omega
  | sw i par r l a b c C ih => simp only [Ctx.plug, Ctx.depth, Tree.height]; omega

theorem Tree.height_pos (t : Tree) : 1 ≤ t.height := by
  cases t <;> simp [Tree.height]

theorem Tree.height_le_ids (t : Tree) : t.height ≤ t.ids.length := by
  induction t with
  | leaf i par r l => simp [Tree.height, Tree.ids]
  | node i par r l a b c d iha ihb ihc ihd =>
    simp only [Tree.height, Tree.ids, List.length_cons, List.length_append]
    omega

/-- The height of the tree of a well-formed index is at most the table size. -/
theorem WF.height_le_size {s : QuadTreeManager} {t : Tree} {F : List Nat} (hw : WF s t F) :
    t.height ≤ s.m_size := by
  have hnd : t.ids.Nodup := (List.nodup_append.1 hw.nodup).1
  have hsub : t.ids ⊆ List.range s.m_size := fun x hx =>
    List.mem_range.2 (hw.rep.ids_lt x hx)
  have h1 := (List.subperm_of_subset hnd hsub).length_le
  rw [List.length_range] at h1
  exact le_trans (Tree.height_le_ids t) h1

theorem swapRemove_countP (q : Nat → Bool) (l : List Nat) (p : Nat) (hp : p ∈ l) :
    (swapRemove l (l.indexOf p)).countP q + (if q p then 1 else 0) = l.countP q := by
  rw [(swapRemove_perm l p hp).countP_eq q, (List.perm_cons_erase hp).countP_eq q,
    List.countP_cons]

theorem Tree.out_of_allEmpty (pos : Nat → Vector2) (t : Tree) (h : t.allEmpty = true) :
    t.out pos = 0 := by
  induction t with
  | leaf i par r l =>
    simp only [Tree.allEmpty, List.isEmpty_iff] at h
    subst h
    rfl
  | node i par r l a b c d iha ihb ihc ihd =>
    simp only [Tree.allEmpty, Bool.and_eq_true, List.isEmpty_iff] at h
    obtain ⟨hl, ha, hb, hc, hd⟩ := h
    subst hl
    simp [Tree.out, iha ha, ihb hb, ihc hc, ihd hd]

theorem Tree.collapseT_out (pos : Nat → Vector2) (t : Tree) :
    t.collapseT.out pos = t.out pos := by
  cases t with
  | leaf i par r l => rfl
  | node i par r l a b c d =>
    simp only [Tree.collapseT]
    split
    · rename_i h
      simp only [Bool.and_eq_true] at h
      simp [Tree.out, Tree.out_of_allEmpty pos a h.1, Tree.out_of_allEmpty pos b h.2.1,
        Tree.out_of_allEmpty pos c h.2.2.1, Tree.out_of_allEmpty pos d h.2.2.2]
    · rfl

/-- Insertion puts the point into a node whose region contains it. -/
theorem Tree.insertT_out (pos : Nat → Vector2) (cap : Nat) (p : Nat)
    (f : Nat × Nat × Nat × Nat) (t : Tree) :
    (Tree.insertT cap (pos p) p f t).1.out pos = t.out pos := by
  induction t with
  | leaf i par r l =>
    simp only [Tree.insertT]
    split_ifs with h1 h2 h3 h4 h5 h6
    · rfl
    · have hc : (!r.contains (pos p)) = false := by simpa using h1
      simp [Tree.out, List.countP_append, List.countP_cons, hc]
    · simp [Tree.out, List.countP_cons, h3]
    · simp [Tree.out, List.countP_cons, h4]
    · simp [Tree.out, List.countP_cons, h5]
    · simp [Tree.out, List.countP_cons, h6]
    · simp [Tree.out]
  | node i par r l a b c d iha ihb ihc ihd =>
    simp only [Tree.insertT]
    split_ifs with h1 h2
    · rfl
    · have hc : (!r.contains (pos p)) = false := by simpa using h1
      simp [Tree.out, List.countP_append, List.countP_cons, hc]
    · rcases e1 : Tree.insertT cap (pos p) p f a with ⟨a1, _ | k⟩ <;> rw [e1] at iha <;>
        rcases e2 : Tree.insertT cap (pos p) p f b with ⟨b1, _ | k⟩ <;> rw [e2] at ihb <;>
        rcases e3 : Tree.insertT cap (pos p) p f c with ⟨c1, _ | k⟩ <;> rw [e3] at ihc <;>
        rcases e4 : Tree.insertT cap (pos p) p f d with ⟨d1, _ | k⟩ <;> rw [e4] at ihd <;>
        simp only [] at iha ihb ihc ihd ⊢ <;>
        simp only [Tree.out, iha, ihb, ihc, ihd]

/-- Removing a reference whose position the region of the root of the subtree does not contain
takes one entry out of those that lie outside the region of their holder. -/
theorem Tree.removeT_out (pos : Nat → Vector2) (cap : Nat) (p : Nat) (t : Tree)
    (hs : t.Shape cap) (hc : t.boundary.contains (pos p) = false) :
    (t.removeT p).1.out pos + (if (t.removeT p).2 = true then 1 else 0) = t.out pos := by
  induction t with
  | leaf i par r l =>
    have hr : r.contains (pos p) = false := hc
    simp only [Tree.removeT]
    split
    · rename_i hp
      have := swapRemove_countP (fun q => !r.contains (pos q)) l p hp
      simp only [hr, Bool.not_false, if_true] at this
      simpa [Tree.out] using this
    · simp
  | node i par r l a b c d iha ihb ihc ihd =>
    have hr : r.contains (pos p) = false := hc
    obtain ⟨hl, pa, pb, pc, pd, ba, bb, bc, bd, sa, sb, sc, sd⟩ := hs
    have na : a.boundary.contains (pos p) = false := by
      rw [ba]
      rcases hq : r.quadNE.contains (pos p) with _ | _
      · rfl
      · rw [Rect.quadNE_sub r _ hq] at hr; cases hr
    have nb : b.boundary.contains (pos p) = false := by
      rw [bb]
      rcases hq : r.quadNW.contains (pos p) with _ | _
      · rfl
      · rw [Rect.quadNW_sub r _ hq] at hr; cases hr
    have nc : c.boundary.contains (pos p) = false := by
      rw [bc]
      rcases hq : r.quadSE.contains (pos p) with _ | _
      · rfl
      · rw [Rect.quadSE_sub r _ hq] at hr; cases hr
    have nd : d.boundary.contains (pos p) = false := by
      rw [bd]
      rcases hq : r.quadSW.contains (pos p) with _ | _
      · rfl
      · rw [Rect.quadSW_sub r _ hq] at hr; cases hr
    have ha := iha sa na
    have hb := ihb sb nb
    have hc2 := ihc sc nc
    have hd := ihd sd nd
    simp only [Tree.removeT]
    split
    · rename_i hp
      have := swapRemove_countP (fun q => !r.contains (pos q)) l p hp
      simp only [hr, Bool.not_false, if_true] at this
      simp only [Tree.out, if_true]
      omega
    · rcases e2 : Tree.removeT p b with ⟨b1, _ | _⟩ <;> rw [e2] at hb <;>
        rcases e1 : Tree.removeT p a with ⟨a1, _ | _⟩ <;> rw [e1] at ha <;>
        rcases e4 : Tree.removeT p d with ⟨d1, _ | _⟩ <;> rw [e4] at hd <;>
        rcases e3 : Tree.removeT p c with ⟨c1, _ | _⟩ <;> rw [e3] at hc2 <;>
        simp only [Tree.collapseT_out, Tree.out, if_true, if_false, Bool.false_eq_true]
          at ha hb hc2 hd ⊢ <;>
        omega

/-! ## Contexts along the same path -/

theorem Ctx.Like.rfl_like (C : Ctx) : Ctx.Like C C := by
  induction C with
  | hole => trivial
  | ne i par r l C b c d ih => exact ⟨rfl, ih, rfl, rfl, rfl⟩
  | nw i par r l a C c d ih => exact ⟨rfl, rfl, ih, rfl, rfl⟩
  | se i par r l a b C d ih => exact ⟨rfl, rfl, rfl, ih, rfl⟩
  | sw i par r l a b c C ih => exact ⟨rfl, rfl, rfl, rfl, ih⟩

theorem Ctx.Like.depth_eq {C C1 : Ctx} (h : Ctx.Like C C1) : C1.depth = C.depth := by
  induction C generalizing C1 with
  | hole => cases C1 <;> first | rfl | exact h.elim
  | ne i par r l C b c d ih =>
    cases C1 <;> first | exact h.elim | simp only [Ctx.depth, ih h.2.1]
  | nw i par r l a C c d ih =>
    cases C1 <;> first | exact h.elim | simp only [Ctx.depth, ih h.2.2.1]
  | se i par r l a b C d ih =>
    cases C1 <;> first | exact h.elim | simp only [Ctx.depth, ih h.2.2.2.1]
  | sw i par r l a b c C ih =>
    cases C1 <;> first | exact h.elim | simp only [Ctx.depth, ih h.2.2.2.2]

theorem Ctx.Like.trans_like {C C1 C2 : Ctx} (h1 : Ctx.Like C C1) (h2 : Ctx.Like C1 C2) :
    Ctx.Like C C2 := by
  induction C generalizing C1 C2 with
  | hole =>
    cases C1 <;> first | exact h1.elim | exact h2
  | ne i par r l C b c d ih =>
    cases C1 <;> first | exact h1.elim | skip
    cases C2 <;> first | exact h2.elim | skip
    exact ⟨h2.1.trans h1.1, ih h1.2.1 h2.2.1, h2.2.2.1.trans h1.2.2.1,
      h2.2.2.2.1.trans h1.2.2.2.1, h2.2.2.2.2.trans h1.2.2.2.2⟩
  | nw i par r l a C c d ih =>
    cases C1 <;> first | exact h1.elim | skip
    cases C2 <;> first | exact h2.elim | skip
    exact ⟨h2.1.trans h1.1, h2.2.1.trans h1.2.1, ih h1.2.2.1 h2.2.2.1,
      h2.2.2.2.1.trans h1.2.2.2.1, h2.2.2.2.2.trans h1.2.2.2.2⟩
  | se i par r l a b C d ih =>
    cases C1 <;> first | exact h1.elim | skip
    cases C2 <;> first | exact h2.elim | skip
    exact ⟨h2.1.trans h1.1, h2.2.1.trans h1.2.1, h2.2.2.1.trans h1.2.2.1,
      ih h1.2.2.2.1 h2.2.2.2.1, h2.2.2.2.2.trans h1.2.2.2.2⟩
  | sw i par r l a b c C ih =>
    cases C1 <;> first | exact h1.elim | skip
    cases C2 <;> first | exact h2.elim | skip
    exact ⟨h2.1.trans h1.1, h2.2.1.trans h1.2.1, h2.2.2.1.trans h1.2.2.1,
      h2.2.2.2.1.trans h1.2.2.2.1, ih h1.2.2.2.2 h2.2.2.2.2⟩

theorem Ctx.Like.plug_id_eq {C C1 : Ctx} (h : Ctx.Like C C1) (t t1 : Tree)
    (ht : t1.id = t.id) : (C1.plug t1).id = (C.plug t).id := by
  cases C <;> cases C1 <;> first | exact h.elim | exact ht | exact h.1

/-! ## Insertion below a context -/

/-- The shape of the result of an insertion at a divided node: the node keeps its handle,
parent and region, and every child is kept or is the result of the insertion into it. -/
theorem Tree.insertT_node_form (cap : Nat) (pos : Vector2) (p : Nat)
    (f : Nat × Nat × Nat × Nat) (i : Nat) (par : QuadtreeID) (r : Rect) (l : List Nat)
    (a b c d : Tree) :
    ∃ l1 a1 b1 c1 d1,
      (Tree.insertT cap pos p f (Tree.node i par r l a b c d)).1 =
        Tree.node i par r l1 a1 b1 c1 d1 ∧
      (a1 = a ∨ a1 = (Tree.insertT cap pos p f a).1) ∧
      (b1 = b ∨ b1 = (Tree.insertT cap pos p f b).1) ∧
      (c1 = c ∨ c1 = (Tree.insertT cap pos p f c).1) ∧
      (d1 = d ∨ d1 = (Tree.insertT cap pos p f d).1) := by
  simp only [Tree.insertT]
  split_ifs with h1 h2
  · exact ⟨l, a, b, c, d, rfl, Or.inl rfl, Or.inl rfl, Or.inl rfl, Or.inl rfl⟩
  · exact ⟨l ++ [p], a, b, c, d, rfl, Or.inl rfl, Or.inl rfl, Or.inl rfl, Or.inl rfl⟩
  · rcases e1 : Tree.insertT cap pos p f a with ⟨a1, _ | k⟩ <;>
      rcases e2 : Tree.insertT cap pos p f b with ⟨b1, _ | k⟩ <;>
      rcases e3 : Tree.insertT cap pos p f c with ⟨c1, _ | k⟩ <;>
      rcases e4 : Tree.insertT cap pos p f d with ⟨d1, _ | k⟩ <;>
      simp only [] <;>
      first
      | exact ⟨l, a1, b1, c1, d1, rfl, Or.inr rfl, Or.inr rfl, Or.inr rfl, Or.inr rfl⟩
      | exact ⟨l, a1, b1, c1, d, rfl, Or.inr rfl, Or.inr rfl, Or.inr rfl, Or.inl rfl⟩
      | exact ⟨l, a1, b1, c, d, rfl, Or.inr rfl, Or.inr rfl, Or.inl rfl, Or.inl rfl⟩
      | exact ⟨l, a1, b, c, d, rfl, Or.inr rfl, Or.inl rfl, Or.inl rfl, Or.inl rfl⟩

theorem Tree.insertT_id_of {cap : Nat} {pos : Vector2} {p : Nat} {f : Nat × Nat × Nat × Nat}
    {x x1 : Tree} (h : x1 = x ∨ x1 = (Tree.insertT cap pos p f x).1) : x1.id = x.id := by
  rcases h with h | h
  · rw [h]
  · rw [h]; exact Tree.insertT_id _ _ _ _ _

/-- An insertion at the root leaves every path of the tree in place. -/
theorem Ctx.insertT_plug (cap : Nat) (pos : Vector2) (p : Nat) (f : Nat × Nat × Nat × Nat)
    (C : Ctx) (t : Tree) :
    ∃ C1 t1, (Tree.insertT cap pos p f (C.plug t)).1 = C1.plug t1 ∧ Ctx.Like C C1 ∧
      t1.id = t.id := by
  induction C with
  | hole =>
    exact ⟨Ctx.hole, (Tree.insertT cap pos p f t).1, rfl, trivial, Tree.insertT_id _ _ _ _ _⟩
  | ne i par r l C b c d ih =>
    obtain ⟨l1, a1, b1, c1, d1, e, ha, hb, hc, hd⟩ :=
      Tree.insertT_node_form cap pos p f i par r l (C.plug t) b c d
    simp only [Ctx.plug]
    rw [e]
    rcases ha with ha | ha
    · exact ⟨Ctx.ne i par r l1 C b1 c1 d1, t, by rw [ha]; rfl,
        ⟨rfl, Ctx.Like.rfl_like C, Tree.insertT_id_of hb, Tree.insertT_id_of hc,
          Tree.insertT_id_of hd⟩, rfl⟩
    · obtain ⟨C1, t1, e1, hl, hid⟩ := ih
      exact ⟨Ctx.ne i par r l1 C1 b1 c1 d1, t1, by rw [ha, e1]; rfl,
        ⟨rfl, hl, Tree.insertT_id_of hb, Tree.insertT_id_of hc, Tree.insertT_id_of hd⟩, hid⟩
  | nw i par r l a C c d ih =>
    obtain ⟨l1, a1, b1, c1, d1, e, ha, hb, hc, hd⟩ :=
      Tree.insertT_node_form cap pos p f i par r l a (C.plug t) c d
    simp only [Ctx.plug]
    rw [e]
    rcases hb with hb | hb
    · exact ⟨Ctx.nw i par r l1 a1 C c1 d1, t, by rw [hb]; rfl,
        ⟨rfl, Tree.insertT_id_of ha, Ctx.Like.rfl_like C, Tree.insertT_id_of hc,
          Tree.insertT_id_of hd⟩, rfl⟩
    · obtain ⟨C1, t1, e1, hl, hid⟩ := ih
      exact ⟨Ctx.nw i par r l1 a1 C1 c1 d1, t1, by rw [hb, e1]; rfl,
        ⟨rfl, Tree.insertT_id_of ha, hl, Tree.insertT_id_of hc, Tree.insertT_id_of hd⟩, hid⟩
  | se i par r l a b C d ih =>
    obtain ⟨l1, a1, b1, c1, d1, e, ha, hb, hc, hd⟩ :=
      Tree.insertT_node_form cap pos p f i par r l a b (C.plug t) d
    simp only [Ctx.plug]
    rw [e]
    rcases hc with hc | hc
    · exact ⟨Ctx.se i par r l1 a1 b1 C d1, t, by rw [hc]; rfl,
        ⟨rfl, Tree.insertT_id_of ha, Tree.insertT_id_of hb, Ctx.Like.rfl_like C,
          Tree.insertT_id_of hd⟩, rfl⟩
    · obtain ⟨C1, t1, e1, hl, hid⟩ := ih
      exact ⟨Ctx.se i par r l1 a1 b1 C1 d1, t1, by rw [hc, e1]; rfl,
        ⟨rfl, Tree.insertT_id_of ha, Tree.insertT_id_of hb, hl, Tree.insertT_id_of hd⟩, hid⟩
  | sw i par r l a b c C ih =>
    obtain ⟨l1, a1, b1, c1, d1, e, ha, hb, hc, hd⟩ :=
      Tree.insertT_node_form cap pos p f i par r l a b c (C.plug t)
    simp only [Ctx.plug]
    rw [e]
    rcases hd with hd | hd
    · exact ⟨Ctx.sw i par r l1 a1 b1 c1 C, t, by rw [hd]; rfl,
        ⟨rfl, Tree.insertT_id_of ha, Tree.insertT_id_of hb, Tree.insertT_id_of hc,
          Ctx.Like.rfl_like C⟩, rfl⟩
    · obtain ⟨C1, t1, e1, hl, hid⟩ := ih
      exact ⟨Ctx.sw i par r l1 a1 b1 c1 C1, t1, by rw [hd, e1]; rfl,
        ⟨rfl, Tree.insertT_id_of ha, Tree.insertT_id_of hb, Tree.insertT_id_of hc, hl⟩, hid⟩

/-- A path that continues the path `C0` by `K0` splits in the same way. -/
theorem Ctx.Like.comp_inv {C0 K0 K : Ctx} (h : Ctx.Like (C0.comp K0) K) :
    ∃ C1 K1, K = C1.comp K1 ∧ Ctx.Like C0 C1 ∧ Ctx.Like K0 K1 := by
  induction C0 generalizing K with
  | hole => exact ⟨Ctx.hole, K, rfl, trivial, h⟩
  | ne j q u m C x y z ih =>
    cases K with
    | ne j1 q1 u1 m1 C1 x1 y1 z1 =>
      obtain ⟨e, hl, hx, hy, hz⟩ := h
      obtain ⟨C2, K1, e2, hl2, hk⟩ := ih hl
      exact ⟨Ctx.ne j1 q1 u1 m1 C2 x1 y1 z1, K1, by rw [e2]; rfl, ⟨e, hl2, hx, hy, hz⟩, hk⟩
    | hole => exact h.elim
    | nw => exact h.elim
    | se => exact h.elim
    | sw => exact h.elim
  | nw j q u m x C y z ih =>
    cases K with
    | nw j1 q1 u1 m1 x1 C1 y1 z1 =>
      obtain ⟨e, hx, hl, hy, hz⟩ := h
      obtain ⟨C2, K1, e2, hl2, hk⟩ := ih hl
      exact ⟨Ctx.nw j1 q1 u1 m1 x1 C2 y1 z1, K1, by rw [e2]; rfl, ⟨e, hx, hl2, hy, hz⟩, hk⟩
    | hole => exact h.elim
    | ne => exact h.elim
    | se => exact h.elim
    | sw => exact h.elim
  | se j q u m x y C z ih =>
    cases K with
    | se j1 q1 u1 m1 x1 y1 C1 z1 =>
      obtain ⟨e, hx, hy, hl, hz⟩ := h
      obtain ⟨C2, K1, e2, hl2, hk⟩ := ih hl
      exact ⟨Ctx.se j1 q1 u1 m1 x1 y1 C2 z1, K1, by rw [e2]; rfl, ⟨e, hx, hy, hl2, hz⟩, hk⟩
    | hole => exact h.elim
    | ne => exact h.elim
    | nw => exact h.elim
    | sw => exact h.elim
  | sw j q u m x y z C ih =>
    cases K with
    | sw j1 q1 u1 m1 x1 y1 z1 C1 =>
      obtain ⟨e, hx, hy, hz, hl⟩ := h
      obtain ⟨C2, K1, e2, hl2, hk⟩ := ih hl
      exact ⟨Ctx.sw j1 q1 u1 m1 x1 y1 z1 C2, K1, by rw [e2]; rfl, ⟨e, hx, hy, hz, hl2⟩, hk⟩
    | hole => exact h.elim
    | ne => exact h.elim
    | nw => exact h.elim
    | se => exact h.elim

theorem Ctx.Like.comp_like {C0 C1 K0 K1 : Ctx} (h : Ctx.Like C0 C1) (hk : Ctx.Like K0 K1) :
    Ctx.Like (C0.comp K0) (C1.comp K1) := by
  induction C0 generalizing C1 with
  | hole => cases C1 <;> first | exact h.elim | exact hk
  | ne j q u m C x y z ih =>
    cases C1 <;> first | exact h.elim | skip
    exact ⟨h.1, ih h.2.1, h.2.2.1, h.2.2.2.1, h.2.2.2.2⟩
  | nw j q u m x C y z ih =>
    cases C1 <;> first | exact h.elim | skip
    exact ⟨h.1, h.2.1, ih h.2.2.1, h.2.2.2.1, h.2.2.2.2⟩
  | se j q u m x y C z ih =>
    cases C1 <;> first | exact h.elim | skip
    exact ⟨h.1, h.2.1, h.2.2.1, ih h.2.2.2.1, h.2.2.2.2⟩
  | sw j q u m x y z C ih =>
    cases C1 <;> first | exact h.elim | skip
    exact ⟨h.1, h.2.1, h.2.2.1, h.2.2.2.1, ih h.2.2.2.2⟩

theorem Ctx.Like.hole_eq {K : Ctx} (h : Ctx.Like Ctx.hole K) : K = Ctx.hole := by
  cases K <;> first | rfl | exact h.elim

/-! ## Insertion without reallocation -/

theorem FreeChain.unique {s : QuadTreeManager} {h : QuadtreeID} {F G : List Nat}
    (hF : FreeChain s h F) (hG : FreeChain s h G) : F = G := by
  induction F generalizing h G with
  | nil =>
    cases G with
    | nil => rfl
    | cons b G =>
      have h1 : h = none := hF
      have h2 : h = some b := hG.1
      rw [h1] at h2
      cases h2
  | cons a F ih =>
    cases G with
    | nil =>
      have h1 : h = none := hG
      have h2 : h = some a := hF.1
      rw [h1] at h2
      cases h2
    | cons b G =>
      obtain ⟨h1, -, h3⟩ := hF
      obtain ⟨g1, -, g3⟩ := hG
      rw [h1] at g1
      have e : a = b := Option.some.inj g1
      subst e
      rw [ih h3 g3]

/-- With four records on the free list `subdivide` does not reallocate the table: it takes
the first four records of the list. -/
theorem subdivide_pop (s : QuadTreeManager) (i : Nat) (F F0 : List Nat) (f1 f2 f3 f4 : Nat)
    (hF : FreeChain s s.m_freeID F) (hnd : F.Nodup) (hi : i < s.m_size) (hiF : i ∉ F)
    (hcap : s.m_capacity ≤ 4) (e : F = f1 :: f2 :: f3 :: f4 :: F0) :
    ∃ s1, subdivide s i = some s1 ∧ s1.m_size = s.m_size ∧ FreeChain s1 s1.m_freeID F0 := by
  obtain ⟨s1, a, F1, e1, p1⟩ := Create_spec s (s.m_nodes i).boundary.quadNE (some i) F hF hnd
    (by omega) hcap
  obtain ⟨-, q1, z1⟩ := p1.pop f1 _ e
  subst q1
  obtain ⟨s2, b, F2, e2, p2⟩ := Create_spec s1 (s.m_nodes i).boundary.quadNW (some i) _ p1.free
    (List.nodup_cons.1 p1.nodup).2 (by omega) (by rw [p1.cap_eq]; exact hcap)
  obtain ⟨-, q2, z2⟩ := p2.pop f2 _ rfl
  subst q2
  obtain ⟨s3, c, F3, e3, p3⟩ := Create_spec s2 (s.m_nodes i).boundary.quadSE (some i) _ p2.free
    (List.nodup_cons.1 p2.nodup).2 (by omega) (by rw [p2.cap_eq, p1.cap_eq]; exact hcap)
  obtain ⟨-, q3, z3⟩ := p3.pop f3 _ rfl
  subst q3
  obtain ⟨s4, d, F4, e4, p4⟩ := Create_spec s3 (s.m_nodes i).boundary.quadSW (some i) _ p3.free
    (List.nodup_cons.1 p3.nodup).2 (by omega) (by rw [p3.cap_eq, p2.cap_eq, p1.cap_eq]; exact hcap)
  obtain ⟨-, q4, z4⟩ := p4.pop f4 _ rfl
  subst q4
  have hsub : subdivide s i = some (setNode s4 i
      { s4.m_nodes i with
        northwest := some b
        northeast := some a
        southwest := some d
        southeast := some c
        divided := true }) := by
    simp only [subdivide, Rect.quadNE, Rect.quadNW, Rect.quadSE, Rect.quadSW] at e1 e2 e3 e4 ⊢
    simp only [e1, e2, e3, e4, Option.some_bind]
  refine ⟨_, hsub, ?_, ?_⟩
  · simp only [setNode]
    omega
  · refine FreeChain.congr_chain (s := s4) p4.free (le_refl _) ?_
    intro x hx
    have : x ≠ i := by
      intro e2
      subst e2
      exact hiF (by rw [e]; simp [hx])
    simp only [setNode]
    rw [setAt_ne _ _ this]

/-- With four records on the free list `Insert` does not reallocate the table, and it takes
at most four records off the list. -/
theorem Insert_nogrow (t : Tree) : ∀ (s : QuadTreeManager) (F : List Nat) (fuel p : Nat),
    Rep s t → t.Shape s.m_capacity → FreeChain s s.m_freeID F → (t.ids ++ F).Nodup →
    1 ≤ s.m_capacity → s.m_capacity ≤ 4 → t.height + 1 ≤ fuel →
    t.boundary.contains (s.heap p).position = true → 4 ≤ F.length →
    ∃ s1 F1, Insert fuel s (some t.id) p = some (s1, true) ∧ s1.m_size = s.m_size ∧
      FreeChain s1 s1.m_freeID F1 ∧ F.length ≤ F1.length + 4 := by
  induction t with
  | leaf i par r l =>
    intro s F fuel p hrep _ hF hnd hcap1 hcap4 hfuel hcon h4
    have hN : NodeRep s i par r l false := hrep
    obtain ⟨hi, hpar, hb, hsz, hdata, hdiv⟩ := hN
    have hiF : i ∉ F := by
      simp only [Tree.ids, List.singleton_append, List.nodup_cons] at hnd
      exact hnd.1
    have hFnd : F.Nodup := by
      simp only [Tree.ids, List.singleton_append, List.nodup_cons] at hnd
      exact hnd.2
    obtain ⟨n, rfl⟩ : ∃ n, fuel = n + 1 + 1 :=
      ⟨fuel - 2, by simp only [Tree.height] at hfuel; omega⟩
    simp only [Tree.boundary] at hcon
    simp only [Tree.id]
    have hcon1 : (s.m_nodes i).boundary.contains (s.heap p).position = true := by
      rw [hb]; exact hcon
    by_cases hroom : l.length < s.m_capacity
    · refine ⟨pushPoint s i p, F,
        Insert_room_eq (n + 1) s i p hi hcon1 (by rw [hsz]; exact hroom) hcap4, rfl, ?_,
        by omega⟩
      refine FreeChain.congr_chain (s := s) hF (le_refl _) ?_
      intro y hy
      exact pushPoint_nodes_ne s i p (by intro e; subst e; exact hiF hy)
    · obtain ⟨f1, f2, f3, f4, F0, eF⟩ : ∃ f1 f2 f3 f4 F0, F = f1 :: f2 :: f3 :: f4 :: F0 := by
        match F, h4 with
        | f1 :: f2 :: f3 :: f4 :: F0, _ => exact ⟨f1, f2, f3, f4, F0, rfl⟩
      obtain ⟨s0, a, b, c, d, F1, hsub, sp⟩ := subdivide_spec s i F hF hFnd hi hiF hcap4
      obtain ⟨s0', hsub', hsize, hfree⟩ :=
        subdivide_pop s i F F0 f1 f2 f3 f4 hF hFnd hi hiF hcap4 eF
      rw [hsub] at hsub'
      have es : s0' = s0 := (Option.some.inj hsub').symm
      subst es
      have eF1 : F1 = F0 := FreeChain.unique sp.free hfree
      subst eF1
      have hfull : ¬ (s.m_nodes i).size < s.m_capacity := by rw [hsz]; exact hroom
      have h0 : (if !(s.m_nodes i).divided then subdivide s i else some s) = some s0' := by
        simp [hdiv, hsub]
      have hba : (s0'.m_nodes a).boundary = r.quadNE := by rw [sp.repNE.2.2.1, hb]
      have hbb : (s0'.m_nodes b).boundary = r.quadNW := by rw [sp.repNW.2.2.1, hb]
      have hbc : (s0'.m_nodes c).boundary = r.quadSE := by rw [sp.repSE.2.2.1, hb]
      have hbd : (s0'.m_nodes d).boundary = r.quadSW := by rw [sp.repSW.2.2.1, hb]
      have hd := sp.nodup
      simp only [List.nodup_cons, List.mem_cons, not_or] at hd
      obtain ⟨⟨ab, ac, ad, aF⟩, ⟨bc, bd, bF⟩, ⟨cd, cF⟩, dF, -⟩ := hd
      have hpush : ∀ x q, NodeRep s0' x (some i) q [] false →
          q.contains (s.heap p).position = true →
          Insert (n + 1) s0' (some x) p = some (pushPoint s0' x p, true) := by
        intro x q hx hq
        refine Insert_room_eq n s0' x p hx.1 ?_ ?_ (by rw [sp.cap_eq]; exact hcap4)
        · rw [hx.2.2.1, sp.heap_eq]; exact hq
        · rw [hx.2.2.2.1, sp.cap_eq]; exact hcap1
      have hdesc := fun x hx hr => Insert_descend (n + 1) s s0' i p a b c d x
        (pushPoint s0' x p)
        hi hcon1 hfull h0 (by rw [sp.node_eq]) (by rw [sp.node_eq]) (by rw [sp.node_eq])
        (by rw [sp.node_eq]) sp.repNE.1 sp.repNW.1 sp.repSE.1 sp.repSW.1 hx hr
      rw [hba, hbb, hbc, hbd, sp.heap_eq] at hdesc
      have hq := Rect.contains_quad r _ hcon
      have hchain : ∀ x, x ∉ F1 → FreeChain (pushPoint s0' x p) (pushPoint s0' x p).m_freeID F1 := by
        intro x hx
        refine FreeChain.congr_chain (s := s0') hfree (le_refl _) ?_
        intro y hy
        exact pushPoint_nodes_ne s0' x p (by intro e; subst e; exact hx hy)
      have hlen : F.length ≤ F1.length + 4 := by rw [eF]; simp
      by_cases qa : r.quadNE.contains (s.heap p).position = true
      · exact ⟨pushPoint s0' a p, F1,
          hdesc a (Or.inl ⟨qa, rfl⟩) (hpush a _ (by have := sp.repNE; rwa [hb] at this) qa),
          hsize, hchain a aF, hlen⟩
      · simp only [Bool.not_eq_true] at qa
        by_cases qb : r.quadNW.contains (s.heap p).position = true
        · exact ⟨pushPoint s0' b p, F1,
            hdesc b (Or.inr (Or.inl ⟨qa, qb, rfl⟩))
              (hpush b _ (by have := sp.repNW; rwa [hb] at this) qb),
            hsize, hchain b bF, hlen⟩
        · simp only [Bool.not_eq_true] at qb
          by_cases qc : r.quadSE.contains (s.heap p).position = true
          · exact ⟨pushPoint s0' c p, F1,
              hdesc c (Or.inr (Or.inr (Or.inl ⟨qa, qb, qc, rfl⟩)))
                (hpush c _ (by have := sp.repSE; rwa [hb] at this) qc),
              hsize, hchain c cF, hlen⟩
          · simp only [Bool.not_eq_true] at qc
            have qd : r.quadSW.contains (s.heap p).position = true := by
              simpa [qa, qb, qc] using hq
            exact ⟨pushPoint s0' d p, F1,
              hdesc d (Or.inr (Or.inr (Or.inr ⟨qa, qb, qc, qd, rfl⟩)))
                (hpush d _ (by have := sp.repSW; rwa [hb] at this) qd),
              hsize, hchain d dF, hlen⟩
  | node i par r l a b c d iha ihb ihc ihd =>
    intro s F fuel p hrep hshape hF hnd hcap1 hcap4 hfuel hcon h4
    obtain ⟨hN, hne, hnw, hse, hsw, ra, rb, rc, rd⟩ := hrep
    obtain ⟨hl, pa, pb, pc, pd, ba, bb, bc, bd, sa, sb, sc, sd⟩ := hshape
    obtain ⟨n, rfl⟩ : ∃ n, fuel = n + 1 := ⟨fuel - 1, by simp [Tree.height] at hfuel; omega⟩
    simp only [Tree.height] at hfuel
    simp only [Tree.boundary] at hcon
    simp only [Tree.id]
    have hi : i < s.m_size := hN.1
    have hcon1 : (s.m_nodes i).boundary.contains (s.heap p).position = true := by
      rw [hN.2.2.1]; exact hcon
    have hnd0 := hnd
    simp only [Tree.ids, List.cons_append, List.nodup_cons, List.mem_append, not_or] at hnd
    obtain ⟨⟨⟨⟨⟨ia, ib⟩, ic⟩, id_⟩, iF⟩, hrest⟩ := hnd
    have hsubnd : ∀ (x : Tree), (∀ y, x.ids.count y ≤
        (Tree.node i par r l a b c d).ids.count y) → (x.ids ++ F).Nodup := by
      intro x hx
      refine List.nodup_iff_count_le_one.2 (fun y => ?_)
      have h1 := List.nodup_iff_count_le_one.1 hnd0 y
      have h2 := hx y
      simp only [List.count_append] at h1 ⊢
      omega
    by_cases hroom : l.length < s.m_capacity
    · refine ⟨pushPoint s i p, F,
        Insert_room_eq n s i p hi hcon1 (by rw [hN.2.2.2.1]; exact hroom) hcap4, rfl, ?_,
        by omega⟩
      refine FreeChain.congr_chain (s := s) hF (le_refl _) ?_
      intro y hy
      exact pushPoint_nodes_ne s i p (by intro e; subst e; exact iF hy)
    · have hfull : ¬ (s.m_nodes i).size < s.m_capacity := by rw [hN.2.2.2.1]; exact hroom
      have h0 : (if !(s.m_nodes i).divided then subdivide s i else some s) = some s := by
        simp [hN.2.2.2.2.2]
      have hdesc := fun x r hx hr => Insert_descend n s s i p a.id b.id c.id d.id x r
        hi hcon1 hfull h0 hne hnw hse hsw ra.id_lt rb.id_lt rc.id_lt rd.id_lt hx hr
      rw [ra.boundary_eq, rb.boundary_eq, rc.boundary_eq, rd.boundary_eq] at hdesc
      have hq := Rect.contains_quad r _ hcon
      rw [← ba, ← bb, ← bc, ← bd] at hq
      by_cases qa : a.boundary.contains (s.heap p).position = true
      · obtain ⟨s1, F1, hins, hsize, hfree, hlen⟩ := iha s F n p ra sa hF
          (hsubnd a (fun y => by simp only [Tree.ids, List.count_cons, List.count_append]; omega))
          hcap1 hcap4 (by omega) qa h4
        exact ⟨s1, F1, hdesc a.id s1 (Or.inl ⟨qa, rfl⟩) hins, hsize, hfree, hlen⟩
      · simp only [Bool.not_eq_true] at qa
        by_cases qb : b.boundary.contains (s.heap p).position = true
        · obtain ⟨s1, F1, hins, hsize, hfree, hlen⟩ := ihb s F n p rb sb hF
            (hsubnd b (fun y => by
              simp only [Tree.ids, List.count_cons, List.count_append]; omega))
            hcap1 hcap4 (by omega) qb h4
          exact ⟨s1, F1, hdesc b.id s1 (Or.inr (Or.inl ⟨qa, qb, rfl⟩)) hins, hsize, hfree, hlen⟩
        · simp only [Bool.not_eq_true] at qb
          by_cases qc : c.boundary.contains (s.heap p).position = true
          · obtain ⟨s1, F1, hins, hsize, hfree, hlen⟩ := ihc s F n p rc sc hF
              (hsubnd c (fun y => by
                simp only [Tree.ids, List.count_cons, List.count_append]; omega))
              hcap1 hcap4 (by omega) qc h4
            exact ⟨s1, F1, hdesc c.id s1 (Or.inr (Or.inr (Or.inl ⟨qa, qb, qc, rfl⟩))) hins,
              hsize, hfree, hlen⟩
          · simp only [Bool.not_eq_true] at qc
            have qd : d.boundary.contains (s.heap p).position = true := by
              simpa [qa, qb, qc] using hq
            obtain ⟨s1, F1, hins, hsize, hfree, hlen⟩ := ihd s F n p rd sd hF
              (hsubnd d (fun y => by
                simp only [Tree.ids, List.count_cons, List.count_append]; omega))
              hcap1 hcap4 (by omega) qd h4
            exact ⟨s1, F1, hdesc d.id s1 (Or.inr (Or.inr (Or.inr ⟨qa, qb, qc, qd, rfl⟩))) hins,
              hsize, hfree, hlen⟩

/-! ## Steps of `update` that have a result -/

theorem posOf_of_heap {s s1 : QuadTreeManager} (h : s1.heap = s.heap) : posOf s1 = posOf s := by
  unfold posOf
  rw [h]

theorem posOf_of_samePos {s s1 : QuadTreeManager} (h : SamePos s s1) : posOf s1 = posOf s :=
  funext fun q => h q

theorem length_le_of_nodup_subset {F F1 : List Nat} (hnd : F.Nodup) (h : ∀ x ∈ F, x ∈ F1) :
    F.length ≤ F1.length :=
  (List.subperm_of_subset hnd h).length_le

/-- A call `remove` at a live node with enough recursion depth: its result, the new tree,
and the free list, which does not shrink. -/
theorem remove_total (s : QuadTreeManager) (C : Ctx) (t : Tree) (F : List Nat) (fuel p : Nat)
    (hw : WF s (C.plug t) F) (hf : t.height ≤ fuel) :
    ∃ s1 F1, remove fuel s (some t.id) p = some (s1, (t.removeT p).2) ∧
      WF s1 (C.plug (t.removeT p).1) F1 ∧ s1.heap = s.heap ∧ s1.m_size = s.m_size ∧
      F.length ≤ F1.length := by
  have hrep := Ctx.rep_hole s C t hw.rep
  have hshape := Ctx.shape_hole _ C t hw.shape
  obtain ⟨s1, F1, e, post, -⟩ := remove_refines t s F fuel p hrep hshape
    hw.cap_le hw.free hw.nodup_hole hf
  exact ⟨s1, F1, e, WF.lift_shrink hw post (Tree.removeT_id p t)
    (Tree.removeT_parent p t) (Tree.removeT_boundary p t) (Tree.removeT_shape _ p t hshape),
    post.heap_eq, post.size_eq,
    length_le_of_nodup_subset (List.nodup_append.1 hw.nodup).2.1
      (post.free_sub hw.nodup_hole)⟩

/-- A call `tryCollapse` at a live node with enough recursion depth. -/
theorem collapse_total (s : QuadTreeManager) (C : Ctx) (t : Tree) (F : List Nat) (fuel : Nat)
    (hw : WF s (C.plug t) F) (hf : t.height ≤ fuel + 1) :
    ∃ s1 F1, tryCollapse fuel s t.id = some s1 ∧ WF s1 (C.plug t.collapseT) F1 ∧
      s1.heap = s.heap ∧ s1.m_size = s.m_size ∧ F.length ≤ F1.length := by
  have hrep := Ctx.rep_hole s C t hw.rep
  have hshape := Ctx.shape_hole _ C t hw.shape
  obtain ⟨s1, F1, e, post, -⟩ := tryCollapse_spec t s F fuel hrep hw.free hw.nodup_hole hf
  exact ⟨s1, F1, e, WF.lift_shrink hw post (Tree.collapseT_id t)
    (Tree.collapseT_parent t) (Tree.collapseT_boundary t) (Tree.collapseT_shape _ t hshape),
    post.heap_eq, post.size_eq,
    length_le_of_nodup_subset (List.nodup_append.1 hw.nodup).2.1
      (post.free_sub hw.nodup_hole)⟩

/-- A call `Insert` at the root with enough recursion depth and four records on the free
list: the table is not reallocated, every path of the tree stays in place, and the point is
stored, if at all, in a node whose region contains it. -/
theorem insert_total (s : QuadTreeManager) (C : Ctx) (t : Tree) (F : List Nat) (fuel p : Nat)
    (hw : WF s (C.plug t) F) (hf : (C.plug t).height + 1 ≤ fuel) (h4 : 4 ≤ F.length) :
    ∃ s1 C1 t1 F1 r, Insert fuel s (some (C.plug t).id) p = some (s1, r) ∧
      WF s1 (C1.plug t1) F1 ∧ Ctx.Like C C1 ∧ t1.id = t.id ∧ s1.m_size = s.m_size ∧
      F.length ≤ F1.length + 4 ∧ SamePos s s1 ∧
      (C1.plug t1).out (posOf s1) = (C.plug t).out (posOf s) := by
  rcases Insert_enough s (C.plug t) F p fuel hw hf with
    ⟨-, h⟩ | ⟨hc, s1, F1, f, k, h, hk, post⟩
  · exact ⟨s, C, t, F, false, h, hw, Ctx.Like.rfl_like C, rfl, rfl, by omega, fun _ => rfl, rfl⟩
  · obtain ⟨s2, F2, h2, hsize, hfree, hlen⟩ := Insert_nogrow (C.plug t) s F fuel p hw.rep
      hw.shape hw.free hw.nodup hw.cap_pos hw.cap_le hf hc h4
    rw [h] at h2
    have es : s2 = s1 := (congrArg Prod.fst (Option.some.inj h2)).symm
    subst es
    have eF : F1 = F2 := FreeChain.unique post.free hfree
    subst eF
    obtain ⟨C1, t1, e1, hl, hid⟩ :=
      Ctx.insertT_plug s.m_capacity (s.heap p).position p f C t
    have hw1 := InsertPost.wf hw post
    rw [e1] at hw1
    have hpos : SamePos s s2 := fun q => post.position_eq q
    refine ⟨s2, C1, t1, F1, true, h, hw1, hl, hid, hsize, hlen, hpos, ?_⟩
    rw [posOf_of_samePos hpos, ← e1]
    exact Tree.insertT_out (posOf s) s.m_capacity p f (C.plug t)

/-- The scan loop of `update` at a live node has a result when the recursion depth is at
least the table size; the table size does not change, the free list does not shrink, and
every point that is staged was outside the region of its holder. -/
theorem updateScan_total (fuel : Nat) (C : Ctx) (i : Nat) : ∀ (n k : Nat) (s : QuadTreeManager)
    (staged : List Nat) (t : Tree) (F : List Nat),
    WF s (C.plug t) F → t.id = i → k + n ≤ 4 → s.m_size ≤ fuel →
    ∃ s1 staged1 t1 F1, updateScan fuel i k n s staged = some (s1, staged1) ∧
      WF s1 (C.plug t1) F1 ∧ t1.id = i ∧ s1.heap = s.heap ∧ s1.m_size = s.m_size ∧
      F.length ≤ F1.length ∧
      (C.plug t1).out (posOf s1) + staged1.length ≤ (C.plug t).out (posOf s) + staged.length := by
  intro n
  induction n with
  | zero =>
    intro k s staged t F hw hid _ _
    exact ⟨s, staged, t, F, by simp [updateScan], hw, hid, rfl, rfl, le_refl _, le_refl _⟩
  | succ n ih =>
    intro k s staged t F hw hid hk hfuel
    have h4 : ¬ 4 ≤ k := by omega
    simp only [updateScan, if_neg h4]
    rcases hd : (s.m_nodes i).data k with _ | player
    · exact ih (k + 1) s staged t F hw hid (by omega) hfuel
    · simp only []
      split_ifs with hc
      · have hrep := Ctx.rep_hole s C t hw.rep
        have hshape := Ctx.shape_hole _ C t hw.shape
        have hth : t.height ≤ fuel := by
          have h1 := Ctx.height_ge C t
          have h2 := hw.height_le_size
          omega
        obtain ⟨s2, F2, hrem, hw2, hheap2, hsize2, hlen2⟩ :=
          remove_total s C t F fuel player hw hth
        rw [hid] at hrem
        rw [hrem]
        simp only [Option.some_bind]
        have hb : (s.m_nodes i).boundary = t.boundary := by
          rw [← hid]
          exact hrep.boundary_eq
        have hnc : t.boundary.contains (posOf s player) = false := by
          rw [hb] at hc
          simpa using hc
        have hout := Tree.removeT_out (posOf s) s.m_capacity player t hshape hnc
        have hid2 : (t.removeT player).1.id = i := (Tree.removeT_id player t).trans hid
        rcases hr : (t.removeT player).2 with _ | _
        · rw [hr] at hout
          simp only [Bool.false_eq_true, if_false]
          obtain ⟨s1, staged1, t1, F1, e, hw1, hid1, hheap1, hsize1, hlen1, hpot1⟩ :=
            ih (k + 1) s2 staged _ F2 hw2 hid2 (by omega) (by omega)
          refine ⟨s1, staged1, t1, F1, e, hw1, hid1, hheap1.trans hheap2,
            hsize1.trans hsize2, le_trans hlen2 hlen1, ?_⟩
          rw [posOf_of_heap hheap2] at hpot1
          simp only [Ctx.plug_out] at hpot1 ⊢
          simp only [Bool.false_eq_true, if_false] at hout
          omega
        · rw [hr] at hout
          simp only [if_true]
          obtain ⟨s1, staged1, t1, F1, e, hw1, hid1, hheap1, hsize1, hlen1, hpot1⟩ :=
            ih (k + 1) s2 (staged ++ [player]) _ F2 hw2 hid2 (by omega) (by omega)
          refine ⟨s1, staged1, t1, F1, e, hw1, hid1, hheap1.trans hheap2,
            hsize1.trans hsize2, le_trans hlen2 hlen1, ?_⟩
          rw [posOf_of_heap hheap2] at hpot1
          simp only [Ctx.plug_out, List.length_append, List.length_singleton] at hpot1 ⊢
          simp only [if_true] at hout
          omega
      · exact ih (k + 1) s staged t F hw hid (by omega) hfuel

/-- The reinsertion loop of `update` has a result when the recursion depth exceeds the table
size and the free list holds four records for every staged point. -/
theorem reinsert_total (fuel root : Nat) : ∀ (staged : List Nat) (s : QuadTreeManager)
    (C : Ctx) (t : Tree) (F : List Nat),
    WF s (C.plug t) F → (C.plug t).id = root → s.m_size + 1 ≤ fuel →
    4 * ((C.plug t).out (posOf s) + staged.length) ≤ F.length →
    ∃ s1 C1 t1 F1, reinsert fuel (some root) s staged = some s1 ∧
      WF s1 (C1.plug t1) F1 ∧ Ctx.Like C C1 ∧ t1.id = t.id ∧ s1.m_size = s.m_size ∧
      SamePos s s1 ∧ 4 * (C1.plug t1).out (posOf s1) ≤ F1.length := by
  intro staged
  induction staged with
  | nil =>
    intro s C t F hw _ _ hpot
    exact ⟨s, C, t, F, rfl, hw, Ctx.Like.rfl_like C, rfl, rfl, fun _ => rfl,
      by simp only [List.length_nil] at hpot; omega⟩
  | cons p rest ih =>
    intro s C t F hw hroot hfuel hpot
    simp only [List.length_cons] at hpot
    obtain ⟨s2, C2, t2, F2, r, hins, hw2, hl2, hid2, hsize2, hlen2, hpos2, hout2⟩ :=
      insert_total s C t F fuel p hw (by have := hw.height_le_size; omega) (by omega)
    rw [hroot] at hins
    have hroot2 : (C2.plug t2).id = root := (hl2.plug_id_eq t t2 hid2).trans hroot
    obtain ⟨s1, C1, t1, F1, e, hw1, hl1, hid1, hsize1, hpos1, hpot1⟩ :=
      ih s2 C2 t2 F2 hw2 hroot2 (by omega) (by omega)
    refine ⟨s1, C1, t1, F1, ?_, hw1, hl2.trans_like hl1, hid1.trans hid2,
      hsize1.trans hsize2, fun q => (hpos1 q).trans (hpos2 q), hpot1⟩
    simp only [reinsert, hins, Option.some_bind]
    exact e

/-! ## `update` without reallocation has a result -/

/-- One of the four child calls of `update`, given the statement for the recursion depth of
the child call: the path to the node of the parent call stays in place and so do the
four children of that node. -/
theorem update_child_total (root n : Nat)
    (IH : ∀ (s : QuadTreeManager) (C : Ctx) (t : Tree) (F : List Nat),
      WF s (C.plug t) F → (C.plug t).id = root → 2 * s.m_size + 2 ≤ n + C.depth →
      4 * (C.plug t).out (posOf s) ≤ F.length →
      ∃ s1 C1 t1 F1, update n s (some t.id) (some root) = some s1 ∧
        WF s1 (C1.plug t1) F1 ∧ Ctx.Like C C1 ∧ t1.id = t.id ∧ s1.m_size = s.m_size ∧
        SamePos s s1 ∧ 4 * (C1.plug t1).out (posOf s1) ≤ F1.length)
    (s : QuadTreeManager) (C K : Ctx) (x : Tree) (F : List Nat)
    (hw : WF s (C.plug (K.plug x)) F) (hroot : (C.plug (K.plug x)).id = root)
    (hfuel : 2 * s.m_size + 2 ≤ n + C.depth + K.depth)
    (hpot : 4 * (C.plug (K.plug x)).out (posOf s) ≤ F.length) :
    ∃ s1 C1 K1 x1 F1, update n s (some x.id) (some root) = some s1 ∧
      WF s1 (C1.plug (K1.plug x1)) F1 ∧ Ctx.Like C C1 ∧ Ctx.Like K K1 ∧ x1.id = x.id ∧
      s1.m_size = s.m_size ∧ SamePos s s1 ∧
      4 * (C1.plug (K1.plug x1)).out (posOf s1) ≤ F1.length := by
  rw [← Ctx.plug_comp] at hw hroot hpot
  obtain ⟨s1, CK, x1, F1, e, hw1, hl, hid, hsize, hpos, hpot1⟩ :=
    IH s (C.comp K) x F hw hroot (by rw [Ctx.depth_comp]; omega) hpot
  obtain ⟨C1, K1, eCK, hlC, hlK⟩ := hl.comp_inv
  subst eCK
  rw [Ctx.plug_comp] at hw1 hpot1
  exact ⟨s1, C1, K1, x1, F1, e, hw1, hlC, hlK, hid, hsize, hpos, hpot1⟩

/-- The method `update` has a result when the recursion depth is at least twice the table
size plus two and the free list holds four records for every stored point that lies outside
the region of its holder: no call reallocates the table. -/
theorem update_total (root : Nat) : ∀ (fuel : Nat) (s : QuadTreeManager) (C : Ctx) (t : Tree)
    (F : List Nat),
    WF s (C.plug t) F → (C.plug t).id = root → 2 * s.m_size + 2 ≤ fuel + C.depth →
    4 * (C.plug t).out (posOf s) ≤ F.length →
    ∃ s1 C1 t1 F1, update fuel s (some t.id) (some root) = some s1 ∧
      WF s1 (C1.plug t1) F1 ∧ Ctx.Like C C1 ∧ t1.id = t.id ∧ s1.m_size = s.m_size ∧
      SamePos s s1 ∧ 4 * (C1.plug t1).out (posOf s1) ≤ F1.length := by
  intro fuel
  induction fuel with
  | zero =>
    intro s C t F hw _ hfuel _
    have h1 := Ctx.height_ge C t
    have h2 := hw.height_le_size
    have h3 := Tree.height_pos t
    omega
  | succ n IH =>
    intro s C t F hw hroot hfuel hpot
    have h1 := Ctx.height_ge C t
    have h2 := hw.height_le_size
    have h3 := Tree.height_pos t
    have hrep := Ctx.rep_hole s C t hw.rep
    have hshape := Ctx.shape_hole _ C t hw.shape
    have hlt : t.id < s.m_size := hrep.id_lt
    have hcap := hw.cap_le
    -- the scan loop
    obtain ⟨sa, staged, ta, Fa, hscan, hwa, hida, hheapa, hsizea, hlena, hpota⟩ :=
      updateScan_total n C t.id (s.m_nodes t.id).size 0 s [] t F hw rfl
        (by rw [hrep.size_eq]; have := hshape.pts_le; omega) (by omega)
    simp only [List.length_nil, Nat.add_zero] at hpota
    have hroota : (C.plug ta).id = root := (Ctx.plug_id C t ta hida).trans hroot
    -- the reinsertions
    obtain ⟨s0, C0, t0, F0, hre, hw0, hl0, hid0, hsize0, hpos0, hpot0⟩ :=
      reinsert_total n root staged sa C ta Fa hwa hroota (by omega) (by omega)
    have hid0' : t0.id = t.id := hid0.trans hida
    have hsz0 : s0.m_size = s.m_size := hsize0.trans hsizea
    have hposa : SamePos s sa := fun q => by rw [hheapa]
    have hpos0' : SamePos s s0 := fun q => (hpos0 q).trans (hposa q)
    have hroot0 : (C0.plug t0).id = root := (hl0.plug_id_eq ta t0 hid0).trans hroota
    have hd0 := hl0.depth_eq
    have hrep0 := Ctx.rep_hole s0 C0 t0 hw0.rep
    have hdiv0 := hrep0.divided_eq
    rw [hid0'] at hdiv0
    cases t0 with
    | leaf i par r l =>
      refine ⟨s0, C0, _, F0, ?_, hw0, hl0, hid0', hsz0, hpos0', hpot0⟩
      simp only [Tree.divided] at hdiv0
      simp only [update, resolve_some hlt, hscan, Option.some_bind, hre, hdiv0,
        Bool.false_eq_true, if_false]
    | node i par r l a b c d =>
      have hi : i = t.id := hid0'
      subst hi
      simp only [Tree.divided] at hdiv0
      obtain ⟨-, hne0, -, -, -, -, -, -, -⟩ := hrep0
      -- northeast
      obtain ⟨s1, C1, K1, a1, F1, hu1, hw1, hlC1, hlK1, hida1, hsize1, hpos1, hpot1⟩ :=
        update_child_total root n IH s0 C0 (Ctx.ne t.id par r l Ctx.hole b c d) a F0 hw0
          hroot0 (by simp only [Ctx.depth]; omega) hpot0
      cases K1 with
      | hole => exact hlK1.elim
      | nw => exact hlK1.elim
      | se => exact hlK1.elim
      | sw => exact hlK1.elim
      | ne i1 par1 r1 l1 H1 b1 c1 d1 =>
      obtain ⟨ei1, hH1, hb1, hc1, hd1⟩ := hlK1
      have eH1 := hH1.hole_eq
      subst eH1
      subst ei1
      simp only [Ctx.plug] at hw1 hpot1
      have hrep1 := Ctx.rep_hole s1 C1 _ hw1.rep
      obtain ⟨-, -, hnw1, -, -, -, -, -, -⟩ := hrep1
      have hroot1 : (C1.plug (Tree.node t.id par1 r1 l1 a1 b1 c1 d1)).id = root :=
        (hlC1.plug_id_eq (Tree.node t.id par r l a b c d)
          (Tree.node t.id par1 r1 l1 a1 b1 c1 d1) rfl).trans hroot0
      have hdp1 := hlC1.depth_eq
      -- northwest
      obtain ⟨s2, C2, K2, b2, F2, hu2, hw2, hlC2, hlK2, hidb2, hsize2, hpos2, hpot2⟩ :=
        update_child_total root n IH s1 C1 (Ctx.nw t.id par1 r1 l1 a1 Ctx.hole c1 d1) b1 F1 hw1
          hroot1 (by simp only [Ctx.depth]; omega) hpot1
      cases K2 with
      | hole => exact hlK2.elim
      | ne => exact hlK2.elim
      | se => exact hlK2.elim
      | sw => exact hlK2.elim
      | nw i2 par2 r2 l2 a2 H2 c2 d2 =>
      obtain ⟨ei2, ha2, hH2, hc2, hd2⟩ := hlK2
      have eH2 := hH2.hole_eq
      subst eH2
      subst ei2
      simp only [Ctx.plug] at hw2 hpot2
      have hrep2 := Ctx.rep_hole s2 C2 _ hw2.rep
      obtain ⟨-, -, -, hse2, -, -, -, -, -⟩ := hrep2
      have hroot2 : (C2.plug (Tree.node t.id par2 r2 l2 a2 b2 c2 d2)).id = root :=
        (hlC2.plug_id_eq (Tree.node t.id par1 r1 l1 a1 b1 c1 d1)
          (Tree.node t.id par2 r2 l2 a2 b2 c2 d2) rfl).trans hroot1
      have hdp2 := hlC2.depth_eq
      -- southeast
      obtain ⟨s3, C3, K3, c3, F3, hu3, hw3, hlC3, hlK3, hidc3, hsize3, hpos3, hpot3⟩ :=
        update_child_total root n IH s2 C2 (Ctx.se t.id par2 r2 l2 a2 b2 Ctx.hole d2) c2 F2 hw2
          hroot2 (by simp only [Ctx.depth]; omega) hpot2
      cases K3 with
      | hole => exact hlK3.elim
      | ne => exact hlK3.elim
      | nw => exact hlK3.elim
      | sw => exact hlK3.elim
      | se i3 par3 r3 l3 a3 b3 H3 d3 =>
      obtain ⟨ei3, ha3, hb3, hH3, hd3⟩ := hlK3
      have eH3 := hH3.hole_eq
      subst eH3
      subst ei3
      simp only [Ctx.plug] at hw3 hpot3
      have hrep3 := Ctx.rep_hole s3 C3 _ hw3.rep
      obtain ⟨-, -, -, -, hsw3, -, -, -, -⟩ := hrep3
      have hroot3 : (C3.plug (Tree.node t.id par3 r3 l3 a3 b3 c3 d3)).id = root :=
        (hlC3.plug_id_eq (Tree.node t.id par2 r2 l2 a2 b2 c2 d2)
          (Tree.node t.id par3 r3 l3 a3 b3 c3 d3) rfl).trans hroot2
      have hdp3 := hlC3.depth_eq
      -- southwest
      obtain ⟨s4, C4, K4, d4, F4, hu4, hw4, hlC4, hlK4, hidd4, hsize4, hpos4, hpot4⟩ :=
        update_child_total root n IH s3 C3 (Ctx.sw t.id par3 r3 l3 a3 b3 c3 Ctx.hole) d3 F3 hw3
          hroot3 (by simp only [Ctx.depth]; omega) hpot3
      cases K4 with
      | hole => exact hlK4.elim
      | ne => exact hlK4.elim
      | nw => exact hlK4.elim
      | se => exact hlK4.elim
      | sw i4 par4 r4 l4 a4 b4 c4 H4 =>
      obtain ⟨ei4, ha4, hb4, hc4, hH4⟩ := hlK4
      have eH4 := hH4.hole_eq
      subst eH4
      subst ei4
      simp only [Ctx.plug] at hw4 hpot4
      -- the collapse check
      have hh4 := Ctx.height_ge C4 (Tree.node t.id par4 r4 l4 a4 b4 c4 d4)
      have hm4 := hw4.height_le_size
      obtain ⟨s5, F5, hco, hw5, hheap5, hsize5, hlen5⟩ :=
        collapse_total s4 C4 (Tree.node t.id par4 r4 l4 a4 b4 c4 d4) F4 n hw4 (by omega)
      have e1 : s1.m_size = s0.m_size := hsize1
      have e2 : s2.m_size = s0.m_size := hsize2.trans e1
      have e3 : s3.m_size = s0.m_size := hsize3.trans e2
      have e4 : s4.m_size = s0.m_size := hsize4.trans e3
      refine ⟨s5, C4, _, F5, ?_, hw5,
        hl0.trans_like (hlC1.trans_like (hlC2.trans_like (hlC3.trans_like hlC4))),
        Tree.collapseT_id _, hsize5.trans (e4.trans hsz0), ?_, ?_⟩
      · simp only [update, resolve_some hlt, hscan, Option.some_bind, hre, hdiv0, if_true,
          hne0, hu1, e1, ne_eq, not_true_eq_false, if_false, hnw1, hu2, e2, hse2, hu3, e3,
          hsw3, hu4, e4]
        exact hco
      · intro q
        rw [hheap5]
        exact (hpos4 q).trans ((hpos3 q).trans ((hpos2 q).trans ((hpos1 q).trans (hpos0' q))))
      · rw [posOf_of_heap hheap5]
        simp only [Ctx.plug_out, Tree.collapseT_out] at hpot4 ⊢
        omega

/-! ## Bucket indices -/

/-- The loop of `remove` returns an index among the slots it ran over. -/
theorem scanBucket_index (node : QuadTreeNode) (p : Nat) : ∀ (n i k : Nat),
    scanBucket node p i n = some (some k) → i ≤ k ∧ k < i + n := by
  intro n
  induction n with
  | zero =>
    intro i k h
    simp [scanBucket] at h
  | succ n ih =>
    intro i k h
    unfold scanBucket at h
    split_ifs at h with h4 hd
    · have := Option.some.inj (Option.some.inj h)
      omega
    · have := ih (i + 1) k h
      omega

/-- The loop of `remove` over the slots `i, .., i + n - 1` depends on these slots only. -/
theorem scanBucket_congr (node node1 : QuadTreeNode) (p : Nat) : ∀ (n i : Nat),
    (∀ j, i ≤ j → j < i + n → node1.data j = node.data j) →
    scanBucket node1 p i n = scanBucket node p i n := by
  intro n
  induction n with
  | zero =>
    intro i _
    simp [scanBucket]
  | succ n ih =>
    intro i h
    unfold scanBucket
    rw [h i (le_refl _) (by omega), ih (i + 1) fun j h1 h2 => h j (by omega) (by omega)]

/-- The loop of `query` over the slots `i, .., i + n - 1` depends on these slots (and on the
positions of the points) only. -/
theorem queryScan_congr (s s1 : QuadTreeManager) (id : Nat) (range : Rect)
    (hh : s1.heap = s.heap) : ∀ (n i : Nat) (found : List fquery),
    (∀ j, i ≤ j → j < i + n → (s1.m_nodes id).data j = (s.m_nodes id).data j) →
    queryScan s1 id range i n found = queryScan s id range i n found := by
  intro n
  induction n with
  | zero =>
    intro i found _
    simp [queryScan]
  | succ n ih =>
    intro i found h
    unfold queryScan
    rw [h i (le_refl _) (by omega), hh]
    have hrec := fun f => ih (i + 1) f fun j h1 h2 => h j (by omega) (by omega)
    simp only [hrec]

/-- With room in the bucket, `Insert` writes the slot `size`: the call has a result exactly
when that slot is one of the four of the array. -/
theorem Insert_slot (fuel : Nat) (s : QuadTreeManager) (i p : Nat) (hi : i < s.m_size)
    (hc : (s.m_nodes i).boundary.contains (s.heap p).position = true)
    (hr : (s.m_nodes i).size < s.m_capacity) :
    Insert (fuel + 1) s (some i) p ≠ none ↔ (s.m_nodes i).size < 4 := by
  by_cases h4 : 4 ≤ (s.m_nodes i).size
  · simp [Insert, resolve, hi, hc, hr, h4]
  · simp [Insert, resolve, hi, hc, hr, h4]
    omega

/-- The method `update`, called on the root of a well-formed index, has a result when the
free list holds four records for every stored point outside the region of its holder. -/
theorem update_returns (s : QuadTreeManager) (T : Tree) (F : List Nat) (fuel : Nat)
    (hw : WF s T F) (hfuel : 2 * s.m_size + 2 ≤ fuel)
    (hfree : 4 * T.out (posOf s) ≤ F.length) :
    ∃ s1 T1 F1, update fuel s (some T.id) (some T.id) = some s1 ∧ WF s1 T1 F1 ∧
      T1.id = T.id ∧ s1.m_size = s.m_size ∧ SamePos s s1 ∧
      4 * T1.out (posOf s1) ≤ F1.length := by
  obtain ⟨s1, C1, t1, F1, e, hw1, hl, hid, hsz, hpos, hout⟩ :=
    update_total T.id fuel s Ctx.hole T F hw rfl (by simpa [Ctx.depth] using hfuel) hfree
  have hC1 : C1 = Ctx.hole := hl.hole_eq
  subst hC1
  exact ⟨s1, t1, F1, e, hw1, hid, hsz, hpos, hout⟩

/-- C20 (bucket bounds).  In a well-formed index (capacity between 1 and 4) every live node
holds at most `capacity ≤ 4` entries.  The bucket loops of `remove`, `query` and `update` at a
live node have a result, that is, no slot index reaches 4; the loops of `remove` and `query`
depend only on the slots below the count of the node, and the index that the loop of `remove`
returns is below the count.  `Create`, and with enough recursion depth `Insert`, `remove`,
`query` and (when the free list holds four records for every entry outside the region of its
holder, so that the table is not reallocated) `update` on the root have a result.  The slot
that `Create` writes last and the slot that `Insert` writes decide whether the call has a
result: `Create` on a table with a free list has a result exactly when the capacity is at
most 4, and `Insert` into a bucket with room exactly when the count is below 4. -/
theorem C20_bucket_bounds (s : QuadTreeManager) (T : Tree) (F : List Nat) (i : Nat)
    (hw : WF s T F) (hi : i ∈ T.ids) :
    ((s.m_nodes i).size ≤ s.m_capacity ∧ s.m_capacity ≤ 4) ∧
    ((∀ p, scanBucket (s.m_nodes i) p 0 (s.m_nodes i).size ≠ none) ∧
      (∀ p k, scanBucket (s.m_nodes i) p 0 (s.m_nodes i).size = some (some k) →
        k < (s.m_nodes i).size) ∧
      (∀ p node1, (∀ j, j < (s.m_nodes i).size → node1.data j = (s.m_nodes i).data j) →
        scanBucket node1 p 0 (s.m_nodes i).size =
          scanBucket (s.m_nodes i) p 0 (s.m_nodes i).size) ∧
      (∀ range found, queryScan s i range 0 (s.m_nodes i).size found ≠ none) ∧
      (∀ range found s1, s1.heap = s.heap →
        (∀ j, j < (s.m_nodes i).size → (s1.m_nodes i).data j = (s.m_nodes i).data j) →
        queryScan s1 i range 0 (s.m_nodes i).size found =
          queryScan s i range 0 (s.m_nodes i).size found) ∧
      (∀ fuel, s.m_size ≤ fuel → updateScan fuel i 0 (s.m_nodes i).size s [] ≠ none)) ∧
    ((∀ b par, Create s b par ≠ none) ∧
      (∀ p fuel, T.height + 1 ≤ fuel → Insert fuel s (some T.id) p ≠ none) ∧
      (∀ p fuel, T.height ≤ fuel → remove fuel s (some T.id) p ≠ none) ∧
      (∀ range found fuel, T.height ≤ fuel → query fuel s (some T.id) range found ≠ none) ∧
      (∀ fuel, 2 * s.m_size + 2 ≤ fuel → 4 * T.out (posOf s) ≤ F.length →
        ∃ s1 T1 F1, update fuel s (some T.id) (some T.id) = some s1 ∧ WF s1 T1 F1 ∧
          s1.m_size = s.m_size)) ∧
    ((∀ s1 F1 b par, FreeChain s1 s1.m_freeID F1 → F1.Nodup → 0 < s1.m_size →
        (Create s1 b par ≠ none ↔ s1.m_capacity ≤ 4)) ∧
      (∀ s1 j p fuel, j < s1.m_size →
        (s1.m_nodes j).boundary.contains (s1.heap p).position = true →
        (s1.m_nodes j).size < s1.m_capacity →
        (Insert (fuel + 1) s1 (some j) p ≠ none ↔ (s1.m_nodes j).size < 4))) := by
  have hok := hw.nodeOK i hi
  have hsz : (s.m_nodes i).size ≤ s.m_capacity := hok.1
  have hcap := hw.cap_le
  obtain ⟨C, t, e, ht⟩ := Ctx.exists_of_mem T i hi
  have hrepT := hw.rep
  rw [e] at hrepT
  have hN := (Ctx.rep_hole s C t hrepT).nodeRep
  rw [ht] at hN
  obtain ⟨hilt, -, -, hlen, hdata, -⟩ := hN
  refine ⟨⟨hsz, hcap⟩, ⟨?_, ?_, ?_, ?_, ?_, ?_⟩, ⟨?_, ?_, ?_, ?_, ?_⟩, ?_, ?_⟩
  · intro p
    have := scanBucket_spec (s.m_nodes i) p t.pts hdata (by omega) t.pts.length 0 (by simp)
    rw [hlen, this]
    simp
  · intro p k hk
    have := scanBucket_index (s.m_nodes i) p _ 0 k hk
    omega
  · intro p node1 h
    exact scanBucket_congr (s.m_nodes i) node1 p _ 0 fun j _ hj => h j (by omega)
  · intro range found
    have := queryScan_spec s i range t.pts hdata (by omega) t.pts.length 0 found (by simp)
    rw [hlen, this]
    simp
  · intro range found s1 hh h
    exact queryScan_congr s s1 i range hh _ 0 found fun j _ hj => h j (by omega)
  · intro fuel hf
    have hw1 := hw
    rw [e] at hw1
    obtain ⟨s1, st1, t1, F1, h, -⟩ :=
      updateScan_total fuel C i (s.m_nodes i).size 0 s [] t F hw1 ht (by omega) hf
    rw [h]
    simp
  · intro b par
    obtain ⟨s1, id, F1, e1, -⟩ := Create_spec s b par F hw.free
      (List.nodup_append.1 hw.nodup).2.1 (by omega) hcap
    rw [e1]
    simp
  · intro p fuel hf
    rcases Insert_enough s T F p fuel hw hf with ⟨-, h⟩ | ⟨-, s1, F1, f, k, h, -⟩ <;>
      rw [h] <;> simp
  · intro p fuel hf
    obtain ⟨s1, F1, h, -⟩ := remove_wf s T F fuel p hw hf
    rw [h]
    simp
  · intro range found fuel hf
    rw [query_refines s range T fuel found hw.rep hw.shape hcap hf]
    simp
  · intro fuel hf hfree
    obtain ⟨s1, T1, F1, h, hw1, -, hsz1, -⟩ := update_returns s T F fuel hw hf hfree
    exact ⟨s1, T1, F1, h, hw1, hsz1⟩
  · intro s1 F1 b par hF hnd hpos
    constructor
    · intro h
      by_contra hc
      exact h (Create_overflow s1 b par (by omega))
    · intro h
      obtain ⟨s2, id, F2, e1, -⟩ := Create_spec s1 b par F1 hF hnd hpos h
      rw [e1]
      simp
  · intro s1 j p fuel hj hc hr
    exact Insert_slot fuel s1 j p hj hc hr

/-- Witness for C20: in the six-point example after two points moved, the northwest child
(node 2) holds the two moved points, both outside its region; the free list holds eleven
records, and `update` has a result. -/
theorem C20_bucket_bounds_witness :
    (WF sixMoved sixTree [5, 6, 7, 8, 9, 10, 11, 12, 13, 14, 15] ∧ 2 ∈ sixTree.ids) ∧
    (sixMoved.m_capacity, sixMoved.m_size, (sixMoved.m_nodes 2).size,
      sixTree.out (posOf sixMoved)) = (4, 16, 2, 2) ∧
    (((sixMoved.m_nodes 2).size ≤ sixMoved.m_capacity ∧ sixMoved.m_capacity ≤ 4) ∧
    ((∀ p, scanBucket (sixMoved.m_nodes 2) p 0 (sixMoved.m_nodes 2).size ≠ none) ∧
      (∀ p k, scanBucket (sixMoved.m_nodes 2) p 0 (sixMoved.m_nodes 2).size = some (some k) →
        k < (sixMoved.m_nodes 2).size) ∧
      (∀ p node1,
        (∀ j, j < (sixMoved.m_nodes 2).size → node1.data j = (sixMoved.m_nodes 2).data j) →
        scanBucket node1 p 0 (sixMoved.m_nodes 2).size =
          scanBucket (sixMoved.m_nodes 2) p 0 (sixMoved.m_nodes 2).size) ∧
      (∀ range found, queryScan sixMoved 2 range 0 (sixMoved.m_nodes 2).size found ≠ none) ∧
      (∀ range found s1, s1.heap = sixMoved.heap →
        (∀ j, j < (sixMoved.m_nodes 2).size →
          (s1.m_nodes 2).data j = (sixMoved.m_nodes 2).data j) →
        queryScan s1 2 range 0 (sixMoved.m_nodes 2).size found =
          queryScan sixMoved 2 range 0 (sixMoved.m_nodes 2).size found) ∧
      (∀ fuel, sixMoved.m_size ≤ fuel →
        updateScan fuel 2 0 (sixMoved.m_nodes 2).size sixMoved [] ≠ none)) ∧
    ((∀ b par, Create sixMoved b par ≠ none) ∧
      (∀ p fuel, sixTree.height + 1 ≤ fuel → Insert fuel sixMoved (some sixTree.id) p ≠ none) ∧
      (∀ p fuel, sixTree.height ≤ fuel → remove fuel sixMoved (some sixTree.id) p ≠ none) ∧
      (∀ range found fuel, sixTree.height ≤ fuel →
        query fuel sixMoved (some sixTree.id) range found ≠ none) ∧
      (∀ fuel, 2 * sixMoved.m_size + 2 ≤ fuel →
        4 * sixTree.out (posOf sixMoved) ≤
          [5, 6, 7, 8, 9, 10, 11, 12, 13, 14, 15].length →
        ∃ s1 T1 F1, update fuel sixMoved (some sixTree.id) (some sixTree.id) = some s1 ∧
          WF s1 T1 F1 ∧ s1.m_size = sixMoved.m_size)) ∧
    ((∀ s1 F1 b par, FreeChain s1 s1.m_freeID F1 → F1.Nodup → 0 < s1.m_size →
        (Create s1 b par ≠ none ↔ s1.m_capacity ≤ 4)) ∧
      (∀ s1 j p fuel, j < s1.m_size →
        (s1.m_nodes j).boundary.contains (s1.heap p).position = true →
        (s1.m_nodes j).size < s1.m_capacity →
        (Insert (fuel + 1) s1 (some j) p ≠ none ↔ (s1.m_nodes j).size < 4)))) :=
  ⟨⟨sixMoved_wf, by decide⟩, by decide!,
    C20_bucket_bounds sixMoved sixTree [5, 6, 7, 8, 9, 10, 11, 12, 13, 14, 15] 2
      sixMoved_wf (by decide)⟩

/-- The capacity decides the outcome of `Create` and the count that of `Insert`: on the
five-point example with the capacity set to 5, `Create` has no result, and neither has the
insertion of a fifth point into the full root bucket; with the capacity 4 both have. -/
theorem bucket_overflow_example :
    (Create { fivePoints with m_capacity := 5 } exampleRegion none).isSome = false ∧
    (Create fivePoints exampleRegion none).isSome = true ∧
    (∀ fuel, Insert (fuel + 1) { fivePoints with m_capacity := 5 } (some 0) 5 = none) ∧
    (Insert 2 fivePoints (some 0) 5).isSome = true := by
  refine ⟨by decide!, by decide!, ?_, by decide!⟩
  intro fuel
  exact Insert_overflow fuel _ 0 5 (by decide!) (by decide!) (by decide!) (by decide!)

end QuadTree
